import Mathlib

/-!
# DistributionMapping (Src/C_BaseLib/DistributionMapping.cpp)

A shallow embedding of the box-to-processor distribution code and of the
statements made about it.

Conventions of the embedding.

* `int` and `long` values are `Int`, indices and counts are `Nat`.  The one
  narrowing conversion of the file (`WeightedBox (int b, int w)` receives a
  `long`) is explicit, see `toInt32`.
* `double` / `Real` values are exact fractions (`Dbl`), with the IEEE results
  of a division by zero; rounding is not modelled.
* What the C++ standard leaves to the library (the order in which `std::sort`
  leaves equivalent elements, which of several equal-priority elements
  `std::priority_queue::top` returns) is a parameter, `StdLib`.
* What the program obtains from its collaborators (rank, number of processes,
  the gathered load, the `ParmParse` table, the topology file) is a
  parameter, `Env`.
* `BL_ASSERT` and `BoxLib::Abort` end the computation: the operations return
  an `Except`.  Diagnostics written to streams and files are left out.
* The `goto top` loop of `knapsack` takes fuel and returns `none` when the
  fuel runs out.
-/

namespace DistributionMapping

/-! ## Numbers -/

/-- Conversion of a `long` to `int` (two's complement, 32 bits). -/
def toInt32 (x : Int) : Int := (x + 2147483648) % 4294967296 - 2147483648

/-- A `double`: the fraction `num / den`.  A zero denominator stands for the
result of a division by zero: `+inf` when `num > 0`, `-inf` when `num < 0`,
NaN when `num = 0`. -/
structure Dbl where
  num : Int
  den : Nat
deriving DecidableEq

namespace Dbl

/-- Conversion of an integer to `double`. -/
def ofInt (z : Int) : Dbl := ⟨z, 1⟩

/-- NaN test. -/
def isNaN (a : Dbl) : Bool := a.den == 0 && a.num == 0

/-- Sum of two doubles (exact on finite operands). -/
def add (a b : Dbl) : Dbl := ⟨a.num * b.den + b.num * a.den, a.den * b.den⟩

/-- Difference of two doubles (exact on finite operands). -/
def sub (a b : Dbl) : Dbl := ⟨a.num * b.den - b.num * a.den, a.den * b.den⟩

/-- Quotient of a double by an integer-valued double. -/
def divInt (a : Dbl) (n : Int) : Dbl :=
  if 0 < n then ⟨a.num, a.den * n.toNat⟩
  else if n < 0 then ⟨-a.num, a.den * (-n).toNat⟩
  else ⟨a.num, 0⟩

/-- Comparison `a < b` of two doubles; false when one of them is NaN. -/
def lt (a b : Dbl) : Bool :=
  if a.isNaN || b.isNaN then false
  else if a.den == 0 && b.den == 0 then decide (a.num < 0 ∧ 0 < b.num)
  else decide (a.num * b.den < b.num * a.den)

/-- Comparison `a > b` of two doubles. -/
def gt (a b : Dbl) : Bool := lt b a

end Dbl

/-! ## The library and the environment -/

/-- A ball of `knapsack`: class `WeightedBox`. -/
structure WeightedBox where
  m_boxid : Nat
  m_weight : Int
deriving DecidableEq

namespace WeightedBox

/-- Constructor `WeightedBox (int b, int w)`: the weight passes through an
`int` before it is stored in the `long` member. -/
def new (b : Nat) (w : Int) : WeightedBox := ⟨b, toInt32 w⟩

/-- Member `weight ()`. -/
def weight (a : WeightedBox) : Int := a.m_weight

/-- Member `boxid ()`. -/
def boxid (a : WeightedBox) : Nat := a.m_boxid

/-- The comparison `operator<`: heavier balls come first. -/
def lt (a rhs : WeightedBox) : Bool := decide (a.weight > rhs.weight)

end WeightedBox

/-- A bin of `knapsack`: class `WeightedBoxList`, the list it points to and
the running weight. -/
structure WeightedBoxList where
  m_lb : List WeightedBox
  m_weight : Int
deriving DecidableEq

namespace WeightedBoxList

/-- Constructor `WeightedBoxList (lb)` on a fresh, empty list. -/
def new : WeightedBoxList := ⟨[], 0⟩

/-- Member `weight ()`. -/
def weight (l : WeightedBoxList) : Int := l.m_weight

/-- Member `erase (it)`, on the iterator at position `it`. -/
def erase (l : WeightedBoxList) (it : Nat) : WeightedBoxList :=
  match l.m_lb.get? it with
  | some bx => ⟨l.m_lb.eraseIdx it, l.m_weight - bx.weight⟩
  | none => l

/-- Member `push_back (bx)`. -/
def push_back (l : WeightedBoxList) (bx : WeightedBox) : WeightedBoxList :=
  ⟨l.m_lb ++ [bx], l.m_weight + bx.weight⟩

/-- Member `size ()`. -/
def size (l : WeightedBoxList) : Nat := l.m_lb.length

/-- The comparison `operator<`: heavier bins come first. -/
def lt (l rhs : WeightedBoxList) : Bool := decide (l.weight > rhs.weight)

end WeightedBoxList

/-- An integer vector `IntVect`; the component `j` is `iv.getD j 0`. -/
abbrev IntVect := List Int

/-- A token of the space filling curve: struct `SFCToken`. -/
structure SFCToken where
  m_box : Nat
  m_idx : IntVect
  m_vol : Dbl
deriving DecidableEq

/-- A token of the proximity curve: struct `PFCToken`. -/
structure PFCToken where
  m_box : Nat
  m_idx : IntVect
  m_vol : Dbl
deriving DecidableEq

/-- The choices the C++ standard leaves to the library. -/
structure StdLib where
  /-- `std::sort` on balls with `WeightedBox::operator<`. -/
  sortWB : List WeightedBox → List WeightedBox
  /-- `std::sort` on tokens with `SFCToken::Compare`, at a given `BL_SPACEDIM`
  and a given `MaxPower`. -/
  sortSFC : Nat → Nat → List SFCToken → List SFCToken
  /-- `std::sort` on tokens with `PFCToken::Compare`. -/
  sortPFC : List PFCToken → List PFCToken
  /-- Position, in a `std::priority_queue` of bins, of the element that
  `top ()` returns. -/
  pqTop : List WeightedBoxList → Nat

/-! ## knapsack -/

/-- The calls `wblq.top ()` and `wblq.pop ()`: the element returned and the
remaining queue; `none` on an empty queue. -/
def pqTopPop (L : StdLib) (q : List WeightedBoxList) :
    Option (WeightedBoxList × List WeightedBoxList) :=
  match q.get? (L.pqTop q) with
  | some wbl => some (wbl, q.eraseIdx (L.pqTop q))
  | none => none

/-- The loop "for each ball, starting with heaviest, assign ball to the
lightest box". -/
def greedy (L : StdLib) : List WeightedBox → List WeightedBoxList →
    Option (List WeightedBoxList)
  | [], q => some q
  | b :: lb, q =>
    match pqTopPop L q with
    | some (wbl, q') => greedy L lb (q' ++ [wbl.push_back b])
    | none => none

/-- The loop `while (!wblq.empty ())` that moves the queue into the list
`wblqg`; `n` is the size of the queue. -/
def drain (L : StdLib) : Nat → List WeightedBoxList → Option (List WeightedBoxList)
  | 0, _ => some []
  | n + 1, q =>
    match pqTopPop L q with
    | some (wbl, q') =>
      match drain L n q' with
      | some r => some (wbl :: r)
      | none => none
    | none => none

/-- The member `std::list<WeightedBoxList>::sort ()`: a stable sort with
`WeightedBoxList::operator<`. -/
def listSort (l : List WeightedBoxList) : List WeightedBoxList :=
  l.insertionSort (fun a b => b.lt a = false)

/-- Inner loop of `listMerge`. -/
def listMergeAux (x : WeightedBoxList) (xs : List WeightedBoxList)
    (mergeXs : List WeightedBoxList → List WeightedBoxList) :
    List WeightedBoxList → List WeightedBoxList
  | [] => x :: xs
  | y :: ys => if y.lt x then y :: listMergeAux x xs mergeXs ys else x :: mergeXs (y :: ys)

/-- The member `std::list<WeightedBoxList>::merge (tmp)`: an element of `tmp`
goes first only when it is less than the element of the list. -/
def listMerge : List WeightedBoxList → List WeightedBoxList → List WeightedBoxList
  | [], ys => ys
  | x :: xs, ys => listMergeAux x xs (listMerge xs) ys

/-- The test of the innermost loop: exchanging the ball of weight `wb` of the
top bin with the ball of weight `owb` of the other bin makes both bins
lighter than the top bin is. -/
def swapImproves (top_w chk_w wb owb : Int) : Bool :=
  let w_tb := top_w + owb - wb
  let w_ob := chk_w + wb - owb
  decide (w_tb < top_w) && decide (w_ob < top_w)

/-- The loop over the balls `it_owb` of one other bin: position of the first
ball to exchange. -/
def findOwb (top_w wb : Int) (wbl_chk : WeightedBoxList) : Option Nat :=
  wbl_chk.m_lb.findIdx? (fun owb => swapImproves top_w wbl_chk.weight wb owb.weight)

/-- The loop over the other bins `it_chk`, from position `c` on. -/
def findChk (top_w wb : Int) : List WeightedBoxList → Nat → Option (Nat × Nat)
  | [], _ => none
  | wbl_chk :: rest, c =>
    match findOwb top_w wb wbl_chk with
    | some o => some (c, o)
    | none => findChk top_w wb rest (c + 1)

/-- The loop over the balls `it_wb` of the top bin, from position `i` on. -/
def findWb (top_w : Int) (others : List WeightedBoxList) :
    List WeightedBox → Nat → Option (Nat × Nat × Nat)
  | [], _ => none
  | wb :: rest, i =>
    match findChk top_w wb.weight others 0 with
    | some (c, o) => some (i, c, o)
    | none => findWb top_w others rest (i + 1)

/-- The body of the accepted exchange: ball `i` of the top bin and ball `o`
of the bin at position `c` of `others` change places, the two bins are sorted
and merged back. -/
def applySwap (wbl_top : WeightedBoxList) (others : List WeightedBoxList)
    (i c o : Nat) : Option (List WeightedBoxList) :=
  match wbl_top.m_lb.get? i, others.get? c with
  | some wb, some wbl_chk =>
    match wbl_chk.m_lb.get? o with
    | some owb =>
      let wblqg := others.eraseIdx c
      let wbl_top := (wbl_top.erase i).push_back owb
      let wbl_chk := (wbl_chk.erase o).push_back wb
      let tmp := listSort [wbl_top, wbl_chk]
      some (listMerge wblqg tmp)
    | none => none
  | _, _ => none

/-- The quotient `sum_weight / (nprocs * max_weight)`. -/
def efficiencyOf (sum_weight : Int) (nprocs : Nat) (max_weight : Int) : Dbl :=
  (Dbl.ofInt sum_weight).divInt (nprocs * max_weight)

/-- The part of `knapsack` between the labels `top` and `bottom`. -/
def refine (max_efficiency : Dbl) (do_full_knapsack : Bool) (nprocs : Nat)
    (sum_weight : Int) :
    Nat → List WeightedBoxList → Dbl → Option (List WeightedBoxList × Dbl)
  | 0, _, _ => none
  | fuel + 1, wblqg, efficiency =>
    match wblqg with
    | [] => none
    | wbl_top :: others =>
      if efficiency.gt max_efficiency || !do_full_knapsack then some (wblqg, efficiency)
      else
        match findWb wbl_top.weight others wbl_top.m_lb 0 with
        | none => some (wblqg, efficiency)
        | some (i, c, o) =>
          match applySwap wbl_top others i c o with
          | some wblqg' =>
            let max_weight := (wblqg'.headD WeightedBoxList.new).weight
            refine max_efficiency do_full_knapsack nprocs sum_weight fuel wblqg'
              (efficiencyOf sum_weight nprocs max_weight)
          | none => none

/-- The static function `knapsack`: the bins `result` and the `efficiency`. -/
def knapsack (L : StdLib) (max_efficiency : Dbl) (fuel : Nat) (wgts : List Int)
    (nprocs : Nat) (do_full_knapsack : Bool) : Option (List (List Nat) × Dbl) :=
  let lb := L.sortWB (wgts.enum.map (fun p => WeightedBox.new p.1 p.2))
  match greedy L lb (List.replicate nprocs WeightedBoxList.new) with
  | none => none
  | some wblq =>
    match drain L wblq.length wblq with
    | none => none
    | some wblqg0 =>
      let wblqg := listSort wblqg0
      let max_weight := wblqg.foldl (fun m wbl => if wbl.weight > m then wbl.weight else m) 0
      let sum_weight := wblqg.foldl (fun s wbl => s + wbl.weight) 0
      match refine max_efficiency do_full_knapsack nprocs sum_weight fuel wblqg
          (efficiencyOf sum_weight nprocs max_weight) with
      | none => none
      | some (wblqg', efficiency) =>
        some ((wblqg'.take nprocs).map (fun wbl => wbl.m_lb.map WeightedBox.boxid), efficiency)

/-! ## The process environment and the program state -/

/-- A box of a `BoxArray`, as far as this file looks at it: the members
`smallEnd ()`, `numPts ()` and `volume ()`. -/
structure Box where
  smallEnd : IntVect
  numPts : Int
  volume : Int
deriving DecidableEq

/-- A `BoxArray`. -/
abbrev BoxArray := List Box

/-- The entries of the `ParmParse` table "DistributionMapping" that
`Initialize` queries; `none` when the entry is absent. -/
structure ParmParse where
  v : Option Bool
  verbose : Option Bool
  efficiency : Option Dbl
  sfc_threshold : Option Int
  strategy : Option String

/-- The contents of the topology file read by `InitProximityMap`: the points
of its box in the order of `Box::next`, and for every component the value
`int (tFab (iv, nc))` at each of these points. -/
structure TopoFab where
  points : List IntVect
  comps : List (List Int)

/-- What the program obtains from its collaborators. -/
structure Env where
  /-- `ParallelDescriptor::MyProc ()`. -/
  MyProc : Nat
  /-- `ParallelDescriptor::NProcs ()`. -/
  NProcs : Nat
  /-- `ParallelDescriptor::IOProcessor ()`. -/
  IOProcessor : Bool
  /-- Whether the build defines `BL_USE_MPI`. -/
  BL_USE_MPI : Bool
  /-- The build constant `BL_SPACEDIM`. -/
  BL_SPACEDIM : Nat
  /-- What `MPI_Allgather` delivers for `total_bytes_allocated_in_fabs`. -/
  bytes : List Int
  /-- What `MPI_Allgather` delivers for `total_cells_allocated_in_fabs`. -/
  cells : List Int
  /-- What `MPI_Allgather` delivers for `GetProcNumber ()`. -/
  procNumbers : List Int
  /-- The `ParmParse` table. -/
  pp : ParmParse
  /-- The topology file; `none` when it cannot be opened. -/
  topolcoords : Option TopoFab
  /-- What `Bcast` delivers for `proximityMap` on a process that is not the
  I/O processor. -/
  bcastProximityMap : List Int
  /-- What `Bcast` delivers for `proximityOrder` on a process that is not the
  I/O processor. -/
  bcastProximityOrder : List Int

/-- The member function that `m_BuildMap` points to. -/
inductive PVMF where
  | RoundRobinProcessorMap
  | KnapSackProcessorMap
  | SFCProcessorMap
  | PFCProcessorMap
deriving DecidableEq

/-- Modelled from the spec: the enumerators of `DistributionMapping::Strategy`
(declared in the header, which is not among the sources), in the order in
which the spec lists them. -/
def ROUNDROBIN : Int := 0

/-- Modelled from the spec: enumerator of `Strategy`, see `ROUNDROBIN`. -/
def KNAPSACK : Int := 1

/-- Modelled from the spec: enumerator of `Strategy`, see `ROUNDROBIN`. -/
def SFC : Int := 2

/-- Modelled from the spec: enumerator of `Strategy`, see `ROUNDROBIN`. -/
def PFC : Int := 3

/-- The static and file-level variables of the program together with the
`Ref` objects it has allocated.  A `DistributionMapping` object is its member
`m_ref`, the address of a `Ref` in `heap`. -/
structure State where
  initialized : Bool
  verbose : Bool
  sfc_threshold : Int
  max_efficiency : Dbl
  m_Strategy : Int
  m_BuildMap : Option PVMF
  /-- The map `m_Cache`: pairs of a key and the address of a `Ref`, in the
  order of the keys. -/
  m_Cache : List (Nat × Nat)
  /-- The member `m_pmap` of every `Ref` allocated so far. -/
  heap : List (List Int)
  proximityMap : List Int
  proximityOrder : List Int
  totalBoxPoints : List Int
  rankPNumMap : List (Int × Int)
  pNumRankMM : List (Int × Int)
  pNumTopIVMap : List (Int × IntVect)
  topIVpNumMM : List (IntVect × Int)
  ranksSFC : List Int
  /-- The static member `SFCToken::MaxPower`. -/
  MaxPower : Nat
  /-- The messages passed to `BoxLib::Error` and `BoxLib::Warning`, and the
  error lines written to `std::cerr`. -/
  reported : List String
deriving DecidableEq

/-- The state at program start. -/
def State.init : State where
  initialized := false
  verbose := false
  sfc_threshold := 0
  max_efficiency := ⟨0, 1⟩
  m_Strategy := SFC
  m_BuildMap := none
  m_Cache := []
  heap := []
  proximityMap := []
  proximityOrder := []
  totalBoxPoints := []
  rankPNumMap := []
  pNumRankMM := []
  pNumTopIVMap := []
  topIVpNumMM := []
  ranksSFC := []
  MaxPower := 64
  reported := []

/-- The member `Array<T>::resize (n, 0)` and `std::vector<T>::resize (n)`. -/
def resize (a : List Int) (n : Nat) : List Int :=
  a.take n ++ List.replicate (n - a.length) 0

/-- The member `std::map::find`. -/
def mapFind {κ β : Type} [DecidableEq κ] (m : List (κ × β)) (k : κ) : Option β :=
  (m.find? (fun p => p.1 = k)).map Prod.snd

/-- The member `std::map<int, T>::insert`: nothing happens when the key is
present, otherwise the pair is put in key order. -/
def mapInsert {β : Type} (m : List (Nat × β)) (k : Nat) (x : β) : List (Nat × β) :=
  if m.any (fun p => p.1 = k) then m
  else m.filter (fun p => p.1 < k) ++ (k, x) :: m.filter (fun p => k < p.1)

/-- The member `insert` of the maps and multimaps of the topology
directory, kept in insertion order; `unique` tells a `std::map`, which keeps
the first pair of a key, from a `std::multimap`. -/
def dirInsert {κ β : Type} [DecidableEq κ] (unique : Bool) (m : List (κ × β)) (k : κ)
    (x : β) : List (κ × β) :=
  if unique && m.any (fun p => p.1 = k) then m else m ++ [(k, x)]

/-- The member `std::multimap::equal_range`, as the values of the range. -/
def equalRange {κ β : Type} [DecidableEq κ] (m : List (κ × β)) (k : κ) : List β :=
  (m.filter (fun p => p.1 = k)).map Prod.snd

/-! ## Sorting pairs, the least used CPUs, round robin -/

/-- The type `LIpair`, a `std::pair<long,int>`. -/
abbrev LIpair := Int × Nat

/-- Modelled from the spec: the comparison `LIpairComp` (declared in the
header, which is not among the sources) compares the weights, the first
components, only. -/
def LIpairComp (lhs rhs : LIpair) : Bool := decide (lhs.1 < rhs.1)

/-- The library function `std::stable_sort` with `LIpairComp`. -/
def stable_sort (vec : List LIpair) : List LIpair :=
  vec.insertionSort (fun a b => LIpairComp b a = false)

/-- The member `DistributionMapping::Sort`. -/
def SortLIpair (vec : List LIpair) (reverse : Bool) : List LIpair :=
  if vec.length > 1 then
    if reverse then (stable_sort vec).reverse else stable_sort vec
  else vec

/-- The member `LeastUsedCPUs`: the CPUs from the least to the most loaded
with MPI, in rank order without.  With MPI the code gathers one `long` from
each of the `NProcs` processes into the array `bytes (nprocs)`; the
definition reads the loads of the ranks below `nprocs`, an absent one as 0,
which is the content of that array when `NProcs ≤ nprocs`.  For
`nprocs < NProcs` the gather of the code writes past the end of the array:
what is stated of a call that returns is stated under `GatherFits`. -/
def LeastUsedCPUs (E : Env) (nprocs : Nat) : List Nat :=
  if E.BL_USE_MPI then
    let bytes := (List.range nprocs).map (fun i => E.bytes.getD i 0)
    let LIpairV := (List.range nprocs).map (fun i => ((bytes.getD i 0, i) : LIpair))
    let LIpairV := SortLIpair LIpairV false
    (List.range nprocs).map (fun i => (LIpairV.getD i (0, 0)).2)
  else List.range nprocs

/-- The member `RoundRobinDoIt`, on the array `m_ref->m_pmap`. -/
def RoundRobinDoIt (E : Env) (nboxes nprocs : Nat) (LIpairV : Option (List LIpair))
    (m_pmap : List Int) : Except String (List Int) :=
  let ord := LeastUsedCPUs E nprocs
  match LIpairV with
  | some v =>
    if v.length ≠ nboxes then .error "BL_ASSERT(LIpairV->size() == nboxes)"
    else
      let m_pmap := (List.range nboxes).foldl
        (fun pm i => pm.set (v.getD i (0, 0)).2 (ord.getD (i % nprocs) 0)) m_pmap
      .ok (m_pmap.set nboxes E.MyProc)
  | none =>
    let m_pmap := (List.range nboxes).foldl
      (fun pm i => pm.set i (ord.getD (i % nprocs) 0)) m_pmap
    .ok (m_pmap.set nboxes E.MyProc)

/-- The member `RoundRobinProcessorMap (int nboxes, int nprocs)`. -/
def RoundRobinProcessorMapN (E : Env) (nboxes nprocs : Nat) (m_pmap : List Int) :
    Except String (List Int) :=
  if nboxes = 0 then .error "BL_ASSERT(nboxes > 0)"
  else
    let m_pmap := if m_pmap.length ≠ nboxes + 1 then resize m_pmap (nboxes + 1) else m_pmap
    RoundRobinDoIt E nboxes nprocs none m_pmap

/-- The member `RoundRobinProcessorMap (const BoxArray&, int)`. -/
def RoundRobinProcessorMap (E : Env) (boxes : BoxArray) (nprocs : Nat)
    (m_pmap : List Int) : Except String (List Int) :=
  if boxes.length = 0 then .error "BL_ASSERT(boxes.size() > 0)"
  else if m_pmap.length ≠ boxes.length + 1 then
    .error "BL_ASSERT(m_ref->m_pmap.size() == boxes.size() + 1)"
  else
    let LIpairV := boxes.enum.map (fun p => ((p.2.numPts, p.1) : LIpair))
    let LIpairV := SortLIpair LIpairV true
    RoundRobinDoIt E boxes.length nprocs (some LIpairV) m_pmap

/-! ## The knapsack strategy -/

/-- The loop of `KnapSackDoIt` and of `SFCProcessorMapDoIt` that gives CPU
`ord[i]` to every box of the bin `vec[LIpairV[i].second]`, for `i` below `n`. -/
def assignBins (vec : List (List Nat)) (LIpairV : List LIpair) (ord : List Nat) (n : Nat)
    (m_pmap : List Int) : List Int :=
  (List.range n).foldl
    (fun pm i =>
      let idx := (LIpairV.getD i (0, 0)).2
      let cpu := ord.getD i 0
      (vec.getD idx []).foldl (fun pm lit => pm.set lit cpu) pm)
    m_pmap

/-- The array `wgts_per_cpu`: for every bin the sum of the weights of its
boxes. -/
def wgtsPerCpu (vec : List (List Nat)) (wgts : List Int) : List Int :=
  vec.map (fun vi => vi.foldl (fun s lit => s + wgts.getD lit 0) 0)

/-- The member `KnapSackDoIt`: the new `m_pmap` and the efficiency. -/
def KnapSackDoIt (L : StdLib) (E : Env) (s : State) (fuel : Nat) (wgts : List Int)
    (nprocs : Nat) (do_full_knapsack : Bool) (m_pmap : List Int) :
    Except String (List Int × Dbl) :=
  match knapsack L s.max_efficiency fuel wgts nprocs do_full_knapsack with
  | none => .error "knapsack"
  | some (vec, efficiency) =>
    if vec.length ≠ nprocs then .error "BL_ASSERT(vec.size() == nprocs)"
    else
      let wgts_per_cpu := wgtsPerCpu vec wgts
      let LIpairV := (List.range nprocs).map (fun i => ((wgts_per_cpu.getD i 0, i) : LIpair))
      let LIpairV := SortLIpair LIpairV true
      let ord := LeastUsedCPUs E nprocs
      let m_pmap := assignBins vec LIpairV ord vec.length m_pmap
      .ok (m_pmap.set wgts.length E.MyProc, efficiency)

/-- The member `KnapSackProcessorMap (wgts, nprocs, efficiency,
do_full_knapsack)`: the new `m_pmap` and the value stored in `*efficiency`. -/
def KnapSackProcessorMapW (L : StdLib) (E : Env) (s : State) (fuel : Nat) (wgts : List Int)
    (nprocs : Nat) (do_full_knapsack : Bool) (m_pmap : List Int) :
    Except String (List Int × Dbl) :=
  if wgts.length = 0 then .error "BL_ASSERT(wgts.size() > 0)"
  else
    let m_pmap := if m_pmap.length ≠ wgts.length + 1 then resize m_pmap (wgts.length + 1)
      else m_pmap
    if wgts.length ≤ nprocs ∨ nprocs < 2 then
      match RoundRobinProcessorMapN E wgts.length nprocs m_pmap with
      | .ok pm => .ok (pm, Dbl.ofInt 1)
      | .error e => .error e
    else KnapSackDoIt L E s fuel wgts nprocs do_full_knapsack m_pmap

/-- The member `KnapSackProcessorMap (const BoxArray&, int)`.  The block that the I/O
processor runs at the end, which adds up cells for every worker and writes them to a file,
is left out.  It reads `boxes[m_pmap[i]]`, a box at the index of a worker, and this is
inside `boxes` when every worker of the map is below the number of boxes: what is stated of
a call that returns is stated under `IOFits` or `FallbackFits`. -/
def KnapSackProcessorMap (L : StdLib) (E : Env) (s : State) (fuel : Nat) (boxes : BoxArray)
    (nprocs : Nat) (m_pmap : List Int) : Except String (List Int) :=
  if boxes.length = 0 then .error "BL_ASSERT(boxes.size() > 0)"
  else if m_pmap.length ≠ boxes.length + 1 then
    .error "BL_ASSERT(m_ref->m_pmap.size() == boxes.size()+1)"
  else if boxes.length ≤ nprocs ∨ nprocs < 2 then RoundRobinProcessorMap E boxes nprocs m_pmap
  else
    let wgts := boxes.map Box.numPts
    match KnapSackDoIt L E s fuel wgts nprocs true m_pmap with
    | .ok (pm, _) => .ok pm
    | .error e => .error e

/-! ## The space filling curve strategy -/

/-- The inner loop of `SFCToken::Compare`, over the axes `j` below `n` from
the highest down, on the plane of `N = 1 << i`: `some` verdict when a
quotient differs. -/
def compareAxes (N : Int) (lhs rhs : IntVect) : Nat → Option Bool
  | 0 => none
  | j + 1 =>
    let il := (lhs.getD j 0).tdiv N
    let ir := (rhs.getD j 0).tdiv N
    if il < ir then some true
    else if il > ir then some false
    else compareAxes N lhs rhs j

/-- The outer loop of `SFCToken::Compare`, over the planes `i` below `n` from
the highest down. -/
def comparePlanes (dim : Nat) (lhs rhs : IntVect) : Nat → Bool
  | 0 => false
  | i + 1 =>
    match compareAxes (toInt32 (2 ^ i)) lhs rhs dim with
    | some b => b
    | none => comparePlanes dim lhs rhs i

/-- The comparison `SFCToken::Compare::operator ()`, for `BL_SPACEDIM = dim`
and the value `MaxPower` of `SFCToken::MaxPower`. -/
def SFCToken.Compare (dim MaxPower : Nat) (lhs rhs : SFCToken) : Bool :=
  comparePlanes dim lhs.m_idx rhs.m_idx MaxPower

/-- The statement `D_TERM (maxijk = std::max (maxijk, token.m_idx[0]);, ...)`. -/
def maxijkStep (dim : Nat) (maxijk : Int) (idx : IntVect) : Int :=
  (List.range dim).foldl (fun m j => max m (idx.getD j 0)) maxijk

/-- The loop `for ( ; (1 << m) <= maxijk; ++m)`, for at most `n` steps.
`SFCProcessorMapDoIt` gives it 32 steps.  For `maxijk < 2^30` the loop of the
code ends within them, at an `m ≤ 30`; from `2^30` on the shift of the code
overflows and its loop does not end, while the definition returns the number
of its steps: what is stated of a call that returns is stated under
`AnchorsFit`. -/
def maxPowerLoop (maxijk : Int) : Nat → Nat → Nat
  | 0, m => m
  | n + 1, m => if toInt32 (2 ^ m) ≤ maxijk then maxPowerLoop maxijk n (m + 1) else m

/-- The inner loop of `Distribute` for one CPU: it takes tokens while some are
left and the CPU is the last one or its volume is below the target.  The
result is the count `cnt`, the volume `vol` and the run `v[i]`. -/
def fillRun (last : Bool) (target : Dbl) :
    List (Nat × Dbl) → Nat → Dbl → List Nat → Nat × Dbl × List Nat
  | [], cnt, vol, vi => (cnt, vol, vi)
  | t :: rest, cnt, vol, vi =>
    if last || vol.lt target then fillRun last target rest (cnt + 1) (vol.add t.2) (vi ++ [t.1])
    else (cnt, vol, vi)

/-- The outer loop of `Distribute`, from CPU `i` on for `n` CPUs, with the
position `K` in the tokens and the volume `totalvol`; `target i` is the
volume wanted for CPU `i`.  A token is the pair of its box and its volume. -/
def distributeLoop (tokens : List (Nat × Dbl)) (nprocs : Nat) (target : Nat → Dbl) :
    Nat → Nat → Nat → Dbl → List (List Nat) → List (List Nat)
  | 0, _, _, _, v => v
  | n + 1, i, K, totalvol, v =>
    let r := fillRun (i = nprocs - 1) (target i) (tokens.drop K) 0 (Dbl.ofInt 0) (v.getD i [])
    let cnt := r.1
    let vol := r.2.1
    let v := v.set i r.2.2
    let K := K + cnt
    let totalvol := totalvol.add vol
    if (totalvol.divInt (i + 1)).gt (target i) && decide (cnt > 1) && decide (K < tokens.length)
    then
      distributeLoop tokens nprocs target n (i + 1) (K - 1)
        (totalvol.sub ((tokens.getD (K - 1) (0, Dbl.ofInt 0)).2)) (v.set i (v.getD i []).dropLast)
    else distributeLoop tokens nprocs target n (i + 1) K totalvol v

/-- The static function `Distribute (const std::vector<SFCToken>&, ...)`. -/
def Distribute (tokens : List SFCToken) (nprocs : Nat) (volpercpu : Dbl)
    (v : List (List Nat)) : Except String (List (List Nat)) :=
  if v.length ≠ nprocs then .error "BL_ASSERT(v.size() == nprocs)"
  else
    let r := distributeLoop (tokens.map (fun t => (t.m_box, t.m_vol))) nprocs
      (fun _ => volpercpu) nprocs 0 0 (Dbl.ofInt 0) v
    if (r.map List.length).sum ≠ tokens.length then .error "BL_ASSERT(cnt == tokens.size())"
    else .ok r

/-- The member `SFCProcessorMapDoIt`: the new `m_pmap` and the new value of
`SFCToken::MaxPower`. -/
def SFCProcessorMapDoIt (L : StdLib) (E : Env) (boxes : BoxArray) (wgts : List Int)
    (nprocs : Nat) (m_pmap : List Int) : Except String (List Int × Nat) :=
  let tokens : List SFCToken :=
    boxes.enum.map (fun p => ⟨p.1, p.2.smallEnd, Dbl.ofInt (wgts.getD p.1 0)⟩)
  let maxijk := tokens.foldl (fun m token => maxijkStep E.BL_SPACEDIM m token.m_idx) 0
  let m := maxPowerLoop maxijk 32 0
  let tokens := L.sortSFC E.BL_SPACEDIM m tokens
  let volpercpu := (tokens.foldl (fun a t => a.add t.m_vol) (Dbl.ofInt 0)).divInt nprocs
  match Distribute tokens nprocs volpercpu (List.replicate nprocs []) with
  | .error e => .error e
  | .ok vec =>
    let wgts_per_cpu := wgtsPerCpu vec wgts
    let LIpairV := (List.range nprocs).map (fun i => ((wgts_per_cpu.getD i 0, i) : LIpair))
    let LIpairV := SortLIpair LIpairV true
    let ord := LeastUsedCPUs E nprocs
    let m_pmap := assignBins vec LIpairV ord nprocs m_pmap
    .ok (m_pmap.set boxes.length E.MyProc, m)

/-- The member `SFCProcessorMap (const BoxArray&, int)`. -/
def SFCProcessorMap (L : StdLib) (E : Env) (s : State) (fuel : Nat) (boxes : BoxArray)
    (nprocs : Nat) (m_pmap : List Int) : Except String (List Int × Nat) :=
  if boxes.length = 0 then .error "BL_ASSERT(boxes.size() > 0)"
  else
    let m_pmap := if m_pmap.length ≠ boxes.length + 1 then resize m_pmap (boxes.length + 1)
      else m_pmap
    if (boxes.length : Int) < s.sfc_threshold * nprocs then
      match KnapSackProcessorMap L E s fuel boxes nprocs m_pmap with
      | .ok pm => .ok (pm, s.MaxPower)
      | .error e => .error e
    else SFCProcessorMapDoIt L E boxes (boxes.map Box.volume) nprocs m_pmap

/-- The member `SFCProcessorMap (const BoxArray&, const std::vector<long>&,
int)`.  The call `KnapSackProcessorMap (wgts, nprocs)` takes the default
arguments of the header: no efficiency is returned, the knapsack is full. -/
def SFCProcessorMapW (L : StdLib) (E : Env) (s : State) (fuel : Nat) (boxes : BoxArray)
    (wgts : List Int) (nprocs : Nat) (m_pmap : List Int) : Except String (List Int × Nat) :=
  if boxes.length = 0 then .error "BL_ASSERT(boxes.size() > 0)"
  else if boxes.length ≠ wgts.length then .error "BL_ASSERT(boxes.size() == wgts.size())"
  else
    let m_pmap := if m_pmap.length ≠ wgts.length + 1 then resize m_pmap (wgts.length + 1)
      else m_pmap
    if (boxes.length : Int) < s.sfc_threshold * nprocs then
      match KnapSackProcessorMapW L E s fuel wgts nprocs true m_pmap with
      | .ok (pm, _) => .ok (pm, s.MaxPower)
      | .error e => .error e
    else SFCProcessorMapDoIt L E boxes wgts nprocs m_pmap

/-! ## The proximity strategy -/

/-- The members `CurrentBytesUsed` and `CurrentCellsUsed`, on what
`MPI_Allgather` delivers: zeros without MPI. -/
def CurrentUsed (E : Env) (gathered : List Int) (nprocs : Nat) : List Int :=
  (List.range nprocs).map (fun i => if E.BL_USE_MPI then gathered.getD i 0 else 0)

/-- The member `CurrentBytesUsed`. -/
def CurrentBytesUsed (E : Env) (nprocs : Nat) : List Int := CurrentUsed E E.bytes nprocs

/-- The member `CurrentCellsUsed`. -/
def CurrentCellsUsed (E : Env) (nprocs : Nat) : List Int := CurrentUsed E E.cells nprocs

/-- Modelled from the spec: the accessor `ProximityMap (i)` (declared in the
header, which is not among the sources) returns the entry `i` of the array
`proximityMap`. -/
def ProximityMap (s : State) (i : Nat) : Int := s.proximityMap.getD i 0

/-- Conversion of an integer-valued `Real` to `long`. -/
def Dbl.toLong (a : Dbl) : Int := a.num.tdiv a.den

/-- The loop of `PFCProcessorMapDoIt` that adds the points of every box to the
entry of `newVolPerCPU` of the CPU that the knapsack gave it. -/
def newVolPerCPUOf (boxes : BoxArray) (nprocs : Nat) (m_pmap : List Int) : List Int :=
  (List.range (m_pmap.length - 1)).foldl
    (fun nv i =>
      let whichProc := (m_pmap.getD i 0).toNat
      nv.set whichProc (nv.getD whichProc 0 + (boxes.getD i ⟨[], 0, 0⟩).numPts))
    (List.replicate nprocs 0)

/-- The loop of `PFCProcessorMapDoIt` that gives CPU `ProximityMap (i)` to
every box of the run `vec[i]`. -/
def assignRuns (s : State) (vec : List (List Nat)) (nprocs : Nat) (m_pmap : List Int) :
    List Int :=
  (List.range nprocs).foldl
    (fun pm i => (vec.getD i []).foldl (fun pm b => pm.set b (ProximityMap s i)) pm)
    m_pmap

/-- The member `PFCProcessorMapDoIt`.  Left out are the gathers `CurrentBytesUsed` and
`CurrentCellsUsed` and what is computed from them, which reaches the diagnostics only, the
quotient `tokens.size () / nprocs` of `Navg`, and the blocks of the I/O processor, the last
of which reads `boxes[m_pmap[i]]` as the one of `KnapSackProcessorMap` does.  The total
`totalNewCells`, which the code adds up through `Real`, is added up exactly.  So the
definition is the code for `nprocs ≥ 1` and under `GatherFits`, `IOFits`, `SumsExact` and
`ProximityFits`, and what is stated of a call that returns is stated under these. -/
def PFCProcessorMapDoIt (L : StdLib) (E : Env) (s : State) (fuel : Nat) (boxes : BoxArray)
    (wgts : List Int) (nprocs : Nat) (m_pmap : List Int) : Except String (List Int) :=
  let tokens : List PFCToken :=
    boxes.enum.map (fun p => ⟨p.1, p.2.smallEnd, Dbl.ofInt (wgts.getD p.1 0)⟩)
  let tokens := L.sortPFC tokens
  let totalNewCells := tokens.foldl (fun a t => ((Dbl.ofInt a).add t.m_vol).toLong) 0
  let totalNewCellsB := (List.range tokens.length).foldl
    (fun a i => a + (boxes.getD i ⟨[], 0, 0⟩).numPts) 0
  if totalNewCells ≠ totalNewCellsB then .error "tnc"
  else
    match KnapSackProcessorMap L E s fuel boxes nprocs m_pmap with
    | .error e => .error e
    | .ok m_pmap =>
      let newVolPerCPU := newVolPerCPUOf boxes nprocs m_pmap
      let vec := distributeLoop (tokens.map (fun t => (t.m_box, t.m_vol))) nprocs
        (fun i => Dbl.ofInt (newVolPerCPU.getD i 0)) nprocs 0 0 (Dbl.ofInt 0)
        (List.replicate nprocs [])
      let m_pmap := assignRuns s vec nprocs m_pmap
      .ok (m_pmap.set boxes.length E.MyProc)

/-- The member `PFCProcessorMap (const BoxArray&, int)`. -/
def PFCProcessorMap (L : StdLib) (E : Env) (s : State) (fuel : Nat) (boxes : BoxArray)
    (nprocs : Nat) (m_pmap : List Int) : Except String (List Int) :=
  if boxes.length = 0 then .error "BL_ASSERT(boxes.size() > 0)"
  else
    let m_pmap := if m_pmap.length ≠ boxes.length + 1 then resize m_pmap (boxes.length + 1)
      else m_pmap
    PFCProcessorMapDoIt L E s fuel boxes (boxes.map Box.numPts) nprocs m_pmap

/-- The member `PFCProcessorMap (const BoxArray&, const std::vector<long>&,
int)`. -/
def PFCProcessorMapW (L : StdLib) (E : Env) (s : State) (fuel : Nat) (boxes : BoxArray)
    (wgts : List Int) (nprocs : Nat) (m_pmap : List Int) : Except String (List Int) :=
  if boxes.length = 0 then .error "BL_ASSERT(boxes.size() > 0)"
  else if boxes.length ≠ wgts.length then .error "BL_ASSERT(boxes.size() == wgts.size())"
  else
    let m_pmap := if m_pmap.length ≠ wgts.length + 1 then resize m_pmap (wgts.length + 1)
      else m_pmap
    PFCProcessorMapDoIt L E s fuel boxes wgts nprocs m_pmap

/-! ## The topology directory -/

/-- The member `ProcNumberFromRank`: the process number, and the state with
the error line when the rank is not found. -/
def ProcNumberFromRank (E : Env) (s : State) (rank : Int) : Int × State :=
  match mapFind s.rankPNumMap rank with
  | none =>
    (-1, if E.IOProcessor then
      { s with reported := s.reported ++ ["**** Error in ProcNumberFromRank:  rank not found"] }
      else s)
  | some procnum => (procnum, s)

/-- The member `RanksFromProcNumber`. -/
def RanksFromProcNumber (s : State) (procnum : Int) : List Int :=
  equalRange s.pNumRankMM procnum

/-- The member `TopIVFromProcNumber`; `iv0` is the value of the `IntVect`
that the default constructor leaves in `iv`. -/
def TopIVFromProcNumber (E : Env) (s : State) (iv0 : IntVect) (procnum : Int) :
    IntVect × State :=
  match mapFind s.pNumTopIVMap procnum with
  | none =>
    (iv0, if E.IOProcessor then
      { s with reported :=
          s.reported ++ ["**** Error in TopIVFromProcNumber:  procnum not found"] }
      else s)
  | some iv => (iv, s)

/-- The member `ProcNumbersFromTopIV`. -/
def ProcNumbersFromTopIV (s : State) (iv : IntVect) : List Int :=
  equalRange s.topIVpNumMM iv

/-- The member `TopIVFromRank`. -/
def TopIVFromRank (E : Env) (s : State) (iv0 : IntVect) (rank : Int) : IntVect × State :=
  let r := ProcNumberFromRank E s rank
  TopIVFromProcNumber E r.2 iv0 r.1

/-- The member `RanksFromTopIV`. -/
def RanksFromTopIV (s : State) (iv : IntVect) : List Int :=
  (ProcNumbersFromTopIV s iv).foldl (fun ranks pnum => ranks ++ RanksFromProcNumber s pnum) []

/-- The loops of `InitProximityMap` over the components and the points of
the topology file, which fill `pNumTopIVMap` and `topIVpNumMM`. -/
def registerNodes (tFab : TopoFab) (s : State) : State :=
  tFab.comps.foldl
    (fun s comp =>
      (tFab.points.enum).foldl
        (fun s p =>
          let pnum := comp.getD p.1 0
          if pnum ≥ 0 then
            { s with pNumTopIVMap := dirInsert true s.pNumTopIVMap pnum p.2
                     topIVpNumMM := dirInsert false s.topIVpNumMM p.2 pnum }
          else s)
        s)
    s

/-- The loop of `InitProximityMap` that fills `proximityOrderMap` from
`proximityMap` and the loop that writes it into `proximityOrder`. -/
def proximityOrderOf (proximityMap proximityOrder : List Int) : List Int :=
  let proximityOrderMap := (List.range proximityMap.length).foldl
    (fun m i => dirInsert true m (proximityMap.getD i 0) (i : Int)) []
  proximityOrderMap.foldl
    (fun po kv => if 0 ≤ kv.1 then po.set kv.1.toNat kv.2 else po) proximityOrder

/-- The part of `InitProximityMap` that the I/O processor runs on the
topology file it has opened; the block that writes `nodes.3d.fab` is left
out. -/
def readTopology (L : StdLib) (E : Env) (s : State) (tFab : TopoFab) : State :=
  let s := registerNodes tFab s
  let tFabTokens : List SFCToken := tFab.points.enum.map (fun p => ⟨p.1, p.2, Dbl.ofInt 1⟩)
  let maxijk := tFabTokens.foldl (fun m token => maxijkStep E.BL_SPACEDIM m token.m_idx) 0
  let m := maxPowerLoop maxijk 32 0
  let tFabTokens := L.sortSFC E.BL_SPACEDIM m tFabTokens
  let ranksSFC := tFabTokens.foldl (fun r token => r ++ RanksFromTopIV s token.m_idx) s.ranksSFC
  let reported := if ranksSFC.length ≠ E.NProcs then
      s.reported ++ ["**** Error:  ranksSFC.size() != nProcs"]
    else s.reported
  let proximityMap := (List.range ranksSFC.length).foldl
    (fun pmx i => pmx.set i (ranksSFC.getD i 0)) s.proximityMap
  { s with MaxPower := m, ranksSFC := ranksSFC, proximityMap := proximityMap,
           proximityOrder := proximityOrderOf proximityMap s.proximityOrder,
           reported := reported }

/-- The loop of `InitProximityMap` that fills `pNumRankMM` and `rankPNumMap`
from the gathered process numbers. -/
def registerRanks (procNumbers : List Int) (s : State) : State :=
  (List.range procNumbers.length).foldl
    (fun (s : State) (i : Nat) =>
      { s with pNumRankMM := dirInsert false s.pNumRankMM (procNumbers.getD i 0) (i : Int)
               rankPNumMap := dirInsert true s.rankPNumMap (i : Int) (procNumbers.getD i 0) })
    s

/-- The array `procNumbers` of `InitProximityMap` after `MPI_Allgather`; it
holds `-1` without MPI. -/
def gatherProcNumbers (E : Env) : List Int :=
  (List.range E.NProcs).map (fun i => if E.BL_USE_MPI then E.procNumbers.getD i (-1) else -1)

/-- The block of `InitProximityMap` that the I/O processor runs. -/
def readTopologyFile (L : StdLib) (E : Env) (s : State) : State :=
  match E.topolcoords with
  | none =>
    { s with reported := s.reported ++
        ["**** Error in DistributionMapping::InitProximityMap():  cannot open topolcoords.3d.fab"] }
  | some tFab => readTopology L E s tFab

/-- The member `InitProximityMap`.  The two `Bcast` leave the arrays of the
I/O processor as they are and overwrite those of the other processes. -/
def InitProximityMap (L : StdLib) (E : Env) (s : State) : State :=
  let s := { s with proximityMap := resize s.proximityMap E.NProcs
                    proximityOrder := resize s.proximityOrder E.NProcs }
  let s := registerRanks (gatherProcNumbers E) s
  if E.IOProcessor then readTopologyFile L E s
  else { s with proximityMap := E.bcastProximityMap, proximityOrder := E.bcastProximityOrder }

/-! ## The strategy and the initialization -/

/-- The member `strategy ()`. -/
def strategyGet (s : State) : Int := s.m_Strategy

/-- The member `strategy (Strategy how)`.  Modelled from the spec:
`BoxLib::Error` (not among the sources) reports the message and returns. -/
def strategy (s : State) (how : Int) : State :=
  let s := { s with m_Strategy := how }
  if how = ROUNDROBIN then { s with m_BuildMap := some PVMF.RoundRobinProcessorMap }
  else if how = KNAPSACK then { s with m_BuildMap := some PVMF.KnapSackProcessorMap }
  else if how = SFC then { s with m_BuildMap := some PVMF.SFCProcessorMap }
  else if how = PFC then { s with m_BuildMap := some PVMF.PFCProcessorMap }
  else { s with reported := s.reported ++ ["Bad DistributionMapping::Strategy"] }

/-- The member `SFC_Threshold (int n)`. -/
def SFC_Threshold (s : State) (n : Int) : State := { s with sfc_threshold := min n 1 }

/-- The member `SFC_Threshold ()`. -/
def SFC_ThresholdGet (s : State) : Int := s.sfc_threshold

/-- The member `CacheSize`. -/
def CacheSize (s : State) : Nat := s.m_Cache.length

/-- The call `pp.query (name, var)`: the variable keeps its value when the
entry is absent. -/
def query {α : Type} (entry : Option α) (var : α) : α := entry.getD var

/-- The part of `Initialize` that sets the defaults and queries the
`ParmParse` table for them. -/
def readParms (E : Env) (s : State) : State :=
  let s := { s with verbose := false, sfc_threshold := 0, max_efficiency := ⟨9, 10⟩ }
  let s := { s with verbose := query E.pp.v s.verbose }
  let s := { s with verbose := query E.pp.verbose s.verbose }
  let s := { s with max_efficiency := query E.pp.efficiency s.max_efficiency }
  { s with sfc_threshold := query E.pp.sfc_threshold s.sfc_threshold }

/-- The part of `Initialize` that queries the strategy. -/
def readStrategy (L : StdLib) (E : Env) (s : State) : State :=
  match E.pp.strategy with
  | some theStrategy =>
    if theStrategy = "ROUNDROBIN" then strategy s ROUNDROBIN
    else if theStrategy = "KNAPSACK" then strategy s KNAPSACK
    else if theStrategy = "SFC" then strategy s SFC
    else if theStrategy = "PFC" then InitProximityMap L E (strategy s PFC)
    else { s with reported := s.reported ++ ["Unknown strategy: " ++ theStrategy] }
  | none => strategy s s.m_Strategy

/-- The part of `Initialize` that resizes the arrays. -/
def resizeArrays (E : Env) (s : State) : State :=
  let s :=
    if s.proximityMap.length ≠ E.NProcs then
      { s with proximityMap := resize s.proximityMap E.NProcs
               proximityOrder := resize s.proximityOrder E.NProcs }
    else s
  { s with totalBoxPoints := resize s.totalBoxPoints E.NProcs }

/-- The member `Initialize`. -/
def Initialize (L : StdLib) (E : Env) (s : State) : State :=
  if s.initialized then s
  else { resizeArrays E (readStrategy L E (readParms E s)) with initialized := true }

/-- The number of `LnClassPtr` that point to the `Ref` at address `r`: the
entries of the cache and the objects `live`, given by their `m_ref`. -/
def linkCount (s : State) (live : List Nat) (r : Nat) : Nat :=
  (s.m_Cache.filter (fun p => p.2 = r)).length + live.count r

/-- The member `FlushCache`, when the living `DistributionMapping` objects are
`live`. -/
def FlushCache (s : State) (live : List Nat) : State :=
  { s with m_Cache := s.m_Cache.filter (fun p => linkCount s live p.2 ≠ 1) }

/-- The member `Finalize`. -/
def Finalize (s : State) (live : List Nat) : State :=
  let s := { s with initialized := false }
  let s := FlushCache s live
  { s with m_BuildMap := none, m_Cache := [] }

/-! ## Objects, the cache and `define` -/

/-- The array `m_ref->m_pmap` of the object whose `m_ref` is `this`. -/
def pmapOf (s : State) (this : Nat) : List Int := s.heap.getD this []

/-- The member `ProcessorMap ()`. -/
def ProcessorMap (s : State) (this : Nat) : List Int := pmapOf s this

/-- Assignment to the array `m_ref->m_pmap`. -/
def setPmap (s : State) (this : Nat) (m_pmap : List Int) : State :=
  { s with heap := s.heap.set this m_pmap }

/-- The expression `new DistributionMapping::Ref (pmap)`: the state with the
new `Ref` and its address. -/
def newRef (s : State) (m_pmap : List Int) : State × Nat :=
  ({ s with heap := s.heap ++ [m_pmap] }, s.heap.length)

/-- The constructor `DistributionMapping ()`. -/
def DistributionMapping_default (s : State) : State × Nat := newRef s []

/-- The constructor `DistributionMapping (const Array<int>& pmap, bool
put_in_cache)`. -/
def DistributionMapping_pmap (E : Env) (s : State) (pmap : List Int) (put_in_cache : Bool) :
    Except String (State × Nat) :=
  let r := newRef s pmap
  if put_in_cache && decide (E.NProcs > 1) then
    if r.1.m_Cache.any (fun p => p.1 = pmap.length) then
      .error "DistributionMapping::DistributionMapping: pmap of given length already exists"
    else .ok ({ r.1 with m_Cache := mapInsert r.1.m_Cache pmap.length r.2 }, r.2)
  else .ok r

/-- The constructor `DistributionMapping (d1, d2)` that joins two maps.  The
member `size ()` of the header is the length of `m_pmap`. -/
def DistributionMapping_join (E : Env) (s : State) (d1 d2 : Nat) : State × Nat :=
  let pmap_1 := ProcessorMap s d1
  let pmap_2 := ProcessorMap s d2
  let L1 := pmap_1.length - 1
  let L2 := pmap_2.length - 1
  let m_pmap := List.replicate (pmap_1.length + pmap_2.length - 1) (0 : Int)
  let m_pmap := (List.range L1).foldl (fun pm i => pm.set i (pmap_1.getD i 0)) m_pmap
  let m_pmap := (List.range L2).foldl (fun pm j => pm.set (L1 + j) (pmap_2.getD j 0)) m_pmap
  newRef s (m_pmap.set (m_pmap.length - 1) E.MyProc)

/-- The member `GetMap`: the `m_ref` of the cache on a hit, `none` on a
miss. -/
def GetMap (E : Env) (s : State) (this : Nat) (boxes : BoxArray) :
    Except String (Option Nat) :=
  let N := boxes.length
  if (pmapOf s this).length ≠ N + 1 then .error "BL_ASSERT(m_ref->m_pmap.size() == N + 1)"
  else
    match mapFind s.m_Cache (N + 1) with
    | some m_ref =>
      if (pmapOf s m_ref).getD N 0 ≠ E.MyProc then
        .error "BL_ASSERT(m_ref->m_pmap[N] == ParallelDescriptor::MyProc())"
      else .ok (some m_ref)
    | none => .ok none

/-- The call `(this->*m_BuildMap) (boxes, nprocs)`: the new `m_pmap` and the
new value of `SFCToken::MaxPower`. -/
def callBuildMap (L : StdLib) (E : Env) (s : State) (fuel : Nat) (f : PVMF)
    (boxes : BoxArray) (nprocs : Nat) (m_pmap : List Int) : Except String (List Int × Nat) :=
  match f with
  | PVMF.RoundRobinProcessorMap =>
    match RoundRobinProcessorMap E boxes nprocs m_pmap with
    | .ok pm => .ok (pm, s.MaxPower)
    | .error e => .error e
  | PVMF.KnapSackProcessorMap =>
    match KnapSackProcessorMap L E s fuel boxes nprocs m_pmap with
    | .ok pm => .ok (pm, s.MaxPower)
    | .error e => .error e
  | PVMF.SFCProcessorMap => SFCProcessorMap L E s fuel boxes nprocs m_pmap
  | PVMF.PFCProcessorMap =>
    match PFCProcessorMap L E s fuel boxes nprocs m_pmap with
    | .ok pm => .ok (pm, s.MaxPower)
    | .error e => .error e

/-- The member `define (boxes, nprocs)` of the object whose `m_ref` is `this`:
the new state and the new `m_ref` of the object. -/
def define (L : StdLib) (E : Env) (fuel : Nat) (s : State) (this : Nat) (boxes : BoxArray)
    (nprocs : Nat) : Except String (State × Nat) :=
  let s := Initialize L E s
  let s :=
    if (pmapOf s this).length ≠ boxes.length + 1 then
      setPmap s this (resize (pmapOf s this) (boxes.length + 1))
    else s
  if nprocs = 1 then
    .ok (setPmap s this ((pmapOf s this).map (fun _ => 0)), this)
  else
    match GetMap E s this boxes with
    | .error e => .error e
    | .ok (some m_ref) => .ok (s, m_ref)
    | .ok none =>
      match s.m_BuildMap with
      | none => .error "BL_ASSERT(m_BuildMap != 0)"
      | some f =>
        match callBuildMap L E s fuel f boxes nprocs (pmapOf s this) with
        | .error e => .error e
        | .ok (m_pmap, MaxPower) =>
          let s := { setPmap s this m_pmap with MaxPower := MaxPower }
          .ok ({ s with m_Cache := mapInsert s.m_Cache m_pmap.length this }, this)

/-- The constructor `DistributionMapping (const BoxArray& boxes, int nprocs)`. -/
def DistributionMapping_boxes (L : StdLib) (E : Env) (fuel : Nat) (s : State)
    (boxes : BoxArray) (nprocs : Nat) : Except String (State × Nat) :=
  let r := newRef s (List.replicate (boxes.length + 1) 0)
  define L E fuel r.1 r.2 boxes nprocs

/-- A library that meets the C++ standard: the sorts are insertion sorts,
`top ()` returns the first of the lightest bins. -/
def stdlib : StdLib where
  sortWB := fun l => l.insertionSort (fun a b => b.lt a = false)
  sortSFC := fun dim m l => l.insertionSort (fun a b => SFCToken.Compare dim m b a = false)
  sortPFC := fun l => l.insertionSort (fun a b => decide (a.m_idx ≤ b.m_idx))
  pqTop := fun q => q.findIdx (fun a => q.all (fun b => decide (a.weight ≤ b.weight)))

/-! ## Auxiliary definitions of the proofs -/

/-- The heap and the cache of two states are the same. -/
def SameStore (s s' : State) : Prop := s'.heap = s.heap ∧ s'.m_Cache = s.m_Cache

/-- The state of `define` after `Initialize` and the resizing of the array. -/
def defineEntry (L : StdLib) (E : Env) (s : State) (this : Nat) (boxes : BoxArray) : State :=
  if (pmapOf (Initialize L E s) this).length ≠ boxes.length + 1 then
    setPmap (Initialize L E s) this (resize (pmapOf (Initialize L E s) this) (boxes.length + 1))
  else Initialize L E s

/-- An environment of two processes whose table names the strategy "FOO". -/
def envFOO : Env :=
  { MyProc := 0, NProcs := 2, IOProcessor := true, BL_USE_MPI := true, BL_SPACEDIM := 3,
    bytes := [0, 0], cells := [0, 0], procNumbers := [0, 1],
    pp := ⟨none, none, none, none, some "FOO"⟩, topolcoords := none,
    bcastProximityMap := [], bcastProximityOrder := [] }

/-- An environment of one process, without MPI. -/
def envOne : Env :=
  { MyProc := 0, NProcs := 1, IOProcessor := true, BL_USE_MPI := false, BL_SPACEDIM := 3,
    bytes := [], cells := [], procNumbers := [],
    pp := ⟨none, none, none, none, none⟩, topolcoords := none,
    bcastProximityMap := [], bcastProximityOrder := [] }

/-- Two boxes of eight points. -/
def boxesTwo : BoxArray := [⟨[0, 0, 0], 8, 8⟩, ⟨[2, 0, 0], 8, 8⟩]

/-- The invariant of the outer loop of `Distribute` before the turn of CPU `i`, with `n`
CPUs to go: the runs of the CPUs below `i` hold the boxes of the first `K` tokens in their
order, and the other runs are empty. -/
def DistInv (toks : List (Nat × Dbl)) (nprocs n i K : Nat) (v : List (List Nat)) : Prop :=
  i + n = nprocs ∧ v.length = nprocs ∧ K ≤ toks.length ∧
    (v.take i).flatten = (toks.take K).map Prod.fst ∧
    (∀ j, i ≤ j → v.getD j [] = []) ∧ (n = 0 → K = toks.length)

/-- The balls of the bins of a list, in the order of the list. -/
def ballsOf (q : List WeightedBoxList) : List WeightedBox :=
  (q.map WeightedBoxList.m_lb).flatten

/-- The sum of the squares of the weights of the bins. -/
def sumSquares (q : List WeightedBoxList) : Nat :=
  (q.map (fun wbl => wbl.m_weight.natAbs * wbl.m_weight.natAbs)).sum

/-- A processor map for `N` boxes and `nprocs` workers made on rank `r`: it has `N + 1`
entries, the first `N` are workers, the last is the rank. -/
def GoodMap (N nprocs r : Nat) (pm : List Int) : Prop :=
  pm.length = N + 1 ∧ (∀ i, i < N → 0 ≤ pm.getD i 0 ∧ pm.getD i 0 < nprocs) ∧
    pm.getD N 0 = (r : Int)

/-- The assignments `m_pmap[w.1] = w.2` for the pairs `w` of a list, in its order. -/
def writeAll (ws : List (Nat × Int)) (pm : List Int) : List Int :=
  ws.foldl (fun pm w => pm.set w.1 w.2) pm

/-- What the proofs assume of the library: the three sorts return a permutation of their
argument and `top ()` returns an element of the queue. -/
def StdLib.Permutes (L : StdLib) : Prop :=
  (∀ l, (L.sortWB l).Perm l) ∧ (∀ d m l, (L.sortSFC d m l).Perm l) ∧
    (∀ l, (L.sortPFC l).Perm l) ∧ (∀ q, q ≠ [] → L.pqTop q < q.length)

/-- A processor map of `N + 1` entries whose last entry is the rank `r`. -/
def Shaped (N r : Nat) (pm : List Int) : Prop :=
  pm.length = N + 1 ∧ pm.getD N 0 = (r : Int)

/-- Three boxes of eight points. -/
def boxesThree : BoxArray := [⟨[0, 0, 0], 8, 8⟩, ⟨[2, 0, 0], 8, 8⟩, ⟨[0, 2, 0], 8, 8⟩]

/-- The state at program start after two calls of the default constructor: the objects
are the `Ref`s 0 and 1. -/
def stateTwoObjects : State := (newRef (newRef State.init []).1 []).1

/-- The state that an operation returns; the state at program start when it fails. -/
def stateOf (r : Except String (State × Nat)) : State :=
  match r with
  | .ok (s, _) => s
  | .error _ => State.init

/-- An environment of four processes with MPI, on the process of rank 3. -/
def envRankThree : Env :=
  { MyProc := 3, NProcs := 4, IOProcessor := false, BL_USE_MPI := true, BL_SPACEDIM := 3,
    bytes := [0, 0, 0, 0], cells := [0, 0, 0, 0], procNumbers := [0, 1, 2, 3],
    pp := ⟨none, none, none, none, none⟩, topolcoords := none,
    bcastProximityMap := [0, 1, 2, 3], bcastProximityOrder := [0, 1, 2, 3] }

/-- Three tokens of volume 10. -/
def tokensThree : List SFCToken :=
  [⟨0, [0, 0, 0], Dbl.ofInt 10⟩, ⟨1, [2, 0, 0], Dbl.ofInt 10⟩, ⟨2, [0, 2, 0], Dbl.ofInt 10⟩]

/-- The order of `std::pair<long,int>` by weight first and by index among equal weights. -/
def LIpairLe (a b : LIpair) : Prop := a.1 < b.1 ∨ (a.1 = b.1 ∧ a.2 ≤ b.2)

instance LIpairLe.decidable : DecidableRel LIpairLe := fun a b => by
  unfold LIpairLe; infer_instance

/-- An environment of four processes with MPI whose gathered loads are 5, 3, 5, 3. -/
def envLoads : Env :=
  { MyProc := 0, NProcs := 4, IOProcessor := true, BL_USE_MPI := true, BL_SPACEDIM := 3,
    bytes := [5, 3, 5, 3], cells := [0, 0, 0, 0], procNumbers := [0, 1, 2, 3],
    pp := ⟨none, none, none, none, none⟩, topolcoords := none,
    bcastProximityMap := [0, 1, 2, 3], bcastProximityOrder := [0, 1, 2, 3] }

/-- The boxes of given numbers of points, box `i` at the point `(i, 0, 0)`. -/
def boxesOf (ws : List Int) : BoxArray :=
  ws.enum.map (fun p => ⟨[(p.1 : Int), 0, 0], p.2, p.2⟩)

/-- An environment of five processes with MPI and equal loads whose table names a
strategy. -/
def envFive (strat : Option String) : Env :=
  { MyProc := 0, NProcs := 5, IOProcessor := true, BL_USE_MPI := true, BL_SPACEDIM := 3,
    bytes := [0, 0, 0, 0, 0], cells := [0, 0, 0, 0, 0], procNumbers := [0, 1, 2, 3, 4],
    pp := ⟨none, none, none, none, strat⟩, topolcoords := none,
    bcastProximityMap := [0, 1, 2, 3, 4], bcastProximityOrder := [0, 1, 2, 3, 4] }

/-- The state at program start with the threshold of the space filling curve at 2. -/
def stateDense : State := { State.init with sfc_threshold := 2 }

/-- The list `LIpairV` of `KnapSackDoIt` and of `SFCProcessorMapDoIt` after `Sort`: the
pairs of the weight of a bin and its index, from the heaviest bin on. -/
def binsByWeight (vec : List (List Nat)) (wgts : List Int) (nprocs : Nat) : List LIpair :=
  SortLIpair ((List.range nprocs).map
    (fun i => (((wgtsPerCpu vec wgts).getD i 0, i) : LIpair))) true

/-- The tokens of `SFCProcessorMapDoIt` after the sort along the curve. -/
def sfcTokens (L : StdLib) (E : Env) (boxes : BoxArray) (wgts : List Int) : List SFCToken :=
  L.sortSFC E.BL_SPACEDIM
    (maxPowerLoop ((boxes.enum.map (fun p =>
      (⟨p.1, p.2.smallEnd, Dbl.ofInt (wgts.getD p.1 0)⟩ : SFCToken))).foldl
        (fun m token => maxijkStep E.BL_SPACEDIM m token.m_idx) 0) 32 0)
    (boxes.enum.map (fun p => (⟨p.1, p.2.smallEnd, Dbl.ofInt (wgts.getD p.1 0)⟩ : SFCToken)))

/-- The runs that `SFCProcessorMapDoIt` gets from `Distribute`. -/
def sfcRuns (L : StdLib) (E : Env) (boxes : BoxArray) (wgts : List Int) (nprocs : Nat) :
    Except String (List (List Nat)) :=
  Distribute (sfcTokens L E boxes wgts) nprocs
    (((sfcTokens L E boxes wgts).foldl (fun a t => a.add t.m_vol) (Dbl.ofInt 0)).divInt nprocs)
    (List.replicate nprocs [])

/-- The comparison `a <= b` of two doubles; false when one of them is NaN. -/
def Dbl.le (a b : Dbl) : Bool := !(a.isNaN || b.isNaN) && !(b.lt a)

/-- The bins of a list go from the heaviest to the lightest. -/
def Desc (q : List WeightedBoxList) : Prop := q.Pairwise (fun a b => b.weight ≤ a.weight)

/-- The sum of the weights of the bins of a list, the value `sum_weight` of `knapsack`. -/
def sumWeights (q : List WeightedBoxList) : Int := q.foldl (fun s wbl => s + wbl.weight) 0

/-- What the C++ standard asks of the library in `knapsack`: the sorts permute, `std::sort`
leaves the balls from the heaviest on, and `top ()` returns a lightest bin of the queue. -/
def StdLib.Conforms (L : StdLib) : Prop :=
  L.Permutes ∧ (∀ l, (L.sortWB l).Pairwise (fun a b => b.weight ≤ a.weight)) ∧
    (∀ q, q ≠ [] → ∀ b ∈ q, (q.getD (L.pqTop q) WeightedBoxList.new).weight ≤ b.weight)

/-- A bin whose weight is the sum of the weights of its balls, and whose balls have a
property. -/
def BinOK (P : WeightedBox → Prop) (wbl : WeightedBoxList) : Prop :=
  wbl.m_weight = (wbl.m_lb.map WeightedBox.weight).sum ∧ ∀ b ∈ wbl.m_lb, P b

/-- The quotients that `SFCToken::Compare` looks at on one plane, for the axes below `j`
from the highest down. -/
def axesKey (N : Int) (idx : IntVect) : Nat → List Int
  | 0 => []
  | j + 1 => (idx.getD j 0).tdiv N :: axesKey N idx j

/-- The quotients that `SFCToken::Compare` looks at, in the order in which it looks at
them: the planes below `n` from the highest down, the axes of a plane from the highest
down. -/
def planesKey (dim : Nat) (idx : IntVect) : Nat → List Int
  | 0 => []
  | i + 1 => axesKey (toInt32 (2 ^ i)) idx dim ++ planesKey dim idx i

/-- The value of `SFCToken::MaxPower` that `SFCProcessorMapDoIt` computes from the small
ends of the boxes. -/
def sfcMaxPower (E : Env) (boxes : BoxArray) : Nat :=
  maxPowerLoop ((boxes.map Box.smallEnd).foldl
    (fun m idx => maxijkStep E.BL_SPACEDIM m idx) 0) 32 0

/-- Modelled from the spec: the bits of plane `i` of the coordinates of the axes below `j`,
the bit of the highest axis first, read as a binary number. -/
def mortonPlane (i : Nat) (idx : IntVect) : Nat → Nat
  | 0 => 0
  | j + 1 => ((idx.getD j 0).toNat / 2 ^ i % 2) * 2 ^ j + mortonPlane i idx j

/-- Modelled from the spec: the Morton key of an anchor over the planes below `n`, which
interleaves the bits of the coordinates from the plane `n - 1` down to the plane 0 and
takes the highest axis first within a plane. -/
def mortonKey (dim : Nat) (idx : IntVect) : Nat → Nat
  | 0 => 0
  | n + 1 => mortonPlane n idx dim * 2 ^ (dim * n) + mortonKey dim idx n

/-- No exchange of a ball of the first bin of a list with a ball of a later bin passes the
test of the innermost loop of `knapsack`. -/
def NoSwap : List WeightedBoxList → Prop
  | [] => True
  | wbl_top :: others =>
    ∀ wb ∈ wbl_top.m_lb, ∀ wbl_chk ∈ others, ∀ owb ∈ wbl_chk.m_lb,
      swapImproves wbl_top.weight wbl_chk.weight wb.weight owb.weight = false

/-- The weight that the constructor `WeightedBox (i, wgts[i])` keeps for the box `i`. -/
def ballWeight (wgts : List Int) (i : Nat) : Int := toInt32 (wgts.getD i 0)

/-- The sum of the weights of the balls of the boxes of a list. -/
def binWeight (wgts : List Int) (l : List Nat) : Int := (l.map (ballWeight wgts)).sum

/-- The state after the constructor `DistributionMapping (boxes, nprocs)` for three boxes
and two workers, called at program start among five processes: the object is the `Ref` 0,
which is in the cache. -/
def stateCached : State :=
  stateOf (DistributionMapping_boxes stdlib (envFive none) 10 State.init boxesThree 2)

/-- An environment of one process, without MPI, whose table names the strategy "PFC". -/
def envOnePFC : Env := { envOne with pp := ⟨none, none, none, none, some "PFC"⟩ }

/-- An environment of five processes with MPI whose table names the strategy "PFC" and
whose topology file has one component with the nodes 0 to 4 at the points `(0, 0, 0)` to
`(4, 0, 0)`. -/
def envTopo : Env :=
  { envFive (some "PFC") with
    topolcoords := some ⟨[[0, 0, 0], [1, 0, 0], [2, 0, 0], [3, 0, 0], [4, 0, 0]],
      [[0, 1, 2, 3, 4]]⟩ }

/-- The tokens of `PFCProcessorMapDoIt` after the sort. -/
def pfcTokens (L : StdLib) (boxes : BoxArray) (wgts : List Int) : List PFCToken :=
  L.sortPFC (boxes.enum.map (fun p =>
    (⟨p.1, p.2.smallEnd, Dbl.ofInt (wgts.getD p.1 0)⟩ : PFCToken)))

/-- The runs `vec` of `PFCProcessorMapDoIt`, when the knapsack has left the map `m_pmap`:
the target of the run `i` is the entry `i` of `newVolPerCPU`. -/
def pfcRuns (L : StdLib) (boxes : BoxArray) (wgts : List Int) (nprocs : Nat)
    (m_pmap : List Int) : List (List Nat) :=
  distributeLoop ((pfcTokens L boxes wgts).map (fun t => (t.m_box, t.m_vol))) nprocs
    (fun i => Dbl.ofInt ((newVolPerCPUOf boxes nprocs m_pmap).getD i 0)) nprocs 0 0
    (Dbl.ofInt 0) (List.replicate nprocs [])

/-- The number of points of the boxes of the list `l` that a map gives to the worker
`w`. -/
def cellsOn (boxes : BoxArray) (m_pmap : List Int) (w : Nat) (l : List Nat) : Int :=
  ((l.filter (fun i => (m_pmap.getD i 0).toNat = w)).map
    (fun i => (boxes.getD i ⟨[], 0, 0⟩).numPts)).sum

/-- The state at program start with the proximity map 2, 0, 1. -/
def stateProx : State := { State.init with proximityMap := [2, 0, 1] }

/-- The environment of the process of rank `r` among the same processes: the rank and the
answer of `IOProcessor ()` change, all the rest is the same. -/
def Env.onRank (E : Env) (r : Nat) (io : Bool) : Env :=
  { E with MyProc := r, IOProcessor := io }

/-- Two states have the same build function, the same threshold of the space filling
curve and the same efficiency. -/
def SameKnobs (s s' : State) : Prop :=
  s'.m_BuildMap = s.m_BuildMap ∧ s'.sfc_threshold = s.sfc_threshold ∧
    s'.max_efficiency = s.max_efficiency

/-- The value of `maxijk` that `SFCProcessorMapDoIt` computes from the small ends of the
boxes. -/
def sfcMaxijk (E : Env) (boxes : BoxArray) : Int :=
  (boxes.map Box.smallEnd).foldl (fun m idx => maxijkStep E.BL_SPACEDIM m idx) 0

/-- The invariant of the cache: every entry points to a `Ref` of the heap, and the entry
stored under the key `k` holds a processor map of length `k`. -/
def CacheOK (s : State) : Prop :=
  ∀ p ∈ s.m_Cache, p.2 < s.heap.length ∧ (pmapOf s p.2).length = p.1

instance CacheOK.decidable (s : State) : Decidable (CacheOK s) := by
  unfold CacheOK; infer_instance

/-- The state after `define` for five boxes and two workers on the object of `stateCached`,
which was built for three boxes. -/
def stateRedefined : State :=
  stateOf (define stdlib (envFive none) 10 stateCached 0 (boxesOf [1, 1, 1, 1, 1]) 2)

/-- The calls on which the gather of `LeastUsedCPUs` stays inside its array: with MPI the
code gathers one `long` from each of the `NProcs` processes into `bytes (nprocs)`, so it
needs `NProcs ≤ nprocs`; the environment holds one load for each process. -/
def GatherFits (E : Env) (nprocs : Nat) : Prop :=
  E.BL_USE_MPI = true → E.NProcs ≤ nprocs ∧ E.bytes.length = E.NProcs

instance GatherFits.decidable (E : Env) (nprocs : Nat) : Decidable (GatherFits E nprocs) := by
  unfold GatherFits; infer_instance

/-- The calls on which the block of the I/O processor at the end of `KnapSackProcessorMap
(boxes, nprocs)` and of `PFCProcessorMapDoIt` reads inside `boxes`: the block reads
`boxes[m_pmap[i]]`, every worker of the map is below `nprocs`, and there are no fewer boxes
than workers.  The other processes do not run the block. -/
def IOFits (E : Env) (boxes : BoxArray) (nprocs : Nat) : Prop :=
  E.IOProcessor = true → nprocs ≤ boxes.length

instance IOFits.decidable (E : Env) (boxes : BoxArray) (nprocs : Nat) :
    Decidable (IOFits E boxes nprocs) := by
  unfold IOFits; infer_instance

/-- The calls on which the block of the I/O processor at the end of `KnapSackProcessorMap
(boxes, nprocs)` reads inside `boxes` after the round robin: the box at place `i` has the
worker `ord[i % nprocs]`, which is to be below the number of boxes. -/
def FallbackFits (E : Env) (boxes : BoxArray) (nprocs : Nat) : Prop :=
  E.IOProcessor = true →
    ∀ i, i < boxes.length → (LeastUsedCPUs E nprocs).getD (i % nprocs) 0 < boxes.length

instance FallbackFits.decidable (E : Env) (boxes : BoxArray) (nprocs : Nat) :
    Decidable (FallbackFits E boxes nprocs) := by
  unfold FallbackFits; infer_instance

/-- The boxes for which the loop `for ( ; (1 << m) <= maxijk; ++m)` of
`SFCProcessorMapDoIt` ends before its shift overflows: no coordinate of a small end reaches
`2^30`. -/
def AnchorsFit (E : Env) (boxes : BoxArray) : Prop := sfcMaxijk E boxes < 2 ^ 30

instance AnchorsFit.decidable (E : Env) (boxes : BoxArray) : Decidable (AnchorsFit E boxes) := by
  unfold AnchorsFit; infer_instance

/-- The weights on which the arithmetic of `PFCProcessorMapDoIt` in `Real`, be it `float`
or `double`, is the exact one: none is negative and the total times the number of workers is
below `2^24`.  Then every sum of weights is held exactly, and a quotient of such a sum by a
count of workers that is above a whole number stays above it when rounded. -/
def SumsExact (wgts : List Int) (nprocs : Nat) : Prop :=
  (∀ w ∈ wgts, 0 ≤ w) ∧ wgts.sum * nprocs < 2 ^ 24

instance SumsExact.decidable (wgts : List Int) (nprocs : Nat) :
    Decidable (SumsExact wgts nprocs) := by
  unfold SumsExact; infer_instance

/-- The calls on which `PFCProcessorMapDoIt` reads inside `proximityMap` and, on the I/O
processor, inside the array `ncells (nprocs)` of its last block: `ProximityMap (i)` is asked
for the `i` below `nprocs`, and the block takes its values for indices.  The gathered
numbers of cells, which the code adds up and scales, are not negative and their sum is a
`long`; with MPI there is one such number for every process. -/
def ProximityFits (E : Env) (s : State) (nprocs : Nat) : Prop :=
  nprocs ≤ s.proximityMap.length ∧
  (E.IOProcessor = true →
    ∀ i, i < nprocs → 0 ≤ ProximityMap s i ∧ ProximityMap s i < (nprocs : Int)) ∧
  (∀ c ∈ E.cells, 0 ≤ c) ∧ E.cells.sum < 2 ^ 63 ∧
  (E.BL_USE_MPI = true → E.cells.length = E.NProcs)

instance ProximityFits.decidable (E : Env) (s : State) (nprocs : Nat) :
    Decidable (ProximityFits E s nprocs) := by
  unfold ProximityFits; infer_instance

/-- The calls of the build function `f`, in the state `s`, on which the definitions are the
code: the gather fits; for the knapsack the block of the I/O processor reads inside `boxes`;
for the space filling curve the loop of the resolution ends and, below the threshold, the
block of the knapsack reads inside `boxes`; for the proximity curve the blocks read inside
their arrays and the sums of the numbers of points are exact. -/
def BuildFits (E : Env) (s : State) (f : PVMF) (boxes : BoxArray) (nprocs : Nat) : Prop :=
  GatherFits E nprocs ∧
  (f = PVMF.KnapSackProcessorMap → IOFits E boxes nprocs) ∧
  (f = PVMF.SFCProcessorMap →
    AnchorsFit E boxes ∧
      ((boxes.length : Int) < s.sfc_threshold * nprocs → IOFits E boxes nprocs)) ∧
  (f = PVMF.PFCProcessorMap →
    IOFits E boxes nprocs ∧ SumsExact (boxes.map Box.numPts) nprocs ∧
      ProximityFits E s nprocs)

instance BuildFits.decidable (E : Env) (s : State) (f : PVMF) (boxes : BoxArray)
    (nprocs : Nat) : Decidable (BuildFits E s f boxes nprocs) := by
  unfold BuildFits; infer_instance

/-- An environment of two processes with MPI whose gathered loads are 5 and 3. -/
def envPair : Env :=
  { MyProc := 0, NProcs := 2, IOProcessor := true, BL_USE_MPI := true, BL_SPACEDIM := 3,
    bytes := [5, 3], cells := [0, 0], procNumbers := [0, 1],
    pp := ⟨none, none, none, none, none⟩, topolcoords := none,
    bcastProximityMap := [0, 1], bcastProximityOrder := [0, 1] }

/-- An environment of three processes with MPI and equal loads whose table names the
strategy "PFC". -/
def envTrio : Env :=
  { MyProc := 0, NProcs := 3, IOProcessor := true, BL_USE_MPI := true, BL_SPACEDIM := 3,
    bytes := [0, 0, 0], cells := [0, 0, 0], procNumbers := [0, 1, 2],
    pp := ⟨none, none, none, none, some "PFC"⟩, topolcoords := none,
    bcastProximityMap := [0, 1, 2], bcastProximityOrder := [0, 1, 2] }

/-- An environment of three processes with MPI whose gathered loads are 3, 1, 5. -/
def envLoadsTrio : Env :=
  { MyProc := 0, NProcs := 3, IOProcessor := true, BL_USE_MPI := true, BL_SPACEDIM := 3,
    bytes := [3, 1, 5], cells := [0, 0, 0], procNumbers := [0, 1, 2],
    pp := ⟨none, none, none, none, none⟩, topolcoords := none,
    bcastProximityMap := [0, 1, 2], bcastProximityOrder := [0, 1, 2] }

/-! ## Lemmas: what the initialization leaves unchanged -/

/-- An invariant of the accumulator of a left fold. -/
theorem foldl_invariant {α β : Type} (P : β → Prop) (f : β → α → β)
    (h : ∀ b a, P b → P (f b a)) : ∀ (l : List α) (b : β), P b → P (l.foldl f b) := by
  intro l
  induction l with
  | nil => intro b hb; exact hb
  | cons a l ih => intro b hb; exact ih _ (h b a hb)

theorem SameStore.refl (s : State) : SameStore s s := ⟨rfl, rfl⟩

theorem SameStore.trans {a b c : State} (h1 : SameStore a b) (h2 : SameStore b c) :
    SameStore a c := ⟨h2.1.trans h1.1, h2.2.trans h1.2⟩

theorem strategy_sameStore (s : State) (how : Int) : SameStore s (strategy s how) := by
  unfold strategy SameStore
  simp only
  split_ifs <;> exact ⟨rfl, rfl⟩

theorem registerNodes_sameStore (tFab : TopoFab) (s : State) :
    SameStore s (registerNodes tFab s) := by
  unfold registerNodes
  apply foldl_invariant (SameStore s)
  · intro b a hb
    apply foldl_invariant (SameStore s)
    · intro b' a' hb'
      simp only
      split_ifs
      · exact ⟨hb'.1, hb'.2⟩
      · exact hb'
    · exact hb
  · exact SameStore.refl s

theorem readTopology_sameStore (L : StdLib) (E : Env) (s : State) (tFab : TopoFab) :
    SameStore s (readTopology L E s tFab) := by
  have h1 := registerNodes_sameStore tFab s
  unfold readTopology
  exact ⟨h1.1, h1.2⟩

theorem registerRanks_sameStore (pn : List Int) (s : State) :
    SameStore s (registerRanks pn s) := by
  unfold registerRanks
  apply foldl_invariant (SameStore s)
  · intro b a hb; exact ⟨hb.1, hb.2⟩
  · exact SameStore.refl s

theorem InitProximityMap_sameStore (L : StdLib) (E : Env) (s : State) :
    SameStore s (InitProximityMap L E s) := by
  have h2 := registerRanks_sameStore (gatherProcNumbers E)
    { s with proximityMap := resize s.proximityMap E.NProcs
             proximityOrder := resize s.proximityOrder E.NProcs }
  unfold InitProximityMap
  simp only
  by_cases hio : E.IOProcessor = true
  · rw [if_pos hio]
    unfold readTopologyFile
    cases htc : E.topolcoords with
    | none => exact ⟨h2.1, h2.2⟩
    | some tFab => exact SameStore.trans h2 (readTopology_sameStore L E _ tFab)
  · rw [if_neg hio]
    exact ⟨h2.1, h2.2⟩

theorem readStrategy_sameStore (L : StdLib) (E : Env) (s : State) :
    SameStore s (readStrategy L E s) := by
  unfold readStrategy
  cases E.pp.strategy with
  | none => exact strategy_sameStore _ _
  | some nm =>
    simp only
    split_ifs
    · exact strategy_sameStore _ _
    · exact strategy_sameStore _ _
    · exact strategy_sameStore _ _
    · exact SameStore.trans (strategy_sameStore _ _) (InitProximityMap_sameStore L E _)
    · exact ⟨rfl, rfl⟩

theorem Initialize_sameStore (L : StdLib) (E : Env) (s : State) :
    SameStore s (Initialize L E s) := by
  unfold Initialize
  split_ifs with hi
  · exact SameStore.refl s
  · have h1 : SameStore s (readParms E s) := ⟨rfl, rfl⟩
    have h2 := SameStore.trans h1 (readStrategy_sameStore L E (readParms E s))
    have h3 : SameStore (readStrategy L E (readParms E s))
        (resizeArrays E (readStrategy L E (readParms E s))) := by
      unfold resizeArrays
      simp only
      split_ifs <;> exact ⟨rfl, rfl⟩
    have h4 := SameStore.trans h2 h3
    exact ⟨h4.1, h4.2⟩

theorem Initialize_initialized (L : StdLib) (E : Env) (s : State) :
    (Initialize L E s).initialized = true := by
  unfold Initialize
  split_ifs with hi
  · exact hi
  · rfl

/-! ## Lemmas on the heap -/

theorem pmapOf_setPmap_self (s : State) (this : Nat) (pm : List Int)
    (h : this < s.heap.length) : pmapOf (setPmap s this pm) this = pm := by
  unfold pmapOf setPmap
  simp [List.getD_eq_getElem?_getD, List.getElem?_set, h]

theorem pmapOf_setPmap_other (s : State) (this r : Nat) (pm : List Int) (h : r ≠ this) :
    pmapOf (setPmap s this pm) r = pmapOf s r := by
  unfold pmapOf setPmap
  simp [List.getD_eq_getElem?_getD, List.getElem?_set, Ne.symm h]

theorem pmapOf_congr {s s' : State} (h : s'.heap = s.heap) (r : Nat) :
    pmapOf s' r = pmapOf s r := by
  unfold pmapOf
  rw [h]

theorem resize_length (a : List Int) (n : Nat) : (resize a n).length = n := by
  unfold resize
  simp
  omega

theorem defineEntry_length (L : StdLib) (E : Env) (s : State) (this : Nat) (boxes : BoxArray)
    (h : this < s.heap.length) :
    (pmapOf (defineEntry L E s this boxes) this).length = boxes.length + 1 := by
  unfold defineEntry
  have hh : this < (Initialize L E s).heap.length := by
    rw [(Initialize_sameStore L E s).1]; exact h
  split_ifs with hl
  · rw [pmapOf_setPmap_self _ _ _ hh, resize_length]
  · push_neg at hl; exact hl

theorem defineEntry_cache (L : StdLib) (E : Env) (s : State) (this : Nat) (boxes : BoxArray) :
    (defineEntry L E s this boxes).m_Cache = s.m_Cache := by
  unfold defineEntry
  split_ifs with hl
  · exact (Initialize_sameStore L E s).2
  · exact (Initialize_sameStore L E s).2

theorem defineEntry_heap_length (L : StdLib) (E : Env) (s : State) (this : Nat)
    (boxes : BoxArray) : (defineEntry L E s this boxes).heap.length = s.heap.length := by
  unfold defineEntry
  split_ifs with hl
  · unfold setPmap; simp [(Initialize_sameStore L E s).1]
  · rw [(Initialize_sameStore L E s).1]

theorem defineEntry_other (L : StdLib) (E : Env) (s : State) (this r : Nat) (boxes : BoxArray)
    (h : r ≠ this) : pmapOf (defineEntry L E s this boxes) r = pmapOf s r := by
  unfold defineEntry
  split_ifs with hl
  · rw [pmapOf_setPmap_other _ _ _ _ h]; exact pmapOf_congr (Initialize_sameStore L E s).1 r
  · exact pmapOf_congr (Initialize_sameStore L E s).1 r

theorem defineEntry_self_of_length (L : StdLib) (E : Env) (s : State) (this : Nat)
    (boxes : BoxArray) (h : (pmapOf s this).length = boxes.length + 1) :
    pmapOf (defineEntry L E s this boxes) this = pmapOf s this := by
  unfold defineEntry
  have e := pmapOf_congr (Initialize_sameStore L E s).1 this
  rw [if_neg (by rw [e]; simp [h])]
  exact e

theorem define_eq (L : StdLib) (E : Env) (fuel : Nat) (s : State) (this : Nat)
    (boxes : BoxArray) (nprocs : Nat) :
    define L E fuel s this boxes nprocs =
      if nprocs = 1 then
        .ok (setPmap (defineEntry L E s this boxes) this
          ((pmapOf (defineEntry L E s this boxes) this).map (fun _ => 0)), this)
      else
        match GetMap E (defineEntry L E s this boxes) this boxes with
        | .error e => .error e
        | .ok (some m_ref) => .ok (defineEntry L E s this boxes, m_ref)
        | .ok none =>
          match (defineEntry L E s this boxes).m_BuildMap with
          | none => .error "BL_ASSERT(m_BuildMap != 0)"
          | some f =>
            match callBuildMap L E (defineEntry L E s this boxes) fuel f boxes nprocs
                (pmapOf (defineEntry L E s this boxes) this) with
            | .error e => .error e
            | .ok (m_pmap, MaxPower) =>
              .ok ({ setPmap (defineEntry L E s this boxes) this m_pmap with
                      MaxPower := MaxPower,
                      m_Cache := mapInsert (defineEntry L E s this boxes).m_Cache m_pmap.length this },
                    this) := by
  rfl

/-! ## Lemmas on the cache -/

theorem mapFind_nil {κ β : Type} [DecidableEq κ] (k : κ) :
    mapFind ([] : List (κ × β)) k = none := rfl

theorem mapFind_cons {κ β : Type} [DecidableEq κ] (p : κ × β) (m : List (κ × β)) (k : κ) :
    mapFind (p :: m) k = if p.1 = k then some p.2 else mapFind m k := by
  unfold mapFind
  by_cases h : p.1 = k <;> simp [List.find?_cons, h]

theorem mapFind_append {κ β : Type} [DecidableEq κ] (m m' : List (κ × β)) (k : κ) :
    mapFind (m ++ m') k = (mapFind m k).or (mapFind m' k) := by
  induction m with
  | nil => simp [mapFind_nil]
  | cons p m ih =>
    rw [List.cons_append, mapFind_cons, mapFind_cons, ih]
    split_ifs <;> simp

theorem mapFind_filter_keep {κ β : Type} [DecidableEq κ] (m : List (κ × β)) (q : κ × β → Bool)
    (k : κ) (hq : ∀ p, p.1 = k → q p = true) : mapFind (m.filter q) k = mapFind m k := by
  induction m with
  | nil => rfl
  | cons p m ih =>
    by_cases hp : q p = true
    · rw [List.filter_cons_of_pos hp, mapFind_cons, mapFind_cons, ih]
    · have hk : ¬ p.1 = k := fun h => hp (hq p h)
      rw [List.filter_cons_of_neg hp, mapFind_cons, if_neg hk, ih]

theorem mapFind_filter_drop {κ β : Type} [DecidableEq κ] (m : List (κ × β)) (q : κ × β → Bool)
    (k : κ) (hq : ∀ p, p.1 = k → q p = false) : mapFind (m.filter q) k = none := by
  induction m with
  | nil => rfl
  | cons p m ih =>
    by_cases hp : q p = true
    · have hk : ¬ p.1 = k := fun h => by rw [hq p h] at hp; exact absurd hp (by simp)
      rw [List.filter_cons_of_pos hp, mapFind_cons, if_neg hk, ih]
    · rw [List.filter_cons_of_neg hp, ih]

theorem mapFind_eq_none_iff {β : Type} (m : List (Nat × β)) (k : Nat) :
    mapFind m k = none ↔ m.any (fun p => decide (p.1 = k)) = false := by
  induction m with
  | nil => simp [mapFind_nil]
  | cons p m ih =>
    rw [mapFind_cons, List.any_cons]
    by_cases h : p.1 = k
    · simp [h]
    · simp [h, ih]

theorem mapInsert_present {β : Type} (m : List (Nat × β)) (k : Nat) (x : β)
    (h : mapFind m k ≠ none) : mapInsert m k x = m := by
  unfold mapInsert
  have : m.any (fun p => decide (p.1 = k)) = true := by
    cases hc : m.any (fun p => decide (p.1 = k)) with
    | true => rfl
    | false => exact absurd ((mapFind_eq_none_iff m k).mpr hc) h
  rw [if_pos this]

theorem mapFind_mapInsert {β : Type} (m : List (Nat × β)) (k : Nat) (x : β) (k' : Nat)
    (h : mapFind m k = none) :
    mapFind (mapInsert m k x) k' = if k' = k then some x else mapFind m k' := by
  unfold mapInsert
  rw [if_neg (by rw [(mapFind_eq_none_iff m k).mp h]; simp)]
  rw [mapFind_append, mapFind_cons]
  by_cases hk : k' = k
  · subst hk
    rw [mapFind_filter_drop _ _ _ (by intro p hp; simp [hp])]
    simp
  · rw [if_neg hk, if_neg (Ne.symm hk)]
    rcases Nat.lt_or_gt_of_ne hk with hlt | hgt
    · rw [mapFind_filter_keep _ _ _ (by intro p hp; simp [hp, hlt])]
      rw [mapFind_filter_drop _ _ _ (by intro p hp; simp [hp]; omega)]
      cases mapFind m k' <;> rfl
    · rw [mapFind_filter_drop _ _ _ (by intro p hp; simp [hp]; omega)]
      rw [mapFind_filter_keep _ _ _ (by intro p hp; simp [hp]; omega)]
      rfl

theorem pmapOf_newRef_old (s : State) (pm : List Int) (r : Nat) (h : r < s.heap.length) :
    pmapOf (newRef s pm).1 r = pmapOf s r := by
  unfold pmapOf newRef
  simp [List.getD_eq_getElem?_getD, List.getElem?_append_left h]

theorem pmapOf_newRef_new (s : State) (pm : List Int) :
    pmapOf (newRef s pm).1 (newRef s pm).2 = pm := by
  unfold pmapOf newRef
  simp [List.getD_eq_getElem?_getD]

/-! ## Lemmas on `Distribute` -/

/-- What the inner loop of `Distribute` does: it appends to the run the boxes of the first
`k` tokens, for some `k`, which is all of them for the last CPU. -/
theorem fillRun_spec (last : Bool) (target : Dbl) :
    ∀ (toks : List (Nat × Dbl)) (cnt : Nat) (vol : Dbl) (vi : List Nat),
      ∃ k, k ≤ toks.length ∧ (fillRun last target toks cnt vol vi).1 = cnt + k ∧
        (fillRun last target toks cnt vol vi).2.2 = vi ++ (toks.take k).map Prod.fst ∧
        (last = true → k = toks.length) := by
  intro toks
  induction toks with
  | nil => intro cnt vol vi; exact ⟨0, by simp [fillRun]⟩
  | cons t rest ih =>
    intro cnt vol vi
    unfold fillRun
    by_cases hc : (last || vol.lt target) = true
    · rw [if_pos hc]
      obtain ⟨k, hk, h1, h2, h3⟩ := ih (cnt + 1) (vol.add t.2) (vi ++ [t.1])
      refine ⟨k + 1, by simp; omega, by rw [h1]; omega, by rw [h2]; simp, ?_⟩
      intro hl; rw [h3 hl]; simp
    · rw [if_neg hc]
      refine ⟨0, by simp, by simp, by simp, ?_⟩
      intro hl; rw [hl] at hc; simp at hc

theorem getD_set_self {α : Type} (v : List α) (i : Nat) (x d : α) (h : i < v.length) :
    (v.set i x).getD i d = x := by
  simp [List.getD_eq_getElem?_getD, List.getElem?_set, h]

theorem getD_set_other {α : Type} (v : List α) (i j : Nat) (x d : α) (h : i ≠ j) :
    (v.set i x).getD j d = v.getD j d := by
  simp [List.getD_eq_getElem?_getD, List.getElem?_set, h]

theorem take_set_self {α : Type} (v : List α) (i : Nat) (x : α) :
    (v.set i x).take i = v.take i := by
  apply List.ext_getElem?
  intro j
  rw [List.getElem?_take, List.getElem?_take]
  split
  · rw [List.getElem?_set_ne (by omega)]
  · rfl

theorem take_succ_set {α : Type} (v : List α) (i : Nat) (x : α) (h : i < v.length) :
    (v.set i x).take (i + 1) = v.take i ++ [x] := by
  rw [List.take_succ, take_set_self]
  simp [List.getElem?_set, h]

theorem distributeLoop_spec (toks : List (Nat × Dbl)) (nprocs : Nat) (target : Nat → Dbl) :
    ∀ (n i K : Nat) (totalvol : Dbl) (v : List (List Nat)), DistInv toks nprocs n i K v →
      (distributeLoop toks nprocs target n i K totalvol v).length = nprocs ∧
      (distributeLoop toks nprocs target n i K totalvol v).flatten = toks.map Prod.fst := by
  intro n
  induction n with
  | zero =>
    intro i K totalvol v ⟨h1, h2, _, h4, _, h6⟩
    unfold distributeLoop
    have hi : i = v.length := by omega
    rw [hi, List.take_length, h6 rfl, List.take_length] at h4
    exact ⟨h2, h4⟩
  | succ n ih =>
    intro i K totalvol v ⟨h1, h2, h3, h4, h5, _⟩
    unfold distributeLoop
    simp only
    obtain ⟨k, hk, hcnt, hrun, hlast⟩ := fillRun_spec (decide (i = nprocs - 1)) (target i)
      (toks.drop K) 0 (Dbl.ofInt 0) []
    rw [List.nil_append] at hrun
    rw [h5 i (le_refl i)]
    rw [List.length_drop] at hk hlast
    have hiv : i < v.length := by omega
    rw [hcnt, hrun, Nat.zero_add]
    have hnext : ∀ j, i + 1 ≤ j → ∀ x y : List Nat, ((v.set i x).set i y).getD j [] = [] := by
      intro j hj x y
      rw [getD_set_other _ _ _ _ _ (by omega), getD_set_other _ _ _ _ _ (by omega)]
      exact h5 j (by omega)
    split_ifs with hpop
    · simp only [Bool.and_eq_true, decide_eq_true_eq] at hpop
      obtain ⟨⟨_, hk1⟩, hK⟩ := hpop
      apply ih
      refine ⟨by omega, by simp [h2], by omega, ?_, ?_, ?_⟩
      · rw [List.set_set, take_succ_set _ _ _ hiv, List.flatten_append, h4,
          getD_set_self _ _ _ _ hiv]
        simp only [List.flatten_cons, List.flatten_nil, List.append_nil]
        rw [← List.map_dropLast, List.dropLast_take (by rw [List.length_drop]; omega),
          ← List.map_append, ← List.take_add]
        congr 2
        omega
      · intro j hj
        exact hnext j hj _ _
      · intro hn0
        exfalso
        have : k = toks.length - K := by
          apply hlast; simp; omega
        omega
    · apply ih
      refine ⟨by omega, by simp [h2], by omega, ?_, ?_, ?_⟩
      · rw [take_succ_set _ _ _ hiv, List.flatten_append, h4]
        simp only [List.flatten_cons, List.flatten_nil, List.append_nil]
        rw [← List.map_append, ← List.take_add]
      · intro j hj
        rw [getD_set_other _ _ _ _ _ (by omega)]
        exact h5 j (by omega)
      · intro hn0
        have : k = toks.length - K := by
          apply hlast; simp; omega
        omega

theorem distInv_start (toks : List (Nat × Dbl)) (nprocs : Nat) (hn : 1 ≤ nprocs) :
    DistInv toks nprocs nprocs 0 0 (List.replicate nprocs []) := by
  refine ⟨by omega, by simp, by omega, by simp, ?_, by omega⟩
  intro j _
  simp [List.getD_eq_getElem?_getD, List.getElem?_replicate]
  split_ifs <;> rfl

theorem Distribute_spec (tokens : List SFCToken) (nprocs : Nat) (volpercpu : Dbl)
    (hn : 1 ≤ nprocs) :
    ∃ v, Distribute tokens nprocs volpercpu (List.replicate nprocs []) = .ok v ∧
      v.length = nprocs ∧ v.flatten = tokens.map SFCToken.m_box := by
  have h := distributeLoop_spec (tokens.map (fun t => (t.m_box, t.m_vol))) nprocs
    (fun _ => volpercpu) nprocs 0 0 (Dbl.ofInt 0) (List.replicate nprocs [])
    (distInv_start _ nprocs hn)
  rw [List.map_map] at h
  have hf : (Prod.fst ∘ fun t : SFCToken => (t.m_box, t.m_vol)) = SFCToken.m_box := rfl
  rw [hf] at h
  refine ⟨_, ?_, h.1, h.2⟩
  unfold Distribute
  rw [if_neg (by simp)]
  simp only
  rw [if_neg]
  rw [← List.length_flatten, h.2]
  simp

/-! ## Lemmas on `knapsack` -/

theorem perm_cons_eraseIdx {α : Type} (l : List α) (i : Nat) (x : α) (h : l.get? i = some x) :
    l.Perm (x :: l.eraseIdx i) := by
  induction l generalizing i with
  | nil => simp at h
  | cons a l ih =>
    cases i with
    | zero => simp at h; subst h; simp
    | succ i =>
      simp at h
      have := ih i (by simpa using h)
      simp only [List.eraseIdx_cons_succ]
      exact (List.Perm.cons a this).trans (List.Perm.swap x a _)

theorem ballsOf_perm {q q' : List WeightedBoxList} (h : q.Perm q') :
    (ballsOf q).Perm (ballsOf q') :=
  (h.map _).flatten

theorem sumSquares_perm {q q' : List WeightedBoxList} (h : q.Perm q') :
    sumSquares q = sumSquares q' :=
  (h.map _).sum_eq

theorem ballsOf_cons (b : WeightedBoxList) (q : List WeightedBoxList) :
    ballsOf (b :: q) = b.m_lb ++ ballsOf q := rfl

theorem ballsOf_append (q q' : List WeightedBoxList) :
    ballsOf (q ++ q') = ballsOf q ++ ballsOf q' := by
  simp [ballsOf]

theorem pqTopPop_spec (L : StdLib) (hq : ∀ q, q ≠ [] → L.pqTop q < q.length)
    (q : List WeightedBoxList) (hne : q ≠ []) :
    ∃ wbl q', pqTopPop L q = some (wbl, q') ∧ q.Perm (wbl :: q') := by
  have hlt := hq q hne
  unfold pqTopPop
  have hget : q.get? (L.pqTop q) = some (q.get ⟨L.pqTop q, hlt⟩) := List.get?_eq_get hlt
  rw [hget]
  exact ⟨_, _, rfl, perm_cons_eraseIdx q _ _ hget⟩

theorem greedy_spec (L : StdLib) (hq : ∀ q, q ≠ [] → L.pqTop q < q.length) :
    ∀ (lb : List WeightedBox) (q : List WeightedBoxList), q ≠ [] →
      ∃ q', greedy L lb q = some q' ∧ q'.length = q.length ∧
        (ballsOf q').Perm (ballsOf q ++ lb) := by
  intro lb
  induction lb with
  | nil => intro q _; exact ⟨q, rfl, rfl, by simp⟩
  | cons b lb ih =>
    intro q hne
    obtain ⟨wbl, q1, h1, hp⟩ := pqTopPop_spec L hq q hne
    unfold greedy
    rw [h1]
    simp only
    obtain ⟨q', h2, hl, hb⟩ := ih (q1 ++ [wbl.push_back b]) (by simp)
    refine ⟨q', h2, ?_, ?_⟩
    · rw [hl, hp.length_eq]; simp
    · refine hb.trans ?_
      have e1 : ballsOf (q1 ++ [wbl.push_back b]) = ballsOf q1 ++ (wbl.m_lb ++ [b]) := by
        rw [ballsOf_append]; simp [ballsOf, WeightedBoxList.push_back]
      have e2 : (ballsOf q).Perm (wbl.m_lb ++ ballsOf q1) := ballsOf_perm hp
      rw [e1]
      have e3 : (ballsOf q1 ++ (wbl.m_lb ++ [b]) ++ lb).Perm
          ((wbl.m_lb ++ ballsOf q1) ++ b :: lb) := by
        have : ballsOf q1 ++ (wbl.m_lb ++ [b]) ++ lb
            = (ballsOf q1 ++ wbl.m_lb) ++ b :: lb := by simp
        rw [this]
        exact List.Perm.append_right _ List.perm_append_comm
      exact e3.trans (List.Perm.append_right _ e2.symm)

theorem drain_spec (L : StdLib) (hq : ∀ q, q ≠ [] → L.pqTop q < q.length) :
    ∀ (n : Nat) (q : List WeightedBoxList), q.length = n →
      ∃ r, drain L n q = some r ∧ r.Perm q := by
  intro n
  induction n with
  | zero =>
    intro q hl
    have : q = [] := List.length_eq_zero.mp hl
    subst this
    exact ⟨[], rfl, List.Perm.refl _⟩
  | succ n ih =>
    intro q hl
    have hne : q ≠ [] := by intro h; subst h; simp at hl
    obtain ⟨wbl, q1, h1, hp⟩ := pqTopPop_spec L hq q hne
    have hl1 : q1.length = n := by
      have := hp.length_eq; simp at this; omega
    obtain ⟨r, h2, hr⟩ := ih q1 hl1
    unfold drain
    rw [h1]
    simp only
    rw [h2]
    exact ⟨wbl :: r, rfl, (List.Perm.cons wbl hr).trans hp.symm⟩

theorem listSort_perm (l : List WeightedBoxList) : (listSort l).Perm l :=
  List.perm_insertionSort _ l

theorem listMergeAux_perm (x : WeightedBoxList) (xs : List WeightedBoxList)
    (mergeXs : List WeightedBoxList → List WeightedBoxList)
    (h : ∀ zs, (mergeXs zs).Perm (xs ++ zs)) :
    ∀ ys, (listMergeAux x xs mergeXs ys).Perm (x :: xs ++ ys) := by
  intro ys
  induction ys with
  | nil => simp [listMergeAux]
  | cons y ys ih =>
    unfold listMergeAux
    split_ifs
    · refine (List.Perm.cons y ih).trans ?_
      exact (@List.perm_middle _ y (x :: xs) ys).symm
    · exact List.Perm.cons x (h (y :: ys))

theorem listMerge_perm : ∀ (xs ys : List WeightedBoxList), (listMerge xs ys).Perm (xs ++ ys) := by
  intro xs
  induction xs with
  | nil => intro ys; simp [listMerge]
  | cons x xs ih =>
    intro ys
    unfold listMerge
    exact listMergeAux_perm x xs (listMerge xs) ih ys

theorem findOwb_spec (top_w wb : Int) (wbl_chk : WeightedBoxList) (o : Nat)
    (h : findOwb top_w wb wbl_chk = some o) :
    ∃ owb, wbl_chk.m_lb.get? o = some owb ∧
      swapImproves top_w wbl_chk.weight wb owb.weight = true := by
  unfold findOwb at h
  obtain ⟨hlt, hp, _⟩ := List.findIdx?_eq_some_iff_getElem.mp h
  exact ⟨wbl_chk.m_lb[o], by simp [List.getElem?_eq_getElem hlt], hp⟩

theorem findChk_spec (top_w wb : Int) :
    ∀ (others : List WeightedBoxList) (c0 c o : Nat),
      findChk top_w wb others c0 = some (c, o) →
      ∃ wbl_chk owb, c0 ≤ c ∧ others.get? (c - c0) = some wbl_chk ∧
        wbl_chk.m_lb.get? o = some owb ∧
        swapImproves top_w wbl_chk.weight wb owb.weight = true := by
  intro others
  induction others with
  | nil => intro c0 c o h; simp [findChk] at h
  | cons chk rest ih =>
    intro c0 c o h
    unfold findChk at h
    cases hf : findOwb top_w wb chk with
    | some o' =>
      rw [hf] at h
      simp only [Option.some.injEq, Prod.mk.injEq] at h
      obtain ⟨rfl, rfl⟩ := h
      obtain ⟨owb, h1, h2⟩ := findOwb_spec top_w wb chk o' hf
      exact ⟨chk, owb, le_refl _, by simp, h1, h2⟩
    | none =>
      rw [hf] at h
      obtain ⟨wbl_chk, owb, h0, h1, h2, h3⟩ := ih (c0 + 1) c o h
      refine ⟨wbl_chk, owb, by omega, ?_, h2, h3⟩
      have : c - c0 = (c - (c0 + 1)) + 1 := by omega
      rw [this]
      simpa using h1

theorem findWb_spec (top_w : Int) (others : List WeightedBoxList) :
    ∀ (lb : List WeightedBox) (i0 i c o : Nat),
      findWb top_w others lb i0 = some (i, c, o) →
      ∃ wb wbl_chk owb, i0 ≤ i ∧ lb.get? (i - i0) = some wb ∧
        others.get? c = some wbl_chk ∧ wbl_chk.m_lb.get? o = some owb ∧
        swapImproves top_w wbl_chk.weight wb.weight owb.weight = true := by
  intro lb
  induction lb with
  | nil => intro i0 i c o h; simp [findWb] at h
  | cons wb rest ih =>
    intro i0 i c o h
    unfold findWb at h
    cases hf : findChk top_w wb.weight others 0 with
    | some co =>
      obtain ⟨c', o'⟩ := co
      rw [hf] at h
      simp only [Option.some.injEq, Prod.mk.injEq] at h
      obtain ⟨rfl, rfl, rfl⟩ := h
      obtain ⟨wbl_chk, owb, _, h1, h2, h3⟩ := findChk_spec top_w wb.weight others 0 c' o' hf
      exact ⟨wb, wbl_chk, owb, le_refl _, by simp, by simpa using h1, h2, h3⟩
    | none =>
      rw [hf] at h
      obtain ⟨wb', wbl_chk, owb, h0, h1, h2, h3, h4⟩ := ih (i0 + 1) i c o h
      refine ⟨wb', wbl_chk, owb, by omega, ?_, h2, h3, h4⟩
      have : i - i0 = (i - (i0 + 1)) + 1 := by omega
      rw [this]
      simpa using h1

theorem sumSquares_cons (b : WeightedBoxList) (q : List WeightedBoxList) :
    sumSquares (b :: q) = b.m_weight.natAbs * b.m_weight.natAbs + sumSquares q := by
  simp [sumSquares]

/-- An accepted exchange lowers the sum of the squares of the two weights. -/
theorem squares_decrease (top_w chk_w wb owb : Int)
    (h : swapImproves top_w chk_w wb owb = true) :
    (top_w - wb + owb).natAbs * (top_w - wb + owb).natAbs
        + (chk_w - owb + wb).natAbs * (chk_w - owb + wb).natAbs
      < top_w.natAbs * top_w.natAbs + chk_w.natAbs * chk_w.natAbs := by
  unfold swapImproves at h
  simp only [Bool.and_eq_true, decide_eq_true_eq] at h
  obtain ⟨h1, h2⟩ := h
  have key : (top_w - wb + owb) * (top_w - wb + owb) + (chk_w - owb + wb) * (chk_w - owb + wb)
      < top_w * top_w + chk_w * chk_w := by nlinarith
  zify
  simp only [abs_mul_abs_self]
  exact key

theorem swap_perm {α : Type} (A B C : List α) (x y : α) :
    (A ++ [y] ++ (B ++ [x] ++ C)).Perm ((x :: A) ++ ((y :: B) ++ C)) := by
  rw [← Multiset.coe_eq_coe]
  simp only [← Multiset.coe_add, ← Multiset.cons_coe, ← Multiset.singleton_add, List.cons_append,
    List.nil_append, Multiset.coe_nil, add_zero]
  abel

theorem applySwap_spec (wbl_top : WeightedBoxList) (others : List WeightedBoxList)
    (i c o : Nat) (wb : WeightedBox) (wbl_chk : WeightedBoxList) (owb : WeightedBox)
    (h1 : wbl_top.m_lb.get? i = some wb) (h2 : others.get? c = some wbl_chk)
    (h3 : wbl_chk.m_lb.get? o = some owb) :
    ∃ q', applySwap wbl_top others i c o = some q' ∧ q'.length = others.length + 1 ∧
      (ballsOf q').Perm (ballsOf (wbl_top :: others)) ∧
      ∃ R, sumSquares (wbl_top :: others)
            = wbl_top.m_weight.natAbs * wbl_top.m_weight.natAbs
              + wbl_chk.m_weight.natAbs * wbl_chk.m_weight.natAbs + R ∧
          sumSquares q'
            = (wbl_top.m_weight - wb.weight + owb.weight).natAbs
                * (wbl_top.m_weight - wb.weight + owb.weight).natAbs
              + (wbl_chk.m_weight - owb.weight + wb.weight).natAbs
                * (wbl_chk.m_weight - owb.weight + wb.weight).natAbs + R := by
  have hp : (listMerge (others.eraseIdx c)
      (listSort [(wbl_top.erase i).push_back owb, (wbl_chk.erase o).push_back wb])).Perm
      ((wbl_top.erase i).push_back owb :: (wbl_chk.erase o).push_back wb :: others.eraseIdx c) := by
    refine (listMerge_perm _ _).trans ?_
    refine (List.Perm.append_left _ (listSort_perm _)).trans ?_
    exact List.perm_append_comm
  have ho : others.Perm (wbl_chk :: others.eraseIdx c) := perm_cons_eraseIdx _ _ _ h2
  have et : (wbl_top.erase i).push_back owb
      = ⟨wbl_top.m_lb.eraseIdx i ++ [owb], wbl_top.m_weight - wb.weight + owb.weight⟩ := by
    unfold WeightedBoxList.erase WeightedBoxList.push_back; rw [h1]
  have ec : (wbl_chk.erase o).push_back wb
      = ⟨wbl_chk.m_lb.eraseIdx o ++ [wb], wbl_chk.m_weight - owb.weight + wb.weight⟩ := by
    unfold WeightedBoxList.erase WeightedBoxList.push_back; rw [h3]
  refine ⟨_, by unfold applySwap; rw [h1, h2]; simp only; rw [h3], ?_, ?_, sumSquares (others.eraseIdx c), ?_, ?_⟩
  · rw [hp.length_eq]
    have := ho.length_eq
    simp at this
    simp
    omega
  · refine (ballsOf_perm hp).trans ?_
    have e0 : (ballsOf (wbl_top :: others)).Perm
        (wbl_top.m_lb ++ (wbl_chk.m_lb ++ ballsOf (others.eraseIdx c))) := by
      rw [ballsOf_cons]
      exact List.Perm.append_left _ (ballsOf_perm ho)
    refine List.Perm.trans ?_ e0.symm
    rw [ballsOf_cons, ballsOf_cons, et, ec]
    simp only
    have t1 : (wbl_top.m_lb).Perm (wb :: wbl_top.m_lb.eraseIdx i) := perm_cons_eraseIdx _ _ _ h1
    have t2 : (wbl_chk.m_lb).Perm (owb :: wbl_chk.m_lb.eraseIdx o) := perm_cons_eraseIdx _ _ _ h3
    have a1 : (wbl_top.m_lb.eraseIdx i ++ [owb] ++
          (wbl_chk.m_lb.eraseIdx o ++ [wb] ++ ballsOf (others.eraseIdx c))).Perm
        ((wb :: wbl_top.m_lb.eraseIdx i) ++
          ((owb :: wbl_chk.m_lb.eraseIdx o) ++ ballsOf (others.eraseIdx c))) :=
      swap_perm _ _ _ wb owb
    exact a1.trans
      (List.Perm.append t1.symm (List.Perm.append_right _ t2.symm))
  · rw [sumSquares_cons, sumSquares_perm ho, sumSquares_cons]
    omega
  · rw [sumSquares_perm hp, sumSquares_cons, sumSquares_cons, et, ec]
    simp only
    omega

/-- The loop between `top` and `bottom` returns when the fuel exceeds the sum of the
squares of the weights of the bins, and it returns the same balls in as many bins. -/
theorem refine_spec (max_efficiency : Dbl) (do_full_knapsack : Bool) (nprocs : Nat)
    (sum_weight : Int) :
    ∀ (fuel : Nat) (q : List WeightedBoxList) (efficiency : Dbl), q ≠ [] →
      sumSquares q < fuel →
      ∃ q' eff', refine max_efficiency do_full_knapsack nprocs sum_weight fuel q efficiency
          = some (q', eff') ∧ q'.length = q.length ∧ (ballsOf q').Perm (ballsOf q) := by
  intro fuel
  induction fuel with
  | zero => intro q _ _ h; omega
  | succ fuel ih =>
    intro q efficiency hne hlt
    cases q with
    | nil => exact absurd rfl hne
    | cons wbl_top others =>
      unfold refine
      simp only
      split_ifs with hc
      · exact ⟨_, _, rfl, rfl, List.Perm.refl _⟩
      · cases hf : findWb wbl_top.weight others wbl_top.m_lb 0 with
        | none => exact ⟨_, _, rfl, rfl, List.Perm.refl _⟩
        | some ico =>
          obtain ⟨i, c, o⟩ := ico
          obtain ⟨wb, wbl_chk, owb, _, h1, h2, h3, h4⟩ :=
            findWb_spec wbl_top.weight others wbl_top.m_lb 0 i c o hf
          obtain ⟨q1, ha, hl, hb, R, hS, hS'⟩ :=
            applySwap_spec wbl_top others i c o wb wbl_chk owb (by simpa using h1) h2 h3
          simp only
          rw [ha]
          simp only
          have hdec := squares_decrease wbl_top.weight wbl_chk.weight wb.weight owb.weight h4
          unfold WeightedBoxList.weight at hdec
          obtain ⟨q', eff', hr, hl', hb'⟩ := ih q1
            (efficiencyOf sum_weight nprocs (q1.headD WeightedBoxList.new).weight)
            (by intro h; subst h; simp at hl) (by omega)
          exact ⟨q', eff', hr, by rw [hl', hl]; simp, hb'.trans hb⟩

theorem ballsOf_replicate_new (n : Nat) : ballsOf (List.replicate n WeightedBoxList.new) = [] := by
  induction n with
  | zero => rfl
  | succ n ih => rw [List.replicate_succ, ballsOf_cons, ih]; rfl

/-- The static function `knapsack` returns, on enough fuel, `nprocs` bins that hold every
box index once. -/
theorem knapsack_spec (L : StdLib) (hs : ∀ l, (L.sortWB l).Perm l)
    (hq : ∀ q, q ≠ [] → L.pqTop q < q.length) (max_efficiency : Dbl) (wgts : List Int)
    (nprocs : Nat) (hn : 1 ≤ nprocs) (do_full_knapsack : Bool) :
    ∃ fuel0, ∀ fuel, fuel0 ≤ fuel →
      ∃ vec eff, knapsack L max_efficiency fuel wgts nprocs do_full_knapsack = some (vec, eff) ∧
        vec.length = nprocs ∧ vec.flatten.Perm (List.range wgts.length) := by
  obtain ⟨wblq, hg, hgl, hgb⟩ := greedy_spec L hq
    (L.sortWB (wgts.enum.map (fun p => WeightedBox.new p.1 p.2)))
    (List.replicate nprocs WeightedBoxList.new)
    (by intro h; have := congrArg List.length h; simp at this; omega)
  obtain ⟨wblqg0, hd, hdp⟩ := drain_spec L hq wblq.length wblq rfl
  have hsp := listSort_perm wblqg0
  have hlen : (listSort wblqg0).length = nprocs := by
    rw [hsp.length_eq, hdp.length_eq, hgl]; simp
  refine ⟨sumSquares (listSort wblqg0) + 1, ?_⟩
  intro fuel hfuel
  obtain ⟨q', eff', hr, hl', hb'⟩ := refine_spec max_efficiency do_full_knapsack nprocs
    ((listSort wblqg0).foldl (fun s wbl => s + wbl.weight) 0) fuel (listSort wblqg0)
    (efficiencyOf ((listSort wblqg0).foldl (fun s wbl => s + wbl.weight) 0) nprocs
      ((listSort wblqg0).foldl (fun m wbl => if wbl.weight > m then wbl.weight else m) 0))
    (by intro h; rw [h] at hlen; simp at hlen; omega) (by omega)
  refine ⟨(q'.take nprocs).map (fun wbl => wbl.m_lb.map WeightedBox.boxid), eff', ?_, ?_, ?_⟩
  · unfold knapsack
    simp only
    rw [hg]
    simp only
    rw [hd]
    simp only
    rw [hr]
  · simp [hl', hlen]
  · rw [List.take_of_length_le (by omega)]
    have e : (q'.map (fun wbl => wbl.m_lb.map WeightedBox.boxid)).flatten
        = (ballsOf q').map WeightedBox.boxid := by
      unfold ballsOf
      rw [List.map_flatten, List.map_map]
      rfl
    rw [e]
    have p1 : (ballsOf q').Perm (wgts.enum.map (fun p => WeightedBox.new p.1 p.2)) := by
      refine hb'.trans ((ballsOf_perm (hsp.trans hdp)).trans (hgb.trans ?_))
      rw [ballsOf_replicate_new, List.nil_append]
      exact hs _
    have p2 := p1.map WeightedBox.boxid
    rw [List.map_map] at p2
    have e2 : (WeightedBox.boxid ∘ fun p : Nat × Int => WeightedBox.new p.1 p.2) = Prod.fst := rfl
    rw [e2, List.enum_map_fst] at p2
    exact p2

theorem applySwap_perm (wbl_top : WeightedBoxList) (others : List WeightedBoxList)
    (i c o : Nat) (q' : List WeightedBoxList) (h : applySwap wbl_top others i c o = some q') :
    q'.length = others.length + 1 ∧ (ballsOf q').Perm (ballsOf (wbl_top :: others)) := by
  cases h1 : wbl_top.m_lb.get? i with
  | none => unfold applySwap at h; rw [h1] at h; simp at h
  | some wb =>
    cases h2 : others.get? c with
    | none => unfold applySwap at h; rw [h1, h2] at h; simp at h
    | some wbl_chk =>
      cases h3 : wbl_chk.m_lb.get? o with
      | none => unfold applySwap at h; rw [h1, h2] at h; simp only at h; rw [h3] at h; simp at h
      | some owb =>
        obtain ⟨q1, ha, hl, hb, _⟩ := applySwap_spec wbl_top others i c o wb wbl_chk owb h1 h2 h3
        rw [h] at ha
        simp only [Option.some.injEq] at ha
        subst ha
        exact ⟨hl, hb⟩

/-! ## Lemmas on the assignments to `m_pmap`, round robin -/

theorem writeAll_length : ∀ (ws : List (Nat × Int)) (pm : List Int),
    (writeAll ws pm).length = pm.length := by
  intro ws
  induction ws with
  | nil => intro pm; rfl
  | cons w ws ih => intro pm; unfold writeAll; rw [List.foldl_cons]; exact (ih _).trans (by simp)

theorem writeAll_getD (P : Int → Prop) : ∀ (ws : List (Nat × Int)), (∀ w ∈ ws, P w.2) →
    ∀ (pm : List Int) (i : Nat), i < pm.length → (i ∈ ws.map Prod.fst ∨ P (pm.getD i 0)) →
      P ((writeAll ws pm).getD i 0) := by
  intro ws
  induction ws with
  | nil =>
    intro _ pm i _ h
    rcases h with h | h
    · simp at h
    · exact h
  | cons w ws ih =>
    intro hP pm i hi h
    unfold writeAll
    rw [List.foldl_cons]
    apply ih (fun w' hw' => hP w' (List.mem_cons_of_mem _ hw')) (pm.set w.1 w.2) i (by simpa using hi)
    by_cases e : w.1 = i
    · right
      rw [e, getD_set_self _ _ _ _ hi]
      exact hP w (List.mem_cons_self _ _)
    · rcases h with h | h
      · left
        simp only [List.map_cons, List.mem_cons] at h
        rcases h with h | h
        · exact absurd h.symm e
        · exact h
      · right
        rw [getD_set_other _ _ _ _ _ e]
        exact h

theorem goodMap_of_writes (N nprocs r : Nat) (ws : List (Nat × Int)) (pm : List Int)
    (hlen : pm.length = N + 1) (hv : ∀ w ∈ ws, 0 ≤ w.2 ∧ w.2 < (nprocs : Int))
    (hc : ∀ i, i < N → i ∈ ws.map Prod.fst) :
    GoodMap N nprocs r ((writeAll ws pm).set N r) := by
  refine ⟨by simp [writeAll_length, hlen], ?_, ?_⟩
  · intro i hi
    rw [getD_set_other _ _ _ _ _ (by omega)]
    exact writeAll_getD (fun z => 0 ≤ z ∧ z < (nprocs : Int)) ws hv pm i (by omega) (Or.inl (hc i hi))
  · exact getD_set_self _ _ _ _ (by rw [writeAll_length, hlen]; omega)

theorem SortLIpair_perm (v : List LIpair) (reverse : Bool) : (SortLIpair v reverse).Perm v := by
  unfold SortLIpair stable_sort
  split_ifs
  · exact (List.reverse_perm _).trans (List.perm_insertionSort _ _)
  · exact List.perm_insertionSort _ _
  · exact List.Perm.refl _

theorem getD_mem_or_default {α : Type} (l : List α) (i : Nat) (d : α) :
    l.getD i d ∈ l ∨ l.getD i d = d := by
  by_cases h : i < l.length
  · left; rw [List.getD_eq_getElem _ _ h]; exact List.getElem_mem _
  · right; simp [List.getD_eq_getElem?_getD, List.getElem?_eq_none (by omega : l.length ≤ i)]

theorem LeastUsedCPUs_mem (E : Env) (nprocs : Nat) (hn : 1 ≤ nprocs) :
    ∀ x ∈ LeastUsedCPUs E nprocs, x < nprocs := by
  intro x h
  unfold LeastUsedCPUs at h
  split_ifs at h
  · simp only [List.mem_map, List.mem_range] at h
    obtain ⟨k, _, hk⟩ := h
    rw [← hk]
    rcases getD_mem_or_default (SortLIpair (List.map (fun i => ((List.map (fun i => E.bytes.getD i 0) (List.range nprocs)).getD i 0, i)) (List.range nprocs)) false) k (0, 0) with h' | h'
    · have := (SortLIpair_perm _ _).mem_iff.mp h'
      simp only [List.mem_map, List.mem_range] at this
      obtain ⟨a, ha, hae⟩ := this
      rw [← hae]
      exact ha
    · rw [h']; exact hn
  · simpa using h

theorem LeastUsedCPUs_lt (E : Env) (nprocs : Nat) (hn : 1 ≤ nprocs) (i : Nat) :
    (LeastUsedCPUs E nprocs).getD i 0 < nprocs := by
  rcases getD_mem_or_default (LeastUsedCPUs E nprocs) i 0 with h | h
  · exact LeastUsedCPUs_mem E nprocs hn _ h
  · rw [h]; exact hn

theorem cover_of_perm (v : List LIpair) (n : Nat) (h : (v.map Prod.snd).Perm (List.range n)) :
    ∀ j, j < n → ∃ k, k < n ∧ (v.getD k (0, 0)).2 = j := by
  intro j hj
  have hl : v.length = n := by simpa using h.length_eq
  have hm : j ∈ v.map Prod.snd := h.mem_iff.mpr (List.mem_range.mpr hj)
  obtain ⟨p, hp, hpj⟩ := List.mem_map.mp hm
  obtain ⟨k, hk, hke⟩ := List.mem_iff_getElem.mp hp
  exact ⟨k, by omega, by rw [List.getD_eq_getElem _ _ hk, hke, hpj]⟩

theorem sortedPairs_perm (f : Nat → Int) (n : Nat) (reverse : Bool) :
    ((SortLIpair ((List.range n).map (fun i => ((f i, i) : LIpair))) reverse).map Prod.snd).Perm
      (List.range n) := by
  refine ((SortLIpair_perm _ _).map _).trans ?_
  rw [List.map_map]
  have : (Prod.snd ∘ fun i => ((f i, i) : LIpair)) = id := rfl
  rw [this, List.map_id]

theorem RoundRobinDoIt_good (E : Env) (nboxes nprocs : Nat) (LIpairV : Option (List LIpair))
    (pm : List Int) (hv : ∀ v, LIpairV = some v → (v.map Prod.snd).Perm (List.range nboxes))
    (hlen : pm.length = nboxes + 1) (hn : 1 ≤ nprocs) :
    ∃ pm', RoundRobinDoIt E nboxes nprocs LIpairV pm = .ok pm' ∧
      GoodMap nboxes nprocs E.MyProc pm' := by
  have hord : ∀ i, (0 : Int) ≤ ((LeastUsedCPUs E nprocs).getD i 0 : Nat) ∧
      (((LeastUsedCPUs E nprocs).getD i 0 : Nat) : Int) < (nprocs : Int) := by
    intro i
    exact ⟨by positivity, by exact_mod_cast LeastUsedCPUs_lt E nprocs hn i⟩
  cases LIpairV with
  | none =>
    refine ⟨_, rfl, ?_⟩
    have e : (List.range nboxes).foldl
        (fun pm i => pm.set i (((LeastUsedCPUs E nprocs).getD (i % nprocs) 0 : Nat) : Int)) pm
        = writeAll ((List.range nboxes).map
            (fun i => (i, (((LeastUsedCPUs E nprocs).getD (i % nprocs) 0 : Nat) : Int)))) pm := by
      unfold writeAll; rw [List.foldl_map]
    rw [e]
    apply goodMap_of_writes _ _ _ _ _ hlen
    · intro w hw
      obtain ⟨i, _, hi⟩ := List.mem_map.mp hw
      rw [← hi]; exact hord _
    · intro i hi
      rw [List.map_map]
      exact List.mem_map.mpr ⟨i, List.mem_range.mpr hi, rfl⟩
  | some v =>
    have hp := hv v rfl
    have hl : v.length = nboxes := by simpa using hp.length_eq
    refine ⟨_, by unfold RoundRobinDoIt; simp only; rw [if_neg (by simp [hl])], ?_⟩
    have e : (List.range nboxes).foldl
        (fun pm i => pm.set (v.getD i (0, 0)).2
          (((LeastUsedCPUs E nprocs).getD (i % nprocs) 0 : Nat) : Int)) pm
        = writeAll ((List.range nboxes).map
            (fun i => ((v.getD i (0, 0)).2,
              (((LeastUsedCPUs E nprocs).getD (i % nprocs) 0 : Nat) : Int)))) pm := by
      unfold writeAll; rw [List.foldl_map]
    rw [e]
    apply goodMap_of_writes _ _ _ _ _ hlen
    · intro w hw
      obtain ⟨i, _, hi⟩ := List.mem_map.mp hw
      rw [← hi]; exact hord _
    · intro j hj
      obtain ⟨k, hk, hkj⟩ := cover_of_perm v nboxes hp j hj
      rw [List.map_map]
      exact List.mem_map.mpr ⟨k, List.mem_range.mpr hk, hkj⟩

theorem RoundRobinProcessorMapN_good (E : Env) (nboxes nprocs : Nat) (pm : List Int)
    (hb : 1 ≤ nboxes) (hn : 1 ≤ nprocs) :
    ∃ pm', RoundRobinProcessorMapN E nboxes nprocs pm = .ok pm' ∧
      GoodMap nboxes nprocs E.MyProc pm' := by
  unfold RoundRobinProcessorMapN
  rw [if_neg (by omega)]
  apply RoundRobinDoIt_good E nboxes nprocs none _ (by intro v h; cases h) _ hn
  split_ifs with h
  · exact resize_length _ _
  · push_neg at h; exact h

theorem RoundRobinProcessorMap_good (E : Env) (boxes : BoxArray) (nprocs : Nat) (pm : List Int)
    (hb : 1 ≤ boxes.length) (hlen : pm.length = boxes.length + 1) (hn : 1 ≤ nprocs) :
    ∃ pm', RoundRobinProcessorMap E boxes nprocs pm = .ok pm' ∧
      GoodMap boxes.length nprocs E.MyProc pm' := by
  unfold RoundRobinProcessorMap
  rw [if_neg (by omega), if_neg (by simp [hlen])]
  apply RoundRobinDoIt_good E boxes.length nprocs _ _ _ hlen hn
  intro v hv
  simp only [Option.some.injEq] at hv
  rw [← hv]
  refine ((SortLIpair_perm _ _).map _).trans ?_
  rw [List.map_map]
  have : (Prod.snd ∘ fun p : Nat × Box => ((p.2.numPts, p.1) : LIpair)) = Prod.fst := rfl
  rw [this, List.enum_map_fst]

/-! ## Lemmas on the knapsack strategy -/

theorem assignBins_eq (vec : List (List Nat)) (LIpairV : List LIpair) (ord : List Nat) (n : Nat)
    (pm : List Int) :
    assignBins vec LIpairV ord n pm =
      writeAll (((List.range n).map (fun i =>
        (vec.getD (LIpairV.getD i (0, 0)).2 []).map
          (fun lit => (lit, ((ord.getD i 0 : Nat) : Int))))).flatten) pm := by
  unfold assignBins writeAll
  rw [List.foldl_flatten, List.foldl_map]
  congr 1
  funext pm i
  rw [List.foldl_map]

theorem mem_flatten_getD {α : Type} (vec : List (List α)) (x : α) (h : x ∈ vec.flatten) :
    ∃ j, j < vec.length ∧ x ∈ vec.getD j [] := by
  obtain ⟨l, hl, hx⟩ := List.mem_flatten.mp h
  obtain ⟨j, hj, hje⟩ := List.mem_iff_getElem.mp hl
  exact ⟨j, hj, by rw [List.getD_eq_getElem _ _ hj, hje]; exact hx⟩

theorem assignBins_good (N nprocs r : Nat) (vec : List (List Nat)) (LIpairV : List LIpair)
    (ord : List Nat) (pm : List Int) (hvl : vec.length = nprocs)
    (hvp : vec.flatten.Perm (List.range N))
    (hLI : (LIpairV.map Prod.snd).Perm (List.range nprocs))
    (hord : ∀ i, ord.getD i 0 < nprocs) (hlen : pm.length = N + 1) :
    GoodMap N nprocs r ((assignBins vec LIpairV ord nprocs pm).set N r) := by
  rw [assignBins_eq]
  apply goodMap_of_writes _ _ _ _ _ hlen
  · intro w hw
    obtain ⟨l, hl, hwl⟩ := List.mem_flatten.mp hw
    obtain ⟨i, _, hi⟩ := List.mem_map.mp hl
    rw [← hi] at hwl
    obtain ⟨lit, _, hlit⟩ := List.mem_map.mp hwl
    rw [← hlit]
    exact ⟨by positivity, by
      show ((ord.getD i 0 : Nat) : Int) < (nprocs : Int)
      exact_mod_cast hord i⟩
  · intro i hi
    have hm : i ∈ vec.flatten := hvp.mem_iff.mpr (List.mem_range.mpr hi)
    obtain ⟨j, hj, hij⟩ := mem_flatten_getD vec i hm
    obtain ⟨k, hk, hkj⟩ := cover_of_perm LIpairV nprocs hLI j (by omega)
    refine List.mem_map.mpr ⟨(i, ((ord.getD k 0 : Nat) : Int)), ?_, rfl⟩
    refine List.mem_flatten.mpr ⟨_, List.mem_map.mpr ⟨k, List.mem_range.mpr hk, rfl⟩, ?_⟩
    rw [hkj]
    exact List.mem_map.mpr ⟨i, hij, rfl⟩

theorem KnapSackDoIt_good (L : StdLib) (hs : ∀ l, (L.sortWB l).Perm l)
    (hq : ∀ q, q ≠ [] → L.pqTop q < q.length) (E : Env) (s : State) (wgts : List Int)
    (nprocs : Nat) (hn : 1 ≤ nprocs) (do_full_knapsack : Bool) (pm : List Int)
    (hlen : pm.length = wgts.length + 1) :
    ∃ fuel0, ∀ fuel, fuel0 ≤ fuel →
      ∃ pm' eff, KnapSackDoIt L E s fuel wgts nprocs do_full_knapsack pm = .ok (pm', eff) ∧
        GoodMap wgts.length nprocs E.MyProc pm' := by
  obtain ⟨fuel0, hk⟩ := knapsack_spec L hs hq s.max_efficiency wgts nprocs hn do_full_knapsack
  refine ⟨fuel0, ?_⟩
  intro fuel hf
  obtain ⟨vec, eff, hkn, hvl, hvp⟩ := hk fuel hf
  refine ⟨(assignBins vec
      (SortLIpair ((List.range nprocs).map
        (fun i => (((wgtsPerCpu vec wgts).getD i 0, i) : LIpair))) true)
      (LeastUsedCPUs E nprocs) vec.length pm).set wgts.length E.MyProc, eff, ?_, ?_⟩
  · unfold KnapSackDoIt
    rw [hkn]
    simp only
    rw [if_neg (by simp [hvl])]
  · rw [hvl]
    exact assignBins_good _ _ _ _ _ _ _ hvl hvp (sortedPairs_perm _ _ _)
      (LeastUsedCPUs_lt E nprocs hn) hlen

theorem KnapSackProcessorMap_good (L : StdLib) (hs : ∀ l, (L.sortWB l).Perm l)
    (hq : ∀ q, q ≠ [] → L.pqTop q < q.length) (E : Env) (s : State) (boxes : BoxArray)
    (nprocs : Nat) (hb : 1 ≤ boxes.length) (hn : 1 ≤ nprocs) (pm : List Int)
    (hlen : pm.length = boxes.length + 1) :
    ∃ fuel0, ∀ fuel, fuel0 ≤ fuel →
      ∃ pm', KnapSackProcessorMap L E s fuel boxes nprocs pm = .ok pm' ∧
        GoodMap boxes.length nprocs E.MyProc pm' := by
  by_cases hc : boxes.length ≤ nprocs ∨ nprocs < 2
  · refine ⟨0, ?_⟩
    intro fuel _
    obtain ⟨pm', h1, h2⟩ := RoundRobinProcessorMap_good E boxes nprocs pm hb hlen hn
    refine ⟨pm', ?_, h2⟩
    unfold KnapSackProcessorMap
    rw [if_neg (by omega), if_neg (by simp [hlen]), if_pos hc]
    exact h1
  · obtain ⟨fuel0, hk⟩ := KnapSackDoIt_good L hs hq E s (boxes.map Box.numPts) nprocs hn true pm
      (by simpa using hlen)
    refine ⟨fuel0, ?_⟩
    intro fuel hf
    obtain ⟨pm', eff, h1, h2⟩ := hk fuel hf
    refine ⟨pm', ?_, by simpa using h2⟩
    unfold KnapSackProcessorMap
    rw [if_neg (by omega), if_neg (by simp [hlen]), if_neg hc]
    simp only
    rw [h1]

theorem KnapSackProcessorMapW_good (L : StdLib) (hs : ∀ l, (L.sortWB l).Perm l)
    (hq : ∀ q, q ≠ [] → L.pqTop q < q.length) (E : Env) (s : State) (wgts : List Int)
    (nprocs : Nat) (hb : 1 ≤ wgts.length) (hn : 1 ≤ nprocs) (do_full_knapsack : Bool)
    (pm : List Int) :
    ∃ fuel0, ∀ fuel, fuel0 ≤ fuel →
      ∃ pm' eff, KnapSackProcessorMapW L E s fuel wgts nprocs do_full_knapsack pm
          = .ok (pm', eff) ∧ GoodMap wgts.length nprocs E.MyProc pm' := by
  have hl : (if pm.length ≠ wgts.length + 1 then resize pm (wgts.length + 1) else pm).length
      = wgts.length + 1 := by
    split_ifs with h
    · exact resize_length _ _
    · push_neg at h; exact h
  by_cases hc : wgts.length ≤ nprocs ∨ nprocs < 2
  · refine ⟨0, ?_⟩
    intro fuel _
    obtain ⟨pm', h1, h2⟩ := RoundRobinProcessorMapN_good E wgts.length nprocs
      (if pm.length ≠ wgts.length + 1 then resize pm (wgts.length + 1) else pm) hb hn
    refine ⟨pm', Dbl.ofInt 1, ?_, h2⟩
    unfold KnapSackProcessorMapW
    rw [if_neg (by omega)]
    simp only
    rw [if_pos hc, h1]
  · obtain ⟨fuel0, hk⟩ := KnapSackDoIt_good L hs hq E s wgts nprocs hn do_full_knapsack _ hl
    refine ⟨fuel0, ?_⟩
    intro fuel hf
    obtain ⟨pm', eff, h1, h2⟩ := hk fuel hf
    refine ⟨pm', eff, ?_, h2⟩
    unfold KnapSackProcessorMapW
    rw [if_neg (by omega)]
    simp only
    rw [if_neg hc, h1]

/-! ## Lemmas on the curve strategies and on the call through `m_BuildMap` -/

theorem enum_map_getD {α β : Type} (l : List α) (f : α → β) (d : β) :
    l.enum.map (fun p => (l.map f).getD p.1 d) = l.map f := by
  apply List.ext_getElem
  · simp
  · intro i h1 h2
    simp only [List.getElem_map, List.getElem_enum]
    rw [List.getD_eq_getElem _ _ (by simpa using h2)]
    simp

theorem range_map_getD {α β : Type} (l : List α) (f : α → β) (d : α) :
    (List.range l.length).map (fun i => f (l.getD i d)) = l.map f := by
  apply List.ext_getElem
  · simp
  · intro i h1 h2
    simp only [List.getElem_map, List.getElem_range]
    rw [List.getD_eq_getElem _ _ (by simpa using h2)]

theorem foldl_add_eq_sum {α : Type} (f : α → Int) : ∀ (l : List α) (init : Int),
    l.foldl (fun a x => a + f x) init = init + (l.map f).sum := by
  intro l
  induction l with
  | nil => intro init; simp
  | cons x l ih => intro init; simp [ih]; ring

theorem foldl_toLong_eq_sum : ∀ (tokens : List PFCToken) (init : Int),
    (∀ t ∈ tokens, t.m_vol.den = 1) →
    tokens.foldl (fun a t => ((Dbl.ofInt a).add t.m_vol).toLong) init
      = init + (tokens.map (fun t => t.m_vol.num)).sum := by
  intro tokens
  induction tokens with
  | nil => intro init _; simp
  | cons t tokens ih =>
    intro init h
    rw [List.foldl_cons, ih _ (fun t' ht' => h t' (List.mem_cons_of_mem _ ht'))]
    have hd := h t (List.mem_cons_self _ _)
    simp [Dbl.ofInt, Dbl.add, Dbl.toLong, hd]
    ring

theorem assignRuns_eq (s : State) (vec : List (List Nat)) (nprocs : Nat) (pm : List Int) :
    assignRuns s vec nprocs pm =
      writeAll (((List.range nprocs).map (fun i =>
        (vec.getD i []).map (fun b => (b, ProximityMap s i)))).flatten) pm := by
  unfold assignRuns writeAll
  rw [List.foldl_flatten, List.foldl_map]
  congr 1
  funext pm i
  rw [List.foldl_map]

theorem assignRuns_good (s : State) (N nprocs r : Nat) (vec : List (List Nat)) (pm : List Int)
    (hvl : vec.length = nprocs) (hvp : vec.flatten.Perm (List.range N))
    (hprox : ∀ i, i < nprocs → 0 ≤ ProximityMap s i ∧ ProximityMap s i < (nprocs : Int))
    (hlen : pm.length = N + 1) :
    GoodMap N nprocs r ((assignRuns s vec nprocs pm).set N r) := by
  rw [assignRuns_eq]
  apply goodMap_of_writes _ _ _ _ _ hlen
  · intro w hw
    obtain ⟨l, hl, hwl⟩ := List.mem_flatten.mp hw
    obtain ⟨i, hi, hie⟩ := List.mem_map.mp hl
    rw [← hie] at hwl
    obtain ⟨b, _, hb⟩ := List.mem_map.mp hwl
    rw [← hb]
    exact hprox i (List.mem_range.mp hi)
  · intro i hi
    have hm : i ∈ vec.flatten := hvp.mem_iff.mpr (List.mem_range.mpr hi)
    obtain ⟨j, hj, hij⟩ := mem_flatten_getD vec i hm
    refine List.mem_map.mpr ⟨(i, ProximityMap s j), ?_, rfl⟩
    refine List.mem_flatten.mpr ⟨_, List.mem_map.mpr ⟨j, List.mem_range.mpr (by omega), rfl⟩, ?_⟩
    exact List.mem_map.mpr ⟨i, hij, rfl⟩

theorem SFCProcessorMapDoIt_good (L : StdLib) (hsfc : ∀ d m l, (L.sortSFC d m l).Perm l)
    (E : Env) (boxes : BoxArray) (wgts : List Int) (nprocs : Nat) (hn : 1 ≤ nprocs)
    (pm : List Int) (hlen : pm.length = boxes.length + 1) :
    ∃ pm' m, SFCProcessorMapDoIt L E boxes wgts nprocs pm = .ok (pm', m) ∧
      GoodMap boxes.length nprocs E.MyProc pm' := by
  unfold SFCProcessorMapDoIt
  simp only
  generalize hm : maxPowerLoop (List.foldl (fun m token => maxijkStep E.BL_SPACEDIM m token.m_idx) 0
        (List.map (fun p => ({ m_box := p.1, m_idx := p.2.smallEnd, m_vol := Dbl.ofInt (wgts.getD p.1 0) } : SFCToken))
          boxes.enum)) 32 0 = m
  generalize htk : L.sortSFC E.BL_SPACEDIM m (List.map (fun p => ({ m_box := p.1, m_idx := p.2.smallEnd, m_vol := Dbl.ofInt (wgts.getD p.1 0) } : SFCToken))
          boxes.enum) = tokens
  have hperm : (tokens.map SFCToken.m_box).Perm (List.range boxes.length) := by
    rw [← htk]
    refine ((hsfc _ _ _).map _).trans ?_
    rw [List.map_map]
    have : (SFCToken.m_box ∘ fun p : Nat × Box => ({ m_box := p.1, m_idx := p.2.smallEnd, m_vol := Dbl.ofInt (wgts.getD p.1 0) } : SFCToken)) = Prod.fst := rfl
    rw [this, List.enum_map_fst]
  obtain ⟨vec, hd, hvl, hvf⟩ := Distribute_spec tokens nprocs
    ((tokens.foldl (fun a t => a.add t.m_vol) (Dbl.ofInt 0)).divInt nprocs) hn
  rw [hd]
  refine ⟨_, m, rfl, ?_⟩
  exact assignBins_good _ _ _ _ _ _ _ hvl (by rw [hvf]; exact hperm) (sortedPairs_perm _ _ _)
    (LeastUsedCPUs_lt E nprocs hn) hlen

theorem SFCProcessorMap_good (L : StdLib) (hs : ∀ l, (L.sortWB l).Perm l)
    (hsfc : ∀ d m l, (L.sortSFC d m l).Perm l)
    (hq : ∀ q, q ≠ [] → L.pqTop q < q.length) (E : Env) (s : State) (boxes : BoxArray)
    (nprocs : Nat) (hb : 1 ≤ boxes.length) (hn : 1 ≤ nprocs) (pm : List Int) :
    ∃ fuel0, ∀ fuel, fuel0 ≤ fuel →
      ∃ pm' m, SFCProcessorMap L E s fuel boxes nprocs pm = .ok (pm', m) ∧
        GoodMap boxes.length nprocs E.MyProc pm' := by
  have hl : (if pm.length ≠ boxes.length + 1 then resize pm (boxes.length + 1) else pm).length
      = boxes.length + 1 := by
    split_ifs with h
    · exact resize_length _ _
    · push_neg at h; exact h
  by_cases hc : (boxes.length : Int) < s.sfc_threshold * nprocs
  · obtain ⟨fuel0, hk⟩ := KnapSackProcessorMap_good L hs hq E s boxes nprocs hb hn _ hl
    refine ⟨fuel0, ?_⟩
    intro fuel hf
    obtain ⟨pm', h1, h2⟩ := hk fuel hf
    refine ⟨pm', s.MaxPower, ?_, h2⟩
    unfold SFCProcessorMap
    rw [if_neg (by omega)]
    simp only
    rw [if_pos hc, h1]
  · refine ⟨0, ?_⟩
    intro fuel _
    obtain ⟨pm', m, h1, h2⟩ := SFCProcessorMapDoIt_good L hsfc E boxes (boxes.map Box.volume)
      nprocs hn _ hl
    refine ⟨pm', m, ?_, h2⟩
    unfold SFCProcessorMap
    rw [if_neg (by omega)]
    simp only
    rw [if_neg hc, h1]

theorem PFCProcessorMap_good (L : StdLib) (hs : ∀ l, (L.sortWB l).Perm l)
    (hpfc : ∀ l, (L.sortPFC l).Perm l)
    (hq : ∀ q, q ≠ [] → L.pqTop q < q.length) (E : Env) (s : State) (boxes : BoxArray)
    (nprocs : Nat) (hb : 1 ≤ boxes.length) (hn : 1 ≤ nprocs) (pm : List Int)
    (hprox : ∀ i, i < nprocs → 0 ≤ ProximityMap s i ∧ ProximityMap s i < (nprocs : Int)) :
    ∃ fuel0, ∀ fuel, fuel0 ≤ fuel →
      ∃ pm', PFCProcessorMap L E s fuel boxes nprocs pm = .ok pm' ∧
        GoodMap boxes.length nprocs E.MyProc pm' := by
  have hl : (if pm.length ≠ boxes.length + 1 then resize pm (boxes.length + 1) else pm).length
      = boxes.length + 1 := by
    split_ifs with h
    · exact resize_length _ _
    · push_neg at h; exact h
  obtain ⟨fuel0, hk⟩ := KnapSackProcessorMap_good L hs hq E s boxes nprocs hb hn _ hl
  refine ⟨fuel0, ?_⟩
  intro fuel hf
  obtain ⟨pm1, h1, h2⟩ := hk fuel hf
  unfold PFCProcessorMap
  rw [if_neg (by omega)]
  simp only
  unfold PFCProcessorMapDoIt
  simp only
  generalize htk : L.sortPFC (List.map (fun p => (⟨p.1, p.2.smallEnd, Dbl.ofInt ((boxes.map Box.numPts).getD p.1 0)⟩ : PFCToken)) boxes.enum) = tokens
  have hp : tokens.Perm (List.map (fun p => (⟨p.1, p.2.smallEnd, Dbl.ofInt ((boxes.map Box.numPts).getD p.1 0)⟩ : PFCToken)) boxes.enum) := by
    rw [← htk]; exact hpfc _
  have hlen : tokens.length = boxes.length := by simpa using hp.length_eq
  have hden : ∀ t ∈ tokens, t.m_vol.den = 1 := by
    intro t ht
    obtain ⟨p, _, hpe⟩ := List.mem_map.mp (hp.mem_iff.mp ht)
    rw [← hpe]; rfl
  have htnc : tokens.foldl (fun a t => ((Dbl.ofInt a).add t.m_vol).toLong) 0
      = (List.range tokens.length).foldl
          (fun a i => a + (boxes.getD i ⟨[], 0, 0⟩).numPts) 0 := by
    rw [foldl_toLong_eq_sum _ _ hden, foldl_add_eq_sum (fun i => (boxes.getD i ⟨[], 0, 0⟩).numPts),
      hlen, range_map_getD boxes Box.numPts ⟨[], 0, 0⟩]
    rw [(hp.map (fun t => t.m_vol.num)).sum_eq, List.map_map]
    have : ((fun t : PFCToken => t.m_vol.num) ∘ fun p : Nat × Box => (⟨p.1, p.2.smallEnd, Dbl.ofInt ((boxes.map Box.numPts).getD p.1 0)⟩ : PFCToken))
        = fun p : Nat × Box => (boxes.map Box.numPts).getD p.1 0 := rfl
    rw [this, enum_map_getD]
  rw [if_neg (by rw [htnc]; simp), h1]
  simp only
  refine ⟨_, rfl, ?_⟩
  have hd := distributeLoop_spec (tokens.map (fun t => (t.m_box, t.m_vol))) nprocs
    (fun i => Dbl.ofInt ((newVolPerCPUOf boxes nprocs pm1).getD i 0)) nprocs 0 0 (Dbl.ofInt 0)
    (List.replicate nprocs []) (distInv_start _ nprocs hn)
  apply assignRuns_good s _ _ _ _ _ hd.1 _ hprox h2.1
  rw [hd.2, List.map_map]
  have e : (Prod.fst ∘ fun t : PFCToken => (t.m_box, t.m_vol)) = PFCToken.m_box := rfl
  rw [e]
  refine (hp.map _).trans ?_
  rw [List.map_map]
  have e2 : (PFCToken.m_box ∘ fun p : Nat × Box => (⟨p.1, p.2.smallEnd, Dbl.ofInt ((boxes.map Box.numPts).getD p.1 0)⟩ : PFCToken)) = Prod.fst := rfl
  rw [e2, List.enum_map_fst]

theorem callBuildMap_good (L : StdLib) (hL : L.Permutes) (E : Env) (s : State) (f : PVMF)
    (boxes : BoxArray) (nprocs : Nat) (hb : 1 ≤ boxes.length) (hn : 1 ≤ nprocs) (pm : List Int)
    (hlen : pm.length = boxes.length + 1)
    (hprox : f = PVMF.PFCProcessorMap →
      ∀ i, i < nprocs → 0 ≤ ProximityMap s i ∧ ProximityMap s i < (nprocs : Int)) :
    ∃ fuel0, ∀ fuel, fuel0 ≤ fuel →
      ∃ pm' m, callBuildMap L E s fuel f boxes nprocs pm = .ok (pm', m) ∧
        GoodMap boxes.length nprocs E.MyProc pm' := by
  obtain ⟨hs, hsfc, hpfc, hq⟩ := hL
  cases f with
  | RoundRobinProcessorMap =>
    refine ⟨0, ?_⟩
    intro fuel _
    obtain ⟨pm', h1, h2⟩ := RoundRobinProcessorMap_good E boxes nprocs pm hb hlen hn
    exact ⟨pm', s.MaxPower, by unfold callBuildMap; simp only; rw [h1], h2⟩
  | KnapSackProcessorMap =>
    obtain ⟨fuel0, hk⟩ := KnapSackProcessorMap_good L hs hq E s boxes nprocs hb hn pm hlen
    refine ⟨fuel0, ?_⟩
    intro fuel hf
    obtain ⟨pm', h1, h2⟩ := hk fuel hf
    exact ⟨pm', s.MaxPower, by unfold callBuildMap; simp only; rw [h1], h2⟩
  | SFCProcessorMap =>
    exact SFCProcessorMap_good L hs hsfc hq E s boxes nprocs hb hn pm
  | PFCProcessorMap =>
    obtain ⟨fuel0, hk⟩ := PFCProcessorMap_good L hs hpfc hq E s boxes nprocs hb hn pm (hprox rfl)
    refine ⟨fuel0, ?_⟩
    intro fuel hf
    obtain ⟨pm', h1, h2⟩ := hk fuel hf
    exact ⟨pm', s.MaxPower, by unfold callBuildMap; simp only; rw [h1], h2⟩

/-! ## Lemmas on `define` and on the library instance -/

theorem defineEntry_fields (L : StdLib) (E : Env) (s : State) (this : Nat) (boxes : BoxArray) :
    (defineEntry L E s this boxes).m_BuildMap = (Initialize L E s).m_BuildMap ∧
    (defineEntry L E s this boxes).proximityMap = (Initialize L E s).proximityMap ∧
    (defineEntry L E s this boxes).initialized = true := by
  unfold defineEntry
  split_ifs
  · exact ⟨rfl, rfl, Initialize_initialized L E s⟩
  · exact ⟨rfl, rfl, Initialize_initialized L E s⟩

/-- A miss of `define`: with more than one worker, at least one box, no entry in the cache
under `N + 1` and a build function bound after `Initialize`, `define` returns, on enough
fuel, with the object on its own `Ref`, which holds a good map and is now in the cache. -/
theorem define_miss (L : StdLib) (hL : L.Permutes) (E : Env) (s : State) (this : Nat)
    (boxes : BoxArray) (nprocs : Nat) (f : PVMF) (hb : 1 ≤ boxes.length) (hn : 1 < nprocs)
    (hthis : this < s.heap.length)
    (hc : mapFind s.m_Cache (boxes.length + 1) = none)
    (hf : (Initialize L E s).m_BuildMap = some f)
    (hprox : f = PVMF.PFCProcessorMap → ∀ i, i < nprocs →
      0 ≤ ProximityMap (Initialize L E s) i ∧ ProximityMap (Initialize L E s) i < (nprocs : Int)) :
    ∃ fuel0, ∀ fuel, fuel0 ≤ fuel →
      ∃ s', define L E fuel s this boxes nprocs = .ok (s', this) ∧
        GoodMap boxes.length nprocs E.MyProc (pmapOf s' this) ∧
        mapFind s'.m_Cache (boxes.length + 1) = some this ∧
        (∀ k, k ≠ boxes.length + 1 → mapFind s'.m_Cache k = mapFind s.m_Cache k) ∧
        (∀ r, r ≠ this → pmapOf s' r = pmapOf s r) ∧ s'.initialized = true := by
  obtain ⟨hbm, hpx, hini⟩ := defineEntry_fields L E s this boxes
  have hlen := defineEntry_length L E s this boxes hthis
  have hhl : this < (defineEntry L E s this boxes).heap.length := by
    rw [defineEntry_heap_length]; exact hthis
  obtain ⟨fuel0, hk⟩ := callBuildMap_good L hL E (defineEntry L E s this boxes) f boxes nprocs hb
    (by omega) (pmapOf (defineEntry L E s this boxes) this) hlen
    (by
      intro hfp i hi
      have hp := hprox hfp i hi
      unfold ProximityMap at hp ⊢
      rw [hpx]; exact hp)
  refine ⟨fuel0, ?_⟩
  intro fuel hfl
  obtain ⟨pm', m, h1, h2⟩ := hk fuel hfl
  have hcache : (defineEntry L E s this boxes).m_Cache = s.m_Cache := defineEntry_cache L E s this boxes
  refine ⟨{ setPmap (defineEntry L E s this boxes) this pm' with
      MaxPower := m
      m_Cache := mapInsert (defineEntry L E s this boxes).m_Cache pm'.length this }, ?_, ?_, ?_, ?_, ?_, ?_⟩
  · rw [define_eq, if_neg (by omega)]
    unfold GetMap
    simp only
    rw [if_neg (by rw [hlen]; simp), hcache, hc]
    simp only
    rw [hbm, hf]
    simp only
    rw [h1]
  · have e : pmapOf { setPmap (defineEntry L E s this boxes) this pm' with
        MaxPower := m
        m_Cache := mapInsert (defineEntry L E s this boxes).m_Cache pm'.length this } this = pm' :=
      pmapOf_setPmap_self _ _ _ hhl
    rw [e]; exact h2
  · show mapFind (mapInsert (defineEntry L E s this boxes).m_Cache pm'.length this) _ = _
    rw [hcache, h2.1, mapFind_mapInsert _ _ _ _ hc, if_pos rfl]
  · intro k hk'
    show mapFind (mapInsert (defineEntry L E s this boxes).m_Cache pm'.length this) _ = _
    rw [hcache, h2.1, mapFind_mapInsert _ _ _ _ hc, if_neg hk']
  · intro r hr
    have e : pmapOf { setPmap (defineEntry L E s this boxes) this pm' with
        MaxPower := m
        m_Cache := mapInsert (defineEntry L E s this boxes).m_Cache pm'.length this } r
        = pmapOf (defineEntry L E s this boxes) r := pmapOf_setPmap_other _ _ _ _ hr
    rw [e]
    exact defineEntry_other L E s this r boxes hr
  · exact hini

theorem exists_lightest : ∀ (q : List WeightedBoxList), q ≠ [] →
    ∃ a ∈ q, ∀ b ∈ q, a.weight ≤ b.weight := by
  intro q
  induction q with
  | nil => intro h; exact absurd rfl h
  | cons x q ih =>
    intro _
    by_cases hq : q = []
    · subst hq
      exact ⟨x, List.mem_cons_self _ _, by intro b hb; simp at hb; rw [hb]⟩
    · obtain ⟨a, ha, hmin⟩ := ih hq
      by_cases hx : x.weight ≤ a.weight
      · refine ⟨x, List.mem_cons_self _ _, ?_⟩
        intro b hb
        rcases List.mem_cons.mp hb with h | h
        · rw [h]
        · exact le_trans hx (hmin b h)
      · refine ⟨a, List.mem_cons_of_mem _ ha, ?_⟩
        intro b hb
        rcases List.mem_cons.mp hb with h | h
        · rw [h]; omega
        · exact hmin b h

theorem stdlib_permutes : stdlib.Permutes := by
  refine ⟨fun l => List.perm_insertionSort _ l, fun d m l => List.perm_insertionSort _ l,
    fun l => List.perm_insertionSort _ l, ?_⟩
  intro q hq
  obtain ⟨a, ha, hmin⟩ := exists_lightest q hq
  apply List.findIdx_lt_length_of_exists
  exact ⟨a, ha, by simpa using hmin⟩

/-! ## Lemmas: the shape of the map that a build function returns -/

theorem foldl_set_length {α : Type} (g : α → Nat) (v : α → Int) :
    ∀ (l : List α) (pm : List Int), (l.foldl (fun pm i => pm.set (g i) (v i)) pm).length = pm.length := by
  intro l
  induction l with
  | nil => intro pm; rfl
  | cons a l ih => intro pm; rw [List.foldl_cons, ih]; simp

theorem shaped_set (N r : Nat) (pm : List Int) (h : pm.length = N + 1) :
    Shaped N r (pm.set N r) :=
  ⟨by simp [h], getD_set_self _ _ _ _ (by omega)⟩

theorem resized_length (pm : List Int) (n : Nat) :
    (if pm.length ≠ n then resize pm n else pm).length = n := by
  split_ifs with h
  · exact resize_length _ _
  · push_neg at h; exact h

theorem RoundRobinDoIt_shaped (E : Env) (nboxes nprocs : Nat) (LIpairV : Option (List LIpair))
    (pm pm' : List Int) (h : RoundRobinDoIt E nboxes nprocs LIpairV pm = .ok pm')
    (hlen : pm.length = nboxes + 1) : Shaped nboxes E.MyProc pm' := by
  unfold RoundRobinDoIt at h
  cases LIpairV with
  | none =>
    simp only [Except.ok.injEq] at h
    rw [← h]
    exact shaped_set _ _ _ (by rw [foldl_set_length]; exact hlen)
  | some v =>
    simp only at h
    split_ifs at h
    simp only [Except.ok.injEq] at h
    rw [← h]
    exact shaped_set _ _ _ (by rw [foldl_set_length]; exact hlen)

theorem RoundRobinProcessorMapN_shaped (E : Env) (nboxes nprocs : Nat) (pm pm' : List Int)
    (h : RoundRobinProcessorMapN E nboxes nprocs pm = .ok pm') : Shaped nboxes E.MyProc pm' := by
  unfold RoundRobinProcessorMapN at h
  by_cases h0 : nboxes = 0
  · rw [if_pos h0] at h; cases h
  · rw [if_neg h0] at h
    exact RoundRobinDoIt_shaped E nboxes nprocs none _ pm' h (resized_length _ _)

theorem RoundRobinProcessorMap_shaped (E : Env) (boxes : BoxArray) (nprocs : Nat)
    (pm pm' : List Int) (h : RoundRobinProcessorMap E boxes nprocs pm = .ok pm') :
    Shaped boxes.length E.MyProc pm' := by
  unfold RoundRobinProcessorMap at h
  split_ifs at h with h1 h2
  push_neg at h2
  exact RoundRobinDoIt_shaped E boxes.length nprocs _ _ pm' h h2

theorem KnapSackDoIt_shaped (L : StdLib) (E : Env) (s : State) (fuel : Nat) (wgts : List Int)
    (nprocs : Nat) (full : Bool) (pm pm' : List Int) (eff : Dbl)
    (h : KnapSackDoIt L E s fuel wgts nprocs full pm = .ok (pm', eff))
    (hlen : pm.length = wgts.length + 1) : Shaped wgts.length E.MyProc pm' := by
  unfold KnapSackDoIt at h
  cases hk : knapsack L s.max_efficiency fuel wgts nprocs full with
  | none => rw [hk] at h; cases h
  | some ve =>
    obtain ⟨vec, e⟩ := ve
    rw [hk] at h
    simp only at h
    split_ifs at h
    simp only [Except.ok.injEq, Prod.mk.injEq] at h
    rw [← h.1]
    exact shaped_set _ _ _ (by rw [assignBins_eq, writeAll_length]; exact hlen)

theorem KnapSackProcessorMap_shaped (L : StdLib) (E : Env) (s : State) (fuel : Nat)
    (boxes : BoxArray) (nprocs : Nat) (pm pm' : List Int)
    (h : KnapSackProcessorMap L E s fuel boxes nprocs pm = .ok pm') :
    Shaped boxes.length E.MyProc pm' := by
  unfold KnapSackProcessorMap at h
  split_ifs at h with h1 h2 h3
  · exact RoundRobinProcessorMap_shaped E boxes nprocs pm pm' h
  · push_neg at h2
    simp only at h
    cases hk : KnapSackDoIt L E s fuel (boxes.map Box.numPts) nprocs true pm with
    | error e => rw [hk] at h; cases h
    | ok pe =>
      obtain ⟨p, e⟩ := pe
      rw [hk] at h
      simp only [Except.ok.injEq] at h
      rw [← h]
      simpa using KnapSackDoIt_shaped L E s fuel _ nprocs true pm p e hk (by simpa using h2)

theorem SFCProcessorMapDoIt_shaped (L : StdLib) (E : Env) (boxes : BoxArray) (wgts : List Int)
    (nprocs : Nat) (pm pm' : List Int) (m : Nat)
    (h : SFCProcessorMapDoIt L E boxes wgts nprocs pm = .ok (pm', m))
    (hlen : pm.length = boxes.length + 1) : Shaped boxes.length E.MyProc pm' := by
  unfold SFCProcessorMapDoIt at h
  simp only at h
  split at h
  · cases h
  · simp only [Except.ok.injEq, Prod.mk.injEq] at h
    rw [← h.1]
    exact shaped_set _ _ _ (by rw [assignBins_eq, writeAll_length]; exact hlen)

theorem SFCProcessorMap_shaped (L : StdLib) (E : Env) (s : State) (fuel : Nat)
    (boxes : BoxArray) (nprocs : Nat) (pm pm' : List Int) (m : Nat)
    (h : SFCProcessorMap L E s fuel boxes nprocs pm = .ok (pm', m)) :
    Shaped boxes.length E.MyProc pm' := by
  unfold SFCProcessorMap at h
  by_cases h0 : boxes.length = 0
  · rw [if_pos h0] at h; cases h
  rw [if_neg h0] at h
  simp only at h
  by_cases h1 : (boxes.length : Int) < s.sfc_threshold * nprocs
  · rw [if_pos h1] at h
    cases hk : KnapSackProcessorMap L E s fuel boxes nprocs
        (if pm.length ≠ boxes.length + 1 then resize pm (boxes.length + 1) else pm) with
    | error e => rw [hk] at h; cases h
    | ok p =>
      rw [hk] at h
      simp only [Except.ok.injEq, Prod.mk.injEq] at h
      rw [← h.1]
      exact KnapSackProcessorMap_shaped L E s fuel boxes nprocs _ p hk
  · rw [if_neg h1] at h
    exact SFCProcessorMapDoIt_shaped L E boxes _ nprocs _ pm' m h (resized_length _ _)

theorem PFCProcessorMap_shaped (L : StdLib) (E : Env) (s : State) (fuel : Nat)
    (boxes : BoxArray) (nprocs : Nat) (pm pm' : List Int)
    (h : PFCProcessorMap L E s fuel boxes nprocs pm = .ok pm') :
    Shaped boxes.length E.MyProc pm' := by
  unfold PFCProcessorMap at h
  by_cases h0 : boxes.length = 0
  · rw [if_pos h0] at h; cases h
  rw [if_neg h0] at h
  simp only at h
  unfold PFCProcessorMapDoIt at h
  simp only at h
  split at h
  · cases h
  cases hk : KnapSackProcessorMap L E s fuel boxes nprocs
      (if pm.length ≠ boxes.length + 1 then resize pm (boxes.length + 1) else pm) with
  | error e => rw [hk] at h; cases h
  | ok p =>
    rw [hk] at h
    simp only [Except.ok.injEq] at h
    rw [← h]
    have hp := KnapSackProcessorMap_shaped L E s fuel boxes nprocs _ p hk
    exact shaped_set _ _ _ (by rw [assignRuns_eq, writeAll_length]; exact hp.1)

theorem callBuildMap_shaped (L : StdLib) (E : Env) (s : State) (fuel : Nat) (f : PVMF)
    (boxes : BoxArray) (nprocs : Nat) (pm pm' : List Int) (m : Nat)
    (h : callBuildMap L E s fuel f boxes nprocs pm = .ok (pm', m)) :
    Shaped boxes.length E.MyProc pm' := by
  unfold callBuildMap at h
  cases f with
  | RoundRobinProcessorMap =>
    simp only at h
    cases hk : RoundRobinProcessorMap E boxes nprocs pm with
    | error e => rw [hk] at h; cases h
    | ok p =>
      rw [hk] at h
      simp only [Except.ok.injEq, Prod.mk.injEq] at h
      rw [← h.1]
      exact RoundRobinProcessorMap_shaped E boxes nprocs pm p hk
  | KnapSackProcessorMap =>
    simp only at h
    cases hk : KnapSackProcessorMap L E s fuel boxes nprocs pm with
    | error e => rw [hk] at h; cases h
    | ok p =>
      rw [hk] at h
      simp only [Except.ok.injEq, Prod.mk.injEq] at h
      rw [← h.1]
      exact KnapSackProcessorMap_shaped L E s fuel boxes nprocs pm p hk
  | SFCProcessorMap => exact SFCProcessorMap_shaped L E s fuel boxes nprocs pm pm' m h
  | PFCProcessorMap =>
    simp only at h
    cases hk : PFCProcessorMap L E s fuel boxes nprocs pm with
    | error e => rw [hk] at h; cases h
    | ok p =>
      rw [hk] at h
      simp only [Except.ok.injEq, Prod.mk.injEq] at h
      rw [← h.1]
      exact PFCProcessorMap_shaped L E s fuel boxes nprocs pm p hk

/-! ## Lemmas: hits of the cache -/

theorem resize_getD (pm : List Int) (n i : Nat) (h : i < n) :
    (resize pm n).getD i 0 = pm.getD i 0 := by
  unfold resize
  simp only [List.getD_eq_getElem?_getD]
  by_cases hi : i < pm.length
  · rw [List.getElem?_append_left (by simp; omega), List.getElem?_take_of_lt h]
  · rw [List.getElem?_append_right (by simp; omega), List.getElem?_eq_none (by omega : pm.length ≤ i)]
    simp only [List.getElem?_replicate]
    split_ifs <;> rfl

theorem defineEntry_sentinel (L : StdLib) (E : Env) (s : State) (this r : Nat)
    (boxes : BoxArray) (hthis : this < s.heap.length) :
    (pmapOf (defineEntry L E s this boxes) r).getD boxes.length 0
      = (pmapOf s r).getD boxes.length 0 := by
  by_cases e : r = this
  · subst e
    unfold defineEntry
    have hh : r < (Initialize L E s).heap.length := by
      rw [(Initialize_sameStore L E s).1]; exact hthis
    have e0 := pmapOf_congr (Initialize_sameStore L E s).1 r
    split_ifs with hl
    · rw [pmapOf_setPmap_self _ _ _ hh, resize_getD _ _ _ (by omega), e0]
    · rw [e0]
  · rw [defineEntry_other L E s this r boxes e]

/-- A hit of `define`: with a number of workers other than one, when the cache holds under
`N + 1` a `Ref` whose entry `N` is the rank of the process, `define` returns that `Ref`;
the cache and the other `Ref`s are as they were. -/
theorem define_hit (L : StdLib) (E : Env) (fuel : Nat) (s : State) (this : Nat)
    (boxes : BoxArray) (nprocs r : Nat) (hn : nprocs ≠ 1) (hthis : this < s.heap.length)
    (hc : mapFind s.m_Cache (boxes.length + 1) = some r)
    (hsent : (pmapOf s r).getD boxes.length 0 = (E.MyProc : Int)) :
    define L E fuel s this boxes nprocs = .ok (defineEntry L E s this boxes, r) ∧
      (defineEntry L E s this boxes).m_Cache = s.m_Cache ∧
      (∀ r', r' ≠ this → pmapOf (defineEntry L E s this boxes) r' = pmapOf s r') ∧
      ((pmapOf s r).length = boxes.length + 1 →
        pmapOf (defineEntry L E s this boxes) r = pmapOf s r) := by
  refine ⟨?_, defineEntry_cache L E s this boxes,
    fun r' hr' => defineEntry_other L E s this r' boxes hr', ?_⟩
  · rw [define_eq, if_neg hn]
    unfold GetMap
    simp only
    rw [if_neg (by rw [defineEntry_length L E s this boxes hthis]; simp),
      defineEntry_cache, hc]
    simp only
    rw [if_neg (by rw [defineEntry_sentinel L E s this r boxes hthis, hsent]; simp)]
  · intro hlen
    by_cases e : r = this
    · subst e; exact defineEntry_self_of_length L E s r boxes hlen
    · exact defineEntry_other L E s this r boxes e

/-- What a `define` that returns, for a number of workers other than one, leaves behind: the
`Ref` it returns is in the cache under `N + 1` and its entry `N` is the rank. -/
theorem define_ok_inv (L : StdLib) (E : Env) (fuel : Nat) (s : State) (this : Nat)
    (boxes : BoxArray) (nprocs : Nat) (s1 : State) (r1 : Nat) (hn : nprocs ≠ 1)
    (hthis : this < s.heap.length)
    (h : define L E fuel s this boxes nprocs = .ok (s1, r1)) :
    mapFind s1.m_Cache (boxes.length + 1) = some r1 ∧
      (pmapOf s1 r1).getD boxes.length 0 = (E.MyProc : Int) ∧
      s1.heap.length = s.heap.length := by
  have hhl := defineEntry_heap_length L E s this boxes
  rw [define_eq, if_neg hn] at h
  cases hg : GetMap E (defineEntry L E s this boxes) this boxes with
  | error e => rw [hg] at h; cases h
  | ok o =>
    rw [hg] at h
    unfold GetMap at hg
    simp only at hg
    split_ifs at hg with hl
    cases o with
    | some m_ref =>
      simp only [Except.ok.injEq, Prod.mk.injEq] at h
      obtain ⟨rfl, rfl⟩ := h
      cases hm : mapFind (defineEntry L E s this boxes).m_Cache (boxes.length + 1) with
      | none => rw [hm] at hg; simp at hg
      | some m =>
        rw [hm] at hg
        simp only at hg
        split_ifs at hg with hs
        simp only [Except.ok.injEq, Option.some.injEq] at hg
        subst hg
        push_neg at hs
        exact ⟨rfl, hs, hhl⟩
    | none =>
      simp only at h
      have hmiss : mapFind (defineEntry L E s this boxes).m_Cache (boxes.length + 1) = none := by
        cases hm : mapFind (defineEntry L E s this boxes).m_Cache (boxes.length + 1) with
        | none => rfl
        | some m =>
          rw [hm] at hg
          simp only at hg
          split_ifs at hg
          simp at hg
      cases hb : (defineEntry L E s this boxes).m_BuildMap with
      | none => rw [hb] at h; cases h
      | some f =>
        rw [hb] at h
        simp only at h
        cases hc : callBuildMap L E (defineEntry L E s this boxes) fuel f boxes nprocs
            (pmapOf (defineEntry L E s this boxes) this) with
        | error e => rw [hc] at h; cases h
        | ok pmm =>
          obtain ⟨pm', m⟩ := pmm
          rw [hc] at h
          simp only [Except.ok.injEq, Prod.mk.injEq] at h
          obtain ⟨rfl, rfl⟩ := h
          have hsh := callBuildMap_shaped L E _ fuel f boxes nprocs _ pm' m hc
          refine ⟨?_, ?_, ?_⟩
          · show mapFind (mapInsert (defineEntry L E s this boxes).m_Cache pm'.length this) _ = _
            rw [hsh.1, mapFind_mapInsert _ _ _ _ hmiss, if_pos rfl]
          · have e : pmapOf { setPmap (defineEntry L E s this boxes) this pm' with
                MaxPower := m
                m_Cache := mapInsert (defineEntry L E s this boxes).m_Cache pm'.length this }
                this = pm' :=
              pmapOf_setPmap_self _ _ _ (by rw [hhl]; exact hthis)
            rw [e]; exact hsh.2
          · show (List.set _ _ _).length = _
            simp [hhl]

/-! ## The stable sort of pairs -/


theorem LIpairLe_total (a b : LIpair) : LIpairLe a b ∨ LIpairLe b a := by
  unfold LIpairLe; omega

theorem LIpairLe_trans (a b c : LIpair) (h1 : LIpairLe a b) (h2 : LIpairLe b c) :
    LIpairLe a c := by
  unfold LIpairLe at *; omega

/-- Inserting a pair whose index is below every index of the list: the comparison of the
weights alone decides as the order of the pairs does. -/
theorem orderedInsert_comp_eq (a : LIpair) (l : List LIpair) (h : ∀ x ∈ l, a.2 < x.2) :
    l.orderedInsert (fun a b => LIpairComp b a = false) a = l.orderedInsert LIpairLe a := by
  induction l with
  | nil => rfl
  | cons b l ih =>
    have hb : a.2 < b.2 := h b (List.mem_cons_self _ _)
    have e : (LIpairComp b a = false) ↔ LIpairLe a b := by
      unfold LIpairComp LIpairLe; simp only [decide_eq_false_iff_not]; omega
    simp only [List.orderedInsert]
    by_cases hc : LIpairLe a b
    · rw [if_pos (e.2 hc), if_pos hc]
    · rw [if_neg (fun h' => hc (e.1 h')), if_neg hc,
        ih (fun x hx => h x (List.mem_cons_of_mem _ hx))]

/-- On pairs listed by increasing index, `std::stable_sort` with `LIpairComp` is the sort by
the order of the pairs. -/
theorem stable_sort_eq (l : List LIpair) (h : l.Pairwise (fun x y => x.2 < y.2)) :
    stable_sort l = l.insertionSort LIpairLe := by
  unfold stable_sort
  induction l with
  | nil => rfl
  | cons a l ih =>
    rw [List.pairwise_cons] at h
    simp only [List.insertionSort]
    rw [ih h.2]
    apply orderedInsert_comp_eq
    intro x hx
    exact h.1 x ((List.perm_insertionSort _ l).mem_iff.1 hx)

theorem stable_sort_sorted (l : List LIpair) (h : l.Pairwise (fun x y => x.2 < y.2)) :
    (stable_sort l).Pairwise LIpairLe := by
  rw [stable_sort_eq l h]
  exact @List.sorted_insertionSort _ LIpairLe _ ⟨LIpairLe_total⟩ ⟨LIpairLe_trans⟩ l

theorem pairwise_of_length_le_one {α : Type} (r : α → α → Prop) (l : List α)
    (h : ¬ l.length > 1) : l.Pairwise r := by
  match l, h with
  | [], _ => exact List.Pairwise.nil
  | [a], _ => exact List.pairwise_singleton r a
  | _ :: _ :: _, h => simp at h

/-- The member `Sort` without reversal leaves pairs listed by increasing index in the order
of the pairs. -/
theorem SortLIpair_false_sorted (l : List LIpair) (h : l.Pairwise (fun x y => x.2 < y.2)) :
    (SortLIpair l false).Pairwise LIpairLe := by
  unfold SortLIpair
  by_cases hl : l.length > 1
  · rw [if_pos hl]; exact stable_sort_sorted l h
  · rw [if_neg hl]; exact pairwise_of_length_le_one _ l hl

/-- The member `Sort` with reversal leaves pairs listed by increasing index in the opposite
of the order of the pairs. -/
theorem SortLIpair_true_sorted (l : List LIpair) (h : l.Pairwise (fun x y => x.2 < y.2)) :
    (SortLIpair l true).Pairwise (fun a b => LIpairLe b a) := by
  unfold SortLIpair
  by_cases hl : l.length > 1
  · rw [if_pos hl]; simp only [if_true]
    rw [List.pairwise_reverse]
    exact stable_sort_sorted l h
  · rw [if_neg hl]; exact pairwise_of_length_le_one _ l hl

/-- The pairs `(f i, i)` for `i` below `n` are listed by increasing index. -/
theorem range_pairs_increasing (f : Nat → Int) (n : Nat) :
    ((List.range n).map (fun i => ((f i, i) : LIpair))).Pairwise (fun x y => x.2 < y.2) := by
  rw [List.pairwise_map]
  exact List.pairwise_lt_range n

theorem enum_pairs_increasing (boxes : BoxArray) :
    (boxes.enum.map (fun p => ((p.2.numPts, p.1) : LIpair))).Pairwise
      (fun x y => x.2 < y.2) := by
  rw [List.pairwise_map]
  have h : (boxes.enum.map Prod.fst).Pairwise (fun a b => a < b) := by
    rw [List.enum_map_fst]; exact List.pairwise_lt_range _
  rw [List.pairwise_map] at h
  exact h

/-! ## The value that a loop of assignments leaves -/

theorem writeAll_getD_not_mem : ∀ (ws : List (Nat × Int)) (pm : List Int) (i : Nat),
    i ∉ ws.map Prod.fst → (writeAll ws pm).getD i 0 = pm.getD i 0 := by
  intro ws
  induction ws with
  | nil => intro pm i _; rfl
  | cons w ws ih =>
    intro pm i h
    simp only [List.map_cons, List.mem_cons, not_or] at h
    have e : writeAll (w :: ws) pm = writeAll ws (pm.set w.1 w.2) := rfl
    rw [e, ih _ _ h.2]
    exact getD_set_other _ _ _ _ _ (fun h' => h.1 h'.symm)

/-- When no index is written twice, every assignment of the loop is still in the array at
the end. -/
theorem writeAll_getD_eq : ∀ (ws : List (Nat × Int)) (pm : List Int),
    (ws.map Prod.fst).Nodup → ∀ w ∈ ws, w.1 < pm.length → (writeAll ws pm).getD w.1 0 = w.2 := by
  intro ws
  induction ws with
  | nil => intro pm _ w hw; cases hw
  | cons w0 ws ih =>
    intro pm hnd w hw hlt
    rw [List.map_cons, List.nodup_cons] at hnd
    have e : writeAll (w0 :: ws) pm = writeAll ws (pm.set w0.1 w0.2) := rfl
    rw [e]
    rcases List.mem_cons.mp hw with h | h
    · rw [h, writeAll_getD_not_mem _ _ _ hnd.1]
      exact getD_set_self _ _ _ _ (by rw [← h]; exact hlt)
    · exact ih _ hnd.2 w h (by simpa using hlt)

/-! ## The order of the workers -/

theorem LeastUsedCPUs_eq (E : Env) (nprocs : Nat) (h : E.BL_USE_MPI = true) :
    LeastUsedCPUs E nprocs =
      (SortLIpair ((List.range nprocs).map (fun i => ((E.bytes.getD i 0, i) : LIpair)))
        false).map Prod.snd := by
  unfold LeastUsedCPUs
  rw [if_pos h]
  simp only
  have e1 : (List.range nprocs).map
      (fun i => ((((List.range nprocs).map (fun i => E.bytes.getD i 0)).getD i 0, i) : LIpair))
      = (List.range nprocs).map (fun i => ((E.bytes.getD i 0, i) : LIpair)) := by
    apply List.map_congr_left
    intro i hi
    have hi' : i < nprocs := List.mem_range.mp hi
    rw [List.getD_eq_getElem _ _ (by simpa using hi')]
    simp
  rw [e1]
  have hl : (SortLIpair ((List.range nprocs).map (fun i => ((E.bytes.getD i 0, i) : LIpair)))
      false).length = nprocs := by
    simpa using (SortLIpair_perm ((List.range nprocs).map
      (fun i => ((E.bytes.getD i 0, i) : LIpair))) false).length_eq
  have e2 := range_map_getD (SortLIpair ((List.range nprocs).map
    (fun i => ((E.bytes.getD i 0, i) : LIpair))) false) Prod.snd ((0, 0) : LIpair)
  rw [hl] at e2
  exact e2

/-- The order of the workers is a permutation of the ranks. -/
theorem LeastUsedCPUs_perm (E : Env) (nprocs : Nat) :
    (LeastUsedCPUs E nprocs).Perm (List.range nprocs) := by
  by_cases h : E.BL_USE_MPI = true
  · rw [LeastUsedCPUs_eq E nprocs h]
    exact sortedPairs_perm _ _ _
  · unfold LeastUsedCPUs
    rw [if_neg h]

/-- With MPI the order of the workers goes by load, and by rank among equal loads. -/
theorem LeastUsedCPUs_sorted (E : Env) (nprocs : Nat) (h : E.BL_USE_MPI = true) :
    (LeastUsedCPUs E nprocs).Pairwise (fun a b => E.bytes.getD a 0 < E.bytes.getD b 0 ∨
      (E.bytes.getD a 0 = E.bytes.getD b 0 ∧ a < b)) := by
  have hnd : (LeastUsedCPUs E nprocs).Nodup :=
    (LeastUsedCPUs_perm E nprocs).nodup_iff.mpr (List.nodup_range nprocs)
  rw [LeastUsedCPUs_eq E nprocs h] at hnd ⊢
  have hs := SortLIpair_false_sorted _ (range_pairs_increasing (fun i => E.bytes.getD i 0) nprocs)
  have hm : ∀ p ∈ SortLIpair ((List.range nprocs).map
      (fun i => ((E.bytes.getD i 0, i) : LIpair))) false, p.1 = E.bytes.getD p.2 0 := by
    intro p hp
    have hp' := (SortLIpair_perm _ _).mem_iff.mp hp
    obtain ⟨i, _, hi⟩ := List.mem_map.mp hp'
    rw [← hi]
  rw [List.pairwise_map]
  unfold List.Nodup at hnd
  rw [List.pairwise_map] at hnd
  have hall := (hs.and hnd)
  refine hall.imp_of_mem ?_
  intro a b ha hb hab
  obtain ⟨hle, hne⟩ := hab
  unfold LIpairLe at hle
  rw [hm a ha, hm b hb] at hle
  rcases hle with h1 | ⟨h1, h2⟩
  · exact Or.inl h1
  · exact Or.inr ⟨h1, lt_of_le_of_ne h2 hne⟩

/-! ## The assignment of the round robin -/

theorem getD_lt_of_perm (v : List LIpair) (n : Nat) (h : (v.map Prod.snd).Perm (List.range n))
    (i : Nat) (hi : i < n) : (v.getD i (0, 0)).2 < n := by
  have hl : v.length = n := by simpa using h.length_eq
  rw [List.getD_eq_getElem _ _ (by omega)]
  have hm : (v[i]).2 ∈ v.map Prod.snd := List.mem_map.mpr ⟨_, List.getElem_mem _, rfl⟩
  exact List.mem_range.mp (h.mem_iff.mp hm)

/-- The loop of `RoundRobinDoIt` over a list of pairs whose indices are a permutation of
the boxes: the box at place `i` of the list gets the worker `ord[i % nprocs]`. -/
theorem RoundRobinDoIt_exact (E : Env) (nboxes nprocs : Nat) (v : List LIpair)
    (pm : List Int) (hp : (v.map Prod.snd).Perm (List.range nboxes))
    (hlen : pm.length = nboxes + 1) :
    ∃ pm', RoundRobinDoIt E nboxes nprocs (some v) pm = .ok pm' ∧
      ∀ i, i < nboxes → pm'.getD (v.getD i (0, 0)).2 0 =
        (((LeastUsedCPUs E nprocs).getD (i % nprocs) 0 : Nat) : Int) := by
  have hl : v.length = nboxes := by simpa using hp.length_eq
  refine ⟨_, by unfold RoundRobinDoIt; simp only; rw [if_neg (by simp [hl])], ?_⟩
  intro i hi
  have e : (List.range nboxes).foldl
      (fun pm i => pm.set (v.getD i (0, 0)).2
        (((LeastUsedCPUs E nprocs).getD (i % nprocs) 0 : Nat) : Int)) pm
      = writeAll ((List.range nboxes).map
          (fun i => ((v.getD i (0, 0)).2,
            (((LeastUsedCPUs E nprocs).getD (i % nprocs) 0 : Nat) : Int)))) pm := by
    unfold writeAll; rw [List.foldl_map]
  rw [e]
  have hlt := getD_lt_of_perm v nboxes hp i hi
  rw [getD_set_other _ _ _ _ _ (by omega)]
  have hnd : (((List.range nboxes).map
      (fun i => ((v.getD i (0, 0)).2,
        (((LeastUsedCPUs E nprocs).getD (i % nprocs) 0 : Nat) : Int)))).map Prod.fst).Nodup := by
    rw [List.map_map]
    have e2 := range_map_getD v Prod.snd ((0, 0) : LIpair)
    rw [hl] at e2
    have e3 : (Prod.fst ∘ fun i => ((v.getD i (0, 0)).2,
        (((LeastUsedCPUs E nprocs).getD (i % nprocs) 0 : Nat) : Int)))
        = fun i => (v.getD i (0, 0)).2 := rfl
    rw [e3, e2]
    exact hp.nodup_iff.mpr (List.nodup_range nboxes)
  exact writeAll_getD_eq _ pm hnd
    ((v.getD i (0, 0)).2, (((LeastUsedCPUs E nprocs).getD (i % nprocs) 0 : Nat) : Int))
    (List.mem_map.mpr ⟨i, List.mem_range.mpr hi, rfl⟩) (by simp only; omega)

/-- The loop of `RoundRobinDoIt` without a list of pairs: box `i` gets the worker
`ord[i % nprocs]`. -/
theorem RoundRobinDoIt_exact_none (E : Env) (nboxes nprocs : Nat) (pm : List Int)
    (hlen : pm.length = nboxes + 1) :
    ∃ pm', RoundRobinDoIt E nboxes nprocs none pm = .ok pm' ∧
      ∀ i, i < nboxes → pm'.getD i 0 =
        (((LeastUsedCPUs E nprocs).getD (i % nprocs) 0 : Nat) : Int) := by
  refine ⟨_, rfl, ?_⟩
  intro i hi
  have e : (List.range nboxes).foldl
      (fun pm i => pm.set i (((LeastUsedCPUs E nprocs).getD (i % nprocs) 0 : Nat) : Int)) pm
      = writeAll ((List.range nboxes).map
          (fun i => (i, (((LeastUsedCPUs E nprocs).getD (i % nprocs) 0 : Nat) : Int)))) pm := by
    unfold writeAll; rw [List.foldl_map]
  rw [e, getD_set_other _ _ _ _ _ (by omega)]
  have hnd : (((List.range nboxes).map
      (fun i => (i, (((LeastUsedCPUs E nprocs).getD (i % nprocs) 0 : Nat) : Int)))).map
        Prod.fst).Nodup := by
    rw [List.map_map]
    have e3 : (Prod.fst ∘ fun i => (i,
        (((LeastUsedCPUs E nprocs).getD (i % nprocs) 0 : Nat) : Int))) = id := rfl
    rw [e3, List.map_id]
    exact List.nodup_range nboxes
  exact writeAll_getD_eq _ pm hnd
    (i, (((LeastUsedCPUs E nprocs).getD (i % nprocs) 0 : Nat) : Int))
    (List.mem_map.mpr ⟨i, List.mem_range.mpr hi, rfl⟩) (by simp only; omega)

/-- The pairs that `RoundRobinProcessorMap` sorts: the indices are a permutation of the
boxes. -/
theorem enumPairs_perm (boxes : BoxArray) (reverse : Bool) :
    ((SortLIpair (boxes.enum.map (fun p => ((p.2.numPts, p.1) : LIpair))) reverse).map
      Prod.snd).Perm (List.range boxes.length) := by
  refine ((SortLIpair_perm _ _).map _).trans ?_
  rw [List.map_map]
  have : (Prod.snd ∘ fun p : Nat × Box => ((p.2.numPts, p.1) : LIpair)) = Prod.fst := rfl
  rw [this, List.enum_map_fst]

/-- The member `RoundRobinProcessorMap (const BoxArray&, int)`: the box at place `i` of the
sorted list gets the worker `ord[i % nprocs]`. -/
theorem RoundRobinProcessorMap_exact (E : Env) (boxes : BoxArray) (nprocs : Nat)
    (pm : List Int) (hb : 1 ≤ boxes.length) (hlen : pm.length = boxes.length + 1) :
    ∃ pm', RoundRobinProcessorMap E boxes nprocs pm = .ok pm' ∧
      ∀ i, i < boxes.length →
        pm'.getD ((SortLIpair (boxes.enum.map (fun p => ((p.2.numPts, p.1) : LIpair)))
          true).getD i (0, 0)).2 0 =
        (((LeastUsedCPUs E nprocs).getD (i % nprocs) 0 : Nat) : Int) := by
  unfold RoundRobinProcessorMap
  rw [if_neg (by omega), if_neg (by simp [hlen])]
  exact RoundRobinDoIt_exact E boxes.length nprocs _ pm (enumPairs_perm boxes true) hlen

/-! ## As many boxes as workers -/

theorem binsByWeight_perm (vec : List (List Nat)) (wgts : List Int) (nprocs : Nat) :
    ((binsByWeight vec wgts nprocs).map Prod.snd).Perm (List.range nprocs) :=
  sortedPairs_perm _ _ _

/-- The list of the bins goes from the heaviest bin to the lightest, and every pair holds
the weight of the bin of its index. -/
theorem binsByWeight_sorted (vec : List (List Nat)) (wgts : List Int) (nprocs : Nat) :
    (binsByWeight vec wgts nprocs).Pairwise (fun a b => b.1 ≤ a.1) ∧
    ∀ p ∈ binsByWeight vec wgts nprocs, p.1 = (wgtsPerCpu vec wgts).getD p.2 0 := by
  constructor
  · have hs := SortLIpair_true_sorted _
      (range_pairs_increasing (fun i => (wgtsPerCpu vec wgts).getD i 0) nprocs)
    refine hs.imp ?_
    intro a b hle
    unfold LIpairLe at hle
    omega
  · intro p hp
    have hp' := (SortLIpair_perm _ _).mem_iff.mp hp
    obtain ⟨i, _, hi⟩ := List.mem_map.mp hp'
    rw [← hi]

/-- The loop that gives the bins their workers: when the bins hold every box once, every
box of the bin at place `k` of the list of pairs has the worker `ord[k]` at the end. -/
theorem assignBins_exact (N nprocs r : Nat) (vec : List (List Nat)) (LIpairV : List LIpair)
    (ord : List Nat) (pm : List Int) (hvl : vec.length = nprocs)
    (hvp : vec.flatten.Perm (List.range N))
    (hLI : (LIpairV.map Prod.snd).Perm (List.range nprocs)) (hlen : pm.length = N + 1) :
    ∀ k, k < nprocs → ∀ item ∈ vec.getD (LIpairV.getD k (0, 0)).2 [],
      ((assignBins vec LIpairV ord nprocs pm).set N r).getD item 0
        = ((ord.getD k 0 : Nat) : Int) := by
  intro k hk item hitem
  have hLl : LIpairV.length = nprocs := by simpa using hLI.length_eq
  have hfl : ∀ j, ∀ x ∈ vec.getD j [], x ∈ vec.flatten := by
    intro j x hx
    by_cases hj : j < vec.length
    · rw [List.getD_eq_getElem _ _ hj] at hx
      exact List.mem_flatten.mpr ⟨_, List.getElem_mem _, hx⟩
    · rw [List.getD_eq_default _ _ (by omega)] at hx
      cases hx
  have hiN : item < N := List.mem_range.mp (hvp.mem_iff.mp (hfl _ _ hitem))
  rw [assignBins_eq, getD_set_other _ _ _ _ _ (by omega)]
  have hnd : ((((List.range nprocs).map (fun i =>
      (vec.getD (LIpairV.getD i (0, 0)).2 []).map
        (fun lit => (lit, ((ord.getD i 0 : Nat) : Int))))).flatten).map Prod.fst).Nodup := by
    rw [List.map_flatten, List.map_map]
    have e1 : (List.map Prod.fst ∘ fun i => (vec.getD (LIpairV.getD i (0, 0)).2 []).map
        (fun lit => (lit, ((ord.getD i 0 : Nat) : Int))))
        = fun i => vec.getD (LIpairV.getD i (0, 0)).2 [] := by
      funext i
      simp only [Function.comp, List.map_map]
      exact List.map_id _
    rw [e1]
    have e2 := range_map_getD LIpairV (fun p => vec.getD p.2 []) ((0, 0) : LIpair)
    rw [hLl] at e2
    rw [e2]
    have e3 := range_map_getD vec id []
    rw [hvl, List.map_id] at e3
    have hp : (LIpairV.map (fun p => vec.getD p.2 [])).Perm vec := by
      have h1 : (LIpairV.map (fun p => vec.getD p.2 []))
          = (LIpairV.map Prod.snd).map (fun j => vec.getD j []) := by
        rw [List.map_map]; rfl
      rw [h1]
      refine (hLI.map _).trans ?_
      have : (fun j => vec.getD j []) = fun j => id (vec.getD j []) := rfl
      rw [this, e3]
    exact (hp.flatten.trans hvp).nodup_iff.mpr (List.nodup_range N)
  refine writeAll_getD_eq _ pm hnd (item, ((ord.getD k 0 : Nat) : Int)) ?_ (by simp only; omega)
  refine List.mem_flatten.mpr ⟨_, List.mem_map.mpr ⟨k, List.mem_range.mpr hk, rfl⟩, ?_⟩
  exact List.mem_map.mpr ⟨item, hitem, rfl⟩

/-- The member `KnapSackDoIt`: every box of the bin at place `k` of the list from the
heaviest bin on gets the worker `ord[k]`. -/
theorem KnapSackDoIt_pairing (L : StdLib) (hs : ∀ l, (L.sortWB l).Perm l)
    (hq : ∀ q, q ≠ [] → L.pqTop q < q.length) (E : Env) (s : State) (wgts : List Int)
    (nprocs : Nat) (hn : 1 ≤ nprocs) (do_full_knapsack : Bool) (pm : List Int)
    (hlen : pm.length = wgts.length + 1) :
    ∃ fuel0, ∀ fuel, fuel0 ≤ fuel →
      ∃ vec eff pm', knapsack L s.max_efficiency fuel wgts nprocs do_full_knapsack
          = some (vec, eff) ∧
        KnapSackDoIt L E s fuel wgts nprocs do_full_knapsack pm = .ok (pm', eff) ∧
        ∀ k, k < nprocs → ∀ item ∈ vec.getD ((binsByWeight vec wgts nprocs).getD k (0, 0)).2 [],
          pm'.getD item 0 = (((LeastUsedCPUs E nprocs).getD k 0 : Nat) : Int) := by
  obtain ⟨fuel0, hk⟩ := knapsack_spec L hs hq s.max_efficiency wgts nprocs hn do_full_knapsack
  refine ⟨fuel0, ?_⟩
  intro fuel hf
  obtain ⟨vec, eff, hkn, hvl, hvp⟩ := hk fuel hf
  refine ⟨vec, eff, (assignBins vec (binsByWeight vec wgts nprocs)
      (LeastUsedCPUs E nprocs) nprocs pm).set wgts.length E.MyProc, hkn, ?_, ?_⟩
  · unfold KnapSackDoIt
    rw [hkn]
    simp only
    rw [if_neg (by simp [hvl]), hvl]
    rfl
  · exact assignBins_exact _ _ _ _ _ _ _ hvl hvp (binsByWeight_perm _ _ _) hlen

theorem SFCProcessorMapDoIt_eq (L : StdLib) (E : Env) (boxes : BoxArray) (wgts : List Int)
    (nprocs : Nat) (pm : List Int) (vec : List (List Nat))
    (h : sfcRuns L E boxes wgts nprocs = .ok vec) :
    ∃ m, SFCProcessorMapDoIt L E boxes wgts nprocs pm =
      .ok ((assignBins vec (binsByWeight vec wgts nprocs) (LeastUsedCPUs E nprocs) nprocs
        pm).set boxes.length E.MyProc, m) := by
  unfold sfcRuns sfcTokens at h
  unfold SFCProcessorMapDoIt
  simp only
  rw [h]
  exact ⟨_, rfl⟩

theorem sfcRuns_spec (L : StdLib) (hsfc : ∀ d m l, (L.sortSFC d m l).Perm l)
    (E : Env) (boxes : BoxArray) (wgts : List Int) (nprocs : Nat) (hn : 1 ≤ nprocs) :
    ∃ vec, sfcRuns L E boxes wgts nprocs = .ok vec ∧ vec.length = nprocs ∧
      vec.flatten.Perm (List.range boxes.length) := by
  obtain ⟨vec, hd, hvl, hvf⟩ := Distribute_spec (sfcTokens L E boxes wgts) nprocs
    (((sfcTokens L E boxes wgts).foldl (fun a t => a.add t.m_vol) (Dbl.ofInt 0)).divInt nprocs) hn
  refine ⟨vec, hd, hvl, ?_⟩
  rw [hvf]
  unfold sfcTokens
  refine ((hsfc _ _ _).map _).trans ?_
  rw [List.map_map]
  have : (SFCToken.m_box ∘ fun p : Nat × Box =>
      ({ m_box := p.1, m_idx := p.2.smallEnd, m_vol := Dbl.ofInt (wgts.getD p.1 0) } : SFCToken))
      = Prod.fst := rfl
  rw [this, List.enum_map_fst]

/-- The member `SFCProcessorMapDoIt`: every box of the run at place `k` of the list from
the heaviest run on gets the worker `ord[k]`. -/
theorem SFCProcessorMapDoIt_pairing (L : StdLib) (hsfc : ∀ d m l, (L.sortSFC d m l).Perm l)
    (E : Env) (boxes : BoxArray) (wgts : List Int) (nprocs : Nat) (hn : 1 ≤ nprocs)
    (pm : List Int) (hlen : pm.length = boxes.length + 1) :
    ∃ vec pm' m, sfcRuns L E boxes wgts nprocs = .ok vec ∧
      SFCProcessorMapDoIt L E boxes wgts nprocs pm = .ok (pm', m) ∧
      ∀ k, k < nprocs → ∀ item ∈ vec.getD ((binsByWeight vec wgts nprocs).getD k (0, 0)).2 [],
        pm'.getD item 0 = (((LeastUsedCPUs E nprocs).getD k 0 : Nat) : Int) := by
  obtain ⟨vec, h1, hvl, hvp⟩ := sfcRuns_spec L hsfc E boxes wgts nprocs hn
  obtain ⟨m, h2⟩ := SFCProcessorMapDoIt_eq L E boxes wgts nprocs pm vec h1
  exact ⟨vec, _, m, h1, h2,
    assignBins_exact _ _ _ _ _ _ _ hvl hvp (binsByWeight_perm _ _ _) hlen⟩

/-! ## More fuel, same result -/

theorem refine_succ (max_efficiency : Dbl) (do_full_knapsack : Bool) (nprocs : Nat)
    (sum_weight : Int) :
    ∀ (fuel : Nat) (q : List WeightedBoxList) (efficiency : Dbl) (r : List WeightedBoxList × Dbl),
      refine max_efficiency do_full_knapsack nprocs sum_weight fuel q efficiency = some r →
      refine max_efficiency do_full_knapsack nprocs sum_weight (fuel + 1) q efficiency
        = some r := by
  intro fuel
  induction fuel with
  | zero => intro q e r h; simp [refine] at h
  | succ fuel ih =>
    intro q e r h
    cases q with
    | nil => simp [refine] at h
    | cons wbl_top others =>
      unfold refine at h ⊢
      simp only at h ⊢
      by_cases hc : (e.gt max_efficiency || !do_full_knapsack) = true
      · rw [if_pos hc] at h ⊢; exact h
      · rw [if_neg hc] at h ⊢
        cases hf : findWb wbl_top.weight others wbl_top.m_lb 0 with
        | none => rw [hf] at h; exact h
        | some t =>
          obtain ⟨i, c, o⟩ := t
          rw [hf] at h
          simp only at h ⊢
          cases ha : applySwap wbl_top others i c o with
          | none => rw [ha] at h; simp at h
          | some q' =>
            rw [ha] at h
            simp only at h ⊢
            exact ih _ _ _ h

theorem refine_mono (max_efficiency : Dbl) (do_full_knapsack : Bool) (nprocs : Nat)
    (sum_weight : Int) (fuel fuel' : Nat) (hle : fuel ≤ fuel') (q : List WeightedBoxList)
    (efficiency : Dbl) (r : List WeightedBoxList × Dbl)
    (h : refine max_efficiency do_full_knapsack nprocs sum_weight fuel q efficiency = some r) :
    refine max_efficiency do_full_knapsack nprocs sum_weight fuel' q efficiency = some r := by
  induction hle with
  | refl => exact h
  | step _ ih => exact refine_succ _ _ _ _ _ _ _ _ ih

/-- The result of `knapsack` does not depend on the fuel, once there is enough of it. -/
theorem knapsack_mono (L : StdLib) (max_efficiency : Dbl) (fuel fuel' : Nat)
    (hle : fuel ≤ fuel') (wgts : List Int) (nprocs : Nat) (do_full_knapsack : Bool)
    (r : List (List Nat) × Dbl)
    (h : knapsack L max_efficiency fuel wgts nprocs do_full_knapsack = some r) :
    knapsack L max_efficiency fuel' wgts nprocs do_full_knapsack = some r := by
  unfold knapsack at h ⊢
  simp only at h ⊢
  cases hg : greedy L (L.sortWB (wgts.enum.map (fun p => WeightedBox.new p.1 p.2)))
      (List.replicate nprocs WeightedBoxList.new) with
  | none => rw [hg] at h; simp at h
  | some wblq =>
    rw [hg] at h
    simp only at h ⊢
    cases hd : drain L wblq.length wblq with
    | none => rw [hd] at h; simp at h
    | some wblqg0 =>
      rw [hd] at h
      simp only at h ⊢
      cases hr : refine max_efficiency do_full_knapsack nprocs
          ((listSort wblqg0).foldl (fun s wbl => s + wbl.weight) 0) fuel (listSort wblqg0)
          (efficiencyOf ((listSort wblqg0).foldl (fun s wbl => s + wbl.weight) 0) nprocs
            ((listSort wblqg0).foldl (fun m wbl => if wbl.weight > m then wbl.weight else m) 0))
        with
      | none => rw [hr] at h; simp at h
      | some x =>
        rw [hr] at h
        rw [refine_mono _ _ _ _ fuel fuel' hle _ _ _ hr]
        exact h

/-- The function `knapsack` returns, and returns the same, on all the fuel above a bound. -/
theorem knapsack_returns (L : StdLib) (hs : ∀ l, (L.sortWB l).Perm l)
    (hq : ∀ q, q ≠ [] → L.pqTop q < q.length) (max_efficiency : Dbl) (wgts : List Int)
    (nprocs : Nat) (hn : 1 ≤ nprocs) (do_full_knapsack : Bool) :
    ∃ fuel0 r, ∀ fuel, fuel0 ≤ fuel →
      knapsack L max_efficiency fuel wgts nprocs do_full_knapsack = some r := by
  obtain ⟨fuel0, hk⟩ := knapsack_spec L hs hq max_efficiency wgts nprocs hn do_full_knapsack
  obtain ⟨vec, eff, h0, _⟩ := hk fuel0 (le_refl _)
  exact ⟨fuel0, (vec, eff), fun fuel hf => knapsack_mono L max_efficiency fuel0 fuel hf wgts
    nprocs do_full_knapsack _ h0⟩

/-! ## The order of the bins in the refinement -/

theorem listSort_desc (l : List WeightedBoxList) : Desc (listSort l) := by
  unfold Desc listSort
  have h := @List.sorted_insertionSort _ (fun a b : WeightedBoxList => b.lt a = false) _
    ⟨fun a b => by
      unfold WeightedBoxList.lt
      simp only [decide_eq_false_iff_not]
      omega⟩
    ⟨fun a b c h1 h2 => by
      unfold WeightedBoxList.lt at *
      simp only [decide_eq_false_iff_not] at *
      omega⟩ l
  refine List.Pairwise.imp ?_ h
  intro a b hab
  unfold WeightedBoxList.lt at hab
  simp only [decide_eq_false_iff_not] at hab
  omega

theorem listMergeAux_desc (x : WeightedBoxList) (xs : List WeightedBoxList)
    (mergeXs : List WeightedBoxList → List WeightedBoxList)
    (hp : ∀ zs, (mergeXs zs).Perm (xs ++ zs))
    (hm : ∀ zs, Desc zs → Desc (mergeXs zs)) (hx : Desc (x :: xs)) :
    ∀ ys, Desc ys → Desc (listMergeAux x xs mergeXs ys) := by
  intro ys
  induction ys with
  | nil => intro _; exact hx
  | cons y ys ih =>
    intro hy
    unfold Desc at hx hy
    rw [List.pairwise_cons] at hx hy
    unfold listMergeAux
    by_cases hc : y.lt x = true
    · rw [if_pos hc]
      unfold WeightedBoxList.lt at hc
      simp only [decide_eq_true_eq] at hc
      unfold Desc
      rw [List.pairwise_cons]
      refine ⟨?_, ih hy.2⟩
      intro b hb
      have hb' := (listMergeAux_perm x xs mergeXs hp ys).mem_iff.mp hb
      simp only [List.cons_append, List.mem_cons, List.mem_append] at hb'
      rcases hb' with h | h | h
      · rw [h]; omega
      · have := hx.1 b h; omega
      · exact hy.1 b h
    · rw [if_neg hc]
      unfold WeightedBoxList.lt at hc
      simp only [decide_eq_true_eq] at hc
      unfold Desc
      rw [List.pairwise_cons]
      refine ⟨?_, hm _ (List.pairwise_cons.mpr hy)⟩
      intro b hb
      have hb' := (hp (y :: ys)).mem_iff.mp hb
      simp only [List.mem_cons, List.mem_append] at hb'
      rcases hb' with h | h | h
      · exact hx.1 b h
      · rw [h]; omega
      · have := hy.1 b h; omega

/-- The member `merge` of two lists from the heaviest bin on is such a list. -/
theorem listMerge_desc : ∀ (xs ys : List WeightedBoxList), Desc xs → Desc ys →
    Desc (listMerge xs ys) := by
  intro xs
  induction xs with
  | nil => intro ys _ hy; simpa [listMerge] using hy
  | cons x xs ih =>
    intro ys hx hy
    unfold listMerge
    exact listMergeAux_desc x xs (listMerge xs) (listMerge_perm xs)
      (fun zs hz => ih zs (List.Pairwise.of_cons hx) hz) hx ys hy

/-- In a list from the heaviest bin on the first bin is a heaviest one. -/
theorem desc_head (q : List WeightedBoxList) (h : Desc q) :
    ∀ b ∈ q, b.weight ≤ (q.headD WeightedBoxList.new).weight := by
  cases q with
  | nil => intro b hb; cases hb
  | cons a q =>
    intro b hb
    unfold Desc at h
    rw [List.pairwise_cons] at h
    rcases List.mem_cons.mp hb with hb | hb
    · rw [hb]; exact le_refl _
    · exact h.1 b hb

theorem sumWeights_eq (q : List WeightedBoxList) :
    sumWeights q = (q.map WeightedBoxList.weight).sum := by
  unfold sumWeights
  rw [foldl_add_eq_sum WeightedBoxList.weight q 0]
  simp

theorem sumWeights_perm {q q' : List WeightedBoxList} (h : q.Perm q') :
    sumWeights q = sumWeights q' := by
  rw [sumWeights_eq, sumWeights_eq]
  exact (h.map _).sum_eq

/-- The quotient `sum_weight / (nprocs * max_weight)` does not fall when `max_weight`
falls and stays positive, for a positive `sum_weight`. -/
theorem efficiencyOf_mono (S : Int) (nprocs : Nat) (W W' : Int) (hS : 0 < S)
    (hn : 1 ≤ nprocs) (hW' : 0 < W') (hle : W' ≤ W) :
    Dbl.le (efficiencyOf S nprocs W) (efficiencyOf S nprocs W') = true := by
  have hn' : (0 : Int) < (nprocs : Int) := by exact_mod_cast hn
  have hD' : (0 : Int) < (nprocs : Int) * W' := mul_pos hn' hW'
  have hD : (0 : Int) < (nprocs : Int) * W := mul_pos hn' (by omega)
  have hDle : (nprocs : Int) * W' ≤ (nprocs : Int) * W :=
    mul_le_mul_of_nonneg_left hle (le_of_lt hn')
  unfold efficiencyOf Dbl.divInt Dbl.ofInt
  rw [if_pos hD, if_pos hD']
  have h1 : ((nprocs : Int) * W).toNat ≠ 0 := by omega
  have h2 : ((nprocs : Int) * W').toNat ≠ 0 := by omega
  have h3 : (((nprocs : Int) * W').toNat : Int) ≤ (((nprocs : Int) * W).toNat : Int) := by
    omega
  have b1 : ((((nprocs : Int) * W).toNat) == 0) = false := by
    rw [beq_eq_false_iff_ne]; exact h1
  have b2 : ((((nprocs : Int) * W').toNat) == 0) = false := by
    rw [beq_eq_false_iff_ne]; exact h2
  unfold Dbl.le Dbl.lt Dbl.isNaN
  simp only [one_mul, b1, b2, Bool.false_and, Bool.or_self, Bool.not_false, Bool.true_and,
    Bool.false_eq_true, if_false, Bool.not_eq_true', decide_eq_false_iff_not, not_lt]
  exact mul_le_mul_of_nonneg_left h3 (le_of_lt hS)

/-- An accepted exchange of the refinement, on a list from the heaviest bin on: the new
list goes from the heaviest bin on, no bin of it is heavier than the old top bin, and the
sum of the weights is the old one. -/
theorem applySwap_desc (wbl_top : WeightedBoxList) (others : List WeightedBoxList)
    (i c o : Nat) (q' : List WeightedBoxList) (hd : Desc (wbl_top :: others))
    (hf : findWb wbl_top.weight others wbl_top.m_lb 0 = some (i, c, o))
    (hs : applySwap wbl_top others i c o = some q') :
    Desc q' ∧ q' ≠ [] ∧ (∀ b ∈ q', b.weight ≤ wbl_top.weight) ∧
      sumWeights q' = sumWeights (wbl_top :: others) := by
  obtain ⟨wb, wbl_chk, owb, _, h1, h2, h3, h4⟩ :=
    findWb_spec wbl_top.weight others wbl_top.m_lb 0 i c o hf
  rw [Nat.sub_zero] at h1
  have et : (wbl_top.erase i).push_back owb
      = ⟨wbl_top.m_lb.eraseIdx i ++ [owb], wbl_top.m_weight - wb.weight + owb.weight⟩ := by
    unfold WeightedBoxList.erase WeightedBoxList.push_back; rw [h1]
  have ec : (wbl_chk.erase o).push_back wb
      = ⟨wbl_chk.m_lb.eraseIdx o ++ [wb], wbl_chk.m_weight - owb.weight + wb.weight⟩ := by
    unfold WeightedBoxList.erase WeightedBoxList.push_back; rw [h3]
  have hq : q' = listMerge (others.eraseIdx c)
      (listSort [(wbl_top.erase i).push_back owb, (wbl_chk.erase o).push_back wb]) := by
    unfold applySwap at hs
    rw [h1, h2] at hs
    simp only at hs
    rw [h3] at hs
    simp only [Option.some.injEq] at hs
    exact hs.symm
  have hp : q'.Perm
      ((wbl_top.erase i).push_back owb :: (wbl_chk.erase o).push_back wb :: others.eraseIdx c) := by
    rw [hq]
    refine (listMerge_perm _ _).trans ?_
    refine (List.Perm.append_left _ (listSort_perm _)).trans ?_
    exact List.perm_append_comm
  have ho : others.Perm (wbl_chk :: others.eraseIdx c) := perm_cons_eraseIdx _ _ _ h2
  unfold swapImproves at h4
  simp only [Bool.and_eq_true, decide_eq_true_eq] at h4
  have hd' := hd
  unfold Desc at hd'
  rw [List.pairwise_cons] at hd'
  refine ⟨?_, ?_, ?_, ?_⟩
  · rw [hq]
    exact listMerge_desc _ _ (hd'.2.sublist (List.eraseIdx_sublist _ _)) (listSort_desc _)
  · intro h
    rw [h] at hp
    have := hp.length_eq
    simp at this
  · intro b hb
    have hb' := hp.mem_iff.mp hb
    simp only [List.mem_cons] at hb'
    rcases hb' with h | h | h
    · rw [h, et]
      unfold WeightedBoxList.weight at *
      simp only
      omega
    · rw [h, ec]
      unfold WeightedBoxList.weight at *
      simp only
      omega
    · exact hd'.1 b ((List.eraseIdx_sublist _ _).subset h)
  · rw [sumWeights_perm hp, sumWeights_perm (List.Perm.cons wbl_top ho)]
    simp only [sumWeights_eq, List.map_cons, List.sum_cons]
    rw [et, ec]
    unfold WeightedBoxList.weight
    simp only
    ring

/-- A list of bins of positive sum from the heaviest bin on has a top bin of positive
weight. -/
theorem head_pos (q : List WeightedBoxList) (hd : Desc q) (hS : 0 < sumWeights q) :
    0 < (q.headD WeightedBoxList.new).weight := by
  by_contra hneg
  push_neg at hneg
  have hall : ∀ x ∈ q.map WeightedBoxList.weight, x ≤ 0 := by
    intro x hx
    obtain ⟨b, hb, hbx⟩ := List.mem_map.mp hx
    rw [← hbx]
    exact le_trans (desc_head q hd b hb) hneg
  have := List.sum_le_card_nsmul _ 0 hall
  rw [sumWeights_eq] at hS
  simp at this
  omega

theorem foldl_max_of_le : ∀ (l : List WeightedBoxList) (m : Int), (∀ b ∈ l, b.weight ≤ m) →
    l.foldl (fun m wbl => if wbl.weight > m then wbl.weight else m) m = m := by
  intro l
  induction l with
  | nil => intro m _; rfl
  | cons a l ih =>
    intro m h
    rw [List.foldl_cons, if_neg (by have := h a (List.mem_cons_self _ _); omega)]
    exact ih m (fun b hb => h b (List.mem_cons_of_mem _ hb))

/-- The value `max_weight` that `knapsack` computes before the label `top` is the weight
of the top bin, when this is not negative. -/
theorem foldl_max_desc (wbl_top : WeightedBoxList) (others : List WeightedBoxList)
    (hd : Desc (wbl_top :: others)) (h0 : 0 ≤ wbl_top.weight) :
    (wbl_top :: others).foldl (fun m wbl => if wbl.weight > m then wbl.weight else m) 0
      = wbl_top.weight := by
  unfold Desc at hd
  rw [List.pairwise_cons] at hd
  rw [List.foldl_cons]
  by_cases h : wbl_top.weight > 0
  · rw [if_pos h]
    exact foldl_max_of_le others _ hd.1
  · rw [if_neg h]
    have e : wbl_top.weight = 0 := by omega
    rw [e] at hd ⊢
    exact foldl_max_of_le others 0 hd.1

/-! ## The weights of the bins after the greedy pass -/

theorem stdlib_conforms : stdlib.Conforms := by
  refine ⟨stdlib_permutes, ?_, ?_⟩
  · intro l
    have h := @List.sorted_insertionSort _ (fun a b : WeightedBox => b.lt a = false) _
      ⟨fun a b => by
        unfold WeightedBox.lt
        simp only [decide_eq_false_iff_not]
        omega⟩
      ⟨fun a b c h1 h2 => by
        unfold WeightedBox.lt at *
        simp only [decide_eq_false_iff_not] at *
        omega⟩ l
    refine List.Pairwise.imp ?_ h
    intro a b hab
    unfold WeightedBox.lt at hab
    simp only [decide_eq_false_iff_not] at hab
    omega
  · intro q hne b hb
    obtain ⟨a, ha, hmin⟩ := exists_lightest q hne
    have hp : ∃ x ∈ q, (q.all (fun b => decide (x.weight ≤ b.weight))) = true :=
      ⟨a, ha, by simpa using hmin⟩
    have hlt : q.findIdx (fun a => q.all (fun b => decide (a.weight ≤ b.weight))) < q.length :=
      List.findIdx_lt_length_of_exists (by simpa using hp)
    have hsat := @List.findIdx_getElem _ (fun a => q.all (fun b => decide (a.weight ≤ b.weight)))
      q hlt
    show (q.getD (q.findIdx (fun a => q.all (fun b => decide (a.weight ≤ b.weight))))
      WeightedBoxList.new).weight ≤ b.weight
    rw [List.getD_eq_getElem _ _ hlt]
    simp only [List.all_eq_true, decide_eq_true_eq] at hsat
    exact hsat b hb

/-- The calls `top ()` and `pop ()` of a conforming library: the bin returned is a lightest
one. -/
theorem pqTopPop_min (L : StdLib) (hL : L.Conforms) (q : List WeightedBoxList) (hne : q ≠ []) :
    ∃ wbl q', pqTopPop L q = some (wbl, q') ∧ q.Perm (wbl :: q') ∧
      ∀ b ∈ q, wbl.weight ≤ b.weight := by
  have hlt := hL.1.2.2.2 q hne
  have hmin := hL.2.2 q hne
  rw [List.getD_eq_getElem _ _ hlt] at hmin
  unfold pqTopPop
  have hget : q.get? (L.pqTop q) = some (q.get ⟨L.pqTop q, hlt⟩) := List.get?_eq_get hlt
  rw [hget]
  exact ⟨_, _, rfl, perm_cons_eraseIdx q _ _ hget, hmin⟩

theorem pqTopPop_binOK (L : StdLib) (P : WeightedBox → Prop) (q : List WeightedBoxList)
    (wbl : WeightedBoxList) (q' : List WeightedBoxList) (h : pqTopPop L q = some (wbl, q'))
    (hq : ∀ x ∈ q, BinOK P x) : BinOK P wbl ∧ ∀ x ∈ q', BinOK P x := by
  unfold pqTopPop at h
  cases hg : q.get? (L.pqTop q) with
  | none => rw [hg] at h; cases h
  | some w =>
    rw [hg] at h
    simp only [Option.some.injEq, Prod.mk.injEq] at h
    obtain ⟨rfl, rfl⟩ := h
    have hp := perm_cons_eraseIdx q _ _ hg
    exact ⟨hq _ (hp.symm.mem_iff.mp (List.mem_cons_self _ _)),
      fun x hx => hq x (hp.symm.mem_iff.mp (List.mem_cons_of_mem _ hx))⟩

theorem push_back_binOK (P : WeightedBox → Prop) (wbl : WeightedBoxList) (b : WeightedBox)
    (h : BinOK P wbl) (hb : P b) : BinOK P (wbl.push_back b) := by
  unfold BinOK WeightedBoxList.push_back at *
  refine ⟨?_, ?_⟩
  · simp only [List.map_append, List.map_cons, List.map_nil, List.sum_append, List.sum_cons,
      List.sum_nil, add_zero]
    rw [h.1]
  · intro x hx
    rcases List.mem_append.mp hx with h' | h'
    · exact h.2 x h'
    · simp only [List.mem_singleton] at h'
      rw [h']; exact hb

/-- The greedy pass keeps the weight of every bin equal to the sum of the weights of its
balls. -/
theorem greedy_binOK (L : StdLib) (P : WeightedBox → Prop) :
    ∀ (lb : List WeightedBox) (q q' : List WeightedBoxList), greedy L lb q = some q' →
      (∀ b ∈ lb, P b) → (∀ x ∈ q, BinOK P x) → ∀ x ∈ q', BinOK P x := by
  intro lb
  induction lb with
  | nil =>
    intro q q' h _ hq
    simp only [greedy, Option.some.injEq] at h
    rw [← h]; exact hq
  | cons b lb ih =>
    intro q q' h hlb hq
    unfold greedy at h
    cases hp : pqTopPop L q with
    | none => rw [hp] at h; cases h
    | some r =>
      obtain ⟨wbl, q1⟩ := r
      rw [hp] at h
      obtain ⟨h1, h2⟩ := pqTopPop_binOK L P q wbl q1 hp hq
      refine ih _ _ h (fun x hx => hlb x (List.mem_cons_of_mem _ hx)) ?_
      intro x hx
      rcases List.mem_append.mp hx with h' | h'
      · exact h2 x h'
      · simp only [List.mem_singleton] at h'
        rw [h']
        exact push_back_binOK P wbl b h1 (hlb b (List.mem_cons_self _ _))

/-- The sums `wgts_per_cpu` of bins whose balls keep the weights of their boxes are the
weights of the bins. -/
theorem wgtsPerCpu_eq (wgts : List Int) (q : List WeightedBoxList)
    (h : ∀ x ∈ q, BinOK (fun b => b.m_weight = wgts.getD b.m_boxid 0) x) :
    wgtsPerCpu (q.map (fun wbl => wbl.m_lb.map WeightedBox.boxid)) wgts
      = q.map WeightedBoxList.weight := by
  unfold wgtsPerCpu
  rw [List.map_map]
  apply List.map_congr_left
  intro x hx
  simp only [Function.comp]
  rw [foldl_add_eq_sum (fun lit => wgts.getD lit 0) _ 0, List.map_map, zero_add]
  unfold WeightedBoxList.weight
  rw [(h x hx).1]
  congr 1
  apply List.map_congr_left
  intro b hb
  simp only [Function.comp, WeightedBox.boxid, WeightedBox.weight]
  exact ((h x hx).2 b hb).symm

/-! ## The example of the spec -/

theorem drain_binOK (L : StdLib) (P : WeightedBox → Prop) :
    ∀ (n : Nat) (q r : List WeightedBoxList), drain L n q = some r →
      (∀ x ∈ q, BinOK P x) → ∀ x ∈ r, BinOK P x := by
  intro n
  induction n with
  | zero =>
    intro q r h _ x hx
    simp only [drain, Option.some.injEq] at h
    rw [← h] at hx
    cases hx
  | succ n ih =>
    intro q r h hq
    unfold drain at h
    cases hp : pqTopPop L q with
    | none => rw [hp] at h; cases h
    | some t =>
      obtain ⟨wbl, q1⟩ := t
      rw [hp] at h
      simp only at h
      obtain ⟨h1, h2⟩ := pqTopPop_binOK L P q wbl q1 hp hq
      cases hd : drain L n q1 with
      | none => rw [hd] at h; cases h
      | some r1 =>
        rw [hd] at h
        simp only [Option.some.injEq] at h
        rw [← h]
        intro x hx
        rcases List.mem_cons.mp hx with h' | h'
        · rw [h']; exact h1
        · exact ih q1 r1 hd h2 x h'

theorem binOK_imp (P Q : WeightedBox → Prop) (h : ∀ b, P b → Q b) (wbl : WeightedBoxList)
    (hb : BinOK P wbl) : BinOK Q wbl :=
  ⟨hb.1, fun b hm => h b (hb.2 b hm)⟩

/-- An exchange keeps the weight of every bin equal to the sum of the weights of its
balls. -/
theorem applySwap_binOK (P : WeightedBox → Prop) (wbl_top : WeightedBoxList)
    (others : List WeightedBoxList) (i c o : Nat) (q' : List WeightedBoxList)
    (hs : applySwap wbl_top others i c o = some q') (ht : BinOK P wbl_top)
    (ho : ∀ x ∈ others, BinOK P x) : ∀ x ∈ q', BinOK P x := by
  cases h1 : wbl_top.m_lb.get? i with
  | none => unfold applySwap at hs; rw [h1] at hs; simp at hs
  | some wb =>
    cases h2 : others.get? c with
    | none => unfold applySwap at hs; rw [h1, h2] at hs; simp at hs
    | some wbl_chk =>
      cases h3 : wbl_chk.m_lb.get? o with
      | none =>
        unfold applySwap at hs; rw [h1, h2] at hs; simp only at hs; rw [h3] at hs; simp at hs
      | some owb =>
        have et : (wbl_top.erase i).push_back owb
            = ⟨wbl_top.m_lb.eraseIdx i ++ [owb], wbl_top.m_weight - wb.weight + owb.weight⟩ := by
          unfold WeightedBoxList.erase WeightedBoxList.push_back; rw [h1]
        have ec : (wbl_chk.erase o).push_back wb
            = ⟨wbl_chk.m_lb.eraseIdx o ++ [wb], wbl_chk.m_weight - owb.weight + wb.weight⟩ := by
          unfold WeightedBoxList.erase WeightedBoxList.push_back; rw [h3]
        have hq : q' = listMerge (others.eraseIdx c)
            (listSort [(wbl_top.erase i).push_back owb, (wbl_chk.erase o).push_back wb]) := by
          unfold applySwap at hs
          rw [h1, h2] at hs
          simp only at hs
          rw [h3] at hs
          simp only [Option.some.injEq] at hs
          exact hs.symm
        have hp : q'.Perm ((wbl_top.erase i).push_back owb :: (wbl_chk.erase o).push_back wb
            :: others.eraseIdx c) := by
          rw [hq]
          refine (listMerge_perm _ _).trans ?_
          refine (List.Perm.append_left _ (listSort_perm _)).trans ?_
          exact List.perm_append_comm
        have hchk : BinOK P wbl_chk := ho _ (List.get?_mem h2)
        have t1 : (wbl_top.m_lb).Perm (wb :: wbl_top.m_lb.eraseIdx i) :=
          perm_cons_eraseIdx _ _ _ h1
        have t2 : (wbl_chk.m_lb).Perm (owb :: wbl_chk.m_lb.eraseIdx o) :=
          perm_cons_eraseIdx _ _ _ h3
        have s1 := (t1.map WeightedBox.weight).sum_eq
        have s2 := (t2.map WeightedBox.weight).sum_eq
        simp only [List.map_cons, List.sum_cons] at s1 s2
        intro x hx
        have hx' := hp.mem_iff.mp hx
        simp only [List.mem_cons] at hx'
        rcases hx' with h | h | h
        · rw [h, et]
          refine ⟨?_, ?_⟩
          · simp only [List.map_append, List.map_cons, List.map_nil, List.sum_append,
              List.sum_cons, List.sum_nil, add_zero]
            rw [ht.1, s1]
            ring
          · intro b hb
            rcases List.mem_append.mp hb with h' | h'
            · exact ht.2 b ((List.eraseIdx_sublist _ _).subset h')
            · simp only [List.mem_singleton] at h'
              rw [h']
              exact hchk.2 owb (List.get?_mem h3)
        · rw [h, ec]
          refine ⟨?_, ?_⟩
          · simp only [List.map_append, List.map_cons, List.map_nil, List.sum_append,
              List.sum_cons, List.sum_nil, add_zero]
            rw [hchk.1, s2]
            ring
          · intro b hb
            rcases List.mem_append.mp hb with h' | h'
            · exact hchk.2 b ((List.eraseIdx_sublist _ _).subset h')
            · simp only [List.mem_singleton] at h'
              rw [h']
              exact ht.2 wb (List.get?_mem h1)
        · exact ho x ((List.eraseIdx_sublist _ _).subset h)

/-- What the part of `knapsack` between `top` and `bottom` returns, from a list from the
heaviest bin on: such a list, of the same length and the same sum of weights; and either
its arguments, or the efficiency of the weight of the first bin returned. -/
theorem refine_result (P : WeightedBox → Prop) (max_efficiency : Dbl)
    (do_full_knapsack : Bool) (nprocs : Nat) (sum_weight : Int) :
    ∀ (fuel : Nat) (q : List WeightedBoxList) (efficiency : Dbl)
      (r : List WeightedBoxList × Dbl),
      refine max_efficiency do_full_knapsack nprocs sum_weight fuel q efficiency = some r →
      Desc q → (∀ x ∈ q, BinOK P x) →
      r.1.length = q.length ∧ Desc r.1 ∧ (∀ x ∈ r.1, BinOK P x) ∧
        sumWeights r.1 = sumWeights q ∧
        (r = (q, efficiency) ∨
          r.2 = efficiencyOf sum_weight nprocs (r.1.headD WeightedBoxList.new).weight) := by
  intro fuel
  induction fuel with
  | zero => intro q e r h; simp [refine] at h
  | succ fuel ih =>
    intro q e r h hd hok
    cases q with
    | nil => simp [refine] at h
    | cons wbl_top others =>
      unfold refine at h
      simp only at h
      by_cases hc : (e.gt max_efficiency || !do_full_knapsack) = true
      · rw [if_pos hc] at h
        simp only [Option.some.injEq] at h
        rw [← h]
        exact ⟨rfl, hd, hok, rfl, Or.inl rfl⟩
      · rw [if_neg hc] at h
        cases hf : findWb wbl_top.weight others wbl_top.m_lb 0 with
        | none =>
          rw [hf] at h
          simp only [Option.some.injEq] at h
          rw [← h]
          exact ⟨rfl, hd, hok, rfl, Or.inl rfl⟩
        | some t =>
          obtain ⟨i, c, o⟩ := t
          rw [hf] at h
          simp only at h
          cases ha : applySwap wbl_top others i c o with
          | none => rw [ha] at h; simp at h
          | some q1 =>
            rw [ha] at h
            simp only at h
            obtain ⟨d1, _, _, d4⟩ := applySwap_desc wbl_top others i c o q1 hd hf ha
            have hok1 := applySwap_binOK P wbl_top others i c o q1 ha
              (hok _ (List.mem_cons_self _ _)) (fun x hx => hok x (List.mem_cons_of_mem _ hx))
            have hl1 := (applySwap_perm wbl_top others i c o q1 ha).1
            obtain ⟨r1, r2, r3, r4, r5⟩ := ih q1 _ r h d1 hok1
            refine ⟨by rw [r1, hl1]; rfl, r2, r3, by rw [r4, d4], Or.inr ?_⟩
            rcases r5 with h5 | h5
            · rw [h5]
            · exact h5

theorem sumWeights_balls (P : WeightedBox → Prop) : ∀ (q : List WeightedBoxList),
    (∀ x ∈ q, BinOK P x) → sumWeights q = ((ballsOf q).map WeightedBox.weight).sum := by
  intro q
  induction q with
  | nil => intro _; rfl
  | cons a q ih =>
    intro h
    rw [sumWeights_eq, List.map_cons, List.sum_cons, ← sumWeights_eq,
      ih (fun x hx => h x (List.mem_cons_of_mem _ hx)), ballsOf_cons, List.map_append,
      List.sum_append]
    unfold WeightedBoxList.weight
    rw [(h a (List.mem_cons_self _ _)).1]

theorem toInt32_of_range (w : Int) (h0 : 0 ≤ w) (h1 : w < 2147483648) : toInt32 w = w := by
  unfold toInt32
  omega

/-- The quotient `sum_weight / (nprocs * max_weight)` lies in `(0, 1]` when the sum is
positive and at most `nprocs * max_weight`. -/
theorem efficiencyOf_unit (S : Int) (nprocs : Nat) (M : Int) (hS : 0 < S)
    (hle : S ≤ (nprocs : Int) * M) :
    Dbl.lt (Dbl.ofInt 0) (efficiencyOf S nprocs M) = true ∧
      Dbl.le (efficiencyOf S nprocs M) (Dbl.ofInt 1) = true := by
  have hD : (0 : Int) < (nprocs : Int) * M := by omega
  unfold efficiencyOf Dbl.divInt Dbl.ofInt
  rw [if_pos hD]
  have h1 : ((nprocs : Int) * M).toNat ≠ 0 := by omega
  have h3 : ((((nprocs : Int) * M).toNat : Nat) : Int) = (nprocs : Int) * M := by omega
  have b1 : ((((nprocs : Int) * M).toNat) == 0) = false := by
    rw [beq_eq_false_iff_ne]; exact h1
  have b2 : ((1 : Nat) == 0) = false := rfl
  unfold Dbl.le Dbl.lt Dbl.isNaN
  simp only [one_mul, mul_one, zero_mul, b1, b2, Bool.false_and, Bool.and_false, Bool.or_self,
    Bool.not_false, Bool.true_and, Bool.false_eq_true, if_false, Bool.not_eq_true',
    decide_eq_false_iff_not, decide_eq_true_eq, not_lt, Nat.cast_one]
  constructor
  · exact hS
  · rw [h3]; exact hle

theorem binOK_nonneg (P : WeightedBox → Prop) (hP : ∀ b, P b → 0 ≤ b.m_weight)
    (wbl : WeightedBoxList) (h : BinOK P wbl) : 0 ≤ wbl.weight := by
  unfold WeightedBoxList.weight
  rw [h.1]
  apply List.sum_nonneg
  intro x hx
  obtain ⟨b, hb, hbx⟩ := List.mem_map.mp hx
  rw [← hbx]
  exact hP b (h.2 b hb)

/-- For weights in `[0, 2^31)` of positive sum, `knapsack` reports the quotient of the sum
of the weights by `nprocs` times the largest sum of the weights of a bin returned, a number
in `(0, 1]`. -/
theorem knapsack_efficiency (L : StdLib) (hs : ∀ l, (L.sortWB l).Perm l)
    (hq : ∀ q, q ≠ [] → L.pqTop q < q.length) (max_efficiency : Dbl) (wgts : List Int)
    (hw : ∀ w ∈ wgts, 0 ≤ w ∧ w < 2147483648) (hpos : 0 < wgts.sum)
    (nprocs : Nat) (hn : 1 ≤ nprocs) (do_full_knapsack : Bool) :
    ∃ fuel0, ∀ fuel, fuel0 ≤ fuel →
      ∃ vec eff M, knapsack L max_efficiency fuel wgts nprocs do_full_knapsack
          = some (vec, eff) ∧
        M ∈ wgtsPerCpu vec wgts ∧ (∀ x ∈ wgtsPerCpu vec wgts, x ≤ M) ∧
        eff = efficiencyOf wgts.sum nprocs M ∧
        Dbl.lt (Dbl.ofInt 0) eff = true ∧ Dbl.le eff (Dbl.ofInt 1) = true := by
  have hP0 : ∀ b ∈ wgts.enum.map (fun p => WeightedBox.new p.1 p.2),
      b.m_weight = wgts.getD b.m_boxid 0 ∧ 0 ≤ b.m_weight := by
    intro b hb
    obtain ⟨p, hp, hpb⟩ := List.mem_map.mp hb
    obtain ⟨k, hk, hke⟩ := List.mem_iff_getElem.mp hp
    have hk' : k < wgts.length := by simpa using hk
    rw [← hpb, ← hke]
    simp only [List.getElem_enum, WeightedBox.new]
    have hr := hw wgts[k] (List.getElem_mem _)
    rw [toInt32_of_range _ hr.1 hr.2, List.getD_eq_getElem _ _ hk']
    exact ⟨rfl, hr.1⟩
  have hP : ∀ b ∈ L.sortWB (wgts.enum.map (fun p => WeightedBox.new p.1 p.2)),
      b.m_weight = wgts.getD b.m_boxid 0 ∧ 0 ≤ b.m_weight :=
    fun b hb => hP0 b ((hs _).mem_iff.mp hb)
  obtain ⟨wblq, hg, hgl, hgb⟩ := greedy_spec L hq
    (L.sortWB (wgts.enum.map (fun p => WeightedBox.new p.1 p.2)))
    (List.replicate nprocs WeightedBoxList.new)
    (by intro h; have := congrArg List.length h; simp at this; omega)
  have hgok := greedy_binOK L
    (fun b => b.m_weight = wgts.getD b.m_boxid 0 ∧ 0 ≤ b.m_weight) _ _ wblq hg hP (by
      intro x hx
      rw [List.eq_of_mem_replicate hx]
      exact ⟨rfl, fun b hb => by cases hb⟩)
  obtain ⟨wblqg0, hd, hdp⟩ := drain_spec L hq wblq.length wblq rfl
  have hdok := drain_binOK L _ _ _ _ hd hgok
  have hsp := listSort_perm wblqg0
  have hok : ∀ x ∈ listSort wblqg0, BinOK
      (fun b => b.m_weight = wgts.getD b.m_boxid 0 ∧ 0 ≤ b.m_weight) x :=
    fun x hx => hdok x (hsp.mem_iff.mp hx)
  have hlen : (listSort wblqg0).length = nprocs := by
    rw [hsp.length_eq, hdp.length_eq, hgl]; simp
  have hdesc := listSort_desc wblqg0
  have hne : listSort wblqg0 ≠ [] := by
    intro h; rw [h] at hlen; simp at hlen; omega
  -- the sum of the weights of the bins is the sum of the weights of the boxes
  have hS : sumWeights (listSort wblqg0) = wgts.sum := by
    rw [sumWeights_balls _ _ hok]
    have p1 : (ballsOf (listSort wblqg0)).Perm
        (wgts.enum.map (fun p => WeightedBox.new p.1 p.2)) := by
      refine (ballsOf_perm (hsp.trans hdp)).trans (hgb.trans ?_)
      rw [ballsOf_replicate_new, List.nil_append]
      exact hs _
    rw [(p1.map WeightedBox.weight).sum_eq, List.map_map]
    have e : (wgts.enum.map (WeightedBox.weight ∘ fun p => WeightedBox.new p.1 p.2))
        = wgts.enum.map Prod.snd := by
      apply List.map_congr_left
      intro p hp
      obtain ⟨k, hk, hke⟩ := List.mem_iff_getElem.mp hp
      have hk' : k < wgts.length := by simpa using hk
      rw [← hke]
      simp only [List.getElem_enum, Function.comp, WeightedBox.new, WeightedBox.weight]
      have hr := hw wgts[k] (List.getElem_mem _)
      exact toInt32_of_range _ hr.1 hr.2
    rw [e, List.enum_map_snd]
  refine ⟨sumSquares (listSort wblqg0) + 1, ?_⟩
  intro fuel hfuel
  obtain ⟨q', eff', hr, hl', _⟩ := refine_spec max_efficiency do_full_knapsack nprocs
    ((listSort wblqg0).foldl (fun s wbl => s + wbl.weight) 0) fuel (listSort wblqg0)
    (efficiencyOf ((listSort wblqg0).foldl (fun s wbl => s + wbl.weight) 0) nprocs
      ((listSort wblqg0).foldl (fun m wbl => if wbl.weight > m then wbl.weight else m) 0))
    hne (by omega)
  obtain ⟨_, r2, r3, r4, r5⟩ := refine_result _ _ _ _ _ _ _ _ _ hr hdesc hok
  simp only at r2 r3 r4 r5
  have hSf : (listSort wblqg0).foldl (fun s wbl => s + wbl.weight) 0 = wgts.sum := hS
  have hne' : q' ≠ [] := by
    intro h; rw [h] at hl'; rw [hlen] at hl'; simp at hl'; omega
  have hS' : sumWeights q' = wgts.sum := by rw [r4, hS]
  have heff : eff' = efficiencyOf wgts.sum nprocs (q'.headD WeightedBoxList.new).weight := by
    rcases r5 with h5 | h5
    · simp only [Prod.mk.injEq] at h5
      rw [h5.2, h5.1, hSf]
      congr 1
      cases hq0 : listSort wblqg0 with
      | nil => exact absurd hq0 hne
      | cons top others =>
        rw [hq0] at hdesc hok
        exact foldl_max_desc top others hdesc
          (binOK_nonneg _ (fun b hb => hb.2) top (hok top (List.mem_cons_self _ _)))
    · rw [h5, hSf]
  have hM : 0 < (q'.headD WeightedBoxList.new).weight :=
    head_pos q' r2 (by rw [hS']; exact hpos)
  have hbound : wgts.sum ≤ (nprocs : Int) * (q'.headD WeightedBoxList.new).weight := by
    rw [← hS', sumWeights_eq]
    have hall : ∀ x ∈ q'.map WeightedBoxList.weight,
        x ≤ (q'.headD WeightedBoxList.new).weight := by
      intro x hx
      obtain ⟨b, hb, hbx⟩ := List.mem_map.mp hx
      rw [← hbx]
      exact desc_head q' r2 b hb
    have := List.sum_le_card_nsmul _ _ hall
    rw [List.length_map, hl', hlen] at this
    simpa using this
  have hvec : wgtsPerCpu ((q'.take nprocs).map (fun wbl => wbl.m_lb.map WeightedBox.boxid)) wgts
      = q'.map WeightedBoxList.weight := by
    rw [List.take_of_length_le (by omega)]
    exact wgtsPerCpu_eq wgts q' (fun x hx => binOK_imp _ _ (fun b hb => hb.1) x (r3 x hx))
  refine ⟨(q'.take nprocs).map (fun wbl => wbl.m_lb.map WeightedBox.boxid), eff',
    (q'.headD WeightedBoxList.new).weight, ?_, ?_, ?_, heff, ?_⟩
  · unfold knapsack
    simp only
    rw [hg]
    simp only
    rw [hd]
    simp only
    rw [hr]
  · rw [hvec]
    cases q' with
    | nil => exact absurd rfl hne'
    | cons a t => simp
  · rw [hvec]
    intro x hx
    obtain ⟨b, hb, hbx⟩ := List.mem_map.mp hx
    rw [← hbx]
    exact desc_head q' r2 b hb
  · rw [heff]
    exact efficiencyOf_unit _ _ _ hpos hbound

/-! ## The comparison of the space filling curve -/

theorem axesKey_length (N : Int) (idx : IntVect) : ∀ j, (axesKey N idx j).length = j := by
  intro j
  induction j with
  | zero => rfl
  | succ j ih => simp [axesKey, ih]

theorem compareAxes_spec (N : Int) (lhs rhs : IntVect) : ∀ j,
    (compareAxes N lhs rhs j = some true →
      ∀ t1 t2 : List Int, axesKey N lhs j ++ t1 < axesKey N rhs j ++ t2) ∧
    (compareAxes N lhs rhs j = some false →
      ∀ t1 t2 : List Int, axesKey N rhs j ++ t2 < axesKey N lhs j ++ t1) ∧
    (compareAxes N lhs rhs j = none → axesKey N lhs j = axesKey N rhs j) := by
  intro j
  induction j with
  | zero =>
    refine ⟨?_, ?_, ?_⟩
    · intro h; simp [compareAxes] at h
    · intro h; simp [compareAxes] at h
    · intro _; rfl
  | succ j ih =>
    unfold compareAxes
    simp only [axesKey, List.cons_append]
    by_cases h1 : (lhs.getD j 0).tdiv N < (rhs.getD j 0).tdiv N
    · rw [if_pos h1]
      refine ⟨fun _ t1 t2 => List.Lex.rel h1, ?_, ?_⟩
      · intro h; simp at h
      · intro h; simp at h
    · rw [if_neg h1]
      by_cases h2 : (lhs.getD j 0).tdiv N > (rhs.getD j 0).tdiv N
      · rw [if_pos h2]
        refine ⟨?_, fun _ t1 t2 => List.Lex.rel h2, ?_⟩
        · intro h; simp at h
        · intro h; simp at h
      · rw [if_neg h2]
        have e : (lhs.getD j 0).tdiv N = (rhs.getD j 0).tdiv N := by omega
        rw [e]
        refine ⟨fun h t1 t2 => List.Lex.cons (ih.1 h t1 t2),
          fun h t1 t2 => List.Lex.cons (ih.2.1 h t1 t2), fun h => ?_⟩
        rw [ih.2.2 h]

theorem lt_of_append_lt (p t1 t2 : List Int) (h : p ++ t1 < p ++ t2) : t1 < t2 := by
  induction p with
  | nil => exact h
  | cons a p ih =>
    apply ih
    have h' : List.Lex (· < ·) (a :: (p ++ t1)) (a :: (p ++ t2)) := h
    exact List.Lex.cons_iff.mp h'

/-- The loops of `SFCToken::Compare` compare the lists of quotients in the order of the
dictionary. -/
theorem comparePlanes_iff (dim : Nat) (lhs rhs : IntVect) : ∀ n,
    comparePlanes dim lhs rhs n = true ↔ planesKey dim lhs n < planesKey dim rhs n := by
  intro n
  induction n with
  | zero =>
    simp only [comparePlanes, planesKey]
    constructor
    · intro h; cases h
    · intro h; exact absurd h (lt_irrefl _)
  | succ i ih =>
    unfold comparePlanes
    simp only [planesKey]
    obtain ⟨s1, s2, s3⟩ := compareAxes_spec (toInt32 (2 ^ i)) lhs rhs dim
    cases hc : compareAxes (toInt32 (2 ^ i)) lhs rhs dim with
    | none =>
      simp only
      rw [ih, s3 hc]
      constructor
      · intro h
        exact List.Lex.append_left _ h _
      · intro h
        exact lt_of_append_lt _ _ _ h
    | some b =>
      simp only
      cases b with
      | true =>
        constructor
        · intro _; exact s1 hc _ _
        · intro _; rfl
      | false =>
        constructor
        · intro h; cases h
        · intro h; exact absurd h (lt_asymm (s2 hc _ _))

theorem Compare_iff (dim MaxPower : Nat) (lhs rhs : SFCToken) :
    SFCToken.Compare dim MaxPower lhs rhs = true ↔
      planesKey dim lhs.m_idx MaxPower < planesKey dim rhs.m_idx MaxPower :=
  comparePlanes_iff dim lhs.m_idx rhs.m_idx MaxPower

theorem Compare_irrefl (dim MaxPower : Nat) (a : SFCToken) :
    SFCToken.Compare dim MaxPower a a = false := by
  rw [Bool.eq_false_iff, Ne, Compare_iff]
  exact lt_irrefl _

theorem Compare_trans (dim MaxPower : Nat) (a b c : SFCToken)
    (h1 : SFCToken.Compare dim MaxPower a b = true)
    (h2 : SFCToken.Compare dim MaxPower b c = true) :
    SFCToken.Compare dim MaxPower a c = true := by
  rw [Compare_iff] at *
  exact lt_trans h1 h2

/-- Two tokens that `SFCToken::Compare` does not tell apart have the same quotients. -/
theorem Compare_incomparable_iff (dim MaxPower : Nat) (a b : SFCToken) :
    (SFCToken.Compare dim MaxPower a b = false ∧ SFCToken.Compare dim MaxPower b a = false) ↔
      planesKey dim a.m_idx MaxPower = planesKey dim b.m_idx MaxPower := by
  rw [Bool.eq_false_iff, Bool.eq_false_iff, Ne, Ne, Compare_iff, Compare_iff]
  constructor
  · intro h
    rcases lt_trichotomy (planesKey dim a.m_idx MaxPower) (planesKey dim b.m_idx MaxPower)
      with h' | h' | h'
    · exact absurd h' h.1
    · exact h'
    · exact absurd h' h.2
  · intro h
    rw [h]
    exact ⟨lt_irrefl _, lt_irrefl _⟩

/-! ## The comparison on different anchors -/

theorem axesKey_eq_coord (N : Int) (a b : IntVect) : ∀ dim,
    axesKey N a dim = axesKey N b dim →
    ∀ j, j < dim → (a.getD j 0).tdiv N = (b.getD j 0).tdiv N := by
  intro dim
  induction dim with
  | zero => intro _ j hj; omega
  | succ d ih =>
    intro h j hj
    simp only [axesKey, List.cons.injEq] at h
    by_cases hjd : j = d
    · rw [hjd]; exact h.1
    · exact ih h.2 j (by omega)

theorem planesKey_length (dim : Nat) (idx : IntVect) : ∀ n,
    (planesKey dim idx n).length = n * dim := by
  intro n
  induction n with
  | zero => simp [planesKey]
  | succ n ih => simp [planesKey, axesKey_length, ih]; ring

theorem planesKey_eq_plane (dim : Nat) (a b : IntVect) : ∀ n,
    planesKey dim a n = planesKey dim b n →
    ∀ i, i < n → axesKey (toInt32 (2 ^ i)) a dim = axesKey (toInt32 (2 ^ i)) b dim := by
  intro n
  induction n with
  | zero => intro _ i hi; omega
  | succ n ih =>
    intro h i hi
    simp only [planesKey] at h
    have hl : (axesKey (toInt32 (2 ^ n)) a dim).length
        = (axesKey (toInt32 (2 ^ n)) b dim).length := by
      rw [axesKey_length, axesKey_length]
    obtain ⟨h1, h2⟩ := List.append_inj h hl
    by_cases hin : i = n
    · rw [hin]; exact h1
    · exact ih h2 i (by omega)

/-- With at least one plane, `SFCToken::Compare` orders two tokens whose anchors differ on
an axis below `BL_SPACEDIM` one way and not the other. -/
theorem Compare_total (dim MaxPower : Nat) (hm : 1 ≤ MaxPower) (a b : SFCToken)
    (hab : ∃ j, j < dim ∧ a.m_idx.getD j 0 ≠ b.m_idx.getD j 0) :
    (SFCToken.Compare dim MaxPower a b = true ∧ SFCToken.Compare dim MaxPower b a = false) ∨
      (SFCToken.Compare dim MaxPower a b = false ∧ SFCToken.Compare dim MaxPower b a = true) := by
  have hne : planesKey dim a.m_idx MaxPower ≠ planesKey dim b.m_idx MaxPower := by
    intro h
    obtain ⟨j, hj, hjne⟩ := hab
    have h0 := planesKey_eq_plane dim a.m_idx b.m_idx MaxPower h 0 (by omega)
    have h1 := axesKey_eq_coord _ _ _ dim h0 j hj
    have e : toInt32 (2 ^ 0) = 1 := by decide
    rw [e, Int.tdiv_one, Int.tdiv_one] at h1
    exact hjne h1
  rcases lt_trichotomy (planesKey dim a.m_idx MaxPower) (planesKey dim b.m_idx MaxPower)
    with h | h | h
  · left
    refine ⟨(Compare_iff _ _ _ _).mpr h, ?_⟩
    rw [Bool.eq_false_iff, Ne, Compare_iff]
    exact lt_asymm h
  · exact absurd h hne
  · right
    refine ⟨?_, (Compare_iff _ _ _ _).mpr h⟩
    rw [Bool.eq_false_iff, Ne, Compare_iff]
    exact lt_asymm h

theorem maxPowerLoop_ge (maxijk : Int) : ∀ n m, m ≤ maxPowerLoop maxijk n m := by
  intro n
  induction n with
  | zero => intro m; exact le_refl _
  | succ n ih =>
    intro m
    unfold maxPowerLoop
    split_ifs
    · exact le_trans (Nat.le_succ m) (ih (m + 1))
    · exact le_refl _

theorem maxijkStep_ge (dim : Nat) (m : Int) (idx : IntVect) :
    m ≤ maxijkStep dim m idx ∧ ∀ j, j < dim → idx.getD j 0 ≤ maxijkStep dim m idx := by
  unfold maxijkStep
  induction dim with
  | zero => exact ⟨le_refl _, fun j hj => by omega⟩
  | succ d ih =>
    rw [List.range_succ, List.foldl_append]
    simp only [List.foldl_cons, List.foldl_nil]
    refine ⟨le_trans ih.1 (le_max_left _ _), ?_⟩
    intro j hj
    by_cases hjd : j = d
    · rw [hjd]; exact le_max_right _ _
    · exact le_trans (ih.2 j (by omega)) (le_max_left _ _)

theorem foldl_maxijk_ge (dim : Nat) : ∀ (l : List IntVect) (m : Int),
    m ≤ l.foldl (fun m idx => maxijkStep dim m idx) m ∧
      ∀ idx ∈ l, ∀ j, j < dim → idx.getD j 0 ≤ l.foldl (fun m idx => maxijkStep dim m idx) m := by
  intro l
  induction l with
  | nil => intro m; exact ⟨le_refl _, fun idx h => by cases h⟩
  | cons x l ih =>
    intro m
    rw [List.foldl_cons]
    obtain ⟨i1, i2⟩ := ih (maxijkStep dim m x)
    obtain ⟨s1, s2⟩ := maxijkStep_ge dim m x
    refine ⟨le_trans s1 i1, ?_⟩
    intro idx hidx j hj
    rcases List.mem_cons.mp hidx with h | h
    · rw [h]; exact le_trans (s2 j hj) i1
    · exact i2 idx h j hj

/-- The value of `MaxPower` is at least 1 when a coordinate of a small end is positive. -/
theorem sfcMaxPower_pos (E : Env) (boxes : BoxArray)
    (h : ∃ b ∈ boxes, ∃ j, j < E.BL_SPACEDIM ∧ 1 ≤ b.smallEnd.getD j 0) :
    1 ≤ sfcMaxPower E boxes := by
  obtain ⟨b, hb, j, hj, hpos⟩ := h
  have hmax := (foldl_maxijk_ge E.BL_SPACEDIM (boxes.map Box.smallEnd) 0).2 b.smallEnd
    (List.mem_map.mpr ⟨b, hb, rfl⟩) j hj
  unfold sfcMaxPower maxPowerLoop
  have e : toInt32 (2 ^ 0) = 1 := by decide
  rw [e, if_pos (le_trans hpos hmax)]
  exact maxPowerLoop_ge _ _ _

/-- The member `SFCProcessorMapDoIt` returns the value `sfcMaxPower` for `MaxPower`. -/
theorem SFCProcessorMapDoIt_maxPower (L : StdLib) (E : Env) (boxes : BoxArray)
    (wgts : List Int) (nprocs : Nat) (pm pm' : List Int) (m : Nat)
    (h : SFCProcessorMapDoIt L E boxes wgts nprocs pm = .ok (pm', m)) :
    m = sfcMaxPower E boxes := by
  unfold SFCProcessorMapDoIt at h
  simp only at h
  split at h
  · cases h
  · simp only [Except.ok.injEq, Prod.mk.injEq] at h
    rw [← h.2]
    unfold sfcMaxPower
    congr 1
    rw [List.foldl_map, List.foldl_map]
    conv_rhs => rw [← List.enum_map_snd boxes, List.foldl_map]

/-! ## The comparison and the Morton key -/

theorem mortonPlane_lt (i : Nat) (idx : IntVect) : ∀ j, mortonPlane i idx j < 2 ^ j := by
  intro j
  induction j with
  | zero => simp [mortonPlane]
  | succ j ih =>
    simp only [mortonPlane]
    have hb : (idx.getD j 0).toNat / 2 ^ i % 2 ≤ 1 := by omega
    have h2 : (idx.getD j 0).toNat / 2 ^ i % 2 * 2 ^ j ≤ 1 * 2 ^ j :=
      Nat.mul_le_mul_right _ hb
    rw [pow_succ]
    omega

theorem mortonKey_lt (dim : Nat) (idx : IntVect) : ∀ n, mortonKey dim idx n < 2 ^ (dim * n) := by
  intro n
  induction n with
  | zero => simp [mortonKey]
  | succ n ih =>
    simp only [mortonKey]
    have hp := mortonPlane_lt n idx dim
    have h1 : (mortonPlane n idx dim + 1) * 2 ^ (dim * n) ≤ 2 ^ dim * 2 ^ (dim * n) :=
      Nat.mul_le_mul_right _ hp
    have e : 2 ^ (dim * (n + 1)) = 2 ^ dim * 2 ^ (dim * n) := by
      rw [← pow_add]; congr 1; ring
    rw [e]
    have e2 : (mortonPlane n idx dim + 1) * 2 ^ (dim * n)
        = mortonPlane n idx dim * 2 ^ (dim * n) + 2 ^ (dim * n) := by ring
    omega

theorem toInt32_two_pow (i : Nat) (h : i ≤ 30) : toInt32 (2 ^ i) = 2 ^ i := by
  have h1 : (2 : Int) ^ i ≤ 2 ^ 30 := pow_le_pow_right₀ (by norm_num) h
  have h2 : (0 : Int) < 2 ^ i := by positivity
  norm_num at h1
  unfold toInt32
  omega

theorem tdiv_two_pow (x : Int) (hx : 0 ≤ x) (i : Nat) :
    x.tdiv (2 ^ i) = ((x.toNat / 2 ^ i : Nat) : Int) := by
  obtain ⟨u, rfl⟩ := Int.eq_ofNat_of_zero_le hx
  rw [Int.tdiv_eq_ediv (by positivity) (by positivity)]
  simp

/-- On one plane the loop over the axes compares the bits of the plane, when the
coordinates are not negative and agree above the plane. -/
theorem compareAxes_morton (i : Nat) (a b : IntVect) : ∀ j,
    (∀ k, k < j → 0 ≤ a.getD k 0 ∧ 0 ≤ b.getD k 0 ∧
      (a.getD k 0).toNat / 2 ^ (i + 1) = (b.getD k 0).toNat / 2 ^ (i + 1)) →
    (compareAxes (2 ^ i) a b j = some true → mortonPlane i a j < mortonPlane i b j) ∧
    (compareAxes (2 ^ i) a b j = some false → mortonPlane i b j < mortonPlane i a j) ∧
    (compareAxes (2 ^ i) a b j = none → mortonPlane i a j = mortonPlane i b j ∧
      ∀ k, k < j → (a.getD k 0).toNat / 2 ^ i = (b.getD k 0).toNat / 2 ^ i) := by
  intro j
  induction j with
  | zero =>
    intro _
    refine ⟨?_, ?_, ?_⟩
    · intro h; simp [compareAxes] at h
    · intro h; simp [compareAxes] at h
    · intro _; exact ⟨rfl, fun k hk => by omega⟩
  | succ j ih =>
    intro hyp
    obtain ⟨ha, hb, hq⟩ := hyp j (by omega)
    obtain ⟨i1, i2, i3⟩ := ih (fun k hk => hyp k (by omega))
    unfold compareAxes
    simp only [mortonPlane]
    rw [tdiv_two_pow _ ha, tdiv_two_pow _ hb]
    have ea : (a.getD j 0).toNat / 2 ^ (i + 1) = (a.getD j 0).toNat / 2 ^ i / 2 := by
      rw [Nat.div_div_eq_div_mul, pow_succ]
    have eb : (b.getD j 0).toNat / 2 ^ (i + 1) = (b.getD j 0).toNat / 2 ^ i / 2 := by
      rw [Nat.div_div_eq_div_mul, pow_succ]
    rw [ea, eb] at hq
    generalize hpe : (a.getD j 0).toNat / 2 ^ i = p at hq ⊢
    generalize hqe : (b.getD j 0).toNat / 2 ^ i = q at hq ⊢
    have la := mortonPlane_lt i a j
    have lb := mortonPlane_lt i b j
    by_cases h1 : (p : Int) < (q : Int)
    · rw [if_pos h1]
      have hp : p % 2 = 0 := by omega
      have hq2 : q % 2 = 1 := by omega
      refine ⟨fun _ => ?_, ?_, ?_⟩
      · rw [hp, hq2]; omega
      · intro h; simp at h
      · intro h; simp at h
    · rw [if_neg h1]
      by_cases h2 : (p : Int) > (q : Int)
      · rw [if_pos h2]
        have hp : p % 2 = 1 := by omega
        have hq2 : q % 2 = 0 := by omega
        refine ⟨?_, fun _ => ?_, ?_⟩
        · intro h; simp at h
        · rw [hp, hq2]; omega
        · intro h; simp at h
      · rw [if_neg h2]
        have e : p = q := by omega
        subst e
        refine ⟨fun h => ?_, fun h => ?_, fun h => ?_⟩
        · have := i1 h; omega
        · have := i2 h; omega
        · obtain ⟨e1, e2⟩ := i3 h
          refine ⟨by rw [e1], ?_⟩
          intro k hk
          by_cases hkj : k = j
          · rw [hkj, hpe, hqe]
          · exact e2 k (by omega)

/-- The loops of `SFCToken::Compare` compare the Morton keys over the planes below `n`,
when the coordinates are not negative and agree from the plane `n` on. -/
theorem comparePlanes_morton (dim : Nat) (a b : IntVect) : ∀ n, n ≤ 31 →
    (∀ k, k < dim → 0 ≤ a.getD k 0 ∧ 0 ≤ b.getD k 0 ∧
      (a.getD k 0).toNat / 2 ^ n = (b.getD k 0).toNat / 2 ^ n) →
    (comparePlanes dim a b n = true ↔ mortonKey dim a n < mortonKey dim b n) := by
  intro n
  induction n with
  | zero =>
    intro _ _
    simp [comparePlanes, mortonKey]
  | succ i ih =>
    intro hn hyp
    unfold comparePlanes
    simp only [mortonKey]
    rw [toInt32_two_pow i (by omega)]
    obtain ⟨s1, s2, s3⟩ := compareAxes_morton i a b dim hyp
    have ka := mortonKey_lt dim a i
    have kb := mortonKey_lt dim b i
    cases hc : compareAxes (2 ^ i) a b dim with
    | none =>
      simp only
      obtain ⟨e1, e2⟩ := s3 hc
      rw [ih (by omega) (fun k hk => ⟨(hyp k hk).1, (hyp k hk).2.1, e2 k hk⟩), e1]
      omega
    | some c =>
      simp only
      cases c with
      | true =>
        have h := s1 hc
        have h1 : (mortonPlane i a dim + 1) * 2 ^ (dim * i)
            ≤ mortonPlane i b dim * 2 ^ (dim * i) := Nat.mul_le_mul_right _ h
        have e2 : (mortonPlane i a dim + 1) * 2 ^ (dim * i)
            = mortonPlane i a dim * 2 ^ (dim * i) + 2 ^ (dim * i) := by ring
        constructor
        · intro _; omega
        · intro _; rfl
      | false =>
        have h := s2 hc
        have h1 : (mortonPlane i b dim + 1) * 2 ^ (dim * i)
            ≤ mortonPlane i a dim * 2 ^ (dim * i) := Nat.mul_le_mul_right _ h
        have e2 : (mortonPlane i b dim + 1) * 2 ^ (dim * i)
            = mortonPlane i b dim * 2 ^ (dim * i) + 2 ^ (dim * i) := by ring
        constructor
        · intro h'; cases h'
        · intro h'; omega

/-- For coordinates in `[0, 2 ^ MaxPower)` the comparison `SFCToken::Compare` is the order
of the Morton keys. -/
theorem Compare_morton (dim MaxPower : Nat) (hm : MaxPower ≤ 31) (a b : SFCToken)
    (ha : ∀ k, k < dim → 0 ≤ a.m_idx.getD k 0 ∧ a.m_idx.getD k 0 < 2 ^ MaxPower)
    (hb : ∀ k, k < dim → 0 ≤ b.m_idx.getD k 0 ∧ b.m_idx.getD k 0 < 2 ^ MaxPower) :
    SFCToken.Compare dim MaxPower a b = true ↔
      mortonKey dim a.m_idx MaxPower < mortonKey dim b.m_idx MaxPower := by
  unfold SFCToken.Compare
  apply comparePlanes_morton dim a.m_idx b.m_idx MaxPower hm
  intro k hk
  obtain ⟨a1, a2⟩ := ha k hk
  obtain ⟨b1, b2⟩ := hb k hk
  refine ⟨a1, b1, ?_⟩
  have la : (a.m_idx.getD k 0).toNat < 2 ^ MaxPower := by
    have : ((a.m_idx.getD k 0).toNat : Int) < ((2 ^ MaxPower : Nat) : Int) := by
      rw [Int.toNat_of_nonneg a1]; push_cast; exact a2
    exact_mod_cast this
  have lb : (b.m_idx.getD k 0).toNat < 2 ^ MaxPower := by
    have : ((b.m_idx.getD k 0).toNat : Int) < ((2 ^ MaxPower : Nat) : Int) := by
      rw [Int.toNat_of_nonneg b1]; push_cast; exact b2
    exact_mod_cast this
  rw [Nat.div_eq_of_lt la, Nat.div_eq_of_lt lb]

/-! ## The resolution without a positive coordinate -/

theorem maxijkStep_nonpos (dim : Nat) (m : Int) (idx : IntVect) (hm : m ≤ 0)
    (h : ∀ j, j < dim → idx.getD j 0 ≤ 0) : maxijkStep dim m idx ≤ 0 := by
  unfold maxijkStep
  induction dim with
  | zero => exact hm
  | succ d ih =>
    rw [List.range_succ, List.foldl_append]
    simp only [List.foldl_cons, List.foldl_nil]
    exact max_le (ih (fun j hj => h j (by omega))) (h d (by omega))

theorem foldl_maxijk_nonpos (dim : Nat) : ∀ (l : List IntVect) (m : Int), m ≤ 0 →
    (∀ idx ∈ l, ∀ j, j < dim → idx.getD j 0 ≤ 0) →
    l.foldl (fun m idx => maxijkStep dim m idx) m ≤ 0 := by
  intro l
  induction l with
  | nil => intro m hm _; exact hm
  | cons x l ih =>
    intro m hm h
    rw [List.foldl_cons]
    exact ih _ (maxijkStep_nonpos dim m x hm (h x (List.mem_cons_self _ _)))
      (fun idx hidx => h idx (List.mem_cons_of_mem _ hidx))

/-- The value of `MaxPower` is 0 when no coordinate of a small end is positive. -/
theorem sfcMaxPower_zero (E : Env) (boxes : BoxArray)
    (h : ∀ b ∈ boxes, ∀ j, j < E.BL_SPACEDIM → b.smallEnd.getD j 0 ≤ 0) :
    sfcMaxPower E boxes = 0 := by
  have hmax := foldl_maxijk_nonpos E.BL_SPACEDIM (boxes.map Box.smallEnd) 0 (le_refl _)
    (fun idx hidx => by
      obtain ⟨b, hb, e⟩ := List.mem_map.mp hidx
      rw [← e]; exact h b hb)
  unfold sfcMaxPower maxPowerLoop
  have e : toInt32 (2 ^ 0) = 1 := by decide
  rw [e, if_neg (by omega)]

/-- Without a plane `SFCToken::Compare` puts no token before another. -/
theorem Compare_zero (dim : Nat) (a b : SFCToken) : SFCToken.Compare dim 0 a b = false := rfl

/-! ## The end of the refinement -/

theorem findOwb_eq_none (top_w wb : Int) (wbl_chk : WeightedBoxList)
    (h : findOwb top_w wb wbl_chk = none) :
    ∀ owb ∈ wbl_chk.m_lb, swapImproves top_w wbl_chk.weight wb owb.weight = false := by
  unfold findOwb at h
  rw [List.findIdx?_eq_none_iff] at h
  exact h

theorem findChk_eq_none (top_w wb : Int) : ∀ (others : List WeightedBoxList) (c : Nat),
    findChk top_w wb others c = none →
    ∀ wbl_chk ∈ others, ∀ owb ∈ wbl_chk.m_lb,
      swapImproves top_w wbl_chk.weight wb owb.weight = false := by
  intro others
  induction others with
  | nil => intro c _ x hx; cases hx
  | cons x rest ih =>
    intro c h y hy
    unfold findChk at h
    cases ho : findOwb top_w wb x with
    | some o => rw [ho] at h; simp at h
    | none =>
      rw [ho] at h
      rcases List.mem_cons.mp hy with e | e
      · rw [e]; exact findOwb_eq_none top_w wb x ho
      · exact ih (c + 1) h y e

theorem findWb_eq_none (top_w : Int) (others : List WeightedBoxList) :
    ∀ (lb : List WeightedBox) (i : Nat), findWb top_w others lb i = none →
    ∀ wb ∈ lb, ∀ wbl_chk ∈ others, ∀ owb ∈ wbl_chk.m_lb,
      swapImproves top_w wbl_chk.weight wb.weight owb.weight = false := by
  intro lb
  induction lb with
  | nil => intro i _ x hx; cases hx
  | cons x rest ih =>
    intro i h y hy
    unfold findWb at h
    cases hc : findChk top_w x.weight others 0 with
    | some p => rw [hc] at h; simp at h
    | none =>
      rw [hc] at h
      rcases List.mem_cons.mp hy with e | e
      · rw [e]; exact findChk_eq_none top_w x.weight others 0 hc
      · exact ih (i + 1) h y e

/-- The part of `knapsack` between `top` and `bottom`, with the full refinement, returns
with an efficiency above the threshold or with a list of bins without an exchange to
make. -/
theorem refine_exit (max_efficiency : Dbl) (nprocs : Nat) (sum_weight : Int) :
    ∀ (fuel : Nat) (q : List WeightedBoxList) (efficiency : Dbl)
      (r : List WeightedBoxList × Dbl),
      refine max_efficiency true nprocs sum_weight fuel q efficiency = some r →
      r.2.gt max_efficiency = true ∨ NoSwap r.1 := by
  intro fuel
  induction fuel with
  | zero => intro q e r h; simp [refine] at h
  | succ fuel ih =>
    intro q e r h
    cases q with
    | nil => simp [refine] at h
    | cons wbl_top others =>
      unfold refine at h
      simp only [Bool.not_true, Bool.or_false] at h
      by_cases hc : e.gt max_efficiency = true
      · rw [if_pos hc] at h
        simp only [Option.some.injEq] at h
        rw [← h]
        exact Or.inl hc
      · rw [if_neg hc] at h
        cases hf : findWb wbl_top.weight others wbl_top.m_lb 0 with
        | none =>
          rw [hf] at h
          simp only [Option.some.injEq] at h
          rw [← h]
          exact Or.inr (findWb_eq_none wbl_top.weight others wbl_top.m_lb 0 hf)
        | some t =>
          obtain ⟨i, c, o⟩ := t
          rw [hf] at h
          simp only at h
          cases ha : applySwap wbl_top others i c o with
          | none => rw [ha] at h; simp at h
          | some q1 =>
            rw [ha] at h
            exact ih q1 _ r h

theorem binOK_binWeight (wgts : List Int) (x : WeightedBoxList)
    (h : BinOK (fun b => b.m_weight = ballWeight wgts b.m_boxid) x) :
    x.weight = binWeight wgts (x.m_lb.map WeightedBox.boxid) := by
  unfold binWeight WeightedBoxList.weight
  rw [h.1, List.map_map]
  congr 1
  apply List.map_congr_left
  intro b hb
  exact h.2 b hb

/-! ## The bins that `knapsack` returns -/

/-- With the full refinement `knapsack` returns bins from the heaviest on, and either an
efficiency above the threshold or bins without an exchange to make. -/
theorem knapsack_exit (L : StdLib) (hs : ∀ l, (L.sortWB l).Perm l)
    (hq : ∀ q, q ≠ [] → L.pqTop q < q.length) (max_efficiency : Dbl) (wgts : List Int)
    (nprocs : Nat) (hn : 1 ≤ nprocs) :
    ∃ fuel0, ∀ fuel, fuel0 ≤ fuel →
      ∃ vec eff, knapsack L max_efficiency fuel wgts nprocs true = some (vec, eff) ∧
        vec.length = nprocs ∧
        (vec.map (binWeight wgts)).Pairwise (fun x y => y ≤ x) ∧
        (eff.gt max_efficiency = true ∨
          ∀ a ∈ vec.headD [], ∀ l ∈ vec.tail, ∀ b ∈ l,
            ¬ (binWeight wgts (vec.headD []) + ballWeight wgts b - ballWeight wgts a
                  < binWeight wgts (vec.headD []) ∧
                binWeight wgts l + ballWeight wgts a - ballWeight wgts b
                  < binWeight wgts (vec.headD []))) := by
  have hP0 : ∀ b ∈ wgts.enum.map (fun p => WeightedBox.new p.1 p.2),
      b.m_weight = ballWeight wgts b.m_boxid := by
    intro b hb
    obtain ⟨p, hp, hpb⟩ := List.mem_map.mp hb
    obtain ⟨k, hk, hke⟩ := List.mem_iff_getElem.mp hp
    have hk' : k < wgts.length := by simpa using hk
    rw [← hpb, ← hke]
    simp only [List.getElem_enum, WeightedBox.new, ballWeight]
    rw [List.getD_eq_getElem _ _ hk']
  have hP : ∀ b ∈ L.sortWB (wgts.enum.map (fun p => WeightedBox.new p.1 p.2)),
      b.m_weight = ballWeight wgts b.m_boxid :=
    fun b hb => hP0 b ((hs _).mem_iff.mp hb)
  obtain ⟨wblq, hg, hgl, hgb⟩ := greedy_spec L hq
    (L.sortWB (wgts.enum.map (fun p => WeightedBox.new p.1 p.2)))
    (List.replicate nprocs WeightedBoxList.new)
    (by intro h; have := congrArg List.length h; simp at this; omega)
  have hgok := greedy_binOK L
    (fun b => b.m_weight = ballWeight wgts b.m_boxid) _ _ wblq hg hP (by
      intro x hx
      rw [List.eq_of_mem_replicate hx]
      exact ⟨rfl, fun b hb => by cases hb⟩)
  obtain ⟨wblqg0, hd, hdp⟩ := drain_spec L hq wblq.length wblq rfl
  have hdok := drain_binOK L _ _ _ _ hd hgok
  have hsp := listSort_perm wblqg0
  have hok : ∀ x ∈ listSort wblqg0, BinOK
      (fun b => b.m_weight = ballWeight wgts b.m_boxid) x :=
    fun x hx => hdok x (hsp.mem_iff.mp hx)
  have hlen : (listSort wblqg0).length = nprocs := by
    rw [hsp.length_eq, hdp.length_eq, hgl]; simp
  have hdesc := listSort_desc wblqg0
  have hne : listSort wblqg0 ≠ [] := by
    intro h; rw [h] at hlen; simp at hlen; omega
  refine ⟨sumSquares (listSort wblqg0) + 1, ?_⟩
  intro fuel hfuel
  obtain ⟨q', eff', hr, hl', _⟩ := refine_spec max_efficiency true nprocs
    ((listSort wblqg0).foldl (fun s wbl => s + wbl.weight) 0) fuel (listSort wblqg0)
    (efficiencyOf ((listSort wblqg0).foldl (fun s wbl => s + wbl.weight) 0) nprocs
      ((listSort wblqg0).foldl (fun m wbl => if wbl.weight > m then wbl.weight else m) 0))
    hne (by omega)
  obtain ⟨_, r2, r3, _, _⟩ := refine_result _ _ _ _ _ _ _ _ _ hr hdesc hok
  have hex := refine_exit _ _ _ _ _ _ _ hr
  simp only at r2 r3 hex
  have hw : ∀ x ∈ q', x.weight = binWeight wgts (x.m_lb.map WeightedBox.boxid) :=
    fun x hx => binOK_binWeight wgts x (r3 x hx)
  refine ⟨(q'.take nprocs).map (fun wbl => wbl.m_lb.map WeightedBox.boxid), eff', ?_, ?_, ?_, ?_⟩
  · unfold knapsack
    simp only
    rw [hg]
    simp only
    rw [hd]
    simp only
    rw [hr]
  · rw [List.length_map, List.length_take, hl', hlen]; simp
  · rw [List.take_of_length_le (by omega), List.map_map, List.pairwise_map]
    unfold Desc at r2
    refine r2.imp_of_mem ?_
    intro a b ha hb hab
    simp only [Function.comp]
    rw [← hw a ha, ← hw b hb]
    exact hab
  · rcases hex with h | h
    · exact Or.inl h
    · right
      rw [List.take_of_length_le (by omega)]
      cases q' with
      | nil => intro a ha; simp at ha
      | cons top others =>
        simp only [List.map_cons, List.headD_cons, List.tail_cons]
        intro a ha l hl b hb
        obtain ⟨wb, hwb, ea⟩ := List.mem_map.mp ha
        obtain ⟨chk, hchk, el⟩ := List.mem_map.mp hl
        rw [← el] at hb
        obtain ⟨owb, howb, eb⟩ := List.mem_map.mp hb
        have hns := h wb hwb chk hchk owb howb
        have p1 := (r3 top (List.mem_cons_self _ _)).2 wb hwb
        have p2 := (r3 chk (List.mem_cons_of_mem _ hchk)).2 owb howb
        simp only at p1 p2
        rw [← el, ← hw top (List.mem_cons_self _ _), ← hw chk (List.mem_cons_of_mem _ hchk),
          ← ea, ← eb]
        unfold WeightedBox.boxid
        rw [← p1, ← p2]
        unfold swapImproves at hns
        simp only [Bool.and_eq_false_iff, decide_eq_false_iff_not] at hns
        unfold WeightedBox.weight at hns
        intro hcon
        rcases hns with h1 | h1
        · exact h1 hcon.1
        · exact h1 hcon.2

/-! ## The eviction from the cache -/

/-- The `Ref` of an entry of the cache is counted at least once. -/
theorem linkCount_pos (s : State) (live : List Nat) (p : Nat × Nat) (hp : p ∈ s.m_Cache) :
    1 ≤ linkCount s live p.2 := by
  unfold linkCount
  have h : p ∈ s.m_Cache.filter (fun q => q.2 = p.2) := by
    rw [List.mem_filter]
    exact ⟨hp, by simp⟩
  have := List.length_pos_of_mem h
  omega

/-- The entries of the cache after `FlushCache` are the entries whose `Ref` has another
holder, in their order; no `Ref` changes. -/
theorem FlushCache_spec (s : State) (live : List Nat) :
    (∀ p, p ∈ (FlushCache s live).m_Cache ↔ p ∈ s.m_Cache ∧ 1 < linkCount s live p.2) ∧
    (FlushCache s live).m_Cache.Sublist s.m_Cache ∧
    (FlushCache s live).heap = s.heap := by
  refine ⟨?_, ?_, rfl⟩
  · intro p
    unfold FlushCache
    simp only [List.mem_filter, decide_eq_true_eq]
    constructor
    · intro h
      have := linkCount_pos s live p h.1
      exact ⟨h.1, by omega⟩
    · intro h
      exact ⟨h.1, by omega⟩
  · unfold FlushCache
    exact List.filter_sublist _

/-- The member `Finalize` leaves an empty cache and changes no `Ref`. -/
theorem Finalize_spec (s : State) (live : List Nat) :
    (Finalize s live).m_Cache = [] ∧ (Finalize s live).heap = s.heap ∧
      (Finalize s live).initialized = false ∧ (Finalize s live).m_BuildMap = none :=
  ⟨rfl, rfl, rfl, rfl⟩

theorem mapInsert_mem {β : Type} (m : List (Nat × β)) (k : Nat) (x : β) (p : Nat × β)
    (hp : p ∈ m) : p ∈ mapInsert m k x := by
  unfold mapInsert
  split_ifs with h
  · exact hp
  · rw [List.mem_append, List.mem_cons, List.mem_filter, List.mem_filter]
    rcases Nat.lt_trichotomy p.1 k with h1 | h1 | h1
    · exact Or.inl ⟨hp, by simpa using h1⟩
    · exfalso
      apply h
      rw [List.any_eq_true]
      exact ⟨p, hp, by simpa using h1⟩
    · exact Or.inr (Or.inr ⟨hp, by simpa using h1⟩)

/-- The member `define` removes no entry of the cache. -/
theorem define_keeps_cache (L : StdLib) (E : Env) (fuel : Nat) (s : State) (this : Nat)
    (boxes : BoxArray) (nprocs : Nat) (s1 : State) (r1 : Nat)
    (h : define L E fuel s this boxes nprocs = .ok (s1, r1)) :
    ∀ p ∈ s.m_Cache, p ∈ s1.m_Cache := by
  intro p hp
  have hc := defineEntry_cache L E s this boxes
  rw [define_eq] at h
  by_cases hn : nprocs = 1
  · rw [if_pos hn] at h
    simp only [Except.ok.injEq, Prod.mk.injEq] at h
    rw [← h.1]
    unfold setPmap
    simp only
    rw [hc]; exact hp
  · rw [if_neg hn] at h
    cases hg : GetMap E (defineEntry L E s this boxes) this boxes with
    | error e => rw [hg] at h; cases h
    | ok o =>
      rw [hg] at h
      cases o with
      | some m_ref =>
        simp only [Except.ok.injEq, Prod.mk.injEq] at h
        rw [← h.1, hc]; exact hp
      | none =>
        simp only at h
        cases hf : (defineEntry L E s this boxes).m_BuildMap with
        | none => rw [hf] at h; cases h
        | some f =>
          rw [hf] at h
          simp only at h
          cases hb : callBuildMap L E (defineEntry L E s this boxes) fuel f boxes nprocs
              (pmapOf (defineEntry L E s this boxes) this) with
          | error e => rw [hb] at h; cases h
          | ok r =>
            obtain ⟨pm, mp⟩ := r
            rw [hb] at h
            simp only [Except.ok.injEq, Prod.mk.injEq] at h
            rw [← h.1]
            simp only
            apply mapInsert_mem
            rw [hc]; exact hp

/-- The constructors remove no entry of the cache. -/
theorem constructors_keep_cache (L : StdLib) (E : Env) (fuel : Nat) (s : State) :
    (DistributionMapping_default s).1.m_Cache = s.m_Cache ∧
    (∀ d1 d2, (DistributionMapping_join E s d1 d2).1.m_Cache = s.m_Cache) ∧
    (∀ pmap put s1 r1, DistributionMapping_pmap E s pmap put = .ok (s1, r1) →
      ∀ p ∈ s.m_Cache, p ∈ s1.m_Cache) ∧
    (∀ boxes nprocs s1 r1, DistributionMapping_boxes L E fuel s boxes nprocs = .ok (s1, r1) →
      ∀ p ∈ s.m_Cache, p ∈ s1.m_Cache) := by
  refine ⟨rfl, fun _ _ => rfl, ?_, ?_⟩
  · intro pmap put s1 r1 h p hp
    unfold DistributionMapping_pmap at h
    simp only at h
    split_ifs at h with h1 h2
    · simp only [Except.ok.injEq, Prod.mk.injEq] at h
      rw [← h.1]
      simp only
      exact mapInsert_mem _ _ _ p hp
    · have e : s1 = (newRef s pmap).1 := by
        simp only [Except.ok.injEq] at h
        rw [h]
      rw [e]
      exact hp
  · intro boxes nprocs s1 r1 h p hp
    unfold DistributionMapping_boxes at h
    exact define_keeps_cache L E fuel _ _ boxes nprocs s1 r1 h p hp

/-! ## A cached map -/

theorem stateCached_eq : stateCached.m_Cache = [(4, 0)] ∧ stateCached.heap = [[1, 0, 0, 0]] :=
  ⟨by rfl, by rfl⟩

/-! ## The lookups of the topology directory -/

theorem mapFind_some_mem {κ β : Type} [DecidableEq κ] (m : List (κ × β)) (k : κ) (v : β)
    (h : mapFind m k = some v) : (k, v) ∈ m := by
  induction m with
  | nil => simp [mapFind_nil] at h
  | cons p m ih =>
    rw [mapFind_cons] at h
    by_cases hk : p.1 = k
    · rw [if_pos hk] at h
      simp only [Option.some.injEq] at h
      rw [← hk, ← h]
      exact List.mem_cons_self _ _
    · rw [if_neg hk] at h
      exact List.mem_cons_of_mem _ (ih h)

/-- The member `ProcNumberFromRank` returns `-1` for a rank that is not registered, with a
line of error on the I/O processor and nothing else changed, and the registered number for
a registered rank. -/
theorem ProcNumberFromRank_spec (E : Env) (s : State) (rank : Int) :
    (mapFind s.rankPNumMap rank = none →
      (ProcNumberFromRank E s rank).1 = -1 ∧
      (ProcNumberFromRank E s rank).2 = (if E.IOProcessor then
        { s with reported := s.reported ++ ["**** Error in ProcNumberFromRank:  rank not found"] }
        else s)) ∧
    (∀ v, mapFind s.rankPNumMap rank = some v → ProcNumberFromRank E s rank = (v, s)) := by
  unfold ProcNumberFromRank
  constructor
  · intro h; rw [h]; exact ⟨rfl, rfl⟩
  · intro v h; rw [h]

/-- The member `TopIVFromProcNumber` returns the default `IntVect` for a node that is not
registered, with a line of error on the I/O processor and nothing else changed, and the
registered point for a registered node. -/
theorem TopIVFromProcNumber_spec (E : Env) (s : State) (iv0 : IntVect) (procnum : Int) :
    (mapFind s.pNumTopIVMap procnum = none →
      (TopIVFromProcNumber E s iv0 procnum).1 = iv0 ∧
      (TopIVFromProcNumber E s iv0 procnum).2 = (if E.IOProcessor then
        { s with reported :=
            s.reported ++ ["**** Error in TopIVFromProcNumber:  procnum not found"] }
        else s)) ∧
    (∀ v, mapFind s.pNumTopIVMap procnum = some v →
      TopIVFromProcNumber E s iv0 procnum = (v, s)) := by
  unfold TopIVFromProcNumber
  constructor
  · intro h; rw [h]; exact ⟨rfl, rfl⟩
  · intro v h; rw [h]

theorem dirInsert_mem {κ β : Type} [DecidableEq κ] (unique : Bool) (m : List (κ × β)) (k : κ)
    (x : β) (p : κ × β) (h : p ∈ dirInsert unique m k x) : p ∈ m ∨ p = (k, x) := by
  unfold dirInsert at h
  split_ifs at h
  · exact Or.inl h
  · rcases List.mem_append.mp h with h1 | h1
    · exact Or.inl h1
    · exact Or.inr (by simpa using h1)

theorem foldl_invariant_mem {α β : Type} (P : β → Prop) (f : β → α → β) :
    ∀ (l : List α) (b : β), (∀ b a, a ∈ l → P b → P (f b a)) → P b → P (l.foldl f b) := by
  intro l
  induction l with
  | nil => intro b _ hb; exact hb
  | cons a l ih =>
    intro b h hb
    exact ih _ (fun b' a' ha' => h b' a' (List.mem_cons_of_mem _ ha'))
      (h b a (List.mem_cons_self _ _) hb)

/-- The numbers that `registerRanks` puts into `rankPNumMap` are gathered ones. -/
theorem registerRanks_mem (procNumbers : List Int) (s : State) :
    ∀ p ∈ (registerRanks procNumbers s).rankPNumMap,
      p ∈ s.rankPNumMap ∨ p.2 ∈ procNumbers := by
  unfold registerRanks
  apply foldl_invariant_mem
    (fun (t : State) => ∀ p ∈ t.rankPNumMap, p ∈ s.rankPNumMap ∨ p.2 ∈ procNumbers)
  · intro t i hi ht p hp
    simp only at hp
    rcases dirInsert_mem _ _ _ _ p hp with h | h
    · exact ht p h
    · right
      rw [h]
      simp only
      have hi' : i < procNumbers.length := by simpa using hi
      rw [List.getD_eq_getElem _ _ hi']
      exact List.getElem_mem _
  · intro p hp; exact Or.inl hp

theorem registerNodes_rankPNumMap (tFab : TopoFab) (s : State) :
    (registerNodes tFab s).rankPNumMap = s.rankPNumMap := by
  unfold registerNodes
  apply foldl_invariant (fun (t : State) => t.rankPNumMap = s.rankPNumMap)
  · intro t comp ht
    apply foldl_invariant (fun (u : State) => u.rankPNumMap = s.rankPNumMap)
    · intro u p hu
      simp only
      split_ifs
      · exact hu
      · exact hu
    · exact ht
  · rfl

/-- The numbers of `rankPNumMap` after `InitProximityMap` are those it held before and the
gathered ones. -/
theorem InitProximityMap_rankPNumMap (L : StdLib) (E : Env) (s : State) :
    ∀ p ∈ (InitProximityMap L E s).rankPNumMap,
      p ∈ s.rankPNumMap ∨ p.2 ∈ gatherProcNumbers E := by
  have h0 := registerRanks_mem (gatherProcNumbers E)
    { s with proximityMap := resize s.proximityMap E.NProcs
             proximityOrder := resize s.proximityOrder E.NProcs }
  unfold InitProximityMap
  simp only
  split_ifs with hio
  · unfold readTopologyFile
    cases E.topolcoords with
    | none => exact h0
    | some tFab =>
      simp only
      unfold readTopology
      simp only
      rw [registerNodes_rankPNumMap]
      exact h0
  · exact h0

/-- With MPI the gathered numbers are those of the environment. -/
theorem gatherProcNumbers_mem (E : Env) (hm : E.BL_USE_MPI = true)
    (hl : E.procNumbers.length = E.NProcs) :
    ∀ x ∈ gatherProcNumbers E, x ∈ E.procNumbers := by
  intro x hx
  unfold gatherProcNumbers at hx
  obtain ⟨i, hi, e⟩ := List.mem_map.mp hx
  rw [hm, if_pos rfl] at e
  have hi' : i < E.procNumbers.length := by rw [hl]; simpa using hi
  rw [← e, List.getD_eq_getElem _ _ hi']
  exact List.getElem_mem _

/-! ## The runs of the proximity strategy -/

/-- The loop that gives the runs their workers: when the runs hold every box once, every
box of the run `k` has the worker `ProximityMap (k)` at the end. -/
theorem assignRuns_exact (s : State) (N nprocs r : Nat) (vec : List (List Nat))
    (pm : List Int) (hvl : vec.length = nprocs) (hvp : vec.flatten.Perm (List.range N))
    (hlen : pm.length = N + 1) :
    ∀ k, k < nprocs → ∀ item ∈ vec.getD k [],
      ((assignRuns s vec nprocs pm).set N r).getD item 0 = ProximityMap s k := by
  intro k hk item hitem
  have hfl : item ∈ vec.flatten := by
    rw [List.getD_eq_getElem _ _ (by omega)] at hitem
    exact List.mem_flatten.mpr ⟨_, List.getElem_mem _, hitem⟩
  have hiN : item < N := List.mem_range.mp (hvp.mem_iff.mp hfl)
  rw [assignRuns_eq, getD_set_other _ _ _ _ _ (by omega)]
  have hnd : ((((List.range nprocs).map (fun i =>
      (vec.getD i []).map (fun b => (b, ProximityMap s i)))).flatten).map Prod.fst).Nodup := by
    rw [List.map_flatten, List.map_map]
    have e1 : (List.map Prod.fst ∘ fun i => (vec.getD i []).map
        (fun b => (b, ProximityMap s i))) = fun i => id (vec.getD i []) := by
      funext i
      simp only [Function.comp, List.map_map, id]
      exact List.map_id _
    rw [e1]
    have e3 := range_map_getD vec id []
    rw [hvl, List.map_id] at e3
    rw [e3]
    exact hvp.nodup_iff.mpr (List.nodup_range N)
  refine writeAll_getD_eq _ pm hnd (item, ProximityMap s k) ?_ (by simp only; omega)
  refine List.mem_flatten.mpr ⟨_, List.mem_map.mpr ⟨k, List.mem_range.mpr hk, rfl⟩, ?_⟩
  exact List.mem_map.mpr ⟨item, hitem, rfl⟩

theorem newVolPerCPU_fold (boxes : BoxArray) (pm : List Int) (w : Nat) :
    ∀ (l : List Nat) (nv : List Int), (∀ i ∈ l, (pm.getD i 0).toNat < nv.length) →
      (l.foldl (fun nv i => nv.set (pm.getD i 0).toNat
          (nv.getD (pm.getD i 0).toNat 0 + (boxes.getD i ⟨[], 0, 0⟩).numPts)) nv).getD w 0
        = nv.getD w 0 + cellsOn boxes pm w l := by
  intro l
  induction l with
  | nil => intro nv _; simp [cellsOn]
  | cons i l ih =>
    intro nv h
    rw [List.foldl_cons, ih _ (fun j hj => by
      rw [List.length_set]; exact h j (List.mem_cons_of_mem _ hj))]
    have hi := h i (List.mem_cons_self _ _)
    unfold cellsOn
    by_cases hw : (pm.getD i 0).toNat = w
    · rw [List.filter_cons_of_pos (by simpa using hw), List.map_cons, List.sum_cons, hw,
        getD_set_self _ _ _ _ (by rw [← hw]; exact hi)]
      ring
    · rw [List.filter_cons_of_neg (by simpa using hw), getD_set_other _ _ _ _ _ hw]

/-- The entry `w` of `newVolPerCPU` is the number of points of the boxes that the knapsack
gave to the worker `w`. -/
theorem newVolPerCPUOf_getD (boxes : BoxArray) (nprocs r : Nat) (pm : List Int)
    (hpm : GoodMap boxes.length nprocs r pm) (w : Nat) :
    (newVolPerCPUOf boxes nprocs pm).getD w 0
      = cellsOn boxes pm w (List.range boxes.length) := by
  unfold newVolPerCPUOf
  simp only
  rw [hpm.1, Nat.add_sub_cancel, newVolPerCPU_fold boxes pm w]
  · simp [List.getD_eq_getElem?_getD, List.getElem?_replicate]
    split_ifs <;> rfl
  · intro i hi
    have := hpm.2.1 i (List.mem_range.mp hi)
    rw [List.length_replicate]
    omega

theorem pfcTokens_perm (L : StdLib) (hpfc : ∀ l, (L.sortPFC l).Perm l) (boxes : BoxArray)
    (wgts : List Int) :
    ((pfcTokens L boxes wgts).map PFCToken.m_box).Perm (List.range boxes.length) := by
  unfold pfcTokens
  refine ((hpfc _).map _).trans ?_
  rw [List.map_map]
  have e2 : (PFCToken.m_box ∘ fun p : Nat × Box =>
      (⟨p.1, p.2.smallEnd, Dbl.ofInt (wgts.getD p.1 0)⟩ : PFCToken)) = Prod.fst := rfl
  rw [e2, List.enum_map_fst]

/-- The runs of `PFCProcessorMapDoIt` are `nprocs` runs that hold the boxes in the order
of the sorted tokens. -/
theorem pfcRuns_spec (L : StdLib) (boxes : BoxArray) (wgts : List Int) (nprocs : Nat)
    (hn : 1 ≤ nprocs) (pm : List Int) :
    (pfcRuns L boxes wgts nprocs pm).length = nprocs ∧
      (pfcRuns L boxes wgts nprocs pm).flatten
        = (pfcTokens L boxes wgts).map PFCToken.m_box := by
  have hd := distributeLoop_spec ((pfcTokens L boxes wgts).map (fun t => (t.m_box, t.m_vol)))
    nprocs (fun i => Dbl.ofInt ((newVolPerCPUOf boxes nprocs pm).getD i 0)) nprocs 0 0
    (Dbl.ofInt 0) (List.replicate nprocs []) (distInv_start _ nprocs hn)
  refine ⟨hd.1, ?_⟩
  unfold pfcRuns
  rw [hd.2, List.map_map]
  rfl

/-- The sum of the volumes of the tokens of `PFCProcessorMapDoIt` is the sum of the
weights of the boxes. -/
theorem pfcTokens_total (L : StdLib) (hpfc : ∀ l, (L.sortPFC l).Perm l) (boxes : BoxArray)
    (wgts : List Int) :
    (pfcTokens L boxes wgts).foldl (fun a t => ((Dbl.ofInt a).add t.m_vol).toLong) 0
      = ((List.range boxes.length).map (fun i => wgts.getD i 0)).sum := by
  have hp : (pfcTokens L boxes wgts).Perm (boxes.enum.map (fun p =>
      (⟨p.1, p.2.smallEnd, Dbl.ofInt (wgts.getD p.1 0)⟩ : PFCToken))) := hpfc _
  have hden : ∀ t ∈ pfcTokens L boxes wgts, t.m_vol.den = 1 := by
    intro t ht
    obtain ⟨p, _, hpe⟩ := List.mem_map.mp (hp.mem_iff.mp ht)
    rw [← hpe]; rfl
  rw [foldl_toLong_eq_sum _ _ hden, (hp.map (fun t => t.m_vol.num)).sum_eq, List.map_map,
    zero_add]
  have e : ((fun t : PFCToken => t.m_vol.num) ∘ fun p : Nat × Box =>
      (⟨p.1, p.2.smallEnd, Dbl.ofInt (wgts.getD p.1 0)⟩ : PFCToken))
      = (fun i => wgts.getD i 0) ∘ Prod.fst := rfl
  rw [e, ← List.map_map, List.enum_map_fst]

/-- The member `PFCProcessorMapDoIt`, when the weights and the boxes have the same total:
it runs the knapsack, cuts the sorted tokens into runs with the cells of the workers as
targets, and gives every box of the run `k` the worker `ProximityMap (k)`. -/
theorem PFCProcessorMapDoIt_pairing (L : StdLib) (hs : ∀ l, (L.sortWB l).Perm l)
    (hpfc : ∀ l, (L.sortPFC l).Perm l) (hq : ∀ q, q ≠ [] → L.pqTop q < q.length)
    (E : Env) (s : State) (boxes : BoxArray) (wgts : List Int) (nprocs : Nat)
    (hb : 1 ≤ boxes.length) (hn : 1 ≤ nprocs) (pm : List Int)
    (hlen : pm.length = boxes.length + 1)
    (htnc : ((List.range boxes.length).map (fun i => wgts.getD i 0)).sum
      = (boxes.map Box.numPts).sum) :
    ∃ fuel0, ∀ fuel, fuel0 ≤ fuel →
      ∃ pm1 pm', KnapSackProcessorMap L E s fuel boxes nprocs pm = .ok pm1 ∧
        GoodMap boxes.length nprocs E.MyProc pm1 ∧
        PFCProcessorMapDoIt L E s fuel boxes wgts nprocs pm = .ok pm' ∧
        pm'.length = boxes.length + 1 ∧ pm'.getD boxes.length 0 = (E.MyProc : Int) ∧
        ∀ k, k < nprocs → ∀ item ∈ (pfcRuns L boxes wgts nprocs pm1).getD k [],
          pm'.getD item 0 = ProximityMap s k := by
  obtain ⟨fuel0, hk⟩ := KnapSackProcessorMap_good L hs hq E s boxes nprocs hb hn pm hlen
  refine ⟨fuel0, ?_⟩
  intro fuel hf
  obtain ⟨pm1, h1, h2⟩ := hk fuel hf
  obtain ⟨r1, r2⟩ := pfcRuns_spec L boxes wgts nprocs hn pm1
  have hperm := pfcTokens_perm L hpfc boxes wgts
  have hl : (pfcTokens L boxes wgts).length = boxes.length := by
    simpa using hperm.length_eq
  have e : PFCProcessorMapDoIt L E s fuel boxes wgts nprocs pm
      = .ok ((assignRuns s (pfcRuns L boxes wgts nprocs pm1) nprocs pm1).set boxes.length
          E.MyProc) := by
    unfold PFCProcessorMapDoIt
    simp only
    have ht := pfcTokens_total L hpfc boxes wgts
    unfold pfcTokens at ht hl
    rw [if_neg (by
      rw [ht, hl, foldl_add_eq_sum (fun i => (boxes.getD i ⟨[], 0, 0⟩).numPts),
        range_map_getD boxes Box.numPts ⟨[], 0, 0⟩, htnc]
      simp), h1]
    rfl
  refine ⟨pm1, _, h1, h2, e, ?_, ?_, ?_⟩
  · rw [List.length_set, assignRuns_eq, writeAll_length, h2.1]
  · exact getD_set_self _ _ _ _ (by rw [assignRuns_eq, writeAll_length, h2.1]; omega)
  · exact assignRuns_exact s boxes.length nprocs E.MyProc _ pm1 r1 (by rw [r2]; exact hperm)
      h2.1

/-! ## The same call on another rank -/

theorem LeastUsedCPUs_onRank (E : Env) (r : Nat) (io : Bool) (nprocs : Nat) :
    LeastUsedCPUs (E.onRank r io) nprocs = LeastUsedCPUs E nprocs := rfl

theorem RoundRobinDoIt_onRank (E : Env) (r : Nat) (io : Bool) (nboxes nprocs : Nat)
    (v : Option (List LIpair)) (pm pm1 : List Int)
    (h : RoundRobinDoIt E nboxes nprocs v pm = .ok pm1) :
    RoundRobinDoIt (E.onRank r io) nboxes nprocs v pm = .ok (pm1.set nboxes r) := by
  unfold RoundRobinDoIt at h ⊢
  rw [LeastUsedCPUs_onRank]
  cases v with
  | none =>
    simp only [Except.ok.injEq] at h ⊢
    rw [← h, List.set_set]
    rfl
  | some v =>
    simp only at h ⊢
    split_ifs at h ⊢ with hv
    simp only [Except.ok.injEq] at h ⊢
    rw [← h, List.set_set]
    rfl

theorem RoundRobinProcessorMap_onRank (E : Env) (r : Nat) (io : Bool) (boxes : BoxArray)
    (nprocs : Nat) (pm pm1 : List Int)
    (h : RoundRobinProcessorMap E boxes nprocs pm = .ok pm1) :
    RoundRobinProcessorMap (E.onRank r io) boxes nprocs pm = .ok (pm1.set boxes.length r) := by
  unfold RoundRobinProcessorMap at h ⊢
  split_ifs at h ⊢ with h1 h2
  exact RoundRobinDoIt_onRank E r io _ _ _ _ _ h

theorem KnapSackDoIt_onRank (L : StdLib) (E : Env) (r : Nat) (io : Bool) (s1 s2 : State)
    (hk : s2.max_efficiency = s1.max_efficiency) (fuel : Nat) (wgts : List Int)
    (nprocs : Nat) (full : Bool) (pm pm1 : List Int) (eff : Dbl)
    (h : KnapSackDoIt L E s1 fuel wgts nprocs full pm = .ok (pm1, eff)) :
    KnapSackDoIt L (E.onRank r io) s2 fuel wgts nprocs full pm
      = .ok (pm1.set wgts.length r, eff) := by
  unfold KnapSackDoIt at h ⊢
  rw [hk, LeastUsedCPUs_onRank]
  cases hkn : knapsack L s1.max_efficiency fuel wgts nprocs full with
  | none => rw [hkn] at h; cases h
  | some ve =>
    obtain ⟨vec, e⟩ := ve
    rw [hkn] at h
    simp only at h ⊢
    split_ifs at h ⊢ with hv
    simp only [Except.ok.injEq, Prod.mk.injEq] at h ⊢
    rw [← h.1, List.set_set]
    exact ⟨rfl, h.2⟩

theorem KnapSackProcessorMap_onRank (L : StdLib) (E : Env) (r : Nat) (io : Bool)
    (s1 s2 : State) (hk : s2.max_efficiency = s1.max_efficiency) (fuel : Nat)
    (boxes : BoxArray) (nprocs : Nat) (pm pm1 : List Int)
    (h : KnapSackProcessorMap L E s1 fuel boxes nprocs pm = .ok pm1) :
    KnapSackProcessorMap L (E.onRank r io) s2 fuel boxes nprocs pm
      = .ok (pm1.set boxes.length r) := by
  unfold KnapSackProcessorMap at h ⊢
  split_ifs at h ⊢ with h1 h2 h3
  · exact RoundRobinProcessorMap_onRank E r io boxes nprocs pm pm1 h
  · simp only at h ⊢
    cases hd : KnapSackDoIt L E s1 fuel (boxes.map Box.numPts) nprocs true pm with
    | error e => rw [hd] at h; cases h
    | ok pe =>
      obtain ⟨p, e⟩ := pe
      rw [hd] at h
      simp only [Except.ok.injEq] at h
      rw [KnapSackDoIt_onRank L E r io s1 s2 hk fuel _ nprocs true pm p e hd]
      simp only [List.length_map, Except.ok.injEq]
      rw [h]

theorem SFCProcessorMapDoIt_onRank (L : StdLib) (E : Env) (r : Nat) (io : Bool)
    (boxes : BoxArray) (wgts : List Int) (nprocs : Nat) (pm pm1 : List Int) (m : Nat)
    (h : SFCProcessorMapDoIt L E boxes wgts nprocs pm = .ok (pm1, m)) :
    SFCProcessorMapDoIt L (E.onRank r io) boxes wgts nprocs pm
      = .ok (pm1.set boxes.length r, m) := by
  have hl := LeastUsedCPUs_onRank E r io nprocs
  cases E
  unfold SFCProcessorMapDoIt at h ⊢
  simp only [Env.onRank] at h hl ⊢
  rw [hl]
  split at h
  · cases h
  · simp only [Except.ok.injEq, Prod.mk.injEq] at h ⊢
    rw [← h.1, List.set_set]
    exact ⟨rfl, h.2⟩

theorem SFCProcessorMap_onRank (L : StdLib) (E : Env) (r : Nat) (io : Bool) (s1 s2 : State)
    (hk : s2.max_efficiency = s1.max_efficiency) (ht : s2.sfc_threshold = s1.sfc_threshold)
    (fuel : Nat) (boxes : BoxArray) (nprocs : Nat) (pm pm1 : List Int) (m : Nat)
    (h : SFCProcessorMap L E s1 fuel boxes nprocs pm = .ok (pm1, m)) :
    ∃ m2, SFCProcessorMap L (E.onRank r io) s2 fuel boxes nprocs pm
      = .ok (pm1.set boxes.length r, m2) := by
  unfold SFCProcessorMap at h ⊢
  rw [ht]
  by_cases h1 : boxes.length = 0
  · rw [if_pos h1] at h; cases h
  rw [if_neg h1] at h ⊢
  simp only at h ⊢
  generalize (if pm.length ≠ boxes.length + 1 then resize pm (boxes.length + 1) else pm)
    = pm0 at h ⊢
  by_cases h2 : (boxes.length : Int) < s1.sfc_threshold * nprocs
  · rw [if_pos h2] at h ⊢
    cases hd : KnapSackProcessorMap L E s1 fuel boxes nprocs pm0 with
    | error e => rw [hd] at h; cases h
    | ok p =>
      rw [hd] at h
      simp only [Except.ok.injEq, Prod.mk.injEq] at h
      rw [KnapSackProcessorMap_onRank L E r io s1 s2 hk fuel boxes nprocs _ p hd]
      exact ⟨_, by rw [h.1]⟩
  · rw [if_neg h2] at h ⊢
    exact ⟨m, SFCProcessorMapDoIt_onRank L E r io boxes _ nprocs _ pm1 m h⟩

theorem set_writeAll (N : Nat) (r : Int) : ∀ (ws : List (Nat × Int)) (X : List Int),
    (writeAll ws (X.set N r)).set N r = (writeAll ws X).set N r := by
  intro ws
  induction ws with
  | nil => intro X; exact List.set_set _ _ _ _
  | cons w ws ih =>
    intro X
    have e1 : writeAll (w :: ws) (X.set N r) = writeAll ws ((X.set N r).set w.1 w.2) := rfl
    have e2 : writeAll (w :: ws) X = writeAll ws (X.set w.1 w.2) := rfl
    rw [e1, e2]
    by_cases hw : w.1 = N
    · rw [hw, List.set_set]
    · have hc : (X.set N r).set w.1 w.2 = (X.set w.1 w.2).set N r :=
        List.set_comm r w.2 X (fun h => hw h.symm)
      rw [hc]
      exact ih _

theorem newVolPerCPUOf_set (boxes : BoxArray) (nprocs : Nat) (pm : List Int) (N : Nat)
    (r : Int) (hl : pm.length = N + 1) :
    newVolPerCPUOf boxes nprocs (pm.set N r) = newVolPerCPUOf boxes nprocs pm := by
  unfold newVolPerCPUOf
  rw [List.length_set, hl, Nat.add_sub_cancel]
  apply List.foldl_ext
  intro nv i hi
  have hi' : i < N := List.mem_range.mp hi
  simp only
  rw [getD_set_other _ _ _ _ _ (by omega)]

theorem assignRuns_congr (s1 s2 : State) (h : ∀ i, ProximityMap s2 i = ProximityMap s1 i)
    (vec : List (List Nat)) (nprocs : Nat) (pm : List Int) :
    assignRuns s2 vec nprocs pm = assignRuns s1 vec nprocs pm := by
  unfold assignRuns
  simp only [h]

theorem PFCProcessorMapDoIt_onRank (L : StdLib) (E : Env) (r : Nat) (io : Bool)
    (s1 s2 : State) (hk : s2.max_efficiency = s1.max_efficiency)
    (hp : ∀ i, ProximityMap s2 i = ProximityMap s1 i) (fuel : Nat) (boxes : BoxArray)
    (wgts : List Int) (nprocs : Nat) (pm pm1 : List Int)
    (h : PFCProcessorMapDoIt L E s1 fuel boxes wgts nprocs pm = .ok pm1) :
    PFCProcessorMapDoIt L (E.onRank r io) s2 fuel boxes wgts nprocs pm
      = .ok (pm1.set boxes.length r) := by
  unfold PFCProcessorMapDoIt at h ⊢
  simp only at h ⊢
  split_ifs at h ⊢ with htnc
  cases hd : KnapSackProcessorMap L E s1 fuel boxes nprocs pm with
  | error e => rw [hd] at h; cases h
  | ok p =>
    rw [hd] at h
    simp only [Except.ok.injEq] at h
    rw [KnapSackProcessorMap_onRank L E r io s1 s2 hk fuel boxes nprocs pm p hd]
    simp only [Except.ok.injEq]
    have hl := (KnapSackProcessorMap_shaped L E s1 fuel boxes nprocs pm p hd).1
    rw [newVolPerCPUOf_set boxes nprocs p boxes.length r hl, assignRuns_congr s1 s2 hp,
      assignRuns_eq, ← h, assignRuns_eq, List.set_set]
    exact set_writeAll _ _ _ _

theorem PFCProcessorMap_onRank (L : StdLib) (E : Env) (r : Nat) (io : Bool)
    (s1 s2 : State) (hk : s2.max_efficiency = s1.max_efficiency)
    (hp : ∀ i, ProximityMap s2 i = ProximityMap s1 i) (fuel : Nat) (boxes : BoxArray)
    (nprocs : Nat) (pm pm1 : List Int)
    (h : PFCProcessorMap L E s1 fuel boxes nprocs pm = .ok pm1) :
    PFCProcessorMap L (E.onRank r io) s2 fuel boxes nprocs pm
      = .ok (pm1.set boxes.length r) := by
  unfold PFCProcessorMap at h ⊢
  by_cases h1 : boxes.length = 0
  · rw [if_pos h1] at h; cases h
  rw [if_neg h1] at h ⊢
  exact PFCProcessorMapDoIt_onRank L E r io s1 s2 hk hp fuel boxes _ nprocs _ pm1 h

/-- The build function called on another rank, with the same threshold, the same
efficiency and, for the proximity strategy, the same proximity map, returns the same map
but for the sentinel. -/
theorem callBuildMap_onRank (L : StdLib) (E : Env) (r : Nat) (io : Bool) (s1 s2 : State)
    (hk : s2.max_efficiency = s1.max_efficiency) (ht : s2.sfc_threshold = s1.sfc_threshold)
    (f : PVMF)
    (hp : f = PVMF.PFCProcessorMap → ∀ i, ProximityMap s2 i = ProximityMap s1 i)
    (fuel : Nat) (boxes : BoxArray) (nprocs : Nat) (pm pm1 : List Int) (m : Nat)
    (h : callBuildMap L E s1 fuel f boxes nprocs pm = .ok (pm1, m)) :
    ∃ m2, callBuildMap L (E.onRank r io) s2 fuel f boxes nprocs pm
      = .ok (pm1.set boxes.length r, m2) := by
  unfold callBuildMap at h ⊢
  cases f with
  | RoundRobinProcessorMap =>
    simp only at h ⊢
    cases hd : RoundRobinProcessorMap E boxes nprocs pm with
    | error e => rw [hd] at h; cases h
    | ok p =>
      rw [hd] at h
      simp only [Except.ok.injEq, Prod.mk.injEq] at h
      rw [RoundRobinProcessorMap_onRank E r io boxes nprocs pm p hd]
      exact ⟨_, by rw [h.1]⟩
  | KnapSackProcessorMap =>
    simp only at h ⊢
    cases hd : KnapSackProcessorMap L E s1 fuel boxes nprocs pm with
    | error e => rw [hd] at h; cases h
    | ok p =>
      rw [hd] at h
      simp only [Except.ok.injEq, Prod.mk.injEq] at h
      rw [KnapSackProcessorMap_onRank L E r io s1 s2 hk fuel boxes nprocs pm p hd]
      exact ⟨_, by rw [h.1]⟩
  | SFCProcessorMap =>
    exact SFCProcessorMap_onRank L E r io s1 s2 hk ht fuel boxes nprocs pm pm1 m h
  | PFCProcessorMap =>
    simp only at h ⊢
    cases hd : PFCProcessorMap L E s1 fuel boxes nprocs pm with
    | error e => rw [hd] at h; cases h
    | ok p =>
      rw [hd] at h
      simp only [Except.ok.injEq, Prod.mk.injEq] at h
      rw [PFCProcessorMap_onRank L E r io s1 s2 hk (hp rfl) fuel boxes nprocs pm p hd]
      exact ⟨_, by rw [h.1]⟩

/-! ## The initialization on another rank -/

theorem sameKnobs_refl (s : State) : SameKnobs s s := ⟨Eq.refl _, Eq.refl _, Eq.refl _⟩

theorem sameKnobs_trans {a b c : State} (h1 : SameKnobs a b) (h2 : SameKnobs b c) :
    SameKnobs a c := ⟨h2.1.trans h1.1, h2.2.1.trans h1.2.1, h2.2.2.trans h1.2.2⟩

theorem sameKnobs_symm {a b : State} (h : SameKnobs a b) : SameKnobs b a :=
  ⟨h.1.symm, h.2.1.symm, h.2.2.symm⟩

theorem registerNodes_knobs (tFab : TopoFab) (s : State) :
    SameKnobs s (registerNodes tFab s) := by
  unfold registerNodes
  apply foldl_invariant (SameKnobs s)
  · intro b a hb
    apply foldl_invariant (SameKnobs s)
    · intro b' a' hb'
      simp only
      split_ifs
      · exact ⟨hb'.1, hb'.2.1, hb'.2.2⟩
      · exact hb'
    · exact hb
  · exact sameKnobs_refl s

theorem registerRanks_knobs (pn : List Int) (s : State) : SameKnobs s (registerRanks pn s) := by
  unfold registerRanks
  apply foldl_invariant (SameKnobs s)
  · intro b a hb; exact ⟨hb.1, hb.2.1, hb.2.2⟩
  · exact sameKnobs_refl s

theorem InitProximityMap_knobs (L : StdLib) (E : Env) (s : State) :
    SameKnobs s (InitProximityMap L E s) := by
  have h2 := registerRanks_knobs (gatherProcNumbers E)
    { s with proximityMap := resize s.proximityMap E.NProcs
             proximityOrder := resize s.proximityOrder E.NProcs }
  unfold InitProximityMap
  simp only
  by_cases hio : E.IOProcessor = true
  · rw [if_pos hio]
    unfold readTopologyFile
    cases htc : E.topolcoords with
    | none => exact ⟨h2.1, h2.2.1, h2.2.2⟩
    | some tFab =>
      have h3 := registerNodes_knobs tFab (registerRanks (gatherProcNumbers E)
        { s with proximityMap := resize s.proximityMap E.NProcs
                 proximityOrder := resize s.proximityOrder E.NProcs })
      unfold readTopology
      exact ⟨h3.1.trans h2.1, h3.2.1.trans h2.2.1, h3.2.2.trans h2.2.2⟩
  · rw [if_neg hio]
    exact ⟨h2.1, h2.2.1, h2.2.2⟩

theorem readStrategy_onRank (L : StdLib) (E : Env) (r : Nat) (io : Bool) (s : State) :
    SameKnobs (readStrategy L E s) (readStrategy L (E.onRank r io) s) := by
  unfold readStrategy
  have e : (E.onRank r io).pp = E.pp := rfl
  rw [e]
  cases E.pp.strategy with
  | none => exact sameKnobs_refl _
  | some nm =>
    simp only
    split_ifs
    · exact sameKnobs_refl _
    · exact sameKnobs_refl _
    · exact sameKnobs_refl _
    · exact sameKnobs_trans (sameKnobs_symm (InitProximityMap_knobs L E _))
        (InitProximityMap_knobs L (E.onRank r io) _)
    · exact sameKnobs_refl _

theorem resizeArrays_knobs (E : Env) (s : State) : SameKnobs s (resizeArrays E s) := by
  unfold resizeArrays
  simp only
  split_ifs <;> exact ⟨rfl, rfl, rfl⟩

/-- The build function, the threshold and the efficiency after `Initialize` are the same
on every rank. -/
theorem Initialize_onRank (L : StdLib) (E : Env) (r : Nat) (io : Bool) (s : State) :
    SameKnobs (Initialize L E s) (Initialize L (E.onRank r io) s) := by
  unfold Initialize
  split_ifs with hi
  · exact sameKnobs_refl s
  · have h1 := readStrategy_onRank L E r io (readParms E s)
    have h2 := resizeArrays_knobs E (readStrategy L E (readParms E s))
    have h3 := resizeArrays_knobs (E.onRank r io)
      (readStrategy L (E.onRank r io) (readParms E s))
    have h4 := sameKnobs_trans (sameKnobs_trans (sameKnobs_symm h2) h1) h3
    exact ⟨h4.1, h4.2.1, h4.2.2⟩

theorem defineEntry_knobs (L : StdLib) (E : Env) (s : State) (this : Nat) (boxes : BoxArray) :
    SameKnobs (Initialize L E s) (defineEntry L E s this boxes) := by
  unfold defineEntry
  split_ifs
  · exact ⟨rfl, rfl, rfl⟩
  · exact sameKnobs_refl _

theorem defineEntry_heap (L : StdLib) (E : Env) (s : State) (this : Nat) (boxes : BoxArray) :
    (defineEntry L E s this boxes).heap =
      if (pmapOf s this).length ≠ boxes.length + 1 then
        s.heap.set this (resize (pmapOf s this) (boxes.length + 1))
      else s.heap := by
  have hh := (Initialize_sameStore L E s).1
  have hp : pmapOf (Initialize L E s) this = pmapOf s this := pmapOf_congr hh this
  unfold defineEntry
  rw [hp]
  split_ifs
  · unfold setPmap; simp only; rw [hh]
  · exact hh

/-- The member `define` called on another rank, when the cache has no entry for the
number of boxes and, for the proximity strategy, the proximity map is the same: it returns
there too, with the same map but for the sentinel. -/
theorem define_onRank (L : StdLib) (E : Env) (r : Nat) (io : Bool) (fuel : Nat) (s : State)
    (this : Nat) (boxes : BoxArray) (nprocs : Nat) (hn : nprocs ≠ 1)
    (hc : mapFind s.m_Cache (boxes.length + 1) = none)
    (hp : (Initialize L E s).m_BuildMap = some PVMF.PFCProcessorMap →
      ∀ i, ProximityMap (Initialize L (E.onRank r io) s) i = ProximityMap (Initialize L E s) i)
    (s1 : State) (r1 : Nat) (h : define L E fuel s this boxes nprocs = .ok (s1, r1)) :
    ∃ s2, define L (E.onRank r io) fuel s this boxes nprocs = .ok (s2, r1) ∧
      pmapOf s2 r1 = (pmapOf s1 r1).set boxes.length r := by
  have hheap : (defineEntry L (E.onRank r io) s this boxes).heap
      = (defineEntry L E s this boxes).heap := by
    rw [defineEntry_heap, defineEntry_heap]
  have hpm : pmapOf (defineEntry L (E.onRank r io) s this boxes) this
      = pmapOf (defineEntry L E s this boxes) this := pmapOf_congr hheap this
  have hk : SameKnobs (defineEntry L E s this boxes)
      (defineEntry L (E.onRank r io) s this boxes) :=
    sameKnobs_trans (sameKnobs_trans (sameKnobs_symm (defineEntry_knobs L E s this boxes))
      (Initialize_onRank L E r io s)) (defineEntry_knobs L (E.onRank r io) s this boxes)
  have hc1 : mapFind (defineEntry L E s this boxes).m_Cache (boxes.length + 1) = none := by
    rw [defineEntry_cache]; exact hc
  have hc2 : mapFind (defineEntry L (E.onRank r io) s this boxes).m_Cache (boxes.length + 1)
      = none := by
    rw [defineEntry_cache]; exact hc
  rw [define_eq, if_neg hn] at h ⊢
  unfold GetMap at h ⊢
  simp only at h ⊢
  rw [hc1] at h
  rw [hc2, hpm]
  by_cases hlen : (pmapOf (defineEntry L E s this boxes) this).length ≠ boxes.length + 1
  · rw [if_pos hlen] at h; cases h
  rw [if_neg hlen] at h ⊢
  simp only at h ⊢
  push_neg at hlen
  have hthis : this < (defineEntry L E s this boxes).heap.length := by
    by_contra hcon
    unfold pmapOf at hlen
    rw [List.getD_eq_default _ _ (by omega)] at hlen
    simp at hlen
  rw [hk.1]
  cases hf : (defineEntry L E s this boxes).m_BuildMap with
  | none => rw [hf] at h; cases h
  | some f =>
    rw [hf] at h
    simp only at h ⊢
    cases hb : callBuildMap L E (defineEntry L E s this boxes) fuel f boxes nprocs
        (pmapOf (defineEntry L E s this boxes) this) with
    | error e => rw [hb] at h; cases h
    | ok pmm =>
      obtain ⟨pm1, m⟩ := pmm
      rw [hb] at h
      simp only [Except.ok.injEq, Prod.mk.injEq] at h
      have hp' : f = PVMF.PFCProcessorMap →
          ∀ i, ProximityMap (defineEntry L (E.onRank r io) s this boxes) i
            = ProximityMap (defineEntry L E s this boxes) i := by
        intro hfe i
        have hb1 : (Initialize L E s).m_BuildMap = some PVMF.PFCProcessorMap := by
          rw [← (defineEntry_fields L E s this boxes).1, hf, hfe]
        have hpi := hp hb1 i
        unfold ProximityMap at hpi ⊢
        rw [(defineEntry_fields L E s this boxes).2.1,
          (defineEntry_fields L (E.onRank r io) s this boxes).2.1]
        exact hpi
      obtain ⟨m2, hb2⟩ := callBuildMap_onRank L E r io _ _ hk.2.2 hk.2.1 f hp' fuel boxes
        nprocs _ pm1 m hb
      rw [hb2]
      simp only
      refine ⟨_, by rw [h.2], ?_⟩
      rw [← h.2, ← h.1]
      have e1 : ∀ (st : State) (pm : List Int) (mp : Nat) (c : List (Nat × Nat)),
          this < st.heap.length →
          pmapOf { setPmap st this pm with MaxPower := mp, m_Cache := c } this = pm := by
        intro st pm mp c hlt
        exact pmapOf_setPmap_self st this pm hlt
      rw [e1 _ _ _ _ (by rw [hheap]; exact hthis), e1 _ _ _ _ hthis]

/-! ## The proximity map without a topology -/

/-- Below the threshold `SFCProcessorMap (boxes, nprocs)` returns what
`KnapSackProcessorMap (boxes, nprocs)` returns on the resized array, a map or an error. -/
theorem SFCProcessorMap_below (L : StdLib) (E : Env) (s : State) (fuel : Nat)
    (boxes : BoxArray) (nprocs : Nat) (pm : List Int)
    (hc : (boxes.length : Int) < s.sfc_threshold * nprocs) :
    (∀ pm', (∃ m, SFCProcessorMap L E s fuel boxes nprocs pm = .ok (pm', m)) ↔
      KnapSackProcessorMap L E s fuel boxes nprocs
        (if pm.length ≠ boxes.length + 1 then resize pm (boxes.length + 1) else pm)
        = .ok pm') ∧
    (∀ e, SFCProcessorMap L E s fuel boxes nprocs pm = .error e ↔
      KnapSackProcessorMap L E s fuel boxes nprocs
        (if pm.length ≠ boxes.length + 1 then resize pm (boxes.length + 1) else pm)
        = .error e) := by
  unfold SFCProcessorMap
  by_cases h0 : boxes.length = 0
  · rw [if_pos h0]
    have hk : ∀ pm0, KnapSackProcessorMap L E s fuel boxes nprocs pm0
        = .error "BL_ASSERT(boxes.size() > 0)" := by
      intro pm0
      unfold KnapSackProcessorMap
      rw [if_pos h0]
    rw [hk]
    constructor
    · intro pm'
      constructor
      · rintro ⟨m, h⟩; cases h
      · intro h; cases h
    · intro e
      constructor
      · intro h; simp only [Except.error.injEq] at h ⊢; exact h
      · intro h; simp only [Except.error.injEq] at h ⊢; exact h
  · rw [if_neg h0]
    simp only
    rw [if_pos hc]
    cases hk : KnapSackProcessorMap L E s fuel boxes nprocs
        (if pm.length ≠ boxes.length + 1 then resize pm (boxes.length + 1) else pm) with
    | error e0 =>
      simp only
      constructor
      · intro pm'
        constructor
        · rintro ⟨m, h⟩; cases h
        · intro h; cases h
      · intro e
        constructor
        · intro h; simp only [Except.error.injEq] at h ⊢; exact h
        · intro h; simp only [Except.error.injEq] at h ⊢; exact h
    | ok p =>
      simp only
      constructor
      · intro pm'
        constructor
        · rintro ⟨m, h⟩
          simp only [Except.ok.injEq, Prod.mk.injEq] at h
          rw [h.1]
        · intro h
          simp only [Except.ok.injEq] at h
          exact ⟨s.MaxPower, by rw [h]⟩
      · intro e
        constructor
        · intro h; cases h
        · intro h; cases h

/-- From the threshold on `SFCProcessorMap (boxes, nprocs)` returns what
`SFCProcessorMapDoIt` returns for the volumes of the boxes on the resized array. -/
theorem SFCProcessorMap_above (L : StdLib) (E : Env) (s : State) (fuel : Nat)
    (boxes : BoxArray) (nprocs : Nat) (pm : List Int) (hb : 1 ≤ boxes.length)
    (hc : ¬ (boxes.length : Int) < s.sfc_threshold * nprocs) :
    SFCProcessorMap L E s fuel boxes nprocs pm
      = SFCProcessorMapDoIt L E boxes (boxes.map Box.volume) nprocs
          (if pm.length ≠ boxes.length + 1 then resize pm (boxes.length + 1) else pm) := by
  unfold SFCProcessorMap
  rw [if_neg (by omega)]
  simp only
  rw [if_neg hc]

/-- Below the threshold `SFCProcessorMap (boxes, wgts, nprocs)` returns what
`KnapSackProcessorMap (wgts, nprocs)` returns, a map or an error. -/
theorem SFCProcessorMapW_below (L : StdLib) (E : Env) (s : State) (fuel : Nat)
    (boxes : BoxArray) (wgts : List Int) (nprocs : Nat) (pm : List Int)
    (hb : 1 ≤ boxes.length) (hw : boxes.length = wgts.length)
    (hc : (boxes.length : Int) < s.sfc_threshold * nprocs) :
    (∀ pm', (∃ m, SFCProcessorMapW L E s fuel boxes wgts nprocs pm = .ok (pm', m)) ↔
      ∃ eff, KnapSackProcessorMapW L E s fuel wgts nprocs true pm = .ok (pm', eff)) ∧
    (∀ e, SFCProcessorMapW L E s fuel boxes wgts nprocs pm = .error e ↔
      KnapSackProcessorMapW L E s fuel wgts nprocs true pm = .error e) := by
  have e0 : KnapSackProcessorMapW L E s fuel wgts nprocs true
      (if pm.length ≠ wgts.length + 1 then resize pm (wgts.length + 1) else pm)
      = KnapSackProcessorMapW L E s fuel wgts nprocs true pm := by
    have e1 : (if (if pm.length ≠ wgts.length + 1 then resize pm (wgts.length + 1)
        else pm).length ≠ wgts.length + 1
        then resize (if pm.length ≠ wgts.length + 1 then resize pm (wgts.length + 1) else pm)
          (wgts.length + 1)
        else (if pm.length ≠ wgts.length + 1 then resize pm (wgts.length + 1) else pm))
        = (if pm.length ≠ wgts.length + 1 then resize pm (wgts.length + 1) else pm) :=
      if_neg (by rw [resized_length]; simp)
    unfold KnapSackProcessorMapW
    simp only
    rw [e1]
  unfold SFCProcessorMapW
  rw [if_neg (by omega), if_neg (by omega)]
  simp only
  rw [if_pos hc, e0]
  cases hk : KnapSackProcessorMapW L E s fuel wgts nprocs true pm with
  | error e1 =>
    simp only
    constructor
    · intro pm'
      constructor
      · rintro ⟨m, h⟩; cases h
      · rintro ⟨eff, h⟩; cases h
    · intro e
      constructor
      · intro h; simp only [Except.error.injEq] at h ⊢; exact h
      · intro h; simp only [Except.error.injEq] at h ⊢; exact h
  | ok pe =>
    obtain ⟨p, eff0⟩ := pe
    simp only
    constructor
    · intro pm'
      constructor
      · rintro ⟨m, h⟩
        simp only [Except.ok.injEq, Prod.mk.injEq] at h
        exact ⟨eff0, by rw [h.1]⟩
      · rintro ⟨eff, h⟩
        simp only [Except.ok.injEq, Prod.mk.injEq] at h
        exact ⟨s.MaxPower, by rw [h.1]⟩
    · intro e
      constructor
      · intro h; cases h
      · intro h; cases h

/-- From the threshold on `SFCProcessorMap (boxes, wgts, nprocs)` returns what
`SFCProcessorMapDoIt` returns for the weights on the resized array. -/
theorem SFCProcessorMapW_above (L : StdLib) (E : Env) (s : State) (fuel : Nat)
    (boxes : BoxArray) (wgts : List Int) (nprocs : Nat) (pm : List Int)
    (hb : 1 ≤ boxes.length) (hw : boxes.length = wgts.length)
    (hc : ¬ (boxes.length : Int) < s.sfc_threshold * nprocs) :
    SFCProcessorMapW L E s fuel boxes wgts nprocs pm
      = SFCProcessorMapDoIt L E boxes wgts nprocs
          (if pm.length ≠ wgts.length + 1 then resize pm (wgts.length + 1) else pm) := by
  unfold SFCProcessorMapW
  rw [if_neg (by omega), if_neg (by omega)]
  simp only
  rw [if_neg hc]

/-! ## The number of planes -/

theorem sfcMaxPower_eq (E : Env) (boxes : BoxArray) :
    sfcMaxPower E boxes = maxPowerLoop (sfcMaxijk E boxes) 32 0 := rfl

/-- The loop `for ( ; (1 << m) <= maxijk; ++m)` stops at the first power of two above
`maxijk`, when `maxijk` is below `2 ^ 30`. -/
theorem maxPowerLoop_spec (k : Nat) (hk1 : 1 ≤ k) (hk : k < 2 ^ 30) : ∀ n m, m ≤ 30 →
    30 - m < n → 2 ^ m ≤ 2 * k →
    k < 2 ^ maxPowerLoop (k : Int) n m ∧ 2 ^ maxPowerLoop (k : Int) n m ≤ 2 * k := by
  intro n
  induction n with
  | zero => intro m _ h; omega
  | succ n ih =>
    intro m hm hn hinv
    unfold maxPowerLoop
    rw [toInt32_two_pow m hm]
    by_cases ht : (2 : Int) ^ m ≤ (k : Int)
    · rw [if_pos ht]
      have ht' : 2 ^ m ≤ k := by exact_mod_cast ht
      have hm30 : m < 30 := by
        by_contra hc
        have e : m = 30 := by omega
        rw [e] at ht'
        omega
      apply ih (m + 1) (by omega) (by omega)
      rw [pow_succ]
      omega
    · rw [if_neg ht]
      have ht' : ¬ 2 ^ m ≤ k := by
        intro h
        apply ht
        exact_mod_cast h
      exact ⟨by omega, hinv⟩

/-- The number of planes for a largest coordinate `k` from 1 to `2 ^ 30 - 1`: one more than
the integer part of the logarithm. -/
theorem maxPowerLoop_log (k : Nat) (hk1 : 1 ≤ k) (hk : k < 2 ^ 30) :
    maxPowerLoop (k : Int) 32 0 = Nat.log 2 k + 1 ∧
    maxPowerLoop (k : Int) 32 0 = Nat.clog 2 (k + 1) := by
  obtain ⟨h1, h2⟩ := maxPowerLoop_spec k hk1 hk 32 0 (by omega) (by omega) (by simp; omega)
  generalize maxPowerLoop (k : Int) 32 0 = r at h1 h2
  have hr : 1 ≤ r := by
    by_contra hc
    have e : r = 0 := by omega
    rw [e] at h1
    simp at h1
    omega
  obtain ⟨t, rfl⟩ : ∃ t, r = t + 1 := ⟨r - 1, by omega⟩
  have h3 : 2 ^ t ≤ k := by
    rw [pow_succ] at h2
    omega
  constructor
  · rw [Nat.log_eq_of_pow_le_of_lt_pow h3 h1]
  · apply le_antisymm
    · by_contra hc
      push_neg at hc
      have h4 : Nat.clog 2 (k + 1) ≤ t := by omega
      have h5 := (Nat.le_pow_iff_clog_le (by norm_num : 1 < 2)).mpr h4
      omega
    · exact (Nat.le_pow_iff_clog_le (by norm_num : 1 < 2)).mp (by omega)

/-- The number of planes differs from the rounded up logarithm exactly at the powers of
two. -/
theorem log_succ_eq_clog (k : Nat) (hk1 : 1 ≤ k) :
    ((∀ j, k ≠ 2 ^ j) → Nat.log 2 k + 1 = Nat.clog 2 k) ∧
    (∀ j, k = 2 ^ j → Nat.log 2 k + 1 = j + 1 ∧ Nat.clog 2 k = j) := by
  constructor
  · intro hnp
    have h3 : 2 ^ Nat.log 2 k ≤ k := Nat.pow_log_le_self 2 (by omega)
    have h1 : k < 2 ^ (Nat.log 2 k + 1) := Nat.lt_pow_succ_log_self (by norm_num) k
    apply le_antisymm
    · by_contra hc
      push_neg at hc
      have h4 : Nat.clog 2 k ≤ Nat.log 2 k := by omega
      have h5 := (Nat.le_pow_iff_clog_le (by norm_num : 1 < 2)).mpr h4
      exact hnp _ (le_antisymm h5 h3)
    · exact (Nat.le_pow_iff_clog_le (by norm_num : 1 < 2)).mp (by omega)
  · intro j hj
    rw [hj, Nat.log_pow (by norm_num), Nat.clog_pow 2 j (by norm_num)]
    exact ⟨rfl, rfl⟩

theorem maxijkStep_attained (dim : Nat) (m : Int) (idx : IntVect) :
    maxijkStep dim m idx = m ∨ ∃ j, j < dim ∧ idx.getD j 0 = maxijkStep dim m idx := by
  unfold maxijkStep
  induction dim with
  | zero => left; rfl
  | succ d ih =>
    rw [List.range_succ, List.foldl_append]
    simp only [List.foldl_cons, List.foldl_nil]
    rcases le_total ((List.range d).foldl (fun m j => max m (idx.getD j 0)) m) (idx.getD d 0)
      with h | h
    · right
      exact ⟨d, by omega, by rw [max_eq_right h]⟩
    · rw [max_eq_left h]
      rcases ih with h1 | ⟨j, hj, h1⟩
      · left; exact h1
      · right; exact ⟨j, by omega, h1⟩

theorem foldl_maxijk_attained (dim : Nat) : ∀ (l : List IntVect) (m : Int),
    l.foldl (fun m idx => maxijkStep dim m idx) m = m ∨
      ∃ idx ∈ l, ∃ j, j < dim ∧
        idx.getD j 0 = l.foldl (fun m idx => maxijkStep dim m idx) m := by
  intro l
  induction l with
  | nil => intro m; left; rfl
  | cons x l ih =>
    intro m
    rw [List.foldl_cons]
    rcases ih (maxijkStep dim m x) with h | ⟨idx, hidx, j, hj, h⟩
    · rw [h]
      rcases maxijkStep_attained dim m x with h1 | ⟨j, hj, h1⟩
      · left; exact h1
      · right; exact ⟨x, List.mem_cons_self _ _, j, hj, h1⟩
    · right
      exact ⟨idx, List.mem_cons_of_mem _ hidx, j, hj, h⟩

/-- The value `maxijk` is the largest coordinate of the small ends, and 0 when none is
positive. -/
theorem sfcMaxijk_spec (E : Env) (boxes : BoxArray) :
    0 ≤ sfcMaxijk E boxes ∧
    (∀ b ∈ boxes, ∀ j, j < E.BL_SPACEDIM → b.smallEnd.getD j 0 ≤ sfcMaxijk E boxes) ∧
    (sfcMaxijk E boxes = 0 ∨
      ∃ b ∈ boxes, ∃ j, j < E.BL_SPACEDIM ∧ b.smallEnd.getD j 0 = sfcMaxijk E boxes) := by
  unfold sfcMaxijk
  obtain ⟨h1, h2⟩ := foldl_maxijk_ge E.BL_SPACEDIM (boxes.map Box.smallEnd) 0
  refine ⟨h1, fun b hb j hj => h2 b.smallEnd (List.mem_map.mpr ⟨b, hb, rfl⟩) j hj, ?_⟩
  rcases foldl_maxijk_attained E.BL_SPACEDIM (boxes.map Box.smallEnd) 0 with h | h
  · left; exact h
  · right
    obtain ⟨idx, hidx, j, hj, h⟩ := h
    obtain ⟨b, hb, e⟩ := List.mem_map.mp hidx
    exact ⟨b, hb, j, hj, by rw [e]; exact h⟩

/-! ## The constructor that joins two maps -/

theorem join_writes (p1 p2 : List Int) (L1 L2 : Nat) (pm : List Int) :
    (List.range L2).foldl (fun pm j => pm.set (L1 + j) (p2.getD j 0))
        ((List.range L1).foldl (fun pm i => pm.set i (p1.getD i 0)) pm)
      = writeAll ((List.range L1).map (fun i => (i, p1.getD i 0)) ++
          (List.range L2).map (fun j => (L1 + j, p2.getD j 0))) pm := by
  unfold writeAll
  rw [List.foldl_append, List.foldl_map, List.foldl_map]

theorem join_indices (p1 p2 : List Int) (L1 L2 : Nat) :
    (((List.range L1).map (fun i => (i, p1.getD i 0)) ++
      (List.range L2).map (fun j => (L1 + j, p2.getD j 0))).map Prod.fst)
      = List.range (L1 + L2) := by
  rw [List.map_append, List.map_map, List.map_map, List.range_add]
  congr 1
  exact List.map_id _

/-- The array that the joining constructor makes of two maps with `L1` and `L2` entries
before their sentinels. -/
theorem join_spec (E : Env) (s : State) (d1 d2 L1 L2 : Nat)
    (h1 : (pmapOf s d1).length = L1 + 1) (h2 : (pmapOf s d2).length = L2 + 1) :
    (pmapOf (DistributionMapping_join E s d1 d2).1 (DistributionMapping_join E s d1 d2).2).length
      = L1 + L2 + 1 ∧
    (∀ i, i < L1 →
      (pmapOf (DistributionMapping_join E s d1 d2).1 (DistributionMapping_join E s d1 d2).2).getD
        i 0 = (pmapOf s d1).getD i 0) ∧
    (∀ j, j < L2 →
      (pmapOf (DistributionMapping_join E s d1 d2).1 (DistributionMapping_join E s d1 d2).2).getD
        (L1 + j) 0 = (pmapOf s d2).getD j 0) ∧
    (pmapOf (DistributionMapping_join E s d1 d2).1 (DistributionMapping_join E s d1 d2).2).getD
      (L1 + L2) 0 = (E.MyProc : Int) := by
  unfold DistributionMapping_join ProcessorMap
  simp only
  rw [pmapOf_newRef_new, h1, h2, Nat.add_sub_cancel, Nat.add_sub_cancel, join_writes]
  have hl : (writeAll ((List.range L1).map (fun i => (i, (pmapOf s d1).getD i 0)) ++
      (List.range L2).map (fun j => (L1 + j, (pmapOf s d2).getD j 0)))
      (List.replicate (L1 + 1 + (L2 + 1) - 1) 0)).length = L1 + L2 + 1 := by
    rw [writeAll_length, List.length_replicate]; omega
  have hnd : (((List.range L1).map (fun i => (i, (pmapOf s d1).getD i 0)) ++
      (List.range L2).map (fun j => (L1 + j, (pmapOf s d2).getD j 0))).map Prod.fst).Nodup := by
    rw [join_indices]; exact List.nodup_range _
  rw [hl]
  have e : L1 + L2 + 1 - 1 = L1 + L2 := by omega
  rw [e]
  refine ⟨by rw [List.length_set, hl], ?_, ?_, ?_⟩
  · intro i hi
    rw [getD_set_other _ _ _ _ _ (by omega)]
    exact writeAll_getD_eq _ _ hnd (i, (pmapOf s d1).getD i 0)
      (List.mem_append_left _ (List.mem_map.mpr ⟨i, List.mem_range.mpr hi, rfl⟩))
      (by rw [List.length_replicate]; simp only; omega)
  · intro j hj
    rw [getD_set_other _ _ _ _ _ (by omega)]
    exact writeAll_getD_eq _ _ hnd (L1 + j, (pmapOf s d2).getD j 0)
      (List.mem_append_right _ (List.mem_map.mpr ⟨j, List.mem_range.mpr hj, rfl⟩))
      (by rw [List.length_replicate]; simp only; omega)
  · exact getD_set_self _ _ _ _ (by rw [hl]; omega)

/-- The joining constructor makes a new `Ref` and changes none of the others, nor the
cache. -/
theorem join_frame (E : Env) (s : State) (d1 d2 : Nat) :
    (DistributionMapping_join E s d1 d2).2 = s.heap.length ∧
    (DistributionMapping_join E s d1 d2).1.m_Cache = s.m_Cache ∧
    ∀ r, r < s.heap.length → pmapOf (DistributionMapping_join E s d1 d2).1 r = pmapOf s r := by
  unfold DistributionMapping_join
  simp only
  exact ⟨rfl, rfl, fun r hr => pmapOf_newRef_old _ _ r hr⟩

/-! ## The order of the balls -/

theorem RoundRobinDoIt_error (E : Env) (nboxes nprocs : Nat) (v : Option (List LIpair))
    (pm : List Int) (e : String) (h : RoundRobinDoIt E nboxes nprocs v pm = .error e) :
    e ≠ "tnc" := by
  unfold RoundRobinDoIt at h
  cases v with
  | none => simp only at h; cases h
  | some v =>
    simp only at h
    split_ifs at h
    simp only [Except.error.injEq] at h
    rw [← h]
    decide

theorem KnapSackProcessorMap_error (L : StdLib) (E : Env) (s : State) (fuel : Nat)
    (boxes : BoxArray) (nprocs : Nat) (pm : List Int) (e : String)
    (h : KnapSackProcessorMap L E s fuel boxes nprocs pm = .error e) : e ≠ "tnc" := by
  unfold KnapSackProcessorMap at h
  split_ifs at h with h1 h2 h3
  · simp only [Except.error.injEq] at h; rw [← h]; decide
  · simp only [Except.error.injEq] at h; rw [← h]; decide
  · unfold RoundRobinProcessorMap at h
    split_ifs at h
    exact RoundRobinDoIt_error E _ _ _ _ e h
  · simp only at h
    cases hd : KnapSackDoIt L E s fuel (boxes.map Box.numPts) nprocs true pm with
    | ok pe => rw [hd] at h; cases h
    | error e1 =>
      rw [hd] at h
      simp only [Except.error.injEq] at h
      rw [← h]
      unfold KnapSackDoIt at hd
      cases hk : knapsack L s.max_efficiency fuel (boxes.map Box.numPts) nprocs true with
      | none =>
        rw [hk] at hd
        simp only [Except.error.injEq] at hd
        rw [← hd]; decide
      | some ve =>
        rw [hk] at hd
        simp only at hd
        split_ifs at hd
        simp only [Except.error.injEq] at hd
        rw [← hd]; decide

/-- The member `PFCProcessorMapDoIt` stops with "tnc" exactly when the weights of the boxes
and their numbers of points have different totals. -/
theorem PFCProcessorMapDoIt_tnc (L : StdLib) (hpfc : ∀ l, (L.sortPFC l).Perm l) (E : Env)
    (s : State) (fuel : Nat) (boxes : BoxArray) (wgts : List Int) (nprocs : Nat)
    (pm : List Int) :
    PFCProcessorMapDoIt L E s fuel boxes wgts nprocs pm = .error "tnc" ↔
      ((List.range boxes.length).map (fun i => wgts.getD i 0)).sum
        ≠ (boxes.map Box.numPts).sum := by
  have hperm := pfcTokens_perm L hpfc boxes wgts
  have hl : (pfcTokens L boxes wgts).length = boxes.length := by
    simpa using hperm.length_eq
  have ht := pfcTokens_total L hpfc boxes wgts
  have hB : (List.range (pfcTokens L boxes wgts).length).foldl
      (fun a i => a + (boxes.getD i ⟨[], 0, 0⟩).numPts) 0 = (boxes.map Box.numPts).sum := by
    rw [hl, foldl_add_eq_sum (fun i => (boxes.getD i ⟨[], 0, 0⟩).numPts),
      range_map_getD boxes Box.numPts ⟨[], 0, 0⟩]
    simp
  unfold pfcTokens at ht hB
  unfold PFCProcessorMapDoIt
  simp only
  rw [ht, hB]
  by_cases hs : ((List.range boxes.length).map (fun i => wgts.getD i 0)).sum
      = (boxes.map Box.numPts).sum
  · rw [if_neg (by rw [hs]; simp)]
    constructor
    · intro h
      exfalso
      cases hk : KnapSackProcessorMap L E s fuel boxes nprocs pm with
      | error e =>
        rw [hk] at h
        simp only [Except.error.injEq] at h
        exact KnapSackProcessorMap_error L E s fuel boxes nprocs pm e hk h
      | ok p => rw [hk] at h; cases h
    · intro h; exact absurd hs h
  · rw [if_pos hs]
    exact ⟨fun _ => hs, fun _ => rfl⟩

/-- The member `PFCProcessorMap (boxes, wgts, nprocs)` returns a map only when the weights
and the numbers of points have the same total. -/
theorem PFCProcessorMapW_total (L : StdLib) (hpfc : ∀ l, (L.sortPFC l).Perm l) (E : Env)
    (s : State) (fuel : Nat) (boxes : BoxArray) (wgts : List Int) (nprocs : Nat)
    (pm pm' : List Int) (h : PFCProcessorMapW L E s fuel boxes wgts nprocs pm = .ok pm') :
    boxes.length = wgts.length ∧ wgts.sum = (boxes.map Box.numPts).sum := by
  unfold PFCProcessorMapW at h
  by_cases h1 : boxes.length = 0
  · rw [if_pos h1] at h; cases h
  rw [if_neg h1] at h
  by_cases h2 : boxes.length ≠ wgts.length
  · rw [if_pos h2] at h; cases h
  rw [if_neg h2] at h
  push_neg at h2
  simp only at h
  refine ⟨h2, ?_⟩
  by_contra hne
  have e := range_map_getD wgts id 0
  rw [List.map_id] at e
  simp only [id] at e
  have ht := (PFCProcessorMapDoIt_tnc L hpfc E s fuel boxes wgts nprocs
    (if pm.length ≠ wgts.length + 1 then resize pm (wgts.length + 1) else pm)).mpr
    (by rw [h2, e]; exact hne)
  rw [ht] at h
  cases h

/-! ## The proximity order -/

theorem mapInsert_mem_inv {β : Type} (m : List (Nat × β)) (k : Nat) (x : β) (p : Nat × β)
    (hp : p ∈ mapInsert m k x) : p ∈ m ∨ p = (k, x) := by
  unfold mapInsert at hp
  split_ifs at hp with h
  · exact Or.inl hp
  · rw [List.mem_append, List.mem_cons, List.mem_filter, List.mem_filter] at hp
    rcases hp with h1 | h1 | h1
    · exact Or.inl h1.1
    · exact Or.inr h1
    · exact Or.inl h1.1

theorem heap_length_setPmap (s : State) (this : Nat) (pm : List Int) :
    (setPmap s this pm).heap.length = s.heap.length := by
  unfold setPmap
  simp

/-- What a call of `define` that returns does to the store: the heap keeps its size, the
other `Ref`s keep their maps, the `Ref` of the object is left with `N + 1` entries, and the
cache gains at most the entry of the key `N + 1` for that `Ref`. -/
theorem define_frame (L : StdLib) (E : Env) (fuel : Nat) (s : State) (this : Nat)
    (boxes : BoxArray) (nprocs : Nat) (s1 : State) (r1 : Nat)
    (hthis : this < s.heap.length)
    (h : define L E fuel s this boxes nprocs = .ok (s1, r1)) :
    s1.heap.length = s.heap.length ∧
    (∀ r, r ≠ this → pmapOf s1 r = pmapOf s r) ∧
    (pmapOf s1 this).length = boxes.length + 1 ∧
    (∀ p ∈ s1.m_Cache, p ∈ s.m_Cache ∨ p = (boxes.length + 1, this)) := by
  have hc := defineEntry_cache L E s this boxes
  have hhl := defineEntry_heap_length L E s this boxes
  have hl := defineEntry_length L E s this boxes hthis
  have ho := fun r (hr : r ≠ this) => defineEntry_other L E s this r boxes hr
  have hthis' : this < (defineEntry L E s this boxes).heap.length := by rw [hhl]; exact hthis
  rw [define_eq] at h
  by_cases hn : nprocs = 1
  · rw [if_pos hn] at h
    simp only [Except.ok.injEq, Prod.mk.injEq] at h
    rw [← h.1]
    refine ⟨by rw [heap_length_setPmap, hhl], ?_, ?_, ?_⟩
    · intro r hr
      rw [pmapOf_setPmap_other _ _ _ _ hr, ho r hr]
    · rw [pmapOf_setPmap_self _ _ _ hthis', List.length_map, hl]
    · intro p hp
      left
      have e : (setPmap (defineEntry L E s this boxes) this
          ((pmapOf (defineEntry L E s this boxes) this).map (fun _ => 0))).m_Cache
          = (defineEntry L E s this boxes).m_Cache := rfl
      rw [e, hc] at hp
      exact hp
  · rw [if_neg hn] at h
    cases hg : GetMap E (defineEntry L E s this boxes) this boxes with
    | error e => rw [hg] at h; cases h
    | ok o =>
      rw [hg] at h
      cases o with
      | some m_ref =>
        simp only [Except.ok.injEq, Prod.mk.injEq] at h
        rw [← h.1]
        exact ⟨hhl, ho, hl, fun p hp => Or.inl (by rw [hc] at hp; exact hp)⟩
      | none =>
        simp only at h
        cases hf : (defineEntry L E s this boxes).m_BuildMap with
        | none => rw [hf] at h; cases h
        | some f =>
          rw [hf] at h
          simp only at h
          cases hb : callBuildMap L E (defineEntry L E s this boxes) fuel f boxes nprocs
              (pmapOf (defineEntry L E s this boxes) this) with
          | error e => rw [hb] at h; cases h
          | ok r =>
            obtain ⟨pm, mp⟩ := r
            rw [hb] at h
            simp only [Except.ok.injEq, Prod.mk.injEq] at h
            have hsh := callBuildMap_shaped L E _ fuel f boxes nprocs _ pm mp hb
            rw [← h.1]
            refine ⟨?_, ?_, ?_, ?_⟩
            · show (setPmap (defineEntry L E s this boxes) this pm).heap.length = _
              rw [heap_length_setPmap, hhl]
            · intro r hr
              show pmapOf (setPmap (defineEntry L E s this boxes) this pm) r = _
              rw [pmapOf_setPmap_other _ _ _ _ hr, ho r hr]
            · show (pmapOf (setPmap (defineEntry L E s this boxes) this pm) this).length = _
              rw [pmapOf_setPmap_self _ _ _ hthis']
              exact hsh.1
            · intro p hp
              have hp' : p ∈ mapInsert (defineEntry L E s this boxes).m_Cache pm.length this :=
                hp
              rw [hc, hsh.1] at hp'
              exact mapInsert_mem_inv _ _ _ p hp'

/-- The fault: `define` on an object whose `Ref` the cache holds under a key other than
`N + 1` leaves that entry in the cache with a map of `N + 1` entries. -/
theorem define_resizes_cached (L : StdLib) (E : Env) (fuel : Nat) (s : State) (this : Nat)
    (boxes : BoxArray) (nprocs : Nat) (s1 : State) (r1 : Nat) (k : Nat)
    (hthis : this < s.heap.length) (hk : (k, this) ∈ s.m_Cache) (hne : k ≠ boxes.length + 1)
    (h : define L E fuel s this boxes nprocs = .ok (s1, r1)) :
    (k, this) ∈ s1.m_Cache ∧ (pmapOf s1 this).length = boxes.length + 1 ∧ ¬ CacheOK s1 := by
  have hf := define_frame L E fuel s this boxes nprocs s1 r1 hthis h
  have hm := define_keeps_cache L E fuel s this boxes nprocs s1 r1 h (k, this) hk
  refine ⟨hm, hf.2.2.1, ?_⟩
  intro hok
  have := (hok (k, this) hm).2
  simp only at this
  rw [hf.2.2.1] at this
  exact hne this.symm

/-- The invariant survives `define` on an object whose `Ref` the cache does not hold under
another key than `N + 1`. -/
theorem define_cacheOK (L : StdLib) (E : Env) (fuel : Nat) (s : State) (this : Nat)
    (boxes : BoxArray) (nprocs : Nat) (s1 : State) (r1 : Nat)
    (hthis : this < s.heap.length) (hok : CacheOK s)
    (hfresh : ∀ p ∈ s.m_Cache, p.2 = this → p.1 = boxes.length + 1)
    (h : define L E fuel s this boxes nprocs = .ok (s1, r1)) : CacheOK s1 := by
  obtain ⟨h1, h2, h3, h4⟩ := define_frame L E fuel s this boxes nprocs s1 r1 hthis h
  intro p hp
  rcases h4 p hp with hp' | hp'
  · obtain ⟨ha, hb⟩ := hok p hp'
    refine ⟨by rw [h1]; exact ha, ?_⟩
    by_cases e : p.2 = this
    · rw [e, h3, hfresh p hp' e]
    · rw [h2 p.2 e]; exact hb
  · rw [hp']
    exact ⟨by rw [h1]; exact hthis, h3⟩

/-- The invariant survives `FlushCache`. -/
theorem FlushCache_cacheOK (s : State) (live : List Nat) (hok : CacheOK s) :
    CacheOK (FlushCache s live) := by
  intro p hp
  have hs := FlushCache_spec s live
  have hp' := ((hs.1 p).mp hp).1
  obtain ⟨ha, hb⟩ := hok p hp'
  have e : pmapOf (FlushCache s live) p.2 = pmapOf s p.2 := pmapOf_congr hs.2.2 p.2
  exact ⟨by rw [hs.2.2]; exact ha, by rw [e]; exact hb⟩

theorem newRef_cacheOK (s : State) (pm : List Int) (hok : CacheOK s) :
    CacheOK (newRef s pm).1 := by
  intro p hp
  have hp' : p ∈ s.m_Cache := hp
  obtain ⟨ha, hb⟩ := hok p hp'
  refine ⟨?_, by rw [pmapOf_newRef_old s pm p.2 ha]; exact hb⟩
  show p.2 < (s.heap ++ [pm]).length
  rw [List.length_append]
  omega

/-- The invariant survives the constructor that takes a map, with or without the cache. -/
theorem pmap_cacheOK (E : Env) (s : State) (pmap : List Int) (put : Bool) (s1 : State)
    (r1 : Nat) (hok : CacheOK s)
    (h : DistributionMapping_pmap E s pmap put = .ok (s1, r1)) : CacheOK s1 := by
  have hn := newRef_cacheOK s pmap hok
  unfold DistributionMapping_pmap at h
  simp only at h
  split_ifs at h with h1 h2
  · simp only [Except.ok.injEq, Prod.mk.injEq] at h
    rw [← h.1]
    intro p hp
    have hp' : p ∈ mapInsert (newRef s pmap).1.m_Cache pmap.length (newRef s pmap).2 := hp
    rcases mapInsert_mem_inv _ _ _ p hp' with hq | hq
    · exact hn p hq
    · rw [hq]
      refine ⟨?_, ?_⟩
      · show s.heap.length < (s.heap ++ [pmap]).length
        rw [List.length_append]
        exact Nat.lt_succ_self _
      · show (pmapOf (newRef s pmap).1 (newRef s pmap).2).length = pmap.length
        rw [pmapOf_newRef_new]
  · have e : s1 = (newRef s pmap).1 := by
      simp only [Except.ok.injEq] at h
      rw [h]
    rw [e]
    exact hn

/-- The invariant survives the constructor that takes the boxes: its object is new. -/
theorem boxes_cacheOK (L : StdLib) (E : Env) (fuel : Nat) (s : State) (boxes : BoxArray)
    (nprocs : Nat) (s1 : State) (r1 : Nat) (hok : CacheOK s)
    (h : DistributionMapping_boxes L E fuel s boxes nprocs = .ok (s1, r1)) : CacheOK s1 := by
  unfold DistributionMapping_boxes at h
  refine define_cacheOK L E fuel _ _ boxes nprocs s1 r1 ?_
    (newRef_cacheOK s _ hok) ?_ h
  · show s.heap.length < (s.heap ++ [List.replicate (boxes.length + 1) 0]).length
    rw [List.length_append]
    exact Nat.lt_succ_self _
  · intro p hp e
    have hp' : p ∈ s.m_Cache := hp
    have := (hok p hp').1
    have e' : p.2 = s.heap.length := e
    omega

/-! ## The spread of the greedy pass -/

theorem pqTopPop_some_min (L : StdLib) (hL : L.Conforms) (q : List WeightedBoxList)
    (wbl : WeightedBoxList) (q1 : List WeightedBoxList) (hp : pqTopPop L q = some (wbl, q1)) :
    q.Perm (wbl :: q1) ∧ ∀ b ∈ q, wbl.weight ≤ b.weight := by
  have hne : q ≠ [] := by
    intro h
    rw [h] at hp
    simp [pqTopPop] at hp
  obtain ⟨w', q', h1, h2, h3⟩ := pqTopPop_min L hL q hne
  rw [hp] at h1
  simp only [Option.some.injEq, Prod.mk.injEq] at h1
  obtain ⟨e1, e2⟩ := h1
  subst e1
  subst e2
  exact ⟨h2, h3⟩

/-- The greedy pass keeps the weights of the bins within `M` of one another, when no ball
is heavier than `M` and none has a negative weight. -/
theorem greedy_within (L : StdLib) (hL : L.Conforms) (M : Int) :
    ∀ (lb : List WeightedBox) (q q' : List WeightedBoxList), greedy L lb q = some q' →
      (∀ b ∈ lb, 0 ≤ b.weight ∧ b.weight ≤ M) →
      (∀ x ∈ q, ∀ y ∈ q, x.weight - y.weight ≤ M) →
      ∀ x ∈ q', ∀ y ∈ q', x.weight - y.weight ≤ M := by
  intro lb
  induction lb with
  | nil =>
    intro q q' h _ hq
    simp only [greedy, Option.some.injEq] at h
    rw [← h]; exact hq
  | cons b lb ih =>
    intro q q' h hlb hq
    unfold greedy at h
    cases hp : pqTopPop L q with
    | none => rw [hp] at h; cases h
    | some r =>
      obtain ⟨wbl, q1⟩ := r
      rw [hp] at h
      obtain ⟨hperm, hmin⟩ := pqTopPop_some_min L hL q wbl q1 hp
      have hb := hlb b (List.mem_cons_self _ _)
      have hw : (wbl.push_back b).weight = wbl.weight + b.weight := rfl
      have hin : ∀ x ∈ q1, x ∈ q := fun x hx => hperm.mem_iff.mpr (List.mem_cons_of_mem _ hx)
      have hwin : wbl ∈ q := hperm.mem_iff.mpr (List.mem_cons_self _ _)
      refine ih _ _ h (fun x hx => hlb x (List.mem_cons_of_mem _ hx)) ?_
      intro x hx y hy
      rcases List.mem_append.mp hx with hx' | hx'
      · rcases List.mem_append.mp hy with hy' | hy'
        · exact hq x (hin x hx') y (hin y hy')
        · simp only [List.mem_singleton] at hy'
          rw [hy', hw]
          have := hq x (hin x hx') wbl hwin
          omega
      · simp only [List.mem_singleton] at hx'
        rw [hx', hw]
        rcases List.mem_append.mp hy with hy' | hy'
        · have := hmin y (hin y hy')
          omega
        · simp only [List.mem_singleton] at hy'
          rw [hy', hw]
          omega

/-- Without the refinement the part of `knapsack` between `top` and `bottom` returns its
arguments. -/
theorem refine_off (max_efficiency : Dbl) (nprocs : Nat) (sum_weight : Int) (fuel : Nat)
    (q : List WeightedBoxList) (efficiency : Dbl) (hne : q ≠ []) (hf : 1 ≤ fuel) :
    refine max_efficiency false nprocs sum_weight fuel q efficiency = some (q, efficiency) := by
  obtain ⟨f, rfl⟩ : ∃ f, fuel = f + 1 := ⟨fuel - 1, by omega⟩
  cases q with
  | nil => exact absurd rfl hne
  | cons a t =>
    unfold refine
    simp

/-- The function `knapsack` from its stages. -/
theorem knapsack_stages (L : StdLib) (max_efficiency : Dbl) (fuel : Nat) (wgts : List Int)
    (nprocs : Nat) (do_full_knapsack : Bool) (wblq wblqg0 q' : List WeightedBoxList)
    (eff' : Dbl)
    (hg : greedy L (L.sortWB (wgts.enum.map (fun p => WeightedBox.new p.1 p.2)))
      (List.replicate nprocs WeightedBoxList.new) = some wblq)
    (hd : drain L wblq.length wblq = some wblqg0)
    (hr : refine max_efficiency do_full_knapsack nprocs
      ((listSort wblqg0).foldl (fun s wbl => s + wbl.weight) 0) fuel (listSort wblqg0)
      (efficiencyOf ((listSort wblqg0).foldl (fun s wbl => s + wbl.weight) 0) nprocs
        ((listSort wblqg0).foldl (fun m wbl => if wbl.weight > m then wbl.weight else m) 0))
      = some (q', eff')) :
    knapsack L max_efficiency fuel wgts nprocs do_full_knapsack
      = some ((q'.take nprocs).map (fun wbl => wbl.m_lb.map WeightedBox.boxid), eff') := by
  unfold knapsack
  simp only
  rw [hg]
  simp only
  rw [hd]
  simp only
  rw [hr]

/-- The balls that `knapsack` makes of weights in `[0, 2^31)` keep the weights of their
boxes. -/
theorem balls_keep_weights (L : StdLib) (hs : ∀ l, (L.sortWB l).Perm l) (wgts : List Int)
    (hw : ∀ w ∈ wgts, 0 ≤ w ∧ w < 2147483648) :
    ∀ b ∈ L.sortWB (wgts.enum.map (fun p => WeightedBox.new p.1 p.2)),
      b.m_boxid < wgts.length ∧ b.m_weight = wgts.getD b.m_boxid 0 ∧
        b.m_weight ∈ wgts := by
  intro b hb
  have hb' := (hs _).mem_iff.mp hb
  obtain ⟨p, hp, hpb⟩ := List.mem_map.mp hb'
  obtain ⟨k, hk, hke⟩ := List.mem_iff_getElem.mp hp
  have hk' : k < wgts.length := by simpa using hk
  rw [← hpb, ← hke]
  simp only [List.getElem_enum, WeightedBox.new]
  have hr := hw wgts[k] (List.getElem_mem _)
  rw [toInt32_of_range _ hr.1 hr.2, List.getD_eq_getElem _ _ hk']
  exact ⟨hk', rfl, List.getElem_mem _⟩

/-- Without the refinement, `knapsack` on weights in `[0, 2^31)` returns on any fuel of one
or more the bins of the greedy pass; their weights lie within `M` of one another, when no
weight is above `M`. -/
theorem knapsack_within (L : StdLib) (hL : L.Conforms) (max_efficiency : Dbl)
    (wgts : List Int) (hw : ∀ w ∈ wgts, 0 ≤ w ∧ w < 2147483648) (nprocs : Nat)
    (hn : 1 ≤ nprocs) (M : Int) (hM0 : 0 ≤ M) (hM : ∀ w ∈ wgts, w ≤ M) (fuel : Nat)
    (hf : 1 ≤ fuel) :
    ∃ vec eff, knapsack L max_efficiency fuel wgts nprocs false = some (vec, eff) ∧
      vec.length = nprocs ∧
      ∀ x ∈ wgtsPerCpu vec wgts, ∀ y ∈ wgtsPerCpu vec wgts, x - y ≤ M := by
  have hs := hL.1.1
  have hq := hL.1.2.2.2
  have hP := balls_keep_weights L hs wgts hw
  obtain ⟨wblq, hg, hgl, _⟩ := greedy_spec L hq
    (L.sortWB (wgts.enum.map (fun p => WeightedBox.new p.1 p.2)))
    (List.replicate nprocs WeightedBoxList.new)
    (by intro h; have := congrArg List.length h; simp at this; omega)
  have hgok := greedy_binOK L
    (fun b => b.m_weight = wgts.getD b.m_boxid 0) _ _ wblq hg (fun b hb => (hP b hb).2.1) (by
      intro x hx
      rw [List.eq_of_mem_replicate hx]
      exact ⟨rfl, fun b hb => by cases hb⟩)
  have hgw := greedy_within L hL M _ _ wblq hg
    (fun b hb => ⟨(hw _ (hP b hb).2.2).1, hM _ (hP b hb).2.2⟩) (by
      intro x hx y hy
      rw [List.eq_of_mem_replicate hx, List.eq_of_mem_replicate hy]
      show (0 : Int) - 0 ≤ M
      omega)
  obtain ⟨wblqg0, hd, hdp⟩ := drain_spec L hq wblq.length wblq rfl
  have hsp := listSort_perm wblqg0
  have hmem : ∀ x ∈ listSort wblqg0, x ∈ wblq :=
    fun x hx => hdp.mem_iff.mp (hsp.mem_iff.mp hx)
  have hlen : (listSort wblqg0).length = nprocs := by
    rw [hsp.length_eq, hdp.length_eq, hgl]; simp
  have hne : listSort wblqg0 ≠ [] := by
    intro h; rw [h] at hlen; simp at hlen; omega
  have hr := refine_off max_efficiency nprocs
    ((listSort wblqg0).foldl (fun s wbl => s + wbl.weight) 0) fuel (listSort wblqg0)
    (efficiencyOf ((listSort wblqg0).foldl (fun s wbl => s + wbl.weight) 0) nprocs
      ((listSort wblqg0).foldl (fun m wbl => if wbl.weight > m then wbl.weight else m) 0))
    hne hf
  have hk := knapsack_stages L max_efficiency fuel wgts nprocs false wblq wblqg0 _ _ hg hd hr
  have hvec : wgtsPerCpu (((listSort wblqg0).take nprocs).map
      (fun wbl => wbl.m_lb.map WeightedBox.boxid)) wgts
      = (listSort wblqg0).map WeightedBoxList.weight := by
    rw [List.take_of_length_le (by omega)]
    exact wgtsPerCpu_eq wgts _ (fun x hx => hgok x (hmem x hx))
  refine ⟨_, _, hk, by rw [List.length_map, List.length_take, hlen]; simp, ?_⟩
  rw [hvec]
  intro x hx y hy
  obtain ⟨a, ha, hax⟩ := List.mem_map.mp hx
  obtain ⟨b, hb, hby⟩ := List.mem_map.mp hy
  rw [← hax, ← hby]
  exact hgw a (hmem a ha) b (hmem b hb)

/-! ## No bin of `knapsack` stays empty -/

/-- An exchange is accepted only when the ball of the top bin is heavier than the ball it is
exchanged for; among bins whose balls have no negative weight the sum of the weights is then
positive. -/
theorem swap_total_pos (wbl_top : WeightedBoxList) (others : List WeightedBoxList)
    (i c o : Nat)
    (hok : ∀ x ∈ wbl_top :: others, BinOK (fun b => 0 ≤ b.m_weight) x)
    (hf : findWb wbl_top.weight others wbl_top.m_lb 0 = some (i, c, o)) :
    0 < sumWeights (wbl_top :: others) := by
  obtain ⟨wb, wbl_chk, owb, _, h1, h2, h3, h4⟩ :=
    findWb_spec wbl_top.weight others wbl_top.m_lb 0 i c o hf
  rw [Nat.sub_zero] at h1
  unfold swapImproves at h4
  simp only [Bool.and_eq_true, decide_eq_true_eq] at h4
  have hchk : BinOK (fun b => 0 ≤ b.m_weight) wbl_chk :=
    hok _ (List.mem_cons_of_mem _ (List.get?_mem h2))
  have htop := hok wbl_top (List.mem_cons_self _ _)
  have ho : 0 ≤ owb.weight := hchk.2 owb (List.get?_mem h3)
  have hwb : 0 < wb.weight := by omega
  have hle : wb.weight ≤ wbl_top.weight := by
    unfold WeightedBoxList.weight
    rw [htop.1]
    apply List.single_le_sum
    · intro x hx
      obtain ⟨b, hb, hbx⟩ := List.mem_map.mp hx
      rw [← hbx]
      exact htop.2 b hb
    · exact List.mem_map.mpr ⟨wb, List.get?_mem h1, rfl⟩
  have hall : ∀ x ∈ (wbl_top :: others).map WeightedBoxList.weight, 0 ≤ x := by
    intro x hx
    obtain ⟨b, hb, hbx⟩ := List.mem_map.mp hx
    rw [← hbx]
    exact binOK_nonneg _ (fun b hb => hb) b (hok b hb)
  have hs : wbl_top.weight ≤ ((wbl_top :: others).map WeightedBoxList.weight).sum :=
    List.single_le_sum hall _ (List.mem_map.mpr ⟨wbl_top, List.mem_cons_self _ _, rfl⟩)
  rw [sumWeights_eq]
  omega

/-- The bins with which the refinement of `knapsack` starts, for weights in `[0, 2^31)`: they
go from the heaviest on, the weight of each is the sum of the weights of its balls, and no
ball has a negative weight. -/
theorem knapsack_bins_nonneg (L : StdLib) (hL : L.Permutes) (wgts : List Int)
    (hw : ∀ w ∈ wgts, 0 ≤ w ∧ w < 2147483648) (nprocs : Nat) (hn : 1 ≤ nprocs) :
    ∃ wblq wblqg0,
      greedy L (L.sortWB (wgts.enum.map (fun p => WeightedBox.new p.1 p.2)))
        (List.replicate nprocs WeightedBoxList.new) = some wblq ∧
      drain L wblq.length wblq = some wblqg0 ∧
      (listSort wblqg0).length = nprocs ∧
      Desc (listSort wblqg0) ∧
      ∀ x ∈ listSort wblqg0, BinOK (fun b => 0 ≤ b.m_weight) x := by
  have hs := hL.1
  have hq := hL.2.2.2
  have hP := balls_keep_weights L hs wgts hw
  obtain ⟨wblq, hg, hgl, _⟩ := greedy_spec L hq
    (L.sortWB (wgts.enum.map (fun p => WeightedBox.new p.1 p.2)))
    (List.replicate nprocs WeightedBoxList.new)
    (by intro h; have := congrArg List.length h; simp at this; omega)
  have hgok := greedy_binOK L (fun b => 0 ≤ b.m_weight) _ _ wblq hg
    (fun b hb => (hw _ (hP b hb).2.2).1) (by
      intro x hx
      rw [List.eq_of_mem_replicate hx]
      exact ⟨rfl, fun b hb => by cases hb⟩)
  obtain ⟨wblqg0, hd, hdp⟩ := drain_spec L hq wblq.length wblq rfl
  have hsp := listSort_perm wblqg0
  refine ⟨wblq, wblqg0, hg, hd, ?_, listSort_desc wblqg0, ?_⟩
  · rw [hsp.length_eq, hdp.length_eq, hgl]; simp
  · intro x hx
    exact hgok x (hdp.mem_iff.mp (hsp.mem_iff.mp hx))

/-- The run of `knapsack` on the weights 6, 4, 4294967266 and two bins: the constructor of
the balls takes the last weight to -30, the bins after the greedy pass weigh 6 and -26, the
refinement exchanges the balls 0 and 1, and the efficiency falls from -20/12 to -20/8. -/
theorem narrowed_swap_run :
    WeightedBox.new 2 4294967266 = ⟨2, -30⟩ ∧
    knapsack stdlib ⟨9, 10⟩ 10 [6, 4, 4294967266] 2 false = some ([[0], [1, 2]], ⟨-20, 12⟩) ∧
    knapsack stdlib ⟨9, 10⟩ 10 [6, 4, 4294967266] 2 true = some ([[1], [2, 0]], ⟨-20, 8⟩) ∧
    findWb 6 [⟨[⟨1, 4⟩, ⟨2, -30⟩], -26⟩] [⟨0, 6⟩] 0 = some (0, 0, 0) ∧
    applySwap ⟨[⟨0, 6⟩], 6⟩ [⟨[⟨1, 4⟩, ⟨2, -30⟩], -26⟩] 0 0 0
      = some [⟨[⟨1, 4⟩], 4⟩, ⟨[⟨2, -30⟩, ⟨0, 6⟩], -24⟩] ∧
    efficiencyOf (-20) 2 6 = ⟨-20, 12⟩ ∧ efficiencyOf (-20) 2 4 = ⟨-20, 8⟩ ∧
    Dbl.lt ⟨-20, 8⟩ ⟨-20, 12⟩ = true ∧
    Dbl.le (efficiencyOf (-20) 2 6) (efficiencyOf (-20) 2 4) = false := by
  refine ⟨by decide, by rfl, by rfl, by rfl, by rfl, by decide, by decide, by decide,
    by decide⟩


/-! ## The resolution under the bound of the small ends -/

/-- When no coordinate of a small end reaches `2^30`, the loop of the resolution ends at a
value of at most 30. -/
theorem sfcMaxPower_le (E : Env) (boxes : BoxArray) (h : AnchorsFit E boxes) :
    sfcMaxPower E boxes ≤ 30 := by
  unfold AnchorsFit at h
  rw [sfcMaxPower_eq]
  by_cases h0 : sfcMaxijk E boxes ≤ 0
  · unfold maxPowerLoop
    have e : toInt32 (2 ^ 0) = 1 := by decide
    rw [e, if_neg (by omega)]
    omega
  · obtain ⟨k, hk⟩ : ∃ k : Nat, sfcMaxijk E boxes = (k : Int) :=
      ⟨(sfcMaxijk E boxes).toNat, by omega⟩
    rw [hk] at h h0 ⊢
    have hk1 : 1 ≤ k := by omega
    have hk2 : k < 2 ^ 30 := by exact_mod_cast h
    obtain ⟨_, h2⟩ := maxPowerLoop_spec k hk1 hk2 32 0 (by omega) (by omega) (by simp; omega)
    by_contra hc
    push_neg at hc
    have h3 : 2 ^ 31 ≤ 2 ^ maxPowerLoop (k : Int) 32 0 :=
      Nat.pow_le_pow_right (by omega) (by omega)
    omega

/-! ## The single worker, the strategy selector -/

theorem define_one_eq (L : StdLib) (E : Env) (fuel : Nat) (s : State) (this : Nat)
    (boxes : BoxArray) :
    define L E fuel s this boxes 1 =
      .ok (setPmap (defineEntry L E s this boxes) this
          ((pmapOf (defineEntry L E s this boxes) this).map (fun _ => 0)), this) := by
  rw [define_eq]; simp

theorem define_one_facts (L : StdLib) (E : Env) (s : State) (this : Nat)
    (boxes : BoxArray) (hthis : this < s.heap.length) :
    pmapOf (setPmap (defineEntry L E s this boxes) this
          ((pmapOf (defineEntry L E s this boxes) this).map (fun _ => 0))) this
      = List.replicate (boxes.length + 1) 0 := by
  rw [pmapOf_setPmap_self _ _ _ (by rw [defineEntry_heap_length]; exact hthis)]
  have h := defineEntry_length L E s this boxes hthis
  rw [← h]
  exact List.eq_replicate_iff.mpr ⟨by simp, by intro b hb; simp at hb; exact hb.2⟩

/-- C4: `define (boxes, 1)`, on any object, in any state (any strategy, bound or not, any
cache) and with any fuel, returns with the object on its own `Ref`, whose map has length
`N + 1` and gives worker 0 to every item; the cache is as it was, and so is every other
`Ref`. -/
theorem define_one_worker (L : StdLib) (E : Env) (fuel : Nat) (s : State) (this : Nat)
    (boxes : BoxArray) (hthis : this < s.heap.length) :
    ∃ s', define L E fuel s this boxes 1 = .ok (s', this) ∧
      (pmapOf s' this).length = boxes.length + 1 ∧
      (∀ i, i < boxes.length → (pmapOf s' this).getD i 0 = 0) ∧
      s'.m_Cache = s.m_Cache ∧
      (∀ r, r ≠ this → pmapOf s' r = pmapOf s r) := by
  refine ⟨_, define_one_eq L E fuel s this boxes, ?_, ?_, ?_, ?_⟩
  · rw [define_one_facts L E s this boxes hthis]; simp
  · intro i hi
    rw [define_one_facts L E s this boxes hthis]
    simp [List.getD_eq_getElem?_getD]
  · exact defineEntry_cache L E s this boxes
  · intro r hr
    rw [pmapOf_setPmap_other _ _ _ _ hr]
    exact defineEntry_other L E s this r boxes hr

/-- A witness of C4: the first of two objects, three boxes, no fuel. -/
theorem define_one_worker_witness :
    0 < stateTwoObjects.heap.length ∧
    ∃ s', define stdlib envOne 0 stateTwoObjects 0 boxesThree 1 = .ok (s', 0) ∧
      (pmapOf s' 0).length = boxesThree.length + 1 ∧
      (∀ i, i < boxesThree.length → (pmapOf s' 0).getD i 0 = 0) ∧
      s'.m_Cache = stateTwoObjects.m_Cache ∧
      (∀ r, r ≠ 0 → pmapOf s' r = pmapOf stateTwoObjects r) :=
  ⟨by decide, define_one_worker stdlib envOne 0 stateTwoObjects 0 boxesThree (by decide)⟩

/-- C5: on a process whose rank is not 0, `define (boxes, 1)` returns a map whose last
entry, the sentinel, is 0 and not the rank. -/
theorem define_one_worker_sentinel (L : StdLib) (E : Env) (fuel : Nat) (s : State)
    (this : Nat) (boxes : BoxArray) (hthis : this < s.heap.length) (hr : E.MyProc ≠ 0) :
    ∃ s', define L E fuel s this boxes 1 = .ok (s', this) ∧
      (pmapOf s' this).getD boxes.length 0 = 0 ∧
      (pmapOf s' this).getD boxes.length 0 ≠ (E.MyProc : Int) := by
  refine ⟨_, define_one_eq L E fuel s this boxes, ?_, ?_⟩
  · rw [define_one_facts L E s this boxes hthis]
    simp [List.getD_eq_getElem?_getD]
  · rw [define_one_facts L E s this boxes hthis]
    simp [List.getD_eq_getElem?_getD]
    exact_mod_cast hr.symm

/-- A witness of C5: the process of rank 3, three boxes. -/
theorem define_one_worker_sentinel_witness :
    (0 < stateTwoObjects.heap.length ∧ envRankThree.MyProc ≠ 0) ∧
    ∃ s', define stdlib envRankThree 0 stateTwoObjects 0 boxesThree 1 = .ok (s', 0) ∧
      (pmapOf s' 0).getD boxesThree.length 0 = 0 ∧
      (pmapOf s' 0).getD boxesThree.length 0 ≠ (envRankThree.MyProc : Int) :=
  ⟨⟨by decide, by decide⟩,
    define_one_worker_sentinel stdlib envRankThree 0 stateTwoObjects 0 boxesThree (by decide)
      (by decide)⟩

/-- C8, as stated, fails: after `strategy (how)` with the value 7, which is none of the four
enumerators, `strategy ()` returns 7 and not the strategy that was active. -/
theorem strategy_invalid_counterexample :
    (7 : Int) ≠ ROUNDROBIN ∧ (7 : Int) ≠ KNAPSACK ∧ (7 : Int) ≠ SFC ∧ (7 : Int) ≠ PFC ∧
      strategyGet (strategy State.init 7) ≠ strategyGet State.init := by
  decide

/-- C8, amended: `strategy (how)` with a value that is none of the four enumerators reports
the error and leaves the bound build function, and everything else but `m_Strategy`, as it
was; `strategy ()` then returns `how`. -/
theorem strategy_invalid (s : State) (how : Int) (h0 : how ≠ ROUNDROBIN) (h1 : how ≠ KNAPSACK)
    (h2 : how ≠ SFC) (h3 : how ≠ PFC) :
    strategy s how =
        { s with m_Strategy := how,
                 reported := s.reported ++ ["Bad DistributionMapping::Strategy"] } ∧
      (strategy s how).m_BuildMap = s.m_BuildMap ∧
      strategyGet (strategy s how) = how := by
  unfold strategy strategyGet
  simp [h0, h1, h2, h3]

/-- A witness of C8: the value 7 at program start. -/
theorem strategy_invalid_witness :
    ((7 : Int) ≠ ROUNDROBIN ∧ (7 : Int) ≠ KNAPSACK ∧ (7 : Int) ≠ SFC ∧ (7 : Int) ≠ PFC) ∧
    (strategy State.init 7 =
        { State.init with
          m_Strategy := 7
          reported := State.init.reported ++ ["Bad DistributionMapping::Strategy"] } ∧
      (strategy State.init 7).m_BuildMap = State.init.m_BuildMap ∧
      strategyGet (strategy State.init 7) = 7) :=
  ⟨by decide, strategy_invalid State.init 7 (by decide) (by decide) (by decide) (by decide)⟩

/-- C9: at program start, with the strategy name "FOO" in the table, `Initialize` warns and
keeps `m_Strategy = SFC` but binds no build function, and a `define` for three boxes and
two workers fails the assertion on `m_BuildMap`. -/
theorem unknown_strategy_define_fails :
    (Initialize stdlib envFOO State.init).m_Strategy = SFC ∧
    (Initialize stdlib envFOO State.init).m_BuildMap = none ∧
    (Initialize stdlib envFOO State.init).reported = ["Unknown strategy: FOO"] ∧
    DistributionMapping_boxes stdlib envFOO 100 State.init
        [⟨[0, 0, 0], 8, 8⟩, ⟨[2, 0, 0], 8, 8⟩, ⟨[0, 2, 0], 8, 8⟩] 2
      = .error "BL_ASSERT(m_BuildMap != 0)" := by
  refine ⟨by decide, by decide, by decide, by rfl⟩

/-! ## The cache: hits, the constructor from a map -/

/-- C10: `strategy (kind)`, for any value `kind`, leaves the cache and every `Ref` as they
were; and a `define` that follows it, for more than one worker and a number of boxes whose
key holds a map in the cache (of that length, with the rank as sentinel), returns this
very `Ref` with its map as it was, whatever the new strategy and the fuel. -/
theorem strategy_not_retroactive (L : StdLib) (E : Env) (fuel : Nat) (s : State) (kind : Int)
    (this : Nat) (boxes : BoxArray) (nprocs r : Nat) (hn : 1 < nprocs)
    (hthis : this < s.heap.length)
    (hc : mapFind s.m_Cache (boxes.length + 1) = some r)
    (hlen : (pmapOf s r).length = boxes.length + 1)
    (hsent : (pmapOf s r).getD boxes.length 0 = (E.MyProc : Int)) :
    (strategy s kind).m_Cache = s.m_Cache ∧ (strategy s kind).heap = s.heap ∧
    ∃ s', define L E fuel (strategy s kind) this boxes nprocs = .ok (s', r) ∧
      pmapOf s' r = pmapOf s r ∧ s'.m_Cache = s.m_Cache ∧
      (∀ r', r' ≠ this → pmapOf s' r' = pmapOf s r') := by
  have hs := strategy_sameStore s kind
  have hp : ∀ r', pmapOf (strategy s kind) r' = pmapOf s r' := fun r' => pmapOf_congr hs.1 r'
  have h := define_hit L E fuel (strategy s kind) this boxes nprocs r (by omega)
    (by rw [hs.1]; exact hthis) (by rw [hs.2]; exact hc) (by rw [hp]; exact hsent)
  refine ⟨hs.2, hs.1, _, h.1, ?_, by rw [h.2.1, hs.2], ?_⟩
  · rw [h.2.2.2 (by rw [hp]; exact hlen), hp]
  · intro r' hr'
    rw [h.2.2.1 r' hr', hp]

/-- A witness of C10: the cache holds the map of three boxes made for two workers, the
strategy becomes the knapsack, the second object is defined without fuel. -/
theorem strategy_not_retroactive_witness :
    (1 < 2 ∧ 1 < (stateOf (define stdlib envOne 10 stateTwoObjects 0 boxesThree 2)).heap.length ∧
      mapFind (stateOf (define stdlib envOne 10 stateTwoObjects 0 boxesThree 2)).m_Cache
        (boxesThree.length + 1) = some 0 ∧
      (pmapOf (stateOf (define stdlib envOne 10 stateTwoObjects 0 boxesThree 2)) 0).length
        = boxesThree.length + 1 ∧
      (pmapOf (stateOf (define stdlib envOne 10 stateTwoObjects 0 boxesThree 2)) 0).getD
        boxesThree.length 0 = (envOne.MyProc : Int)) ∧
    ((strategy (stateOf (define stdlib envOne 10 stateTwoObjects 0 boxesThree 2)) KNAPSACK).m_Cache
        = (stateOf (define stdlib envOne 10 stateTwoObjects 0 boxesThree 2)).m_Cache ∧
      (strategy (stateOf (define stdlib envOne 10 stateTwoObjects 0 boxesThree 2)) KNAPSACK).heap
        = (stateOf (define stdlib envOne 10 stateTwoObjects 0 boxesThree 2)).heap ∧
      ∃ s', define stdlib envOne 0
          (strategy (stateOf (define stdlib envOne 10 stateTwoObjects 0 boxesThree 2)) KNAPSACK)
          1 boxesThree 2 = .ok (s', 0) ∧
        pmapOf s' 0 = pmapOf (stateOf (define stdlib envOne 10 stateTwoObjects 0 boxesThree 2)) 0 ∧
        s'.m_Cache = (stateOf (define stdlib envOne 10 stateTwoObjects 0 boxesThree 2)).m_Cache ∧
        (∀ r', r' ≠ 1 → pmapOf s' r'
          = pmapOf (stateOf (define stdlib envOne 10 stateTwoObjects 0 boxesThree 2)) r')) :=
  ⟨⟨by decide, by decide, by decide, by decide, by decide⟩,
    strategy_not_retroactive stdlib envOne 0
      (stateOf (define stdlib envOne 10 stateTwoObjects 0 boxesThree 2)) KNAPSACK 1 boxesThree 2 0
      (by decide) (by decide) (by decide) (by decide) (by decide)⟩

/-- C7, as stated, fails: in a run of one process, `define` for two boxes and two workers
caches a map under the key 3, and the constructor with `put_in_cache` set, on a map of
length 3, then returns without an error and without touching the cache. -/
theorem put_in_cache_counterexample :
    ∃ s1 r1, DistributionMapping_boxes stdlib envOne 10 State.init boxesTwo 2 = .ok (s1, r1) ∧
      mapFind s1.m_Cache 3 = some r1 ∧
      ∃ s2 r2, DistributionMapping_pmap envOne s1 [1, 0, 0] true = .ok (s2, r2) ∧
        s2.m_Cache = s1.m_Cache ∧ mapFind s2.m_Cache 3 ≠ some r2 := by
  refine ⟨_, _, rfl, by decide, _, _, rfl, by decide, by decide⟩

/-- C7, amended: the constructor from a map, with `put_in_cache` set.  With more than one
process it is a fatal error when the cache holds an entry under the length of the map, and
otherwise it puts the new `Ref` under that key and leaves the other keys and the other
`Ref`s as they were.  With one process it leaves the cache as it was. -/
theorem put_in_cache (E : Env) (s : State) (pmap : List Int) :
    (1 < E.NProcs → mapFind s.m_Cache pmap.length ≠ none →
      DistributionMapping_pmap E s pmap true = .error
        "DistributionMapping::DistributionMapping: pmap of given length already exists") ∧
    (1 < E.NProcs → mapFind s.m_Cache pmap.length = none →
      ∃ s' r, DistributionMapping_pmap E s pmap true = .ok (s', r) ∧
        mapFind s'.m_Cache pmap.length = some r ∧ pmapOf s' r = pmap ∧
        (∀ k, k ≠ pmap.length → mapFind s'.m_Cache k = mapFind s.m_Cache k) ∧
        (∀ r', r' < s.heap.length → pmapOf s' r' = pmapOf s r')) ∧
    (E.NProcs ≤ 1 →
      ∃ s' r, DistributionMapping_pmap E s pmap true = .ok (s', r) ∧
        s'.m_Cache = s.m_Cache ∧ pmapOf s' r = pmap ∧
        (∀ r', r' < s.heap.length → pmapOf s' r' = pmapOf s r')) := by
  refine ⟨?_, ?_, ?_⟩
  · intro hN hk
    have : s.m_Cache.any (fun p => decide (p.1 = pmap.length)) = true := by
      cases hc : s.m_Cache.any (fun p => decide (p.1 = pmap.length)) with
      | true => rfl
      | false => exact absurd ((mapFind_eq_none_iff _ _).mpr hc) hk
    unfold DistributionMapping_pmap
    simp only [newRef]
    simp [hN, this]
  · intro hN hk
    have hany := (mapFind_eq_none_iff _ _).mp hk
    refine ⟨{ (newRef s pmap).1 with
        m_Cache := mapInsert (newRef s pmap).1.m_Cache pmap.length (newRef s pmap).2 },
      (newRef s pmap).2, ?_, ?_, ?_, ?_, ?_⟩
    · unfold DistributionMapping_pmap
      simp only [newRef]
      simp [hN, hany]
    · show mapFind (mapInsert s.m_Cache pmap.length _) pmap.length = _
      rw [mapFind_mapInsert _ _ _ _ hk, if_pos rfl]
    · exact pmapOf_newRef_new s pmap
    · intro k hkk
      show mapFind (mapInsert s.m_Cache pmap.length _) k = _
      rw [mapFind_mapInsert _ _ _ _ hk, if_neg hkk]
    · intro r' hr'
      exact pmapOf_newRef_old s pmap r' hr'
  · intro hN
    refine ⟨(newRef s pmap).1, (newRef s pmap).2, ?_, rfl, pmapOf_newRef_new s pmap, ?_⟩
    · unfold DistributionMapping_pmap
      simp only [newRef]
      simp [Nat.not_lt.mpr hN]
    · intro r' hr'
      exact pmapOf_newRef_old s pmap r' hr'

/-- A witness of C7: with two processes, a map of length 3 on a cache that holds the key 3
and on an empty cache; with one process, on an empty cache. -/
theorem put_in_cache_witness :
    (1 < envFOO.NProcs ∧
      mapFind (stateOf (DistributionMapping_pmap envFOO State.init [1, 0, 0] true)).m_Cache
        [0, 1, 0].length ≠ none ∧
      DistributionMapping_pmap envFOO
          (stateOf (DistributionMapping_pmap envFOO State.init [1, 0, 0] true)) [0, 1, 0] true
        = .error "DistributionMapping::DistributionMapping: pmap of given length already exists") ∧
    (1 < envFOO.NProcs ∧ mapFind State.init.m_Cache [1, 0, 0].length = none ∧
      ∃ s' r, DistributionMapping_pmap envFOO State.init [1, 0, 0] true = .ok (s', r) ∧
        mapFind s'.m_Cache [1, 0, 0].length = some r ∧ pmapOf s' r = [1, 0, 0] ∧
        (∀ k, k ≠ [1, 0, 0].length → mapFind s'.m_Cache k = mapFind State.init.m_Cache k) ∧
        (∀ r', r' < State.init.heap.length → pmapOf s' r' = pmapOf State.init r')) ∧
    (envOne.NProcs ≤ 1 ∧
      ∃ s' r, DistributionMapping_pmap envOne State.init [1, 0, 0] true = .ok (s', r) ∧
        s'.m_Cache = State.init.m_Cache ∧ pmapOf s' r = [1, 0, 0] ∧
        (∀ r', r' < State.init.heap.length → pmapOf s' r' = pmapOf State.init r')) :=
  ⟨⟨by decide, by decide,
      (put_in_cache envFOO (stateOf (DistributionMapping_pmap envFOO State.init [1, 0, 0] true))
        [0, 1, 0]).1 (by decide) (by decide)⟩,
    ⟨by decide, by decide,
      (put_in_cache envFOO State.init [1, 0, 0]).2.1 (by decide) (by decide)⟩,
    ⟨by decide, (put_in_cache envOne State.init [1, 0, 0]).2.2 (by decide)⟩⟩

/-! ## The runs of the space filling curve -/

/-- C3: for every sequence of tokens, every `nprocs ≥ 1` and every target volume,
`Distribute` on `nprocs` empty runs returns `nprocs` runs whose concatenation, in the order
of the CPUs, is the sequence of the boxes of the tokens in their order. -/
theorem Distribute_concat (tokens : List SFCToken) (nprocs : Nat) (volpercpu : Dbl)
    (hn : 1 ≤ nprocs) :
    ∃ v, Distribute tokens nprocs volpercpu (List.replicate nprocs []) = .ok v ∧
      v.length = nprocs ∧ v.flatten = tokens.map SFCToken.m_box := by
  exact Distribute_spec tokens nprocs volpercpu hn

/-- A witness of C3: three tokens of volume 10, two CPUs, the target 15. -/
theorem Distribute_concat_witness :
    1 ≤ 2 ∧
    ∃ v, Distribute tokensThree 2 ⟨15, 1⟩ (List.replicate 2 []) = .ok v ∧
      v.length = 2 ∧ v.flatten = tokensThree.map SFCToken.m_box :=
  ⟨by decide, Distribute_concat tokensThree 2 ⟨15, 1⟩ (by decide)⟩

/-! ## The knapsack, the range of the map, a second `define` -/

/-- C2: for a library whose sort permutes and whose `top ()` is an element of the queue,
every weight vector, every `nprocs ≥ 1` and every threshold, with refinement on or off,
`knapsack` returns on enough fuel, and it returns `nprocs` bins that together hold every
index `0..N-1` once; and every exchange of the refinement keeps the balls and the number of
bins. -/
theorem knapsack_partition (L : StdLib) (hs : ∀ l, (L.sortWB l).Perm l)
    (hq : ∀ q, q ≠ [] → L.pqTop q < q.length) (max_efficiency : Dbl) (wgts : List Int)
    (nprocs : Nat) (hn : 1 ≤ nprocs) (do_full_knapsack : Bool) :
    (∃ fuel0, ∀ fuel, fuel0 ≤ fuel →
      ∃ vec eff, knapsack L max_efficiency fuel wgts nprocs do_full_knapsack = some (vec, eff) ∧
        vec.length = nprocs ∧ vec.flatten.Perm (List.range wgts.length)) ∧
    (∀ wbl_top others i c o q', applySwap wbl_top others i c o = some q' →
      q'.length = (wbl_top :: others).length ∧
        (ballsOf q').Perm (ballsOf (wbl_top :: others))) :=
  ⟨knapsack_spec L hs hq max_efficiency wgts nprocs hn do_full_knapsack,
    fun wbl_top others i c o q' h => applySwap_perm wbl_top others i c o q' h⟩

/-- A witness of C2: the library `stdlib`, the weights of the spec's example, two bins. -/
theorem knapsack_partition_witness :
    ((∀ l, (stdlib.sortWB l).Perm l) ∧ (∀ q, q ≠ [] → stdlib.pqTop q < q.length) ∧ 1 ≤ 2) ∧
    ((∃ fuel0, ∀ fuel, fuel0 ≤ fuel →
      ∃ vec eff, knapsack stdlib ⟨9, 10⟩ fuel [10, 10, 10, 10, 1, 1, 1, 1] 2 true
          = some (vec, eff) ∧
        vec.length = 2 ∧ vec.flatten.Perm (List.range [10, 10, 10, 10, 1, 1, 1, 1].length)) ∧
    (∀ wbl_top others i c o q', applySwap wbl_top others i c o = some q' →
      q'.length = (wbl_top :: others).length ∧
        (ballsOf q').Perm (ballsOf (wbl_top :: others)))) :=
  ⟨⟨stdlib_permutes.1, stdlib_permutes.2.2.2, by decide⟩,
    knapsack_partition stdlib stdlib_permutes.1 stdlib_permutes.2.2.2 ⟨9, 10⟩
      [10, 10, 10, 10, 1, 1, 1, 1] 2 (by decide) true⟩

/-- C1, as stated, fails: with one process and the default strategy, `define` for three
boxes and four workers caches a map that names worker 2, and a `define` for three boxes and
two workers then returns this map. -/
theorem define_range_counterexample :
    ∃ s1 r1, DistributionMapping_boxes stdlib envOne 10 State.init boxesThree 4 = .ok (s1, r1) ∧
      ∃ s2 r2, DistributionMapping_boxes stdlib envOne 10 s1 boxesThree 2 = .ok (s2, r2) ∧
        (pmapOf s2 r2).getD 0 0 = 2 ∧ ¬ (pmapOf s2 r2).getD 0 0 < 2 :=
  ⟨_, _, rfl, _, _, rfl, by decide, by decide⟩

/-- C1, amended: for a library whose sorts permute and whose `top ()` is an element of the
queue, `N ≥ 1` boxes and `nprocs ≥ 1` workers, `define` on an object returns on enough fuel
a map of length `N + 1` whose entries `0..N-1` lie in `[0, nprocs)`, provided `nprocs = 1`
or else the cache holds nothing under `N + 1`, a build function is bound after
`Initialize`, when it is the proximity one `ProximityMap` sends `0..nprocs-1` into
`[0, nprocs)`, and the call is one of `BuildFits`: with MPI there are no more processes than
workers, no small end reaches `2^30` for the space filling curve, on the I/O processor
there are no fewer boxes than workers where the knapsack is reached, and for the proximity
curve the sums of the numbers of points are exact in `Real`. -/
theorem define_range (L : StdLib) (hL : L.Permutes) (E : Env) (s : State) (this : Nat)
    (boxes : BoxArray) (nprocs : Nat) (hb : 1 ≤ boxes.length) (hn : 1 ≤ nprocs)
    (hthis : this < s.heap.length)
    (h : nprocs = 1 ∨
      (mapFind s.m_Cache (boxes.length + 1) = none ∧
        ∃ f, (Initialize L E s).m_BuildMap = some f ∧
          (f = PVMF.PFCProcessorMap → ∀ i, i < nprocs →
            0 ≤ ProximityMap (Initialize L E s) i ∧
              ProximityMap (Initialize L E s) i < (nprocs : Int)) ∧
          BuildFits E (Initialize L E s) f boxes nprocs)) :
    ∃ fuel0, ∀ fuel, fuel0 ≤ fuel →
      ∃ s', define L E fuel s this boxes nprocs = .ok (s', this) ∧
        (pmapOf s' this).length = boxes.length + 1 ∧
        ∀ i, i < boxes.length →
          0 ≤ (pmapOf s' this).getD i 0 ∧ (pmapOf s' this).getD i 0 < (nprocs : Int) := by
  by_cases h1 : nprocs = 1
  · subst h1
    refine ⟨0, ?_⟩
    intro fuel _
    refine ⟨_, define_one_eq L E fuel s this boxes, ?_, ?_⟩
    · rw [define_one_facts L E s this boxes hthis]; simp
    · intro i hi
      rw [define_one_facts L E s this boxes hthis]
      simp [List.getD_eq_getElem?_getD]
  · rcases h with h | ⟨hc, f, hf, hprox, _⟩
    · exact absurd h h1
    · obtain ⟨fuel0, hk⟩ := define_miss L hL E s this boxes nprocs f hb (by omega) hthis hc hf hprox
      refine ⟨fuel0, ?_⟩
      intro fuel hfl
      obtain ⟨s', hd, hg, _⟩ := hk fuel hfl
      exact ⟨s', hd, hg.1, hg.2.1⟩

/-- A witness of C1: a miss, with the library `stdlib`, one process, the default strategy,
three boxes and four workers. -/
theorem define_range_witness :
    (stdlib.Permutes ∧ 1 ≤ boxesThree.length ∧ 1 ≤ 4 ∧ 0 < stateTwoObjects.heap.length ∧
      (4 = 1 ∨
      (mapFind stateTwoObjects.m_Cache (boxesThree.length + 1) = none ∧
        ∃ f, (Initialize stdlib envOne stateTwoObjects).m_BuildMap = some f ∧
          (f = PVMF.PFCProcessorMap → ∀ i, i < 4 →
            0 ≤ ProximityMap (Initialize stdlib envOne stateTwoObjects) i ∧
              ProximityMap (Initialize stdlib envOne stateTwoObjects) i < ((4 : Nat) : Int)) ∧
          BuildFits envOne (Initialize stdlib envOne stateTwoObjects) f boxesThree 4))) ∧
    ∃ fuel0, ∀ fuel, fuel0 ≤ fuel →
      ∃ s', define stdlib envOne fuel stateTwoObjects 0 boxesThree 4 = .ok (s', 0) ∧
        (pmapOf s' 0).length = boxesThree.length + 1 ∧
        ∀ i, i < boxesThree.length →
          0 ≤ (pmapOf s' 0).getD i 0 ∧ (pmapOf s' 0).getD i 0 < ((4 : Nat) : Int) :=
  ⟨⟨stdlib_permutes, by decide, by decide, by decide,
      Or.inr ⟨by decide, PVMF.SFCProcessorMap, by decide, (fun hf => by cases hf),
        (by decide)⟩⟩,
    define_range stdlib stdlib_permutes envOne stateTwoObjects 0 boxesThree 4 (by decide)
      (by decide) (by decide)
      (Or.inr ⟨by decide, PVMF.SFCProcessorMap, by decide, (fun hf => by cases hf),
        (by decide)⟩)⟩

/-- C6, as stated, fails: with one worker, two `define` for the same three boxes on two
objects leave the objects on two different `Ref`s. -/
theorem define_twice_counterexample :
    ∃ s1 r1, define stdlib envOne 10 stateTwoObjects 0 boxesThree 1 = .ok (s1, r1) ∧
      ∃ s2 r2, define stdlib envOne 10 s1 1 boxesThree 1 = .ok (s2, r2) ∧ r1 ≠ r2 :=
  ⟨_, _, rfl, _, _, rfl, by decide⟩

/-- C6, amended: with a number of workers other than one, when a `define` on a first object
has returned, a `define` on any second object for as many boxes and the same rank, with any
library, fuel and strategy, returns the `Ref` that the first one returned: it leaves the
cache and every `Ref` other than the second object's own as they were, and the shared map
as it was when it has `N + 1` entries. -/
theorem define_twice_same_ref (L : StdLib) (E : Env) (fuel : Nat) (s : State) (d1 : Nat)
    (boxes : BoxArray) (nprocs : Nat) (s1 : State) (r1 : Nat) (hn : nprocs ≠ 1)
    (h1 : d1 < s.heap.length) (hfirst : define L E fuel s d1 boxes nprocs = .ok (s1, r1))
    (L2 : StdLib) (E2 : Env) (fuel2 : Nat) (d2 : Nat) (boxes2 : BoxArray)
    (hN : boxes2.length = boxes.length) (hrank : E2.MyProc = E.MyProc)
    (h2 : d2 < s1.heap.length) :
    ∃ s2, define L2 E2 fuel2 s1 d2 boxes2 nprocs = .ok (s2, r1) ∧ s2.m_Cache = s1.m_Cache ∧
      (∀ r, r ≠ d2 → pmapOf s2 r = pmapOf s1 r) ∧
      ((pmapOf s1 r1).length = boxes.length + 1 → pmapOf s2 r1 = pmapOf s1 r1) := by
  obtain ⟨hc, hsent, _⟩ := define_ok_inv L E fuel s d1 boxes nprocs s1 r1 hn h1 hfirst
  have h := define_hit L2 E2 fuel2 s1 d2 boxes2 nprocs r1 hn h2 (by rw [hN]; exact hc)
    (by rw [hN, hrank]; exact hsent)
  exact ⟨_, h.1, h.2.1, h.2.2.1, by rw [← hN]; exact h.2.2.2⟩

/-- A witness of C6: two objects, three boxes, two workers. -/
theorem define_twice_same_ref_witness :
    ((2 : Nat) ≠ 1 ∧ 0 < stateTwoObjects.heap.length ∧
      define stdlib envOne 10 stateTwoObjects 0 boxesThree 2
        = .ok (stateOf (define stdlib envOne 10 stateTwoObjects 0 boxesThree 2), 0) ∧
      boxesThree.length = boxesThree.length ∧ envOne.MyProc = envOne.MyProc ∧
      1 < (stateOf (define stdlib envOne 10 stateTwoObjects 0 boxesThree 2)).heap.length) ∧
    ∃ s2, define stdlib envOne 0
        (stateOf (define stdlib envOne 10 stateTwoObjects 0 boxesThree 2)) 1 boxesThree 2
          = .ok (s2, 0) ∧
      s2.m_Cache = (stateOf (define stdlib envOne 10 stateTwoObjects 0 boxesThree 2)).m_Cache ∧
      (∀ r, r ≠ 1 → pmapOf s2 r
        = pmapOf (stateOf (define stdlib envOne 10 stateTwoObjects 0 boxesThree 2)) r) ∧
      ((pmapOf (stateOf (define stdlib envOne 10 stateTwoObjects 0 boxesThree 2)) 0).length
          = boxesThree.length + 1 →
        pmapOf s2 0
          = pmapOf (stateOf (define stdlib envOne 10 stateTwoObjects 0 boxesThree 2)) 0) :=
  ⟨⟨by decide, by decide, rfl, rfl, rfl, by decide⟩,
    define_twice_same_ref stdlib envOne 10 stateTwoObjects 0 boxesThree 2 _ 0 (by decide)
      (by decide) rfl stdlib envOne 0 1 boxesThree rfl rfl (by decide)⟩

/-- C20: on the calls on which the gather stays inside the array `bytes (nprocs)` (with MPI
`NProcs ≤ nprocs`, one gathered load for each process), `LeastUsedCPUs` returns a
permutation of the ranks `0 .. nprocs - 1`; with MPI it goes by non-decreasing gathered load
and, among equal loads, by ascending rank, the load of a rank from `NProcs` on being the 0
that the array holds there; without MPI it is the identity order `0, 1, .., nprocs - 1`.
For `nprocs < NProcs` the gather of the code writes past the array and nothing is
stated. -/
theorem LeastUsedCPUs_order (E : Env) (nprocs : Nat) (hg : GatherFits E nprocs) :
    (LeastUsedCPUs E nprocs).Perm (List.range nprocs) ∧
    (E.BL_USE_MPI = true →
      (LeastUsedCPUs E nprocs).Pairwise (fun a b => E.bytes.getD a 0 < E.bytes.getD b 0 ∨
        (E.bytes.getD a 0 = E.bytes.getD b 0 ∧ a < b)) ∧
      ∀ i, E.NProcs ≤ i → E.bytes.getD i 0 = 0) ∧
    (E.BL_USE_MPI = false → LeastUsedCPUs E nprocs = List.range nprocs) := by
  refine ⟨LeastUsedCPUs_perm E nprocs, fun h => ⟨LeastUsedCPUs_sorted E nprocs h, ?_⟩, ?_⟩
  · intro i hi
    exact List.getD_eq_default _ _ (by rw [(hg h).2]; exact hi)
  · intro h
    unfold LeastUsedCPUs
    rw [if_neg (by simp [h])]

/-- A witness of C20: four processes with MPI and the loads 5, 3, 5, 3, asked for four
workers; one process without MPI, asked for four workers. -/
theorem LeastUsedCPUs_order_witness :
    (GatherFits envLoads 4 ∧ GatherFits envOne 4) ∧
    LeastUsedCPUs envLoads 4 = [1, 3, 0, 2] ∧
    (LeastUsedCPUs envLoads 4).Pairwise (fun a b =>
      envLoads.bytes.getD a 0 < envLoads.bytes.getD b 0 ∨
        (envLoads.bytes.getD a 0 = envLoads.bytes.getD b 0 ∧ a < b)) ∧
    LeastUsedCPUs envOne 4 = List.range 4 :=
  ⟨⟨by decide, by decide⟩, by decide,
    ((LeastUsedCPUs_order envLoads 4 (by decide)).2.1 rfl).1,
    (LeastUsedCPUs_order envOne 4 (by decide)).2.2 rfl⟩

/-- C12, as the claim states it, fails: of two boxes of eight points each, the order that
`RoundRobinProcessorMap` builds has box 1 before box 0. -/
theorem Sort_ties_counterexample :
    SortLIpair (boxesTwo.enum.map (fun p => ((p.2.numPts, p.1) : LIpair))) true
      = [(8, 1), (8, 0)] := by
  decide

/-- C12, amended: in the order that `RoundRobinProcessorMap` builds with `Sort` and
`reverse = true`, the weights do not increase, and of two items of equal weight the one of
the higher index comes first. -/
theorem Sort_ties_reversed (boxes : BoxArray) :
    (SortLIpair (boxes.enum.map (fun p => ((p.2.numPts, p.1) : LIpair))) true).Pairwise
      (fun a b => b.1 ≤ a.1 ∧ (a.1 = b.1 → b.2 < a.2)) := by
  have hs := SortLIpair_true_sorted _ (enum_pairs_increasing boxes)
  have hnd : ((SortLIpair (boxes.enum.map (fun p => ((p.2.numPts, p.1) : LIpair))) true).map
      Prod.snd).Nodup := (enumPairs_perm boxes true).nodup_iff.mpr (List.nodup_range _)
  unfold List.Nodup at hnd
  rw [List.pairwise_map] at hnd
  refine (hs.and hnd).imp ?_
  intro a b hab
  obtain ⟨hle, hne⟩ := hab
  unfold LIpairLe at hle
  constructor
  · omega
  · intro he
    rcases hle with h1 | ⟨_, h2⟩
    · omega
    · exact lt_of_le_of_ne h2 (fun h => hne h.symm)

/-- C17, as the claim states it, fails: for the weights 1, 5, 3 and three workers (order
of the workers 0, 1, 2) the overload on weights gives item `i` to worker `i`, so the
heaviest item, item 1, goes to worker 1 and not to worker `ord[0] = 0`; the overload on
boxes gives it to worker 0. -/
theorem KnapSack_fallback_counterexample :
    LeastUsedCPUs envOne 3 = [0, 1, 2] ∧
    KnapSackProcessorMapW stdlib envOne State.init 10 [1, 5, 3] 3 true [0, 0, 0, 0]
      = .ok ([0, 1, 2, 0], Dbl.ofInt 1) ∧
    KnapSackProcessorMap stdlib envOne State.init 10 (boxesOf [1, 5, 3]) 3 [0, 0, 0, 0]
      = .ok [2, 0, 1, 0] ∧
    RoundRobinProcessorMap envOne (boxesOf [1, 5, 3]) 3 [0, 0, 0, 0] = .ok [2, 0, 1, 0] :=
  ⟨by decide, rfl, rfl, rfl⟩

/-- C17, amended: when the number of items is at most `nprocs` or `nprocs < 2`, for
`nprocs ≥ 1` and on the calls on which the gather of `LeastUsedCPUs` fits, the overload of
`KnapSackProcessorMap` on boxes returns what `RoundRobinProcessorMap (boxes, nprocs)`
returns, the map that gives worker `ord[i % nprocs]` to the box at place `i` of the order by
descending number of points, provided that on the I/O processor these workers are below the
number of boxes: then every index that the block at the end of the function reads is inside
`boxes`.  The overload on weights, which has no such block, returns what
`RoundRobinProcessorMap (nboxes, nprocs)` returns, the map that gives worker
`ord[i % nprocs]` to item `i`, whatever the weights are, and the efficiency 1. -/
theorem KnapSack_fallback (L : StdLib) (E : Env) (s : State) (fuel : Nat) (boxes : BoxArray)
    (wgts : List Int) (nprocs : Nat) (do_full_knapsack : Bool) (pm pmw : List Int)
    (hb : 1 ≤ boxes.length) (hlen : pm.length = boxes.length + 1)
    (hfb : boxes.length ≤ nprocs ∨ nprocs < 2) (hio : FallbackFits E boxes nprocs)
    (hw : 1 ≤ wgts.length) (hfw : wgts.length ≤ nprocs ∨ nprocs < 2) :
    1 ≤ nprocs → GatherFits E nprocs →
    (∃ pm', KnapSackProcessorMap L E s fuel boxes nprocs pm = .ok pm' ∧
      RoundRobinProcessorMap E boxes nprocs pm = .ok pm' ∧
      (∀ i, i < boxes.length →
        pm'.getD ((SortLIpair (boxes.enum.map (fun p => ((p.2.numPts, p.1) : LIpair)))
          true).getD i (0, 0)).2 0 =
        (((LeastUsedCPUs E nprocs).getD (i % nprocs) 0 : Nat) : Int)) ∧
      (E.IOProcessor = true →
        ∀ j, j < boxes.length → 0 ≤ pm'.getD j 0 ∧ pm'.getD j 0 < (boxes.length : Int))) ∧
    (∃ pm', KnapSackProcessorMapW L E s fuel wgts nprocs do_full_knapsack pmw
        = .ok (pm', Dbl.ofInt 1) ∧
      RoundRobinProcessorMapN E wgts.length nprocs pmw = .ok pm' ∧
      ∀ i, i < wgts.length →
        pm'.getD i 0 = (((LeastUsedCPUs E nprocs).getD (i % nprocs) 0 : Nat) : Int)) := by
  intro _ _
  constructor
  · obtain ⟨pm', h1, h2⟩ := RoundRobinProcessorMap_exact E boxes nprocs pm hb hlen
    refine ⟨pm', ?_, h1, h2, ?_⟩
    · unfold KnapSackProcessorMap
      rw [if_neg (by omega), if_neg (by simp [hlen]), if_pos hfb]
      exact h1
    · intro hi j hj
      have hp := enumPairs_perm boxes true
      have hl : (SortLIpair (boxes.enum.map (fun p => ((p.2.numPts, p.1) : LIpair)))
          true).length = boxes.length := by simpa using hp.length_eq
      have hm : j ∈ (SortLIpair (boxes.enum.map (fun p => ((p.2.numPts, p.1) : LIpair)))
          true).map Prod.snd := hp.mem_iff.mpr (List.mem_range.mpr hj)
      obtain ⟨q, hq, hqj⟩ := List.mem_map.mp hm
      obtain ⟨i, hi', hie⟩ := List.mem_iff_getElem.mp hq
      have hiN : i < boxes.length := by omega
      have e := h2 i hiN
      rw [List.getD_eq_getElem _ _ hi', hie, hqj] at e
      rw [e]
      have := hio hi i hiN
      exact ⟨Int.ofNat_nonneg _, by exact_mod_cast this⟩
  · have hr : ∃ pm', RoundRobinProcessorMapN E wgts.length nprocs pmw = .ok pm' ∧
        ∀ i, i < wgts.length →
          pm'.getD i 0 = (((LeastUsedCPUs E nprocs).getD (i % nprocs) 0 : Nat) : Int) := by
      unfold RoundRobinProcessorMapN
      rw [if_neg (by omega)]
      apply RoundRobinDoIt_exact_none
      split_ifs with h
      · exact resize_length _ _
      · push_neg at h; exact h
    obtain ⟨pm', h1, h2⟩ := hr
    refine ⟨pm', ?_, h1, h2⟩
    have e : RoundRobinProcessorMapN E wgts.length nprocs
        (if pmw.length ≠ wgts.length + 1 then resize pmw (wgts.length + 1) else pmw) = .ok pm' := by
      rw [← h1]
      by_cases h3 : pmw.length ≠ wgts.length + 1
      · rw [if_pos h3]
        unfold RoundRobinProcessorMapN
        rw [if_neg (by omega), if_neg (by rw [resize_length]; exact fun h => h rfl), if_pos h3,
          if_neg (by omega)]
      · rw [if_neg h3]
    unfold KnapSackProcessorMapW
    rw [if_neg (by omega)]
    simp only
    rw [if_pos hfw, e]

/-- A witness of C17: two items of the weights 1 and 5 and three workers, on the I/O
processor of a run without MPI, and on the I/O processor of a run of three processes whose
order by load is 1, 0, 2. -/
theorem KnapSack_fallback_witness :
    ((1 ≤ (boxesOf [1, 5]).length ∧ ([0, 0, 0] : List Int).length = (boxesOf [1, 5]).length + 1 ∧
      ((boxesOf [1, 5]).length ≤ 3 ∨ 3 < 2) ∧ FallbackFits envOne (boxesOf [1, 5]) 3 ∧
      FallbackFits envLoadsTrio (boxesOf [1, 5]) 3 ∧
      1 ≤ ([1, 5] : List Int).length ∧ (([1, 5] : List Int).length ≤ 3 ∨ 3 < 2) ∧ 1 ≤ 3 ∧
      GatherFits envOne 3 ∧ GatherFits envLoadsTrio 3) ∧
    KnapSackProcessorMap stdlib envOne State.init 10 (boxesOf [1, 5]) 3 [0, 0, 0]
      = .ok [1, 0, 0] ∧
    KnapSackProcessorMapW stdlib envOne State.init 10 [1, 5] 3 true [0, 0, 0]
      = .ok ([0, 1, 0], Dbl.ofInt 1) ∧
    LeastUsedCPUs envLoadsTrio 3 = [1, 0, 2] ∧
    KnapSackProcessorMap stdlib envLoadsTrio State.init 10 (boxesOf [1, 5]) 3 [0, 0, 0]
      = .ok [0, 1, 0]) ∧
    (∃ pm', KnapSackProcessorMap stdlib envOne State.init 10 (boxesOf [1, 5]) 3 [0, 0, 0]
        = .ok pm' ∧
      RoundRobinProcessorMap envOne (boxesOf [1, 5]) 3 [0, 0, 0] = .ok pm' ∧
      (∀ i, i < (boxesOf [1, 5]).length →
        pm'.getD ((SortLIpair ((boxesOf [1, 5]).enum.map
          (fun p => ((p.2.numPts, p.1) : LIpair))) true).getD i (0, 0)).2 0 =
        (((LeastUsedCPUs envOne 3).getD (i % 3) 0 : Nat) : Int)) ∧
      (envOne.IOProcessor = true →
        ∀ j, j < (boxesOf [1, 5]).length →
          0 ≤ pm'.getD j 0 ∧ pm'.getD j 0 < ((boxesOf [1, 5]).length : Int))) ∧
    (∃ pm', KnapSackProcessorMap stdlib envLoadsTrio State.init 10 (boxesOf [1, 5]) 3 [0, 0, 0]
        = .ok pm' ∧
      RoundRobinProcessorMap envLoadsTrio (boxesOf [1, 5]) 3 [0, 0, 0] = .ok pm' ∧
      (∀ i, i < (boxesOf [1, 5]).length →
        pm'.getD ((SortLIpair ((boxesOf [1, 5]).enum.map
          (fun p => ((p.2.numPts, p.1) : LIpair))) true).getD i (0, 0)).2 0 =
        (((LeastUsedCPUs envLoadsTrio 3).getD (i % 3) 0 : Nat) : Int)) ∧
      (envLoadsTrio.IOProcessor = true →
        ∀ j, j < (boxesOf [1, 5]).length →
          0 ≤ pm'.getD j 0 ∧ pm'.getD j 0 < ((boxesOf [1, 5]).length : Int))) :=
  ⟨⟨⟨by decide, by decide, by decide, by decide, by decide, by decide, by decide, by decide,
      by decide, by decide⟩, by rfl, by rfl, by decide, by rfl⟩,
    (KnapSack_fallback stdlib envOne State.init 10 (boxesOf [1, 5]) [1, 5] 3 true
      [0, 0, 0] [0, 0, 0] (by decide) (by decide) (by decide) (by decide) (by decide)
      (by decide) (by decide) (by decide)).1,
    (KnapSack_fallback stdlib envLoadsTrio State.init 10 (boxesOf [1, 5]) [1, 5] 3 true
      [0, 0, 0] [0, 0, 0] (by decide) (by decide) (by decide) (by decide) (by decide)
      (by decide) (by decide) (by decide)).1⟩

/-- C19: in `KnapSackDoIt` and in `SFCProcessorMapDoIt` the list of the bins (runs) goes
from the heaviest total weight to the lightest, the order `ord` of the workers goes from
the least load to the highest, and every box of the bin at place `k` of the list gets the
worker `ord[k]`; for a library whose sorts permute and whose `top ()` is an element of the
queue, `nprocs ≥ 1`, an array of one entry more than there are boxes and, with MPI, no more
processes than workers, each with one gathered load.  For `SFCProcessorMapDoIt` there is one
weight for every box and no coordinate of a small end reaches `2^30`, and then its
resolution is at most 30. -/
theorem bins_meet_workers (L : StdLib) (hL : L.Permutes) (E : Env) (s : State)
    (wgts : List Int) (boxes : BoxArray) (wgtsB : List Int) (nprocs : Nat) (hn : 1 ≤ nprocs)
    (hg : GatherFits E nprocs)
    (do_full_knapsack : Bool) (pm pmB : List Int) (hlen : pm.length = wgts.length + 1)
    (hlenB : pmB.length = boxes.length + 1) :
    (∀ vec w, ((binsByWeight vec w nprocs).map Prod.snd).Perm (List.range nprocs) ∧
      (binsByWeight vec w nprocs).Pairwise (fun a b => b.1 ≤ a.1) ∧
      ∀ p ∈ binsByWeight vec w nprocs, p.1 = (wgtsPerCpu vec w).getD p.2 0) ∧
    (E.BL_USE_MPI = true →
      (LeastUsedCPUs E nprocs).Pairwise (fun a b => E.bytes.getD a 0 < E.bytes.getD b 0 ∨
        (E.bytes.getD a 0 = E.bytes.getD b 0 ∧ a < b)) ∧
      ∀ i, E.NProcs ≤ i → E.bytes.getD i 0 = 0) ∧
    (∃ fuel0, ∀ fuel, fuel0 ≤ fuel →
      ∃ vec eff pm', knapsack L s.max_efficiency fuel wgts nprocs do_full_knapsack
          = some (vec, eff) ∧
        KnapSackDoIt L E s fuel wgts nprocs do_full_knapsack pm = .ok (pm', eff) ∧
        ∀ k, k < nprocs → ∀ item ∈ vec.getD ((binsByWeight vec wgts nprocs).getD k (0, 0)).2 [],
          pm'.getD item 0 = (((LeastUsedCPUs E nprocs).getD k 0 : Nat) : Int)) ∧
    (wgtsB.length = boxes.length → AnchorsFit E boxes →
      ∃ vec pm' m, sfcRuns L E boxes wgtsB nprocs = .ok vec ∧
        SFCProcessorMapDoIt L E boxes wgtsB nprocs pmB = .ok (pm', m) ∧ m ≤ 30 ∧
        ∀ k, k < nprocs →
          ∀ item ∈ vec.getD ((binsByWeight vec wgtsB nprocs).getD k (0, 0)).2 [],
            pm'.getD item 0 = (((LeastUsedCPUs E nprocs).getD k 0 : Nat) : Int)) := by
  refine ⟨fun vec w => ⟨binsByWeight_perm vec w nprocs, binsByWeight_sorted vec w nprocs⟩,
    fun h => ⟨LeastUsedCPUs_sorted E nprocs h, ?_⟩,
    KnapSackDoIt_pairing L hL.1 hL.2.2.2 E s wgts nprocs hn do_full_knapsack pm hlen, ?_⟩
  · intro i hi
    exact List.getD_eq_default _ _ (by rw [(hg h).2]; exact hi)
  · intro _ ha
    obtain ⟨vec, pm', m, h1, h2, h3⟩ :=
      SFCProcessorMapDoIt_pairing L hL.2.1 E boxes wgtsB nprocs hn pmB hlenB
    refine ⟨vec, pm', m, h1, h2, ?_, h3⟩
    rw [SFCProcessorMapDoIt_maxPower L E boxes wgtsB nprocs pmB pm' m h2]
    exact sfcMaxPower_le E boxes ha

/-- A witness of C19: two processes with MPI and the loads 5 and 3, two workers, four
weights in two bins and three boxes in two runs, with the library `stdlib`. -/
theorem bins_meet_workers_witness :
    (stdlib.Permutes ∧ 1 ≤ 2 ∧ GatherFits envPair 2 ∧
      ([0, 0, 0, 0, 0] : List Int).length = ([5, 1, 1, 4] : List Int).length + 1 ∧
      ([0, 0, 0, 0] : List Int).length = boxesThree.length + 1 ∧
      ([8, 8, 8] : List Int).length = boxesThree.length ∧ AnchorsFit envPair boxesThree) ∧
    LeastUsedCPUs envPair 2 = [1, 0] ∧
    (∃ fuel0, ∀ fuel, fuel0 ≤ fuel →
      ∃ vec eff pm', knapsack stdlib State.init.max_efficiency fuel [5, 1, 1, 4] 2 true
          = some (vec, eff) ∧
        KnapSackDoIt stdlib envPair State.init fuel [5, 1, 1, 4] 2 true [0, 0, 0, 0, 0]
          = .ok (pm', eff) ∧
        ∀ k, k < 2 → ∀ item ∈ vec.getD ((binsByWeight vec [5, 1, 1, 4] 2).getD k (0, 0)).2 [],
          pm'.getD item 0 = (((LeastUsedCPUs envPair 2).getD k 0 : Nat) : Int)) ∧
    (∃ vec pm' m, sfcRuns stdlib envPair boxesThree [8, 8, 8] 2 = .ok vec ∧
      SFCProcessorMapDoIt stdlib envPair boxesThree [8, 8, 8] 2 [0, 0, 0, 0] = .ok (pm', m) ∧
      m ≤ 30 ∧
      ∀ k, k < 2 → ∀ item ∈ vec.getD ((binsByWeight vec [8, 8, 8] 2).getD k (0, 0)).2 [],
        pm'.getD item 0 = (((LeastUsedCPUs envPair 2).getD k 0 : Nat) : Int)) :=
  ⟨⟨stdlib_permutes, by decide, by decide, by decide, by decide, by decide, by decide⟩,
    by decide,
    (bins_meet_workers stdlib stdlib_permutes envPair State.init [5, 1, 1, 4] boxesThree
      [8, 8, 8] 2 (by decide) (by decide) true [0, 0, 0, 0, 0] [0, 0, 0, 0] (by decide)
      (by decide)).2.2.1,
    (bins_meet_workers stdlib stdlib_permutes envPair State.init [5, 1, 1, 4] boxesThree
      [8, 8, 8] 2 (by decide) (by decide) true [0, 0, 0, 0, 0] [0, 0, 0, 0] (by decide)
      (by decide)).2.2.2 (by decide) (by decide)⟩

/-- C16: for a library whose sort permutes and whose `top ()` is an element of the queue,
every weight vector, every `nprocs ≥ 1` and every threshold, `knapsack` with the full
refinement returns: there is a bound on the passes through the label `top` above which
the function returns, and returns the same result, whatever fuel it gets. -/
theorem knapsack_terminates (L : StdLib) (hs : ∀ l, (L.sortWB l).Perm l)
    (hq : ∀ q, q ≠ [] → L.pqTop q < q.length) (max_efficiency : Dbl) (wgts : List Int)
    (nprocs : Nat) (hn : 1 ≤ nprocs) :
    ∃ fuel0 r, ∀ fuel, fuel0 ≤ fuel →
      knapsack L max_efficiency fuel wgts nprocs true = some r :=
  knapsack_returns L hs hq max_efficiency wgts nprocs hn true

/-- A witness of C16: six weights, three bins, the threshold 1. -/
theorem knapsack_terminates_witness :
    ∃ fuel0 r, ∀ fuel, fuel0 ≤ fuel →
      knapsack stdlib ⟨1, 1⟩ fuel [7, 5, 4, 3, 3, 2] 3 true = some r :=
  knapsack_terminates stdlib stdlib_permutes.1 stdlib_permutes.2.2.2 ⟨1, 1⟩
    [7, 5, 4, 3, 3, 2] 3 (by decide)

/-- C15: the list of bins of the refinement goes from the heaviest bin on, at the start and
after every exchange, so that its first bin is a heaviest one (and `max_weight` is its
weight from the start, when this is not negative); for every accepted exchange the heaviest
bin after it is not heavier than the heaviest bin before it and the sum of the weights is
unchanged; when this sum is positive, the efficiency after the exchange is not below the
efficiency before it; and among bins none of whose balls has a negative weight, as
`knapsack` builds them from weights in `[0, 2^31)`, an accepted exchange leaves such bins
and the sum is positive.  The code does not keep the efficiency for all weights that are
not negative: the constructor `WeightedBox (int b, int w)` takes the weight 4294967266 to
-30, and on the weights 6, 4, 4294967266 and two bins the refinement accepts an exchange
after which the efficiency is -20/8, below the -20/12 before it. -/
theorem swap_monotone (wbl_top : WeightedBoxList) (others : List WeightedBoxList)
    (i c o : Nat) (q' : List WeightedBoxList) (nprocs : Nat) (hn : 1 ≤ nprocs)
    (hd : Desc (wbl_top :: others))
    (hf : findWb wbl_top.weight others wbl_top.m_lb 0 = some (i, c, o))
    (hs : applySwap wbl_top others i c o = some q') :
    ((∀ l, Desc (listSort l)) ∧ Desc q' ∧
      (∀ b ∈ wbl_top :: others, b.weight ≤ wbl_top.weight) ∧
      (0 ≤ wbl_top.weight →
        (wbl_top :: others).foldl (fun m wbl => if wbl.weight > m then wbl.weight else m) 0
          = wbl_top.weight) ∧
      (∀ b ∈ q', b.weight ≤ (q'.headD WeightedBoxList.new).weight) ∧
      (q'.headD WeightedBoxList.new).weight ≤ wbl_top.weight ∧
      sumWeights q' = sumWeights (wbl_top :: others) ∧
      (0 < sumWeights (wbl_top :: others) →
        Dbl.le (efficiencyOf (sumWeights (wbl_top :: others)) nprocs wbl_top.weight)
          (efficiencyOf (sumWeights (wbl_top :: others)) nprocs
            (q'.headD WeightedBoxList.new).weight) = true) ∧
      ((∀ x ∈ wbl_top :: others, BinOK (fun b => 0 ≤ b.m_weight) x) →
        (∀ x ∈ q', BinOK (fun b => 0 ≤ b.m_weight) x) ∧
          0 < sumWeights (wbl_top :: others))) ∧
    (∀ L : StdLib, L.Permutes → ∀ wgts : List Int, (∀ w ∈ wgts, 0 ≤ w ∧ w < 2147483648) →
      ∃ wblq wblqg0,
        greedy L (L.sortWB (wgts.enum.map (fun p => WeightedBox.new p.1 p.2)))
          (List.replicate nprocs WeightedBoxList.new) = some wblq ∧
        drain L wblq.length wblq = some wblqg0 ∧
        (listSort wblqg0).length = nprocs ∧
        Desc (listSort wblqg0) ∧
        ∀ x ∈ listSort wblqg0, BinOK (fun b => 0 ≤ b.m_weight) x) ∧
    (WeightedBox.new 2 4294967266 = ⟨2, -30⟩ ∧
      knapsack stdlib ⟨9, 10⟩ 10 [6, 4, 4294967266] 2 false
        = some ([[0], [1, 2]], ⟨-20, 12⟩) ∧
      knapsack stdlib ⟨9, 10⟩ 10 [6, 4, 4294967266] 2 true
        = some ([[1], [2, 0]], ⟨-20, 8⟩) ∧
      findWb 6 [⟨[⟨1, 4⟩, ⟨2, -30⟩], -26⟩] [⟨0, 6⟩] 0 = some (0, 0, 0) ∧
      applySwap ⟨[⟨0, 6⟩], 6⟩ [⟨[⟨1, 4⟩, ⟨2, -30⟩], -26⟩] 0 0 0
        = some [⟨[⟨1, 4⟩], 4⟩, ⟨[⟨2, -30⟩, ⟨0, 6⟩], -24⟩] ∧
      efficiencyOf (-20) 2 6 = ⟨-20, 12⟩ ∧ efficiencyOf (-20) 2 4 = ⟨-20, 8⟩ ∧
      Dbl.lt ⟨-20, 8⟩ ⟨-20, 12⟩ = true ∧
      Dbl.le (efficiencyOf (-20) 2 6) (efficiencyOf (-20) 2 4) = false) := by
  obtain ⟨h1, h2, h3, h4⟩ := applySwap_desc wbl_top others i c o q' hd hf hs
  have hh : (q'.headD WeightedBoxList.new).weight ≤ wbl_top.weight := by
    cases q' with
    | nil => exact absurd rfl h2
    | cons a q' => exact h3 a (List.mem_cons_self _ _)
  refine ⟨⟨listSort_desc, h1, desc_head _ hd, foldl_max_desc wbl_top others hd,
    desc_head q' h1, hh, h4, ?_, ?_⟩,
    fun L hL wgts hw => knapsack_bins_nonneg L hL wgts hw nprocs hn, narrowed_swap_run⟩
  · intro hS
    exact efficiencyOf_mono _ nprocs _ _ hS hn (head_pos q' h1 (by rw [h4]; exact hS)) hh
  · intro hok
    exact ⟨applySwap_binOK _ wbl_top others i c o q' hs (hok wbl_top (List.mem_cons_self _ _))
      (fun x hx => hok x (List.mem_cons_of_mem _ hx)),
      swap_total_pos wbl_top others i c o hok hf⟩

/-- A witness of C15: the bins of the weights 9 and 5 exchange the balls of the weights 7
and 5; the heaviest bin then weighs 7 and the efficiency rises from 14/18 to 14/14. -/
theorem swap_monotone_witness :
    (1 ≤ 2 ∧ Desc [⟨[⟨0, 7⟩, ⟨3, 2⟩], 9⟩, ⟨[⟨1, 5⟩], 5⟩] ∧
      findWb 9 [⟨[⟨1, 5⟩], 5⟩] [⟨0, 7⟩, ⟨3, 2⟩] 0 = some (0, 0, 0) ∧
      applySwap ⟨[⟨0, 7⟩, ⟨3, 2⟩], 9⟩ [⟨[⟨1, 5⟩], 5⟩] 0 0 0
        = some [⟨[⟨3, 2⟩, ⟨1, 5⟩], 7⟩, ⟨[⟨0, 7⟩], 7⟩] ∧
      (∀ x ∈ ([⟨[⟨0, 7⟩, ⟨3, 2⟩], 9⟩, ⟨[⟨1, 5⟩], 5⟩] : List WeightedBoxList),
        BinOK (fun b => 0 ≤ b.m_weight) x)) ∧
    sumWeights [⟨[⟨3, 2⟩, ⟨1, 5⟩], 7⟩, ⟨[⟨0, 7⟩], 7⟩]
      = sumWeights [⟨[⟨0, 7⟩, ⟨3, 2⟩], 9⟩, ⟨[⟨1, 5⟩], 5⟩] ∧
    Dbl.le (efficiencyOf (sumWeights [⟨[⟨0, 7⟩, ⟨3, 2⟩], 9⟩, ⟨[⟨1, 5⟩], 5⟩]) 2 9)
      (efficiencyOf (sumWeights [⟨[⟨0, 7⟩, ⟨3, 2⟩], 9⟩, ⟨[⟨1, 5⟩], 5⟩]) 2 7) = true ∧
    0 < sumWeights [⟨[⟨0, 7⟩, ⟨3, 2⟩], 9⟩, ⟨[⟨1, 5⟩], 5⟩] :=
  ⟨⟨by decide, by unfold Desc; decide, rfl, rfl, by unfold BinOK; decide⟩,
    (swap_monotone ⟨[⟨0, 7⟩, ⟨3, 2⟩], 9⟩ [⟨[⟨1, 5⟩], 5⟩] 0 0 0
      [⟨[⟨3, 2⟩, ⟨1, 5⟩], 7⟩, ⟨[⟨0, 7⟩], 7⟩] 2 (by decide) (by unfold Desc; decide) rfl
      rfl).1.2.2.2.2.2.2.1,
    (swap_monotone ⟨[⟨0, 7⟩, ⟨3, 2⟩], 9⟩ [⟨[⟨1, 5⟩], 5⟩] 0 0 0
      [⟨[⟨3, 2⟩, ⟨1, 5⟩], 7⟩, ⟨[⟨0, 7⟩], 7⟩] 2 (by decide) (by unfold Desc; decide) rfl
      rfl).1.2.2.2.2.2.2.2.1 (by decide),
    ((swap_monotone ⟨[⟨0, 7⟩, ⟨3, 2⟩], 9⟩ [⟨[⟨1, 5⟩], 5⟩] 0 0 0
      [⟨[⟨3, 2⟩, ⟨1, 5⟩], 7⟩, ⟨[⟨0, 7⟩], 7⟩] 2 (by decide) (by unfold Desc; decide) rfl
      rfl).1.2.2.2.2.2.2.2.2 (by unfold BinOK; decide)).2⟩

/-- C18: for weights in `[0, 2^31)` of positive sum, a library whose sort permutes and
whose `top ()` is an element of the queue and `nprocs ≥ 1`, `knapsack` reports the quotient
of the sum of the weights by `nprocs` times the largest sum of the weights of a bin
returned, a number in `(0, 1]`.  At the weights 2147483648, 1, 1 and two bins it does not:
the constructor of the balls takes the first weight to -2147483648, `knapsack` reports
-2147483646/2, a negative number, while the bins it returns hold the input weights 1 and
2147483649, for which the quotient is 2147483650/4294967298. -/
theorem efficiency_narrowed (L : StdLib) (hs : ∀ l, (L.sortWB l).Perm l)
    (hq : ∀ q, q ≠ [] → L.pqTop q < q.length) (max_efficiency : Dbl) (wgts : List Int)
    (hw : ∀ w ∈ wgts, 0 ≤ w ∧ w < 2147483648) (hpos : 0 < wgts.sum)
    (nprocs : Nat) (hn : 1 ≤ nprocs) (do_full_knapsack : Bool) :
    (∃ fuel0, ∀ fuel, fuel0 ≤ fuel →
      ∃ vec eff M, knapsack L max_efficiency fuel wgts nprocs do_full_knapsack
          = some (vec, eff) ∧
        M ∈ wgtsPerCpu vec wgts ∧ (∀ x ∈ wgtsPerCpu vec wgts, x ≤ M) ∧
        eff = efficiencyOf wgts.sum nprocs M ∧
        Dbl.lt (Dbl.ofInt 0) eff = true ∧ Dbl.le eff (Dbl.ofInt 1) = true) ∧
    (WeightedBox.new 0 2147483648 = ⟨0, -2147483648⟩ ∧
      knapsack stdlib ⟨9, 10⟩ 10 [2147483648, 1, 1] 2 true
        = some ([[2], [1, 0]], ⟨-2147483646, 2⟩) ∧
      wgtsPerCpu [[2], [1, 0]] [2147483648, 1, 1] = [1, 2147483649] ∧
      efficiencyOf ([2147483648, 1, 1] : List Int).sum 2 2147483649
        = ⟨2147483650, 4294967298⟩ ∧
      Dbl.lt ⟨-2147483646, 2⟩ (Dbl.ofInt 0) = true ∧
      Dbl.lt ⟨-2147483646, 2⟩ ⟨2147483650, 4294967298⟩ = true) :=
  ⟨knapsack_efficiency L hs hq max_efficiency wgts hw hpos nprocs hn do_full_knapsack,
    by decide, by rfl, by decide, by decide, by decide, by decide⟩

/-- A witness of C18: the weights 5, 1, 1, 4 and two bins, with the library `stdlib`. -/
theorem efficiency_narrowed_witness :
    ((∀ w ∈ ([5, 1, 1, 4] : List Int), 0 ≤ w ∧ w < 2147483648) ∧
      0 < ([5, 1, 1, 4] : List Int).sum ∧ 1 ≤ 2) ∧
    (∃ fuel0, ∀ fuel, fuel0 ≤ fuel →
      ∃ vec eff M, knapsack stdlib ⟨9, 10⟩ fuel [5, 1, 1, 4] 2 true = some (vec, eff) ∧
        M ∈ wgtsPerCpu vec [5, 1, 1, 4] ∧ (∀ x ∈ wgtsPerCpu vec [5, 1, 1, 4], x ≤ M) ∧
        eff = efficiencyOf ([5, 1, 1, 4] : List Int).sum 2 M ∧
        Dbl.lt (Dbl.ofInt 0) eff = true ∧ Dbl.le eff (Dbl.ofInt 1) = true) :=
  ⟨⟨by decide, by decide, by decide⟩,
    (efficiency_narrowed stdlib stdlib_permutes.1 stdlib_permutes.2.2.2 ⟨9, 10⟩ [5, 1, 1, 4]
      (by decide) (by decide) 2 (by decide) true).1⟩

/-- C21: for every resolution `MaxPower` (the values 0 to 31 among them), every number of
axes and all anchors of integer coordinates, negative ones among them, the comparison
`SFCToken::Compare` is a strict weak ordering: no token is before itself, the comparison is
transitive, and to be incomparable (neither before the other) is transitive. -/
theorem Compare_strict_weak (dim MaxPower : Nat) :
    (∀ a, SFCToken.Compare dim MaxPower a a = false) ∧
    (∀ a b c, SFCToken.Compare dim MaxPower a b = true →
      SFCToken.Compare dim MaxPower b c = true → SFCToken.Compare dim MaxPower a c = true) ∧
    (∀ a b c,
      SFCToken.Compare dim MaxPower a b = false ∧ SFCToken.Compare dim MaxPower b a = false →
      SFCToken.Compare dim MaxPower b c = false ∧ SFCToken.Compare dim MaxPower c b = false →
      SFCToken.Compare dim MaxPower a c = false ∧ SFCToken.Compare dim MaxPower c a = false) := by
  refine ⟨Compare_irrefl dim MaxPower, Compare_trans dim MaxPower, ?_⟩
  intro a b c h1 h2
  rw [Compare_incomparable_iff] at *
  rw [h1, h2]

/-- A witness of C21: three anchors with negative coordinates at the resolution 2, of
which the first is before the second and the second before the third. -/
theorem Compare_strict_weak_witness :
    (SFCToken.Compare 3 2 ⟨2, [1, 0, -5], Dbl.ofInt 1⟩ ⟨0, [-3, 0, 0], Dbl.ofInt 1⟩ = true ∧
      SFCToken.Compare 3 2 ⟨0, [-3, 0, 0], Dbl.ofInt 1⟩ ⟨1, [-1, 2, 0], Dbl.ofInt 1⟩ = true) ∧
    SFCToken.Compare 3 2 ⟨2, [1, 0, -5], Dbl.ofInt 1⟩ ⟨1, [-1, 2, 0], Dbl.ofInt 1⟩ = true :=
  ⟨⟨by decide, by decide⟩,
    (Compare_strict_weak 3 2).2.1 ⟨2, [1, 0, -5], Dbl.ofInt 1⟩ ⟨0, [-3, 0, 0], Dbl.ofInt 1⟩
      ⟨1, [-1, 2, 0], Dbl.ofInt 1⟩ (by decide) (by decide)⟩

/-- C22, as the claim states it, fails: for the two boxes of the small ends `(0, 0, 0)` and
`(-1, 0, 0)` no coordinate is positive, `SFCProcessorMapDoIt` computes the resolution 0,
and at this resolution `SFCToken::Compare` puts neither of the two anchors before the
other. -/
theorem anchors_total_counterexample :
    SFCProcessorMapDoIt stdlib envOne [⟨[0, 0, 0], 8, 8⟩, ⟨[-1, 0, 0], 8, 8⟩] [8, 8] 2
      [0, 0, 0] = .ok ([1, 0, 0], 0) ∧
    sfcMaxPower envOne [⟨[0, 0, 0], 8, 8⟩, ⟨[-1, 0, 0], 8, 8⟩] = 0 ∧
    SFCToken.Compare 3 0 ⟨0, [0, 0, 0], Dbl.ofInt 8⟩ ⟨1, [-1, 0, 0], Dbl.ofInt 8⟩ = false ∧
    SFCToken.Compare 3 0 ⟨1, [-1, 0, 0], Dbl.ofInt 8⟩ ⟨0, [0, 0, 0], Dbl.ofInt 8⟩ = false := by
  refine ⟨by rfl, by rfl, by rfl, by rfl⟩

/-- C22, amended: the resolution that `SFCProcessorMapDoIt` returns is the one computed from
the small ends of the boxes.  When a coordinate of a small end is positive (so for
anchors without negative coordinates that are not all the origin), the resolution is at
least 1 and, of two tokens whose anchors differ, `SFCToken::Compare` puts exactly one
before the other.  When no coordinate is positive the resolution is 0 and the comparison
puts no token before another. -/
theorem anchors_total (L : StdLib) (E : Env) (boxes : BoxArray) (wgts : List Int)
    (nprocs : Nat) (pm pm' : List Int) (m : Nat)
    (h : SFCProcessorMapDoIt L E boxes wgts nprocs pm = .ok (pm', m)) :
    m = sfcMaxPower E boxes ∧
    ((∃ b ∈ boxes, ∃ j, j < E.BL_SPACEDIM ∧ 1 ≤ b.smallEnd.getD j 0) →
      1 ≤ m ∧ ∀ a b : SFCToken,
        (∃ j, j < E.BL_SPACEDIM ∧ a.m_idx.getD j 0 ≠ b.m_idx.getD j 0) →
        (SFCToken.Compare E.BL_SPACEDIM m a b = true ∧
            SFCToken.Compare E.BL_SPACEDIM m b a = false) ∨
          (SFCToken.Compare E.BL_SPACEDIM m a b = false ∧
            SFCToken.Compare E.BL_SPACEDIM m b a = true)) ∧
    ((∀ b ∈ boxes, ∀ j, j < E.BL_SPACEDIM → b.smallEnd.getD j 0 ≤ 0) →
      m = 0 ∧ ∀ a b : SFCToken, SFCToken.Compare E.BL_SPACEDIM m a b = false) := by
  have hm := SFCProcessorMapDoIt_maxPower L E boxes wgts nprocs pm pm' m h
  refine ⟨hm, ?_, ?_⟩
  · intro hpos
    have h1 : 1 ≤ m := by rw [hm]; exact sfcMaxPower_pos E boxes hpos
    exact ⟨h1, fun a b hab => Compare_total E.BL_SPACEDIM m h1 a b hab⟩
  · intro hneg
    have h0 : m = 0 := by rw [hm]; exact sfcMaxPower_zero E boxes hneg
    refine ⟨h0, fun a b => ?_⟩
    rw [h0]
    exact Compare_zero _ a b

/-- A witness of C22: the two boxes of the small ends `(0, 0, 0)` and `(2, 0, 0)`, for
which the resolution is 2. -/
theorem anchors_total_witness :
    SFCProcessorMapDoIt stdlib envOne boxesTwo [8, 8] 2 [0, 0, 0] = .ok ([1, 0, 0], 2) ∧
    ((SFCToken.Compare 3 2 ⟨0, [0, 0, 0], Dbl.ofInt 8⟩ ⟨1, [2, 0, 0], Dbl.ofInt 8⟩ = true ∧
        SFCToken.Compare 3 2 ⟨1, [2, 0, 0], Dbl.ofInt 8⟩ ⟨0, [0, 0, 0], Dbl.ofInt 8⟩ = false) ∨
      (SFCToken.Compare 3 2 ⟨0, [0, 0, 0], Dbl.ofInt 8⟩ ⟨1, [2, 0, 0], Dbl.ofInt 8⟩ = false ∧
        SFCToken.Compare 3 2 ⟨1, [2, 0, 0], Dbl.ofInt 8⟩ ⟨0, [0, 0, 0], Dbl.ofInt 8⟩ = true)) :=
  ⟨by rfl,
    ((anchors_total stdlib envOne boxesTwo [8, 8] 2 [0, 0, 0] [1, 0, 0] 2 (by rfl)).2.1
      ⟨⟨[2, 0, 0], 8, 8⟩, by simp [boxesTwo], 0, by decide, by decide⟩).2
      ⟨0, [0, 0, 0], Dbl.ofInt 8⟩ ⟨1, [2, 0, 0], Dbl.ofInt 8⟩ ⟨0, by decide, by decide⟩⟩

/-- C29: for a resolution `MaxPower` of at most 31 (the planes that `1 << i` can name) and
two anchors whose coordinates all lie in `[0, 2 ^ MaxPower)`, `SFCToken::Compare (a, b)`
holds exactly when the Morton key of `a` is smaller than that of `b`, the key that
interleaves the bits of the coordinates from the plane `MaxPower - 1` down to the plane 0
and takes the highest axis first within a plane. -/
theorem morton_order (dim MaxPower : Nat) (hm : MaxPower ≤ 31) (a b : SFCToken)
    (ha : ∀ k, k < dim → 0 ≤ a.m_idx.getD k 0 ∧ a.m_idx.getD k 0 < 2 ^ MaxPower)
    (hb : ∀ k, k < dim → 0 ≤ b.m_idx.getD k 0 ∧ b.m_idx.getD k 0 < 2 ^ MaxPower) :
    SFCToken.Compare dim MaxPower a b = true ↔
      mortonKey dim a.m_idx MaxPower < mortonKey dim b.m_idx MaxPower :=
  Compare_morton dim MaxPower hm a b ha hb

/-- A witness of C29: the anchors `(3, 0, 1)` and `(1, 2, 3)` at the resolution 2, with the
keys 13 and 53. -/
theorem morton_order_witness :
    (2 ≤ 31 ∧
      (∀ k, k < 3 → 0 ≤ ([3, 0, 1] : IntVect).getD k 0 ∧ ([3, 0, 1] : IntVect).getD k 0 < 2 ^ 2) ∧
      (∀ k, k < 3 → 0 ≤ ([1, 2, 3] : IntVect).getD k 0 ∧ ([1, 2, 3] : IntVect).getD k 0 < 2 ^ 2)) ∧
    mortonKey 3 [3, 0, 1] 2 = 13 ∧ mortonKey 3 [1, 2, 3] 2 = 53 ∧
    (SFCToken.Compare 3 2 ⟨0, [3, 0, 1], Dbl.ofInt 1⟩ ⟨1, [1, 2, 3], Dbl.ofInt 1⟩ = true ↔
      mortonKey 3 [3, 0, 1] 2 < mortonKey 3 [1, 2, 3] 2) :=
  ⟨⟨by decide, by decide, by decide⟩, by rfl, by rfl,
    morton_order 3 2 (by decide) ⟨0, [3, 0, 1], Dbl.ofInt 1⟩ ⟨1, [1, 2, 3], Dbl.ofInt 1⟩
      (by decide) (by decide)⟩

/-- C30: for a library whose sort permutes and whose `top ()` is an element of the queue,
every weight vector, every `nprocs ≥ 1` and every threshold, `knapsack` with the full
refinement returns (given enough passes through the label `top`) the bins from the
heaviest on, where the weight of a bin is the sum of the weights that its balls keep, and
either the returned efficiency is above `max_efficiency` or no exchange improves: there
is no box `a` in the first bin and box `b` in a later bin whose exchange makes both bins
lighter than the first bin is. -/
theorem refinement_stops (L : StdLib) (hs : ∀ l, (L.sortWB l).Perm l)
    (hq : ∀ q, q ≠ [] → L.pqTop q < q.length) (max_efficiency : Dbl) (wgts : List Int)
    (nprocs : Nat) (hn : 1 ≤ nprocs) :
    ∃ fuel0, ∀ fuel, fuel0 ≤ fuel →
      ∃ vec eff, knapsack L max_efficiency fuel wgts nprocs true = some (vec, eff) ∧
        vec.length = nprocs ∧
        (vec.map (binWeight wgts)).Pairwise (fun x y => y ≤ x) ∧
        (eff.gt max_efficiency = true ∨
          ∀ a ∈ vec.headD [], ∀ l ∈ vec.tail, ∀ b ∈ l,
            ¬ (binWeight wgts (vec.headD []) + ballWeight wgts b - ballWeight wgts a
                  < binWeight wgts (vec.headD []) ∧
                binWeight wgts l + ballWeight wgts a - ballWeight wgts b
                  < binWeight wgts (vec.headD []))) :=
  knapsack_exit L hs hq max_efficiency wgts nprocs hn

/-- A witness of C30: six weights, three bins and the threshold 1, where the function
returns the bins of the weights 9, 8, 7 with the efficiency 24/27. -/
theorem refinement_stops_witness :
    1 ≤ 3 ∧
    knapsack stdlib ⟨1, 1⟩ 50 [7, 5, 4, 3, 3, 2] 3 true
      = some ([[0, 5], [1, 4], [2, 3]], ⟨24, 27⟩) ∧
    ∃ fuel0, ∀ fuel, fuel0 ≤ fuel →
      ∃ vec eff, knapsack stdlib ⟨1, 1⟩ fuel [7, 5, 4, 3, 3, 2] 3 true = some (vec, eff) ∧
        vec.length = 3 ∧
        (vec.map (binWeight [7, 5, 4, 3, 3, 2])).Pairwise (fun x y => y ≤ x) ∧
        (eff.gt ⟨1, 1⟩ = true ∨
          ∀ a ∈ vec.headD [], ∀ l ∈ vec.tail, ∀ b ∈ l,
            ¬ (binWeight [7, 5, 4, 3, 3, 2] (vec.headD []) + ballWeight [7, 5, 4, 3, 3, 2] b
                    - ballWeight [7, 5, 4, 3, 3, 2] a
                  < binWeight [7, 5, 4, 3, 3, 2] (vec.headD []) ∧
                binWeight [7, 5, 4, 3, 3, 2] l + ballWeight [7, 5, 4, 3, 3, 2] a
                    - ballWeight [7, 5, 4, 3, 3, 2] b
                  < binWeight [7, 5, 4, 3, 3, 2] (vec.headD []))) :=
  ⟨by decide, by rfl,
    refinement_stops stdlib stdlib_permutes.1 stdlib_permutes.2.2.2 ⟨1, 1⟩
      [7, 5, 4, 3, 3, 2] 3 (by decide)⟩

/-- C24, as the claim states it, fails in its last part: after the construction of a map
for three boxes and two workers the cache holds the entry of the key 4 for the `Ref` 0,
which the living object holds too (two holders).  `FlushCache` keeps the entry, and
`Finalize` removes it all the same, for it ends with `m_Cache.clear ()`; the `Ref` itself
stays with the object. -/
theorem eviction_counterexample :
    stateCached.m_Cache = [(4, 0)] ∧ linkCount stateCached [0] 0 = 2 ∧
    (FlushCache stateCached [0]).m_Cache = [(4, 0)] ∧
    (Finalize stateCached [0]).m_Cache = [] ∧
    pmapOf (Finalize stateCached [0]) 0 = [1, 0, 0, 0] := by
  refine ⟨by rfl, by rfl, by rfl, by rfl, by rfl⟩

/-- C24, amended: every entry of the cache counts at least its own holder.  After
`FlushCache` every entry whose reference count was greater than 1 is still in the cache,
every entry whose count was exactly 1 is gone, the entries left are in their order and no
`Ref` has changed.  `Finalize` empties the cache whatever the counts and changes no `Ref`.
The member `define` and the constructors remove no entry. -/
theorem eviction_sole_holder (L : StdLib) (E : Env) (fuel : Nat) (s : State)
    (live : List Nat) :
    (∀ p ∈ s.m_Cache, 1 ≤ linkCount s live p.2) ∧
    (∀ p ∈ s.m_Cache, 1 < linkCount s live p.2 → p ∈ (FlushCache s live).m_Cache) ∧
    (∀ p ∈ s.m_Cache, linkCount s live p.2 = 1 → p ∉ (FlushCache s live).m_Cache) ∧
    (FlushCache s live).m_Cache.Sublist s.m_Cache ∧
    (FlushCache s live).heap = s.heap ∧
    (Finalize s live).m_Cache = [] ∧ (Finalize s live).heap = s.heap ∧
    (∀ this boxes nprocs s1 r1, define L E fuel s this boxes nprocs = .ok (s1, r1) →
      ∀ p ∈ s.m_Cache, p ∈ s1.m_Cache) ∧
    (DistributionMapping_default s).1.m_Cache = s.m_Cache ∧
    (∀ d1 d2, (DistributionMapping_join E s d1 d2).1.m_Cache = s.m_Cache) ∧
    (∀ pmap put s1 r1, DistributionMapping_pmap E s pmap put = .ok (s1, r1) →
      ∀ p ∈ s.m_Cache, p ∈ s1.m_Cache) ∧
    (∀ boxes nprocs s1 r1, DistributionMapping_boxes L E fuel s boxes nprocs = .ok (s1, r1) →
      ∀ p ∈ s.m_Cache, p ∈ s1.m_Cache) := by
  obtain ⟨f1, f2, f3⟩ := FlushCache_spec s live
  obtain ⟨c1, c2, c3, c4⟩ := constructors_keep_cache L E fuel s
  refine ⟨fun p hp => linkCount_pos s live p hp, fun p hp h => (f1 p).mpr ⟨hp, h⟩, ?_, f2, f3,
    (Finalize_spec s live).1, (Finalize_spec s live).2.1,
    fun this boxes nprocs s1 r1 h => define_keeps_cache L E fuel s this boxes nprocs s1 r1 h,
    c1, c2, c3, c4⟩
  intro p _ h1 hmem
  have := ((f1 p).mp hmem).2
  omega

/-- A witness of C24: the cached map of three boxes stays in the cache while the object
lives, and goes when no object holds it. -/
theorem eviction_sole_holder_witness :
    (((4, 0) : Nat × Nat) ∈ stateCached.m_Cache ∧ 1 < linkCount stateCached [0] 0 ∧
      linkCount stateCached [] 0 = 1) ∧
    ((4, 0) : Nat × Nat) ∈ (FlushCache stateCached [0]).m_Cache ∧
    ((4, 0) : Nat × Nat) ∉ (FlushCache stateCached []).m_Cache :=
  ⟨⟨by decide, by decide, by decide⟩,
    (eviction_sole_holder stdlib (envFive none) 10 stateCached [0]).2.1 (4, 0) (by decide)
      (by decide),
    (eviction_sole_holder stdlib (envFive none) 10 stateCached []).2.2.1 (4, 0) (by decide)
      (by decide)⟩

/-- C28, as the claim states it, fails: the value returned for an unknown key is one that
a lookup of a registered key returns too.  With a topology file that has the node 0 at the
point `(0, 0, 0)`, the lookup of the registered node 0 and the lookup of the node 9, which
is not registered, both return `(0, 0, 0)`, the default `IntVect`.  Without MPI the array
`procNumbers` keeps its `-1`, the rank 0 is registered with the number `-1`, and the lookup
of the rank 0 and of the rank 5, which is not registered, both return `-1`. -/
theorem lookup_unknown_counterexample :
    mapFind (Initialize stdlib envTopo State.init).pNumTopIVMap 0 = some [0, 0, 0] ∧
    (TopIVFromProcNumber envTopo (Initialize stdlib envTopo State.init) [0, 0, 0] 0).1
      = [0, 0, 0] ∧
    mapFind (Initialize stdlib envTopo State.init).pNumTopIVMap 9 = none ∧
    (TopIVFromProcNumber envTopo (Initialize stdlib envTopo State.init) [0, 0, 0] 9).1
      = [0, 0, 0] ∧
    mapFind (Initialize stdlib envOnePFC State.init).rankPNumMap 0 = some (-1) ∧
    (ProcNumberFromRank envOnePFC (Initialize stdlib envOnePFC State.init) 0).1 = -1 ∧
    mapFind (Initialize stdlib envOnePFC State.init).rankPNumMap 5 = none ∧
    (ProcNumberFromRank envOnePFC (Initialize stdlib envOnePFC State.init) 5).1 = -1 := by
  refine ⟨by rfl, by rfl, by rfl, by rfl, by rfl, by rfl, by rfl, by rfl⟩

/-- C28, amended: a lookup of a key that is not registered returns without aborting, with
`-1` from `ProcNumberFromRank` and with the default `IntVect` from `TopIVFromProcNumber`; it
adds a line of error on the I/O processor and changes nothing else.  A lookup of a
registered key returns the registered value and changes nothing.  The value `-1` is none
that a lookup of a registered rank returns when no gathered process number is `-1`: so it
is after `InitProximityMap` with MPI, from a directory without `-1`, when the process
numbers are not negative. -/
theorem lookup_unknown (L : StdLib) (E : Env) (s : State) (iv0 : IntVect)
    (rank procnum : Int) :
    (mapFind s.rankPNumMap rank = none →
      (ProcNumberFromRank E s rank).1 = -1 ∧
      (ProcNumberFromRank E s rank).2 = (if E.IOProcessor then
        { s with reported := s.reported ++ ["**** Error in ProcNumberFromRank:  rank not found"] }
        else s)) ∧
    (∀ v, mapFind s.rankPNumMap rank = some v → ProcNumberFromRank E s rank = (v, s)) ∧
    (mapFind s.pNumTopIVMap procnum = none →
      (TopIVFromProcNumber E s iv0 procnum).1 = iv0 ∧
      (TopIVFromProcNumber E s iv0 procnum).2 = (if E.IOProcessor then
        { s with reported :=
            s.reported ++ ["**** Error in TopIVFromProcNumber:  procnum not found"] }
        else s)) ∧
    (∀ v, mapFind s.pNumTopIVMap procnum = some v →
      TopIVFromProcNumber E s iv0 procnum = (v, s)) ∧
    (E.BL_USE_MPI = true → E.procNumbers.length = E.NProcs → (∀ x ∈ E.procNumbers, 0 ≤ x) →
      (∀ p ∈ s.rankPNumMap, p.2 ≠ -1) →
      ∀ v, mapFind (InitProximityMap L E s).rankPNumMap rank = some v →
        (ProcNumberFromRank E (InitProximityMap L E s) rank).1 = v ∧ v ≠ -1) := by
  refine ⟨(ProcNumberFromRank_spec E s rank).1, (ProcNumberFromRank_spec E s rank).2,
    (TopIVFromProcNumber_spec E s iv0 procnum).1, (TopIVFromProcNumber_spec E s iv0 procnum).2,
    ?_⟩
  intro hm hl hnn hs v hv
  refine ⟨by rw [(ProcNumberFromRank_spec E _ rank).2 v hv], ?_⟩
  have hmem := mapFind_some_mem _ _ _ hv
  rcases InitProximityMap_rankPNumMap L E s _ hmem with h | h
  · exact hs _ h
  · have := hnn v (gatherProcNumbers_mem E hm hl v h)
    omega

/-- A witness of C28: among five processes with MPI and the process numbers 0 to 4, the
rank 3 is registered with the number 3 and the rank 7 is not registered. -/
theorem lookup_unknown_witness :
    (mapFind (Initialize stdlib envTopo State.init).rankPNumMap 7 = none ∧
      mapFind (Initialize stdlib envTopo State.init).pNumTopIVMap 3 = some [3, 0, 0]) ∧
    (ProcNumberFromRank envTopo (Initialize stdlib envTopo State.init) 7).1 = -1 ∧
    TopIVFromProcNumber envTopo (Initialize stdlib envTopo State.init) [0, 0, 0] 3
      = ([3, 0, 0], Initialize stdlib envTopo State.init) :=
  ⟨⟨by rfl, by rfl⟩,
    ((lookup_unknown stdlib envTopo (Initialize stdlib envTopo State.init) [0, 0, 0] 7 3).1
      (by rfl)).1,
    (lookup_unknown stdlib envTopo (Initialize stdlib envTopo State.init) [0, 0, 0] 7
      3).2.2.2.1 [3, 0, 0] (by rfl)⟩

/-- C27: for a library whose sorts permute and whose `top ()` is an element of the queue,
every list of `N ≥ 1` boxes, every `nprocs ≥ 1` and weights with the total of the points
of the boxes (the weights that `PFCProcessorMap (boxes, nprocs)` passes; with another total
the function stops with `Abort ("tnc")`), on a call with one weight for every box, with MPI
no more processes than workers, on the I/O processor no fewer boxes than workers, weights
and numbers of points whose sums `Real` holds exactly, and a proximity map of `ProximityFits`,
`PFCProcessorMapDoIt` returns on enough fuel and what it returns is made so: the knapsack gives a first map; the entry `w` of `newVolPerCPU`,
the target of the run `w`, is the number of points of the boxes that this map gives to the
worker `w`; the walk makes `nprocs` runs whose concatenation is the sequence of the sorted
tokens, which holds every box once; and every box of the run `k` gets the worker
`ProximityMap (k)`, the sentinel being the rank. -/
theorem proximity_runs (L : StdLib) (hL : L.Permutes) (E : Env) (s : State)
    (boxes : BoxArray) (wgts : List Int) (nprocs : Nat) (hb : 1 ≤ boxes.length)
    (hn : 1 ≤ nprocs) (pm : List Int) (hlen : pm.length = boxes.length + 1)
    (htnc : ((List.range boxes.length).map (fun i => wgts.getD i 0)).sum
      = (boxes.map Box.numPts).sum) :
    wgts.length = boxes.length → GatherFits E nprocs → IOFits E boxes nprocs →
    SumsExact wgts nprocs → SumsExact (boxes.map Box.numPts) nprocs →
    ProximityFits E s nprocs →
    ∃ fuel0, ∀ fuel, fuel0 ≤ fuel →
      ∃ pm1 pm', KnapSackProcessorMap L E s fuel boxes nprocs pm = .ok pm1 ∧
        PFCProcessorMapDoIt L E s fuel boxes wgts nprocs pm = .ok pm' ∧
        (∀ w, (newVolPerCPUOf boxes nprocs pm1).getD w 0
          = cellsOn boxes pm1 w (List.range boxes.length)) ∧
        (pfcRuns L boxes wgts nprocs pm1).length = nprocs ∧
        (pfcRuns L boxes wgts nprocs pm1).flatten
          = (pfcTokens L boxes wgts).map PFCToken.m_box ∧
        ((pfcTokens L boxes wgts).map PFCToken.m_box).Perm (List.range boxes.length) ∧
        (∀ k, k < nprocs → ∀ item ∈ (pfcRuns L boxes wgts nprocs pm1).getD k [],
          pm'.getD item 0 = ProximityMap s k) ∧
        pm'.length = boxes.length + 1 ∧ pm'.getD boxes.length 0 = (E.MyProc : Int) := by
  intro _ _ _ _ _ _
  obtain ⟨fuel0, hk⟩ := PFCProcessorMapDoIt_pairing L hL.1 hL.2.2.1 hL.2.2.2 E s boxes wgts
    nprocs hb hn pm hlen htnc
  refine ⟨fuel0, ?_⟩
  intro fuel hf
  obtain ⟨pm1, pm', h1, h2, h3, h4, h5, h6⟩ := hk fuel hf
  obtain ⟨r1, r2⟩ := pfcRuns_spec L boxes wgts nprocs hn pm1
  exact ⟨pm1, pm', h1, h3, fun w => newVolPerCPUOf_getD boxes nprocs E.MyProc pm1 h2 w, r1, r2,
    pfcTokens_perm L hL.2.2.1 boxes wgts, h6, h4, h5⟩

/-- A witness of C27: five boxes of 5, 4, 3, 2, 1 points, three workers on the I/O
processor of three processes, and the proximity map 2, 0, 1.  The knapsack gives every worker 5 points, the runs are the boxes 0, then 1,
then 2 to 4, and the boxes of the runs 0, 1, 2 get the workers 2, 0, 1. -/
theorem proximity_runs_witness :
    (1 ≤ (boxesOf [5, 4, 3, 2, 1]).length ∧ 1 ≤ 3 ∧
      ([0, 0, 0, 0, 0, 0] : List Int).length = (boxesOf [5, 4, 3, 2, 1]).length + 1 ∧
      ((List.range (boxesOf [5, 4, 3, 2, 1]).length).map
          (fun i => ([5, 4, 3, 2, 1] : List Int).getD i 0)).sum
        = ((boxesOf [5, 4, 3, 2, 1]).map Box.numPts).sum ∧
      ([5, 4, 3, 2, 1] : List Int).length = (boxesOf [5, 4, 3, 2, 1]).length ∧
      GatherFits envTrio 3 ∧ IOFits envTrio (boxesOf [5, 4, 3, 2, 1]) 3 ∧
      SumsExact [5, 4, 3, 2, 1] 3 ∧ SumsExact ((boxesOf [5, 4, 3, 2, 1]).map Box.numPts) 3 ∧
      ProximityFits envTrio stateProx 3) ∧
    KnapSackProcessorMap stdlib envTrio stateProx 20 (boxesOf [5, 4, 3, 2, 1]) 3
      [0, 0, 0, 0, 0, 0] = .ok [2, 0, 1, 1, 0, 0] ∧
    newVolPerCPUOf (boxesOf [5, 4, 3, 2, 1]) 3 [2, 0, 1, 1, 0, 0] = [5, 5, 5] ∧
    pfcRuns stdlib (boxesOf [5, 4, 3, 2, 1]) [5, 4, 3, 2, 1] 3 [2, 0, 1, 1, 0, 0]
      = [[0], [1], [2, 3, 4]] ∧
    PFCProcessorMapDoIt stdlib envTrio stateProx 20 (boxesOf [5, 4, 3, 2, 1])
      [5, 4, 3, 2, 1] 3 [0, 0, 0, 0, 0, 0] = .ok [2, 0, 1, 1, 1, 0] ∧
    ∃ fuel0, ∀ fuel, fuel0 ≤ fuel →
      ∃ pm1 pm', KnapSackProcessorMap stdlib envTrio stateProx fuel
          (boxesOf [5, 4, 3, 2, 1]) 3 [0, 0, 0, 0, 0, 0] = .ok pm1 ∧
        PFCProcessorMapDoIt stdlib envTrio stateProx fuel (boxesOf [5, 4, 3, 2, 1])
          [5, 4, 3, 2, 1] 3 [0, 0, 0, 0, 0, 0] = .ok pm' ∧
        (∀ w, (newVolPerCPUOf (boxesOf [5, 4, 3, 2, 1]) 3 pm1).getD w 0
          = cellsOn (boxesOf [5, 4, 3, 2, 1]) pm1 w
              (List.range (boxesOf [5, 4, 3, 2, 1]).length)) ∧
        (pfcRuns stdlib (boxesOf [5, 4, 3, 2, 1]) [5, 4, 3, 2, 1] 3 pm1).length = 3 ∧
        (pfcRuns stdlib (boxesOf [5, 4, 3, 2, 1]) [5, 4, 3, 2, 1] 3 pm1).flatten
          = (pfcTokens stdlib (boxesOf [5, 4, 3, 2, 1]) [5, 4, 3, 2, 1]).map PFCToken.m_box ∧
        ((pfcTokens stdlib (boxesOf [5, 4, 3, 2, 1]) [5, 4, 3, 2, 1]).map PFCToken.m_box).Perm
          (List.range (boxesOf [5, 4, 3, 2, 1]).length) ∧
        (∀ k, k < 3 →
          ∀ item ∈ (pfcRuns stdlib (boxesOf [5, 4, 3, 2, 1]) [5, 4, 3, 2, 1] 3 pm1).getD k [],
            pm'.getD item 0 = ProximityMap stateProx k) ∧
        pm'.length = (boxesOf [5, 4, 3, 2, 1]).length + 1 ∧
        pm'.getD (boxesOf [5, 4, 3, 2, 1]).length 0
          = (envTrio.MyProc : Int) :=
  ⟨⟨by decide, by decide, by decide, by decide, by decide, by decide, by decide, by decide,
      by decide, by decide⟩, by rfl, by rfl, by rfl, by rfl,
    proximity_runs stdlib stdlib_permutes envTrio stateProx
      (boxesOf [5, 4, 3, 2, 1]) [5, 4, 3, 2, 1] 3
      (by decide) (by decide) [0, 0, 0, 0, 0, 0] (by decide) (by decide) (by decide)
      (by decide) (by decide) (by decide) (by decide) (by decide)⟩

/-- C25: take a call of `define` with more than one worker on a state without cached maps
and with the build function `f` bound after `Initialize`, and the same call on a process of
another rank `r` (the rank and the answer of `IOProcessor ()` change; the boxes, the
workers, the library, the table of parameters, the gathered loads and the state are the
same), where for the proximity strategy the two processes have the same proximity map
after `Initialize`, as the broadcast makes it, and where both calls are of `BuildFits`, so
that the blocks which only the I/O processor runs read inside their arrays on whichever of
the two processes it is.  Then whenever the first call returns, the second returns too, on
the same fuel, and its map is the map of the first but for the sentinel: the entries 0 to
`N - 1` are equal.  And for a library whose sorts permute, at least one box and an object
whose `Ref` exists (for the proximity strategy with a proximity map into the workers),
both calls do return on enough fuel, with equal entries and the sentinels `MyProc` and
`r`. -/
theorem define_rank_independent (L : StdLib) (E : Env) (r : Nat) (io : Bool) (s : State)
    (this : Nat) (boxes : BoxArray) (nprocs : Nat) (hn : 1 < nprocs) (hc : s.m_Cache = [])
    (f : PVMF) (hf : (Initialize L E s).m_BuildMap = some f)
    (hp : f = PVMF.PFCProcessorMap →
      ∀ i, ProximityMap (Initialize L (E.onRank r io) s) i
        = ProximityMap (Initialize L E s) i) :
    BuildFits E (Initialize L E s) f boxes nprocs →
    BuildFits (E.onRank r io) (Initialize L (E.onRank r io) s) f boxes nprocs →
    (∀ fuel s1 r1, define L E fuel s this boxes nprocs = .ok (s1, r1) →
      ∃ s2, define L (E.onRank r io) fuel s this boxes nprocs = .ok (s2, r1) ∧
        pmapOf s2 r1 = (pmapOf s1 r1).set boxes.length r ∧
        ∀ i, i < boxes.length → (pmapOf s2 r1).getD i 0 = (pmapOf s1 r1).getD i 0) ∧
    (L.Permutes → 1 ≤ boxes.length → this < s.heap.length →
      (f = PVMF.PFCProcessorMap → ∀ i, i < nprocs →
        0 ≤ ProximityMap (Initialize L E s) i ∧
          ProximityMap (Initialize L E s) i < (nprocs : Int)) →
      ∃ fuel0, ∀ fuel, fuel0 ≤ fuel →
        ∃ s1 s2, define L E fuel s this boxes nprocs = .ok (s1, this) ∧
          define L (E.onRank r io) fuel s this boxes nprocs = .ok (s2, this) ∧
          (∀ i, i < boxes.length → (pmapOf s2 this).getD i 0 = (pmapOf s1 this).getD i 0) ∧
          (pmapOf s1 this).getD boxes.length 0 = (E.MyProc : Int) ∧
          (pmapOf s2 this).getD boxes.length 0 = (r : Int)) := by
  intro _ _
  have hc' : mapFind s.m_Cache (boxes.length + 1) = none := by rw [hc]; rfl
  have hp' : (Initialize L E s).m_BuildMap = some PVMF.PFCProcessorMap →
      ∀ i, ProximityMap (Initialize L (E.onRank r io) s) i
        = ProximityMap (Initialize L E s) i := by
    intro h
    rw [hf] at h
    exact hp (Option.some.inj h)
  have key : ∀ fuel s1 r1, define L E fuel s this boxes nprocs = .ok (s1, r1) →
      ∃ s2, define L (E.onRank r io) fuel s this boxes nprocs = .ok (s2, r1) ∧
        pmapOf s2 r1 = (pmapOf s1 r1).set boxes.length r ∧
        ∀ i, i < boxes.length → (pmapOf s2 r1).getD i 0 = (pmapOf s1 r1).getD i 0 := by
    intro fuel s1 r1 h
    obtain ⟨s2, h2, h3⟩ := define_onRank L E r io fuel s this boxes nprocs (by omega) hc' hp'
      s1 r1 h
    refine ⟨s2, h2, h3, ?_⟩
    intro i hi
    rw [h3, getD_set_other _ _ _ _ _ (by omega)]
  refine ⟨key, ?_⟩
  intro hL hb hthis hrange
  obtain ⟨fuel0, hm⟩ := define_miss L hL E s this boxes nprocs f hb hn hthis hc' hf hrange
  refine ⟨fuel0, ?_⟩
  intro fuel hfuel
  obtain ⟨s1, h1, hgood, _⟩ := hm fuel hfuel
  obtain ⟨s2, h2, h3, h4⟩ := key fuel s1 this h1
  refine ⟨s1, s2, h1, h2, h4, hgood.2.2, ?_⟩
  rw [h3]
  exact getD_set_self _ _ _ _ (by rw [hgood.1]; omega)

/-- A witness of C25: six boxes and five workers with the proximity strategy among five
processes, on the rank 0, which is the I/O processor and reads the topology, and on the
rank 3, which gets the proximity map by the broadcast.  The maps are 0, 1, 2, 3, 4, 4 with
the sentinels 0 and 3. -/
theorem define_rank_independent_witness :
    (1 < 5 ∧ stateTwoObjects.m_Cache = [] ∧
      (Initialize stdlib envTopo stateTwoObjects).m_BuildMap = some PVMF.PFCProcessorMap ∧
      (Initialize stdlib (envTopo.onRank 3 false) stateTwoObjects).proximityMap
        = (Initialize stdlib envTopo stateTwoObjects).proximityMap ∧
      BuildFits envTopo (Initialize stdlib envTopo stateTwoObjects) PVMF.PFCProcessorMap
        (boxesOf [5, 4, 3, 2, 1, 6]) 5 ∧
      BuildFits (envTopo.onRank 3 false)
        (Initialize stdlib (envTopo.onRank 3 false) stateTwoObjects) PVMF.PFCProcessorMap
        (boxesOf [5, 4, 3, 2, 1, 6]) 5) ∧
    pmapOf (stateOf (define stdlib envTopo 20 stateTwoObjects 0
      (boxesOf [5, 4, 3, 2, 1, 6]) 5)) 0 = [0, 1, 2, 3, 4, 4, 0] ∧
    pmapOf (stateOf (define stdlib (envTopo.onRank 3 false) 20 stateTwoObjects 0
      (boxesOf [5, 4, 3, 2, 1, 6]) 5)) 0 = [0, 1, 2, 3, 4, 4, 3] ∧
    ∃ s2, define stdlib (envTopo.onRank 3 false) 20 stateTwoObjects 0
        (boxesOf [5, 4, 3, 2, 1, 6]) 5 = .ok (s2, 0) ∧
      pmapOf s2 0 = (pmapOf (stateOf (define stdlib envTopo 20 stateTwoObjects 0
        (boxesOf [5, 4, 3, 2, 1, 6]) 5)) 0).set (boxesOf [5, 4, 3, 2, 1, 6]).length 3 ∧
      ∀ i, i < (boxesOf [5, 4, 3, 2, 1, 6]).length → (pmapOf s2 0).getD i 0
        = (pmapOf (stateOf (define stdlib envTopo 20 stateTwoObjects 0
            (boxesOf [5, 4, 3, 2, 1, 6]) 5)) 0).getD i 0 :=
  ⟨⟨by decide, by rfl, by rfl, by rfl, by decide, by decide⟩, by rfl, by rfl,
    (define_rank_independent stdlib envTopo 3 false stateTwoObjects 0
      (boxesOf [5, 4, 3, 2, 1, 6]) 5 (by decide) (by rfl) PVMF.PFCProcessorMap (by rfl)
      (fun _ i => congrArg (fun l => List.getD l i 0)
        (by rfl : (Initialize stdlib (envTopo.onRank 3 false) stateTwoObjects).proximityMap
          = (Initialize stdlib envTopo stateTwoObjects).proximityMap))
      (by decide) (by decide)).1 20
      (stateOf (define stdlib envTopo 20 stateTwoObjects 0 (boxesOf [5, 4, 3, 2, 1, 6]) 5)) 0
      (by rfl)⟩

/-- C23: for every list of boxes, every `nprocs` and every array `m_pmap`, when the number
of boxes is below `sfc_threshold * nprocs`, `SFCProcessorMap (boxes, nprocs)` returns a map
exactly when `KnapSackProcessorMap (boxes, nprocs)` returns it on the same boxes, workers
and (resized) array, and fails exactly when it fails; otherwise, for at least one box, it
returns what `SFCProcessorMapDoIt` returns for the volumes of the boxes.  The same holds
for `SFCProcessorMap (boxes, wgts, nprocs)` with `KnapSackProcessorMap (wgts, nprocs)` and
with `SFCProcessorMapDoIt` on the weights.  And for a library whose sorts permute, at
least one box and one worker, on a call of `BuildFits` (with MPI no more processes than
workers, no coordinate of a small end from `2^30` on and, below the threshold on the I/O
processor, no fewer boxes than workers), `SFCProcessorMap` does return a map on enough
fuel. -/
theorem SFC_dispatch (L : StdLib) (E : Env) (s : State) (fuel : Nat) (boxes : BoxArray)
    (wgts : List Int) (nprocs : Nat) (pm : List Int) :
    ((boxes.length : Int) < s.sfc_threshold * nprocs →
      (∀ pm', (∃ m, SFCProcessorMap L E s fuel boxes nprocs pm = .ok (pm', m)) ↔
        KnapSackProcessorMap L E s fuel boxes nprocs
          (if pm.length ≠ boxes.length + 1 then resize pm (boxes.length + 1) else pm)
          = .ok pm') ∧
      (∀ e, SFCProcessorMap L E s fuel boxes nprocs pm = .error e ↔
        KnapSackProcessorMap L E s fuel boxes nprocs
          (if pm.length ≠ boxes.length + 1 then resize pm (boxes.length + 1) else pm)
          = .error e)) ∧
    (1 ≤ boxes.length → ¬ (boxes.length : Int) < s.sfc_threshold * nprocs →
      SFCProcessorMap L E s fuel boxes nprocs pm
        = SFCProcessorMapDoIt L E boxes (boxes.map Box.volume) nprocs
            (if pm.length ≠ boxes.length + 1 then resize pm (boxes.length + 1) else pm)) ∧
    (1 ≤ boxes.length → boxes.length = wgts.length →
      (boxes.length : Int) < s.sfc_threshold * nprocs →
      (∀ pm', (∃ m, SFCProcessorMapW L E s fuel boxes wgts nprocs pm = .ok (pm', m)) ↔
        ∃ eff, KnapSackProcessorMapW L E s fuel wgts nprocs true pm = .ok (pm', eff)) ∧
      (∀ e, SFCProcessorMapW L E s fuel boxes wgts nprocs pm = .error e ↔
        KnapSackProcessorMapW L E s fuel wgts nprocs true pm = .error e)) ∧
    (1 ≤ boxes.length → boxes.length = wgts.length →
      ¬ (boxes.length : Int) < s.sfc_threshold * nprocs →
      SFCProcessorMapW L E s fuel boxes wgts nprocs pm
        = SFCProcessorMapDoIt L E boxes wgts nprocs
            (if pm.length ≠ wgts.length + 1 then resize pm (wgts.length + 1) else pm)) ∧
    (L.Permutes → 1 ≤ boxes.length → 1 ≤ nprocs →
      BuildFits E s PVMF.SFCProcessorMap boxes nprocs →
      ∃ fuel0, ∀ fuel1, fuel0 ≤ fuel1 →
        ∃ pm' m, SFCProcessorMap L E s fuel1 boxes nprocs pm = .ok (pm', m) ∧
          GoodMap boxes.length nprocs E.MyProc pm') :=
  ⟨fun hc => SFCProcessorMap_below L E s fuel boxes nprocs pm hc,
    fun hb hc => SFCProcessorMap_above L E s fuel boxes nprocs pm hb hc,
    fun hb hw hc => SFCProcessorMapW_below L E s fuel boxes wgts nprocs pm hb hw hc,
    fun hb hw hc => SFCProcessorMapW_above L E s fuel boxes wgts nprocs pm hb hw hc,
    fun hL hb hn _ => SFCProcessorMap_good L hL.1 hL.2.1 hL.2.2.2 E s boxes nprocs hb hn pm⟩

/-- A witness of C23: three boxes and two workers on the I/O processor of two processes.
With the threshold 2 the map is the one of the knapsack, with the threshold 0 the one of
the space filling curve. -/
theorem SFC_dispatch_witness :
    (((boxesThree.length : Int) < stateDense.sfc_threshold * (2 : Nat) ∧
        KnapSackProcessorMap stdlib envPair stateDense 10 boxesThree 2
          (if ([] : List Int).length ≠ boxesThree.length + 1
            then resize [] (boxesThree.length + 1) else []) = .ok [1, 0, 1, 0]) ∧
      (1 ≤ boxesThree.length ∧ ¬ (boxesThree.length : Int) < State.init.sfc_threshold * (2 : Nat)) ∧
      stdlib.Permutes ∧ 1 ≤ 2 ∧ BuildFits envPair stateDense PVMF.SFCProcessorMap boxesThree 2 ∧
      BuildFits envPair State.init PVMF.SFCProcessorMap boxesThree 2) ∧
    (∃ m, SFCProcessorMap stdlib envPair stateDense 10 boxesThree 2 []
      = .ok ([1, 0, 1, 0], m)) ∧
    SFCProcessorMap stdlib envPair State.init 10 boxesThree 2 []
      = SFCProcessorMapDoIt stdlib envPair boxesThree (boxesThree.map Box.volume) 2
          (if ([] : List Int).length ≠ boxesThree.length + 1
            then resize [] (boxesThree.length + 1) else []) ∧
    SFCProcessorMap stdlib envPair State.init 10 boxesThree 2 [] = .ok ([0, 1, 1, 0], 2) ∧
    (∃ fuel0, ∀ fuel1, fuel0 ≤ fuel1 →
      ∃ pm' m, SFCProcessorMap stdlib envPair stateDense fuel1 boxesThree 2 [] = .ok (pm', m) ∧
        GoodMap boxesThree.length 2 envPair.MyProc pm') ∧
    (∃ fuel0, ∀ fuel1, fuel0 ≤ fuel1 →
      ∃ pm' m, SFCProcessorMap stdlib envPair State.init fuel1 boxesThree 2 [] = .ok (pm', m) ∧
        GoodMap boxesThree.length 2 envPair.MyProc pm') :=
  ⟨⟨⟨by decide, by rfl⟩, ⟨by decide, by decide⟩, stdlib_permutes, by decide, by decide,
      by decide⟩,
    (((SFC_dispatch stdlib envPair stateDense 10 boxesThree [8, 8, 8] 2 []).1
      (by decide)).1 [1, 0, 1, 0]).mpr (by rfl),
    (SFC_dispatch stdlib envPair State.init 10 boxesThree [8, 8, 8] 2 []).2.1
      (by decide) (by decide),
    (by rfl),
    (SFC_dispatch stdlib envPair stateDense 10 boxesThree [8, 8, 8] 2 []).2.2.2.2
      stdlib_permutes (by decide) (by decide) (by decide),
    (SFC_dispatch stdlib envPair State.init 10 boxesThree [8, 8, 8] 2 []).2.2.2.2
      stdlib_permutes (by decide) (by decide) (by decide)⟩

/-- C32 fails in the code: `SFC_Threshold (n)` stores `std::min (n, 1)`, so the getter
returns `n` only for `n ≤ 1` and returns 1 for every larger `n`; the threshold cannot be
raised above 1.  `SFCProcessorMap` then takes the knapsack exactly when the number of boxes
is below `min (n, 1) * nprocs`, not below `n * nprocs`. -/
theorem threshold_clamped (L : StdLib) (E : Env) (s : State) (fuel : Nat) (boxes : BoxArray)
    (nprocs : Nat) (pm : List Int) (n : Int) :
    SFC_ThresholdGet (SFC_Threshold s n) = min n 1 ∧
    (n ≤ 1 → SFC_ThresholdGet (SFC_Threshold s n) = n) ∧
    (1 < n → SFC_ThresholdGet (SFC_Threshold s n) = 1) ∧
    ((boxes.length : Int) < min n 1 * nprocs →
      (∀ pm', (∃ m, SFCProcessorMap L E (SFC_Threshold s n) fuel boxes nprocs pm
          = .ok (pm', m)) ↔
        KnapSackProcessorMap L E (SFC_Threshold s n) fuel boxes nprocs
          (if pm.length ≠ boxes.length + 1 then resize pm (boxes.length + 1) else pm)
          = .ok pm')) ∧
    (1 ≤ boxes.length → ¬ (boxes.length : Int) < min n 1 * nprocs →
      SFCProcessorMap L E (SFC_Threshold s n) fuel boxes nprocs pm
        = SFCProcessorMapDoIt L E boxes (boxes.map Box.volume) nprocs
            (if pm.length ≠ boxes.length + 1 then resize pm (boxes.length + 1) else pm)) := by
  refine ⟨rfl, fun h => ?_, fun h => ?_, fun h => ?_, fun hb h => ?_⟩
  · show min n 1 = n
    exact min_eq_left h
  · show min n 1 = 1
    exact min_eq_right (le_of_lt h)
  · exact (SFCProcessorMap_below L E (SFC_Threshold s n) fuel boxes nprocs pm h).1
  · exact SFCProcessorMap_above L E (SFC_Threshold s n) fuel boxes nprocs pm hb h

/-- A witness of C32: after `SFC_Threshold (4)` the getter returns 1.  Six boxes on two
workers are fewer than `4 * 2`, and still `SFCProcessorMap` returns the map of the space
filling curve, 1, 1, 1, 0, 0, 0, where the knapsack gives 0, 0, 1, 0, 1, 1. -/
theorem threshold_clamped_witness :
    ((1 : Int) < 4 ∧ 1 ≤ (boxesOf [9, 1, 1, 1, 5, 5]).length ∧
      ((boxesOf [9, 1, 1, 1, 5, 5]).length : Int) < 4 * (2 : Nat) ∧
      ¬ ((boxesOf [9, 1, 1, 1, 5, 5]).length : Int) < min 4 1 * (2 : Nat)) ∧
    SFC_ThresholdGet (SFC_Threshold State.init 4) = 1 ∧
    SFCProcessorMap stdlib (envFive none) (SFC_Threshold State.init 4) 20
        (boxesOf [9, 1, 1, 1, 5, 5]) 2 []
      = SFCProcessorMapDoIt stdlib (envFive none) (boxesOf [9, 1, 1, 1, 5, 5])
          ((boxesOf [9, 1, 1, 1, 5, 5]).map Box.volume) 2
          (if ([] : List Int).length ≠ (boxesOf [9, 1, 1, 1, 5, 5]).length + 1
            then resize [] ((boxesOf [9, 1, 1, 1, 5, 5]).length + 1) else []) ∧
    SFCProcessorMap stdlib (envFive none) (SFC_Threshold State.init 4) 20
        (boxesOf [9, 1, 1, 1, 5, 5]) 2 [] = .ok ([1, 1, 1, 0, 0, 0, 0], 3) ∧
    KnapSackProcessorMap stdlib (envFive none) (SFC_Threshold State.init 4) 20
        (boxesOf [9, 1, 1, 1, 5, 5]) 2 [0, 0, 0, 0, 0, 0, 0] = .ok [0, 0, 1, 0, 1, 1, 0] :=
  ⟨⟨by decide, by decide, by decide, by decide⟩,
    (threshold_clamped stdlib (envFive none) State.init 20 (boxesOf [9, 1, 1, 1, 5, 5]) 2 []
      4).2.2.1 (by decide),
    (threshold_clamped stdlib (envFive none) State.init 20 (boxesOf [9, 1, 1, 1, 5, 5]) 2 []
      4).2.2.2.2 (by decide) (by decide),
    by rfl, by rfl⟩

/-- C33, as the claim states it, fails at the powers of two: for one box with the small end
`(4, 0, 0)` the largest coordinate is 4 and `SFCProcessorMapDoIt` returns the resolution 3,
while the logarithm of 4 rounded up is 2; for the small end `(1, 0, 0)` the resolution is 1
and the rounded up logarithm of 1 is 0. -/
theorem MaxPower_log_counterexample :
    sfcMaxijk envOne [⟨[4, 0, 0], 8, 8⟩] = 4 ∧
    SFCProcessorMapDoIt stdlib envOne [⟨[4, 0, 0], 8, 8⟩] [8] 1 [0, 0] = .ok ([0, 0], 3) ∧
    Nat.clog 2 4 = 2 ∧
    sfcMaxijk envOne [⟨[1, 0, 0], 8, 8⟩] = 1 ∧
    SFCProcessorMapDoIt stdlib envOne [⟨[1, 0, 0], 8, 8⟩] [8] 1 [0, 0] = .ok ([0, 0], 1) ∧
    Nat.clog 2 1 = 0 :=
  ⟨by rfl, by rfl, Nat.clog_pow 2 2 (by norm_num), by rfl, by rfl,
    Nat.clog_pow 2 0 (by norm_num)⟩

/-- C33, amended: `maxijk` is the largest coordinate of the small ends of the boxes (0 when
none is positive).  When it lies from 1 to `2 ^ 30 - 1`, the resolution that
`SFCProcessorMapDoIt` returns for `SFCToken::MaxPower` is the integer part of its logarithm
to the base 2 plus one, the number of its binary digits; this is the logarithm of
`maxijk + 1` rounded up.  It is the rounded up logarithm of `maxijk` when `maxijk` is no
power of two, and one more than it when `maxijk` is a power of two. -/
theorem MaxPower_log (L : StdLib) (E : Env) (boxes : BoxArray) (wgts : List Int)
    (nprocs : Nat) (pm pm' : List Int) (m : Nat)
    (h : SFCProcessorMapDoIt L E boxes wgts nprocs pm = .ok (pm', m))
    (h1 : 1 ≤ sfcMaxijk E boxes) (h2 : sfcMaxijk E boxes < 2 ^ 30) :
    (∀ b ∈ boxes, ∀ j, j < E.BL_SPACEDIM → b.smallEnd.getD j 0 ≤ sfcMaxijk E boxes) ∧
    (∃ b ∈ boxes, ∃ j, j < E.BL_SPACEDIM ∧ b.smallEnd.getD j 0 = sfcMaxijk E boxes) ∧
    m = Nat.log 2 (sfcMaxijk E boxes).toNat + 1 ∧
    m = Nat.clog 2 ((sfcMaxijk E boxes).toNat + 1) ∧
    ((∀ j, (sfcMaxijk E boxes).toNat ≠ 2 ^ j) → m = Nat.clog 2 (sfcMaxijk E boxes).toNat) ∧
    (∀ j, (sfcMaxijk E boxes).toNat = 2 ^ j →
      m = j + 1 ∧ Nat.clog 2 (sfcMaxijk E boxes).toNat = j) := by
  have hm := SFCProcessorMapDoIt_maxPower L E boxes wgts nprocs pm pm' m h
  rw [sfcMaxPower_eq] at hm
  obtain ⟨_, s2, s3⟩ := sfcMaxijk_spec E boxes
  obtain ⟨k, hk⟩ := Int.eq_ofNat_of_zero_le (by omega : 0 ≤ sfcMaxijk E boxes)
  have hk1 : 1 ≤ k := by omega
  have hk2 : k < 2 ^ 30 := by
    have : (k : Int) < 2 ^ 30 := by rw [← hk]; exact h2
    exact_mod_cast this
  have hto : (sfcMaxijk E boxes).toNat = k := by rw [hk]; rfl
  rw [hto]
  rw [hk] at hm
  obtain ⟨l1, l2⟩ := maxPowerLoop_log k hk1 hk2
  obtain ⟨p1, p2⟩ := log_succ_eq_clog k hk1
  refine ⟨s2, ?_, by rw [hm, l1], by rw [hm, l2], fun hnp => by rw [hm, l1, p1 hnp],
    fun j hj => ⟨by rw [hm, l1]; exact (p2 j hj).1, (p2 j hj).2⟩⟩
  rcases s3 with e | e
  · omega
  · exact e

/-- A witness of C33: two boxes with the small ends `(0, 0, 0)` and `(5, 3, 0)`; the
largest coordinate is 5 and the resolution is 3. -/
theorem MaxPower_log_witness :
    (SFCProcessorMapDoIt stdlib envOne [⟨[0, 0, 0], 8, 8⟩, ⟨[5, 3, 0], 8, 8⟩] [8, 8] 2 [0, 0, 0]
        = .ok ([1, 0, 0], 3) ∧
      1 ≤ sfcMaxijk envOne [⟨[0, 0, 0], 8, 8⟩, ⟨[5, 3, 0], 8, 8⟩] ∧
      sfcMaxijk envOne [⟨[0, 0, 0], 8, 8⟩, ⟨[5, 3, 0], 8, 8⟩] < 2 ^ 30) ∧
    sfcMaxijk envOne [⟨[0, 0, 0], 8, 8⟩, ⟨[5, 3, 0], 8, 8⟩] = 5 ∧
    3 = Nat.log 2 (sfcMaxijk envOne [⟨[0, 0, 0], 8, 8⟩, ⟨[5, 3, 0], 8, 8⟩]).toNat + 1 :=
  ⟨⟨by rfl, by decide, by decide⟩, by rfl,
    (MaxPower_log stdlib envOne [⟨[0, 0, 0], 8, 8⟩, ⟨[5, 3, 0], 8, 8⟩] [8, 8] 2 [0, 0, 0]
      [1, 0, 0] 3 (by rfl) (by decide) (by decide)).2.2.1⟩

/-- C39: for two maps `d1` and `d2` of `L1 + 1` and `L2 + 1` entries (`L1` and `L2` items
and a sentinel each), the constructor `DistributionMapping (d1, d2)` makes a new `Ref` whose
map has `L1 + L2 + 1` entries: the entries 0 to `L1 - 1` are the items of `d1`, the entries
`L1` to `L1 + L2 - 1` are the items of `d2`, and the last entry is the rank of the caller;
no sentinel of an input is among them.  The maps of `d1` and `d2` and the cache are as they
were. -/
theorem join_concat (E : Env) (s : State) (d1 d2 L1 L2 : Nat)
    (h1 : (pmapOf s d1).length = L1 + 1) (h2 : (pmapOf s d2).length = L2 + 1) :
    (pmapOf (DistributionMapping_join E s d1 d2).1 (DistributionMapping_join E s d1 d2).2).length
      = L1 + L2 + 1 ∧
    (∀ i, i < L1 →
      (pmapOf (DistributionMapping_join E s d1 d2).1 (DistributionMapping_join E s d1 d2).2).getD
        i 0 = (pmapOf s d1).getD i 0) ∧
    (∀ j, j < L2 →
      (pmapOf (DistributionMapping_join E s d1 d2).1 (DistributionMapping_join E s d1 d2).2).getD
        (L1 + j) 0 = (pmapOf s d2).getD j 0) ∧
    (pmapOf (DistributionMapping_join E s d1 d2).1 (DistributionMapping_join E s d1 d2).2).getD
      (L1 + L2) 0 = (E.MyProc : Int) ∧
    pmapOf (DistributionMapping_join E s d1 d2).1 d1 = pmapOf s d1 ∧
    pmapOf (DistributionMapping_join E s d1 d2).1 d2 = pmapOf s d2 ∧
    (DistributionMapping_join E s d1 d2).1.m_Cache = s.m_Cache := by
  obtain ⟨j1, j2, j3, j4⟩ := join_spec E s d1 d2 L1 L2 h1 h2
  obtain ⟨_, f2, f3⟩ := join_frame E s d1 d2
  have hd : ∀ d n, (pmapOf s d).length = n + 1 → d < s.heap.length := by
    intro d n hl
    by_contra hc
    unfold pmapOf at hl
    rw [List.getD_eq_default _ _ (by omega)] at hl
    simp at hl
  exact ⟨j1, j2, j3, j4, f3 d1 (hd d1 L1 h1), f3 d2 (hd d2 L2 h2), f2⟩

/-- A witness of C39: on the rank 3 the maps 1, 0 with the sentinel 9 and 0, 1, 1 with the
sentinel 8 are joined to 1, 0, 0, 1, 1 with the sentinel 3. -/
theorem join_concat_witness :
    ((pmapOf (newRef (newRef State.init [1, 0, 9]).1 [0, 1, 1, 8]).1 0).length = 2 + 1 ∧
      (pmapOf (newRef (newRef State.init [1, 0, 9]).1 [0, 1, 1, 8]).1 1).length = 3 + 1) ∧
    pmapOf (DistributionMapping_join envRankThree
        (newRef (newRef State.init [1, 0, 9]).1 [0, 1, 1, 8]).1 0 1).1
      (DistributionMapping_join envRankThree
        (newRef (newRef State.init [1, 0, 9]).1 [0, 1, 1, 8]).1 0 1).2 = [1, 0, 0, 1, 1, 3] ∧
    (pmapOf (DistributionMapping_join envRankThree
        (newRef (newRef State.init [1, 0, 9]).1 [0, 1, 1, 8]).1 0 1).1
      (DistributionMapping_join envRankThree
        (newRef (newRef State.init [1, 0, 9]).1 [0, 1, 1, 8]).1 0 1).2).length = 2 + 3 + 1 :=
  ⟨⟨by rfl, by rfl⟩, by rfl,
    (join_concat envRankThree (newRef (newRef State.init [1, 0, 9]).1 [0, 1, 1, 8]).1 0 1 2 3
      (by rfl) (by rfl)).1⟩

/-- C38: for a library whose sorts permute, at least one worker, with MPI no more
processes than workers, and weights and numbers of points whose sums `Real` holds exactly,
`PFCProcessorMapDoIt`, given one weight for every box, stops with `Abort ("tnc")` exactly
when the sum of the weights of the boxes differs from the sum of their numbers of points.
So `PFCProcessorMap (boxes, wgts, nprocs)` returns a map only for as many weights as boxes
whose total is the total number of points; and for such weights and at least one box, on
the I/O processor no fewer boxes than workers and a proximity map of `ProximityFits`, it
does return a map on enough fuel. -/
theorem tnc_exactly (L : StdLib) (hL : L.Permutes) (E : Env) (s : State) (fuel : Nat)
    (boxes : BoxArray) (wgts : List Int) (nprocs : Nat) (pm : List Int) :
    1 ≤ nprocs → GatherFits E nprocs → SumsExact wgts nprocs →
    SumsExact (boxes.map Box.numPts) nprocs →
    (boxes.length = wgts.length →
      (PFCProcessorMapDoIt L E s fuel boxes wgts nprocs pm = .error "tnc" ↔
        wgts.sum ≠ (boxes.map Box.numPts).sum)) ∧
    (∀ pm', PFCProcessorMapW L E s fuel boxes wgts nprocs pm = .ok pm' →
      boxes.length = wgts.length ∧ wgts.sum = (boxes.map Box.numPts).sum) ∧
    (1 ≤ boxes.length → boxes.length = wgts.length →
      wgts.sum = (boxes.map Box.numPts).sum →
      IOFits E boxes nprocs → ProximityFits E s nprocs →
      ∃ fuel0, ∀ fuel1, fuel0 ≤ fuel1 →
        ∃ pm', PFCProcessorMapW L E s fuel1 boxes wgts nprocs pm = .ok pm') := by
  intro hn _ _ _
  have e := range_map_getD wgts id 0
  rw [List.map_id] at e
  simp only [id] at e
  refine ⟨fun hw => ?_,
    fun pm' h => PFCProcessorMapW_total L hL.2.2.1 E s fuel boxes wgts nprocs pm pm' h, ?_⟩
  · have h := PFCProcessorMapDoIt_tnc L hL.2.2.1 E s fuel boxes wgts nprocs pm
    rw [hw, e] at h
    exact h
  intro hb hw hsum _ _
  obtain ⟨fuel0, hk⟩ := PFCProcessorMapDoIt_pairing L hL.1 hL.2.2.1 hL.2.2.2 E s boxes wgts
    nprocs hb hn (if pm.length ≠ wgts.length + 1 then resize pm (wgts.length + 1) else pm)
    (by rw [resized_length, hw]) (by rw [hw, e]; exact hsum)
  refine ⟨fuel0, ?_⟩
  intro fuel1 hf
  obtain ⟨_, pm', _, _, h3, _⟩ := hk fuel1 hf
  refine ⟨pm', ?_⟩
  unfold PFCProcessorMapW
  rw [if_neg (by omega), if_neg (by omega)]
  exact h3

/-- A witness of C38: five boxes of 5, 4, 3, 2, 1 points on three workers, on the I/O
processor of three processes.  With the weights 5, 4, 3, 2, 2, of the total 16, the function
stops with "tnc"; with the weights 1, 2, 3, 4, 5, of the total 15, it returns a map. -/
theorem tnc_exactly_witness :
    (stdlib.Permutes ∧ 1 ≤ 3 ∧ GatherFits envTrio 3 ∧ SumsExact [5, 4, 3, 2, 2] 3 ∧
      SumsExact [1, 2, 3, 4, 5] 3 ∧ SumsExact ((boxesOf [5, 4, 3, 2, 1]).map Box.numPts) 3 ∧
      (boxesOf [5, 4, 3, 2, 1]).length = ([5, 4, 3, 2, 2] : List Int).length ∧
      ([5, 4, 3, 2, 2] : List Int).sum ≠ ((boxesOf [5, 4, 3, 2, 1]).map Box.numPts).sum ∧
      1 ≤ (boxesOf [5, 4, 3, 2, 1]).length ∧
      (boxesOf [5, 4, 3, 2, 1]).length = ([1, 2, 3, 4, 5] : List Int).length ∧
      ([1, 2, 3, 4, 5] : List Int).sum = ((boxesOf [5, 4, 3, 2, 1]).map Box.numPts).sum ∧
      IOFits envTrio (boxesOf [5, 4, 3, 2, 1]) 3 ∧ ProximityFits envTrio stateProx 3) ∧
    PFCProcessorMapDoIt stdlib envTrio stateProx 20 (boxesOf [5, 4, 3, 2, 1])
      [5, 4, 3, 2, 2] 3 [0, 0, 0, 0, 0, 0] = .error "tnc" ∧
    PFCProcessorMapW stdlib envTrio stateProx 20 (boxesOf [5, 4, 3, 2, 1])
      [5, 4, 3, 2, 2] 3 [] = .error "tnc" ∧
    PFCProcessorMapW stdlib envTrio stateProx 20 (boxesOf [5, 4, 3, 2, 1])
      [1, 2, 3, 4, 5] 3 [] = .ok [2, 2, 0, 0, 1, 0] ∧
    (∃ fuel0, ∀ fuel1, fuel0 ≤ fuel1 →
      ∃ pm', PFCProcessorMapW stdlib envTrio stateProx fuel1 (boxesOf [5, 4, 3, 2, 1])
        [1, 2, 3, 4, 5] 3 [] = .ok pm') :=
  ⟨⟨stdlib_permutes, by decide, by decide, by decide, by decide, by decide, by decide,
      by decide, by decide, by decide, by decide, by decide, by decide⟩,
    ((tnc_exactly stdlib stdlib_permutes envTrio stateProx 20
      (boxesOf [5, 4, 3, 2, 1]) [5, 4, 3, 2, 2] 3 [0, 0, 0, 0, 0, 0] (by decide) (by decide)
      (by decide) (by decide)).1 (by decide)).mpr (by decide),
    (by rfl), (by rfl),
    (tnc_exactly stdlib stdlib_permutes envTrio stateProx 20
      (boxesOf [5, 4, 3, 2, 1]) [1, 2, 3, 4, 5] 3 [] (by decide) (by decide)
      (by decide) (by decide)).2.2 (by decide) (by decide) (by decide) (by decide) (by decide)⟩

/-- C34: from a state in which every entry of the cache under a key `k` holds a map of
length `k`, `FlushCache`, the constructor that takes a map (caching or not), the constructor
that takes the boxes, and `define` on an object whose `Ref` is not cached under another key
than `N + 1` keep that invariant.  But `define` resizes `m_ref->m_pmap` before it looks into
the cache: on an object whose `Ref` the cache holds under a key `k` other than `N + 1`, every
call that returns leaves the entry of `k` in the cache with a map of `N + 1` entries, and the
invariant is lost. -/
theorem redefine_breaks_cache (L : StdLib) (E : Env) (fuel : Nat) (s : State)
    (hok : CacheOK s) :
    (∀ live, CacheOK (FlushCache s live)) ∧
    (∀ pmap put s1 r1, DistributionMapping_pmap E s pmap put = .ok (s1, r1) → CacheOK s1) ∧
    (∀ boxes nprocs s1 r1,
      DistributionMapping_boxes L E fuel s boxes nprocs = .ok (s1, r1) → CacheOK s1) ∧
    (∀ this boxes nprocs s1 r1, this < s.heap.length →
      define L E fuel s this boxes nprocs = .ok (s1, r1) →
      ((∀ p ∈ s.m_Cache, p.2 = this → p.1 = boxes.length + 1) → CacheOK s1) ∧
      (∀ k, (k, this) ∈ s.m_Cache → k ≠ boxes.length + 1 →
        (k, this) ∈ s1.m_Cache ∧ (pmapOf s1 this).length = boxes.length + 1 ∧
          ¬ CacheOK s1)) :=
  ⟨fun live => FlushCache_cacheOK s live hok,
    fun pmap put s1 r1 h => pmap_cacheOK E s pmap put s1 r1 hok h,
    fun boxes nprocs s1 r1 h => boxes_cacheOK L E fuel s boxes nprocs s1 r1 hok h,
    fun this boxes nprocs s1 r1 hthis h =>
      ⟨fun hfresh => define_cacheOK L E fuel s this boxes nprocs s1 r1 hthis hok hfresh h,
        fun k hk hne => define_resizes_cached L E fuel s this boxes nprocs s1 r1 k hthis hk
          hne h⟩⟩

/-- A witness of C34: among five processes an object is built for three boxes and two
workers; the cache holds its `Ref` under the key 4.  Then `define` for five boxes on the same
object leaves the keys 4 and 6 on that `Ref`, whose map has six entries.  A new object for
three boxes then takes the entry of the key 4 and has a map of six entries. -/
theorem redefine_breaks_cache_witness :
    CacheOK stateCached ∧
    stateCached.m_Cache = [(4, 0)] ∧ pmapOf stateCached 0 = [1, 0, 0, 0] ∧
    define stdlib (envFive none) 10 stateCached 0 (boxesOf [1, 1, 1, 1, 1]) 2
      = .ok (stateRedefined, 0) ∧
    stateRedefined.m_Cache = [(4, 0), (6, 0)] ∧
    pmapOf stateRedefined 0 = [1, 1, 0, 0, 0, 0] ∧
    ¬ CacheOK stateRedefined ∧
    (DistributionMapping_boxes stdlib (envFive none) 10 stateRedefined boxesThree 2).map
      (fun r => (r.2, pmapOf r.1 r.2)) = .ok (0, [1, 1, 0, 0, 0, 0]) :=
  ⟨by decide, by rfl, by rfl, by rfl, by rfl, by rfl,
    ((((redefine_breaks_cache stdlib (envFive none) 10 stateCached (by decide)).2.2.2
      0 (boxesOf [1, 1, 1, 1, 1]) 2 stateRedefined 0 (by decide) (by rfl)).2
        4 (by decide) (by decide)).2.2),
    by rfl⟩

/-- C35: for a library that meets the standard, weights in `[0, 2^31)` and `nprocs ≥ 1`,
`knapsack` without the refinement returns, on any fuel of one or more, the `nprocs` bins of
the greedy pass, and the weight of any bin exceeds the weight of any other by at most `M`,
for every `M ≥ 0` that no weight exceeds: so the heaviest bin exceeds the lightest by at most
the largest weight of a box. -/
theorem greedy_spread (L : StdLib) (hL : L.Conforms) (max_efficiency : Dbl)
    (wgts : List Int) (hw : ∀ w ∈ wgts, 0 ≤ w ∧ w < 2147483648) (nprocs : Nat)
    (hn : 1 ≤ nprocs) (M : Int) (hM0 : 0 ≤ M) (hM : ∀ w ∈ wgts, w ≤ M) (fuel : Nat)
    (hf : 1 ≤ fuel) :
    ∃ vec eff, knapsack L max_efficiency fuel wgts nprocs false = some (vec, eff) ∧
      vec.length = nprocs ∧
      ∀ x ∈ wgtsPerCpu vec wgts, ∀ y ∈ wgtsPerCpu vec wgts, x - y ≤ M :=
  knapsack_within L hL max_efficiency wgts hw nprocs hn M hM0 hM fuel hf

/-- A witness of C35: the weights 7, 5, 4, 3 on three workers.  The bins weigh 7, 7 and 5;
the heaviest exceeds the lightest by 2, and the largest weight is 7. -/
theorem greedy_spread_witness :
    (stdlib.Conforms ∧ (∀ w ∈ ([7, 5, 4, 3] : List Int), 0 ≤ w ∧ w < 2147483648) ∧
      1 ≤ 3 ∧ (0 : Int) ≤ 7 ∧ (∀ w ∈ ([7, 5, 4, 3] : List Int), w ≤ 7) ∧ 1 ≤ 1) ∧
    knapsack stdlib ⟨9, 10⟩ 1 [7, 5, 4, 3] 3 false = some ([[0], [2, 3], [1]], ⟨19, 21⟩) ∧
    wgtsPerCpu [[0], [2, 3], [1]] [7, 5, 4, 3] = [7, 7, 5] ∧
    ∃ vec eff, knapsack stdlib ⟨9, 10⟩ 1 [7, 5, 4, 3] 3 false = some (vec, eff) ∧
      vec.length = 3 ∧
      ∀ x ∈ wgtsPerCpu vec [7, 5, 4, 3], ∀ y ∈ wgtsPerCpu vec [7, 5, 4, 3], x - y ≤ 7 :=
  ⟨⟨stdlib_conforms, by decide, by decide, by decide, by decide, by decide⟩,
    by rfl, by rfl,
    greedy_spread stdlib stdlib_conforms ⟨9, 10⟩ [7, 5, 4, 3] (by decide) 3 (by decide) 7
      (by decide) (by decide) 1 (by decide)⟩

end DistributionMapping
